import Mathlib

/-!
# inkcoin: proof-of-work predicate, block store and validation

A shallow embedding of `pow/pow.go`, of the block-store part of
`miner/ink-miner.go` (`InsertBlock`, `VerifyBlock`, `GetLongestPath`,
`GetBlockChildren`, `CalculateInk` and the map/array helpers), of
`miner/validation.go` (`ValidateOps`, `checkInkAndConflicts`, `checkDeletion`),
of the pixel arrays of `shapelib/pixelarray.go`, of the path and circle parsers
of `utils/utils.go` (`GetParsedSVG`, `SVGToPoints`, `GetParsedCirc`), of
`Path.SubArrayAndCost`, `Path.Area` and `Path.AreaPlusPerim` of
`shapelib/shapes.go`, of `Miner.getShapeFromOp` of `miner/peer-rpc.go` and of
the handler `Draw` of `miner/ink-miner.go`, followed by theorems about them.

Conventions of the embedding

* A Go `string` is a Lean `String`.  The strings that matter here are hex
  digests and keys, which are ASCII, so bytes and characters coincide;
  `strings.Compare` compares them character by character.
* A Go `int` is an `Int` (lengths and indices stay far below `2^63`); an index
  into a slice is a `Nat`, an out-of-range index is a run-time panic.
* A run-time panic is `none` in an `Option` result, except inside
  `GetLongestPath`, whose `defer Recover()` turns a panic into the zero result.
* Slices are lists with value semantics: `append` yields a fresh list.  The one place where
  two stored slices share a backing array, the cached paths of `PathMap`, is modelled a
  second time with the backing arrays in a heap (`SliceStore`, `InsertBlockShared`); the
  store with lists agrees with it on the indices, the keys and the lengths, not on the
  blocks that a cached path holds.
* A Go `map` is an association list with distinct keys; the order in which
  `range` visits it is an explicit argument.
* `GetBlockHash` (MD5 of the JSON encoding) is a parameter `H : Block → String`.
* A `uint32` is a `Nat` below `2^32`, with every sum and difference reduced modulo `2^32`;
  a byte of a pixel array is a `Nat` with the bitwise operations of `Nat`.
* The rasterizer behind `getShapeFromOp` works on `float64`; it is a parameter
  `getShapeFromOp : Operation → ShapeOut` giving the error, the sub-array and the cost.
  In `Path.SubArrayAndCost` the methods `SubArray`, `TotalLength`, `Area` and
  `AreaPlusPerim` are the parameters `PathMeasures`.
* In the parsers `len` of a string is the number of bytes of its UTF-8 encoding, the
  coordinates are `int` values with sums reduced by `wrap64`, and `uint64` values are `Nat`
  with sums and differences modulo `2^64`.
* In `Path.Area` and `Path.AreaPlusPerim` a `float64` is a rational number and `math.Sqrt`
  a parameter; the theorems evaluate them only where `float64` arithmetic is exact.
* The handler `Draw` runs over the list of the store states it finds each time its wait on
  `BlockCond` returns.
-/

namespace Inkcoin

/-! ## pow/pow.go -/

/-- The value of `strings.Count(s, "0")`: the number of zero digits in `s`. -/
def countZero (s : List Char) : Int := ((s.count '0' : Nat) : Int)

/-- The function `Verify` of `pow/pow.go`.  The slice expression `hash[a:]` panics unless
`0 ≤ a ≤ len(hash)`; the right operand of `&&` is evaluated only when the left one is true. -/
def Verify (hash : String) (N : Int) : Option Bool :=
  let l : Int := (hash.length : Int)
  if l - N < 0 ∨ l < l - N then none
  else if countZero (hash.data.drop (l - N).toNat) ≠ N then some false
  else if l - N - 1 < 0 ∨ l < l - N - 1 then none
  else some (decide (countZero (hash.data.drop (l - N - 1).toNat) = N))

/-- The hash has exactly `n` trailing zero digits: its last `n` characters are all zero digits
and the character just before them is not. -/
def ExactTrailingZeros (hash : String) (n : Nat) : Prop :=
  (∀ c ∈ hash.data.drop (hash.length - n), c = '0') ∧
    hash.data.get? (hash.length - n - 1) ≠ some '0'

instance (hash : String) (n : Nat) : Decidable (ExactTrailingZeros hash n) := by
  unfold ExactTrailingZeros; infer_instance

/-! ## Types of the `blockchain` and `minerserver` packages -/

/-- Modelled from the spec: the operation kind (`blockchain.ADD`, `blockchain.DELETE`); the
package `blockchain` is not among the sources. -/
inductive OpType where
  | ADD
  | DELETE
deriving DecidableEq, Repr

/-- Modelled from the spec: the type `blockchain.Operation` (a shape operation), with the
fields the miner reads and writes. -/
structure Operation where
  OpType : OpType
  SVGString : String
  Fill : String
  Stroke : String
  OpNum : Nat
deriving DecidableEq, Repr

/-- Modelled from the spec: the type `blockchain.OperationInfo` (a signed operation). -/
structure OperationInfo where
  AddSig : String
  OpSig : String
  PubKey : String
  Op : Operation
deriving DecidableEq, Repr

/-- Modelled from the spec: the type `blockchain.Block`. -/
structure Block where
  PrevHash : String
  OpHistory : List OperationInfo
  MinerPubKey : String
  Nonce : Nat
deriving DecidableEq, Repr

/-- Modelled from the spec: the type `blockchain.BlockNode`, a block with the indices of its
children in `BlockNodeArray`. -/
structure BlockNode where
  Block : Block
  Children : List Nat
deriving DecidableEq, Repr

/-- Modelled from the spec: the chain settings `minerserver.MinerNetSettings` that the block
store reads (`MinerInstance.Settings`). -/
structure Settings where
  GenesisBlockHash : String
  PoWDifficultyOpBlock : Nat
  PoWDifficultyNoOpBlock : Nat
  InkPerOpBlock : Nat
  InkPerNoOpBlock : Nat
  CanvasXMax : Nat
  CanvasYMax : Nat
deriving DecidableEq, Repr

/-! ## miner/ink-miner.go: the block store -/

/-- The type `LongestPathInfo`. -/
structure LongestPathInfo where
  Len : Int
  Path : List Block
deriving DecidableEq, Repr

/-- Lookup `m[k]` in a Go map. -/
def mapGet {V : Type} : List (String × V) → String → Option V
  | [], _ => none
  | (k', v) :: m, k => if k' = k then some v else mapGet m k

/-- Assignment `m[k] = v` in a Go map. -/
def mapSet {V : Type} : List (String × V) → String → V → List (String × V)
  | [], k, v => [(k, v)]
  | (k', v') :: m, k, v => if k' = k then (k, v) :: m else (k', v') :: mapSet m k v

/-- The global variables `BlockNodeArray`, `BlockHashMap`, `ParentHashMap` and `PathMap`. -/
structure Store where
  BlockNodeArray : List BlockNode
  BlockHashMap : List (String × Nat)
  ParentHashMap : List (String × List Nat)
  PathMap : List (String × LongestPathInfo)
deriving DecidableEq, Repr

/-- The function `ReadBlockChainMap`; `none` stands for the result `(-1, false)`. -/
def ReadBlockChainMap (s : Store) (k : String) : Option Nat := mapGet s.BlockHashMap k

/-- The function `WriteBlockChainMap`. -/
def WriteBlockChainMap (s : Store) (k : String) (v : Nat) : Store :=
  { s with BlockHashMap := mapSet s.BlockHashMap k v }

/-- The function `WriteBlockNodeArray`: appends the node unless the hash of its block is
already in `BlockHashMap`, and returns the position of the node. -/
def WriteBlockNodeArray (H : Block → String) (s : Store) (b : BlockNode) : Store × Nat :=
  match ReadBlockChainMap s (H b.Block) with
  | none => ({ s with BlockNodeArray := s.BlockNodeArray ++ [b] }, s.BlockNodeArray.length)
  | some i => (s, i)

/-- The function `ReadParentMap`. -/
def ReadParentMap (s : Store) (k : String) : List Nat × Bool :=
  match mapGet s.ParentHashMap k with
  | some v => (v, true)
  | none => ([], false)

/-- The function `WritePathMap`. -/
def WritePathMap (s : Store) (k : String) (v : LongestPathInfo) : Store :=
  { s with PathMap := mapSet s.PathMap k v }

/-- The function `VerifyBlock`. -/
def VerifyBlock (H : Block → String) (cfg : Settings) (block : Block) : Option Bool :=
  let hash := H block
  if block.OpHistory.length = 0 then
    Verify hash (cfg.PoWDifficultyNoOpBlock : Int)
  else
    Verify hash (cfg.PoWDifficultyOpBlock : Int)

/-- The value `blockchain.Block{}`. -/
def dummyGenesisBlock : Block :=
  { PrevHash := "", OpHistory := [], MinerPubKey := "", Nonce := 0 }

/-- The initialisation of the store in `Mine`: the genesis hash is mapped to index 0, an empty
node is written to the array and the genesis hash gets the path holding the dummy block. -/
def initStore (H : Block → String) (cfg : Settings) : Store :=
  let s0 : Store :=
    { BlockNodeArray := [], BlockHashMap := mapSet [] cfg.GenesisBlockHash 0,
      ParentHashMap := [], PathMap := [] }
  let s1 := (WriteBlockNodeArray H s0 { Block := dummyGenesisBlock, Children := [] }).1
  WritePathMap s1 cfg.GenesisBlockHash { Len := 1, Path := [dummyGenesisBlock] }

/-- The first part of the body of `InsertBlock`: the node of the new block, with the orphans
waiting for it as children, is written to the array and its hash to `BlockHashMap`. -/
def insertNode (H : Block → String) (s : Store) (newBlock : Block) : Store × Nat :=
  let newBlockHash := H newBlock
  let existingChildren := (ReadParentMap s newBlockHash).1
  let newBlockNode : BlockNode := { Block := newBlock, Children := existingChildren }
  let r := WriteBlockNodeArray H s newBlockNode
  (WriteBlockChainMap r.1 newBlockHash r.2, r.2)

/-- The second part of `InsertBlock`: the entry of the new block in `PathMap`.  The variable
`newPathInfo` assigned in the first branch is a new one, local to that branch.  The path is
the list that `append(existingPath.Path, newBlock)` returns; what the call does to the other
cached paths on the same backing array is in `insertPathShared`. -/
def insertPath (H : Block → String) (s : Store) (newBlock : Block) : Store :=
  let newBlockHash := H newBlock
  let newPathInfo : LongestPathInfo := { Len := 1, Path := [newBlock] }
  match mapGet s.PathMap newBlock.PrevHash with
  | some existingPath =>
    let newPathInfo1 : LongestPathInfo :=
      { Len := existingPath.Len + 1, Path := existingPath.Path ++ [newBlock] }
    { s with PathMap := mapSet s.PathMap newBlockHash newPathInfo1 }
  | none => { s with PathMap := mapSet s.PathMap newBlockHash newPathInfo }

/-- The loop of `InsertBlock` over the orphaned children of the new block. -/
def adoptOrphans (H : Block → String) (newPathInfo : LongestPathInfo) :
    List Nat → Store → Option Store
  | [], s => some s
  | existingChildIndex :: rest, s =>
    match s.BlockNodeArray[existingChildIndex]? with
    | none => none
    | some node =>
      let existingChildBlock := node.Block
      let existingChildHash := H existingChildBlock
      let childPathInfo : LongestPathInfo :=
        { Len := newPathInfo.Len + 1, Path := newPathInfo.Path ++ [existingChildBlock] }
      adoptOrphans H newPathInfo rest (WritePathMap s existingChildHash childPathInfo)

/-- The last part of `InsertBlock`: the new index is appended to the children of the parent
when the parent is stored, and to the orphan list of the parent hash otherwise. -/
def linkParent (s : Store) (newBlock : Block) (newBlockIndex : Nat) : Option Store :=
  match ReadBlockChainMap s newBlock.PrevHash with
  | some parentIndex =>
    match s.BlockNodeArray[parentIndex]? with
    | none => none
    | some parentBlockNode =>
      let parentBlockNode1 : BlockNode :=
        { parentBlockNode with Children := parentBlockNode.Children ++ [newBlockIndex] }
      some { s with BlockNodeArray := s.BlockNodeArray.set parentIndex parentBlockNode1 }
  | none =>
    let existingChildren := (mapGet s.ParentHashMap newBlock.PrevHash).getD []
    some { s with ParentHashMap :=
             mapSet s.ParentHashMap newBlock.PrevHash (existingChildren ++ [newBlockIndex]) }

/-- The function `InsertBlock`.  The result is `none` when the call panics; otherwise it is the
new store and whether the returned error is `nil`. -/
def InsertBlock (H : Block → String) (cfg : Settings) (s : Store) (newBlock : Block) :
    Option (Store × Bool) :=
  let newBlockHash := H newBlock
  match ReadBlockChainMap s newBlockHash with
  | some _ => some (s, false)
  | none =>
    match VerifyBlock H cfg newBlock with
    | none => none
    | some false => some (s, false)
    | some true =>
      let newPathInfo : LongestPathInfo := { Len := 1, Path := [newBlock] }
      let r := insertNode H s newBlock
      let s2 := insertPath H r.1 newBlock
      let orphans := ReadParentMap s2 (H newBlock)
      match (if orphans.2 then adoptOrphans H newPathInfo orphans.1 s2 else some s2) with
      | none => none
      | some s3 =>
        match linkParent s3 newBlock r.2 with
        | none => none
        | some s4 => some (s4, true)

/-- Whether the first string is greater than the second in the lexicographic order of their
characters. -/
def strGt : List Char → List Char → Bool
  | [], _ => false
  | _ :: _, [] => true
  | a :: as, b :: bs =>
    if b.toNat < a.toNat then true
    else if a.toNat < b.toNat then false
    else strGt as bs

/-- The library function `strings.Compare`. -/
def Compare (a b : String) : Int :=
  if strGt a.data b.data then 1 else if strGt b.data a.data then -1 else 0

/-- The loop of `GetLongestPath` over `PathMap`, visiting the entries in the given order; the
accumulator is the pair of `maxHash` and `maxPathInfo`. -/
def scanPathMap : List (String × LongestPathInfo) → String × LongestPathInfo →
    String × LongestPathInfo
  | [], acc => acc
  | (bHash, pathInfo) :: rest, (maxHash, maxPathInfo) =>
    if pathInfo.Len > maxPathInfo.Len then
      scanPathMap rest (bHash, pathInfo)
    else if pathInfo.Len = maxPathInfo.Len then
      if Compare bHash maxHash > 0 then scanPathMap rest (bHash, pathInfo)
      else scanPathMap rest (maxHash, maxPathInfo)
    else scanPathMap rest (maxHash, maxPathInfo)

/-- The loop of `GetLongestPath` over the children of a block; `recur` is the recursive call.
The accumulator is the pair of `longestPath` and `maxLen`; `longestPathBlockHash` is declared in
the loop body and is the empty string at every comparison.  The outer `none` is a recursive call
that does not return, the inner `none` an index out of range. -/
def walkChildren (H : Block → String) (arr : List BlockNode)
    (recur : String → Option (List Block × Int)) :
    List Nat → List Block × Int → Option (Option (List Block × Int))
  | [], acc => some (some acc)
  | childIndex :: rest, (longestPath, maxLen) =>
    match arr[childIndex]? with
    | none => some none
    | some child =>
      let childHash := H child.Block
      match recur childHash with
      | none => none
      | some (childPath, childLen) =>
        let longestPathBlockHash := ""
        if (maxLen = childLen ∧ Compare childHash longestPathBlockHash > 0) ∨
            maxLen < childLen then
          walkChildren H arr recur rest (childPath, childLen)
        else
          walkChildren H arr recur rest (longestPath, maxLen)

/-- The function `GetLongestPath`.  The first argument bounds the depth of the recursion
(`none`: the bound is exceeded); `order` is the order in which `range PathMap` visits the
entries.  A panic is recovered by the deferred `Recover` and the call returns the zero values. -/
def GetLongestPath (H : Block → String) (cfg : Settings) (s : Store)
    (order : List (String × LongestPathInfo)) : Nat → String → Option (List Block × Int)
  | 0, _ => none
  | fuel + 1, initBlockHash =>
    match ReadBlockChainMap s initBlockHash with
    | none => some ([], 0)
    | some initBIndex =>
      match s.BlockNodeArray[initBIndex]? with
      | none => some ([], 0)
      | some node =>
        if initBlockHash = cfg.GenesisBlockHash then
          let r := scanPathMap order ("", { Len := 0, Path := [] })
          some (r.2.Path, r.2.Len)
        else if node.Children.length = 0 then
          some ([node.Block], 1)
        else
          match walkChildren H s.BlockNodeArray (GetLongestPath H cfg s order fuel)
              node.Children ([], -1) with
          | none => none
          | some none => some ([], 0)
          | some (some (longestPath, maxLen)) => some (node.Block :: longestPath, maxLen + 1)

/-- A sequence of calls of `InsertBlock`, one for each block of the list, in order; `none` when
one of them panics. -/
def insertAll (H : Block → String) (cfg : Settings) : List Block → Store → Option Store
  | [], s => some s
  | b :: bs, s =>
    match InsertBlock H cfg s b with
    | none => none
    | some r => insertAll H cfg bs r.1

/-- The store states reachable from the initial state by calls of `InsertBlock` that return. -/
inductive Reachable (H : Block → String) (cfg : Settings) : Store → Prop
  | init : Reachable H cfg (initStore H cfg)
  | insert {s s1 : Store} {b : Block} {ok : Bool} :
      Reachable H cfg s → InsertBlock H cfg s b = some (s1, ok) → Reachable H cfg s1

/-! ### The effect of one `InsertBlock` -/

/-- The array after the node of the new block is appended. -/
def baseArray (H : Block → String) (s : Store) (b : Block) : List BlockNode :=
  s.BlockNodeArray ++ [{ Block := b, Children := (mapGet s.ParentHashMap (H b)).getD [] }]

/-- The entry that `InsertBlock` writes to `PathMap` for the new block. -/
def newEntry (s : Store) (b : Block) : LongestPathInfo :=
  match mapGet s.PathMap b.PrevHash with
  | some e => { Len := e.Len + 1, Path := e.Path ++ [b] }
  | none => { Len := 1, Path := [b] }

/-- A sequence of assignments to a map. -/
def applyWrites {V : Type} (m : List (String × V)) (ws : List (String × V)) :
    List (String × V) :=
  ws.foldl (fun acc w => mapSet acc w.1 w.2) m

/-- What a successful `InsertBlock` does to the four global variables. -/
structure InsertEffect (H : Block → String) (cfg : Settings) (s s1 : Store) (b : Block) :
    Prop where
  fresh : mapGet s.BlockHashMap (H b) = none
  verified : VerifyBlock H cfg b = some true
  bhm : s1.BlockHashMap = mapSet s.BlockHashMap (H b) s.BlockNodeArray.length
  link :
    (∃ p pn, mapGet s1.BlockHashMap b.PrevHash = some p ∧ (baseArray H s b)[p]? = some pn ∧
        s1.BlockNodeArray = (baseArray H s b).set p
          { Block := pn.Block, Children := pn.Children ++ [s.BlockNodeArray.length] } ∧
        s1.ParentHashMap = s.ParentHashMap) ∨
    (mapGet s1.BlockHashMap b.PrevHash = none ∧ s1.BlockNodeArray = baseArray H s b ∧
        s1.ParentHashMap = mapSet s.ParentHashMap b.PrevHash
          ((mapGet s.ParentHashMap b.PrevHash).getD [] ++ [s.BlockNodeArray.length]))
  paths : ∃ ws, s1.PathMap = applyWrites (mapSet s.PathMap (H b) (newEntry s b)) ws ∧
    ∀ w ∈ ws, ∃ idx node, idx ∈ (mapGet s.ParentHashMap (H b)).getD [] ∧
      (baseArray H s b)[idx]? = some node ∧
      w = (H node.Block, { Len := 2, Path := [b, node.Block] })

/-! ### The store invariant -/

/-- The link between two consecutive blocks of a chain: the second names the hash of the first
as its previous hash, or the first is the dummy genesis block and the second names the genesis
hash of the settings. -/
def Link (H : Block → String) (cfg : Settings) (a b : Block) : Prop :=
  b.PrevHash = H a ∨ (a = dummyGenesisBlock ∧ b.PrevHash = cfg.GenesisBlockHash)

/-- Every two consecutive blocks of the list are linked. -/
def Linked (H : Block → String) (cfg : Settings) : List Block → Prop
  | [] => True
  | [_] => True
  | a :: b :: rest => Link H cfg a b ∧ Linked H cfg (b :: rest)

/-- The hash under which a block is stored: its own hash, or the genesis hash for the dummy
genesis block. -/
def KeyOf (H : Block → String) (cfg : Settings) (last : Block) (k : String) : Prop :=
  H last = k ∨ (last = dummyGenesisBlock ∧ k = cfg.GenesisBlockHash)

/-- The properties of an entry of `PathMap` stored under the key `k`. -/
def PathOK (H : Block → String) (cfg : Settings) (k : String) (e : LongestPathInfo) : Prop :=
  1 ≤ e.Len ∧ e.Len = (e.Path.length : Int) ∧ Linked H cfg e.Path ∧
    ∃ last, e.Path.getLast? = some last ∧ KeyOf H cfg last k

/-- The invariant of the block store. -/
structure StoreInv (H : Block → String) (cfg : Settings) (s : Store) : Prop where
  gen0 : mapGet s.BlockHashMap cfg.GenesisBlockHash = some 0
  arr_pos : 0 < s.BlockNodeArray.length
  bhm_sound : ∀ k j, mapGet s.BlockHashMap k = some j →
    j < s.BlockNodeArray.length ∧ (j = 0 → k = cfg.GenesisBlockHash) ∧
      (0 < j → ∀ node, s.BlockNodeArray[j]? = some node → H node.Block = k)
  bhm_complete : ∀ j node, 0 < j → s.BlockNodeArray[j]? = some node →
    mapGet s.BlockHashMap (H node.Block) = some j
  children_ok : ∀ k j node, mapGet s.BlockHashMap k = some j →
    s.BlockNodeArray[j]? = some node →
    ∀ c ∈ node.Children, 0 < c ∧ ∃ cn, s.BlockNodeArray[c]? = some cn ∧ cn.Block.PrevHash = k
  orphans_ok : ∀ k l, mapGet s.ParentHashMap k = some l →
    ∀ c ∈ l, 0 < c ∧ ∃ cn, s.BlockNodeArray[c]? = some cn ∧ cn.Block.PrevHash = k
  parent_link : ∀ i node, 0 < i → s.BlockNodeArray[i]? = some node →
    (∃ p pn, mapGet s.BlockHashMap node.Block.PrevHash = some p ∧
        s.BlockNodeArray[p]? = some pn ∧ pn.Children.count i = 1) ∨
    (mapGet s.BlockHashMap node.Block.PrevHash = none ∧
        ∃ l, mapGet s.ParentHashMap node.Block.PrevHash = some l ∧ l.count i = 1)
  pm_keys : (s.PathMap.map Prod.fst).Nodup
  pm_gen : ∃ e, mapGet s.PathMap cfg.GenesisBlockHash = some e
  pm_ok : ∀ k e, mapGet s.PathMap k = some e → PathOK H cfg k e

/-! ### The scan of `PathMap` -/

/-- The test of the loop of `GetLongestPath` over `PathMap`: the entry `x` replaces the current
maximum `acc`. -/
def better (x acc : String × LongestPathInfo) : Prop :=
  x.2.Len > acc.2.Len ∨ (x.2.Len = acc.2.Len ∧ Compare x.1 acc.1 > 0)

instance (x acc : String × LongestPathInfo) : Decidable (better x acc) := by
  unfold better; infer_instance

/-! ## A small instance

A hash function and settings on which the definitions can be evaluated. -/

/-- A stand-in for the block hash: the previous hash, then the miner key, then the two
characters `10`.  Every value has exactly one trailing zero and is longer than the previous
hash of the block. -/
def toyHash (b : Block) : String := b.PrevHash ++ b.MinerPubKey ++ "10"

/-- Settings with genesis hash `g` and difficulty 1 for both classes of block. -/
def toySettings : Settings :=
  { GenesisBlockHash := "g", PoWDifficultyOpBlock := 1, PoWDifficultyNoOpBlock := 1,
    InkPerOpBlock := 0, InkPerNoOpBlock := 0, CanvasXMax := 0, CanvasYMax := 0 }

/-- A block without operations. -/
def toyBlock (prev key : String) : Block :=
  { PrevHash := prev, OpHistory := [], MinerPubKey := key, Nonce := 0 }

/-- A child of the genesis block; its hash is `gb10`. -/
def blockB : Block := toyBlock "g" "b"

/-- A child of `blockB`; its hash is `gb10c10`. -/
def blockC : Block := toyBlock "gb10" "c"

/-- Another child of `blockB`; its hash is `gb10a10`. -/
def blockA : Block := toyBlock "gb10" "a"

/-- The store after the blocks of the list are inserted, in order, into the initial store. -/
def storeAfter (bs : List Block) : Store :=
  (insertAll toyHash toySettings bs (initStore toyHash toySettings)).getD
    (initStore toyHash toySettings)

/-! ## miner/ink-miner.go: children of a block -/

/-- The loop of `GetBlockChildren`: the blocks at the child indices, in order; `none` when an
index is out of range. -/
def collectChildren (arr : List BlockNode) : List Nat → List Block → Option (List Block)
  | [], children => some children
  | childIndex :: rest, children =>
    match arr[childIndex]? with
    | none => none
    | some node => collectChildren arr rest (children ++ [node.Block])

/-- The function `GetBlockChildren`.  For a hash that is not stored the index is `-1` and the
call panics. -/
def GetBlockChildren (s : Store) (blockHash : String) : Option (List Block) :=
  match ReadBlockChainMap s blockHash with
  | none => none
  | some parentIndex =>
    match s.BlockNodeArray[parentIndex]? with
    | none => none
    | some node => collectChildren s.BlockNodeArray node.Children []

/-- The positions, counted from `start`, of the blocks of the list whose previous hash is `k`. -/
def idxFrom (k : String) : Nat → List Block → List Nat
  | _, [] => []
  | start, b :: t =>
    if b.PrevHash = k then start :: idxFrom k (start + 1) t else idxFrom k (start + 1) t

/-- The indices `i ≥ 1` of the stored blocks whose previous hash is `k`, in increasing order. -/
def childIdx (arr : List BlockNode) (k : String) : List Nat :=
  idxFrom k 1 ((arr.map (fun nd => nd.Block)).drop 1)

/-- The invariant of the children lists: the children of a stored hash, and the orphan list of
a hash that is not stored, are the indices of the blocks that name the hash, in order. -/
structure ChildInv (s : Store) : Prop where
  children_eq : ∀ k j node, mapGet s.BlockHashMap k = some j →
    s.BlockNodeArray[j]? = some node → node.Children = childIdx s.BlockNodeArray k
  orphans_eq : ∀ k, mapGet s.BlockHashMap k = none →
    (mapGet s.ParentHashMap k).getD [] = childIdx s.BlockNodeArray k

/-! ## shapelib/pixelarray.go: pixel arrays

A byte is a natural number below 256; bit `i` of the byte at column `x` of row `y` is the
pixel `(8 * x + i, y)`. -/

/-- The type `PixelSubArray`: rows of bytes placed at a byte column and a row of the canvas. -/
structure PixelSubArray where
  bytes : List (List Nat)
  xStartByte : Int
  yStart : Int
deriving DecidableEq, Repr

/-- The function `maxByte`: the number of bytes needed for `nBits` bits (Go division and
remainder truncate towards zero). -/
def maxByte (nBits : Int) : Int :=
  let rem : Int := if nBits.tmod 8 ≠ 0 then 1 else 0
  nBits.tdiv 8 + rem

/-- The function `NewPixelArray`: `yMax + 1` rows of `maxByte (xMax + 1)` zero bytes; `make`
panics on a negative size. -/
def NewPixelArray (xMax yMax : Int) : Option (List (List Nat)) :=
  let xSz := maxByte (xMax + 1)
  if yMax + 1 < 0 then none
  else if 0 < yMax + 1 ∧ xSz < 0 then none
  else some (List.replicate (yMax + 1).toNat (List.replicate xSz.toNat 0))

/-- The element `a[y][x]` of a slice of rows; `none` when an index is out of range. -/
def getByte (a : List (List Nat)) (y x : Nat) : Option Nat :=
  match a[y]? with
  | none => none
  | some row => row[x]?

/-- The element `a[y][x]` for indices computed as `int`: a negative index is out of range. -/
def getByteInt (a : List (List Nat)) (y x : Int) : Option Nat :=
  if y < 0 ∨ x < 0 then none else getByte a y.toNat x.toNat

/-- The assignment `a[y][x] = v`, for indices in range. -/
def setByte (a : List (List Nat)) (y x : Nat) (v : Nat) : List (List Nat) :=
  match a[y]? with
  | none => a
  | some row => a.set y (row.set x v)

/-- The pairs `(ySub, xSub)` visited by the two nested loops over a sub-array with `h` rows and
`w` byte columns, in order. -/
def loopCells (h w : Nat) : List (Nat × Nat) :=
  (List.range h).flatMap (fun ySub => (List.range w).map (fun xSub => (ySub, xSub)))

/-- The nested loops of `HasConflict`; `none` when an index is out of range. -/
def conflictScan (a : List (List Nat)) (sub : PixelSubArray) : List (Nat × Nat) → Option Bool
  | [] => some false
  | (ySub, xSub) :: rest =>
    match getByteInt a (sub.yStart + ySub) (sub.xStartByte + xSub),
        getByte sub.bytes ySub xSub with
    | some v, some b => if v &&& b ≠ 0 then some true else conflictScan a sub rest
    | _, _ => none

/-- The method `PixelArray.HasConflict`. -/
def HasConflict (a : List (List Nat)) (sub : PixelSubArray) : Option Bool :=
  match sub.bytes[0]?, a[0]? with
  | some row0, some a0 =>
    let xLastByte : Int := sub.xStartByte + row0.length
    if xLastByte > a0.length then some true
    else if sub.yStart + sub.bytes.length > a.length then some true
    else conflictScan a sub (loopCells sub.bytes.length row0.length)
  | _, _ => none

/-- The nested loops of `MergeSubArray`; `none` when an index is out of range. -/
def mergeScan (sub : PixelSubArray) : List (Nat × Nat) → List (List Nat) →
    Option (List (List Nat))
  | [], a => some a
  | (ySub, xSub) :: rest, a =>
    match getByteInt a (sub.yStart + ySub) (sub.xStartByte + xSub),
        getByte sub.bytes ySub xSub with
    | some v, some b =>
      mergeScan sub rest
        (setByte a (sub.yStart + ySub).toNat (sub.xStartByte + xSub).toNat (v ||| b))
    | _, _ => none

/-- The method `PixelArray.MergeSubArray`: the array after the call. -/
def MergeSubArray (a : List (List Nat)) (sub : PixelSubArray) : Option (List (List Nat)) :=
  match sub.bytes[0]?, a[0]? with
  | some row0, some a0 =>
    if sub.xStartByte + row0.length > a0.length then some a
    else if sub.yStart + sub.bytes.length > a.length then some a
    else mergeScan sub (loopCells sub.bytes.length row0.length) a
  | _, _ => none

/-! ## miner/validation.go -/

/-- Modelled from the spec: the error values of the package `libminer`, which is not among the
sources, together with `DuplicateError` of `validation.go`.  The payload of
`InsufficientInkError` is a `uint32`. -/
inductive MinerError where
  | DuplicateError (s : String)
  | ShapeSvgStringTooLongError (svg : String)
  | InvalidShapeSvgStringError (svg : String)
  | InsufficientInkError (ink : Nat)
  | ShapeOverlapError (svg : String)
  | OutOfBoundsError
  | InvalidBlockHashError (hash : String)
  | ShapeOwnerError (hash : String)
  | InvalidShapeHashError (hash : String)
deriving DecidableEq, Repr

/-- What the validator reads from `getShapeFromOp` followed by `SubArrayAndCost` on the shape
it returns: the error, the sub-array and the cost.  The rasterizer of `shapelib` walks lines
with floating-point arithmetic; it enters the validator as a parameter
`getShapeFromOp : Operation → ShapeOut`. -/
structure ShapeOut where
  err : Option MinerError
  subarr : PixelSubArray
  cost : Int
deriving DecidableEq, Repr

/-- The conversion `uint32(n)` of an `int`. -/
def toUint32 (n : Int) : Nat := (n % 4294967296).toNat

/-- The statement `delete(m, k)` on a Go map. -/
def mapDelete {V : Type} : List (String × V) → String → List (String × V)
  | [], _ => []
  | (k1, v) :: m, k => if k1 = k then mapDelete m k else (k1, v) :: mapDelete m k

/-- The inner loop of `checkInkAndConflicts` over the operations of a block.  The state is the
pair of `pubkeyInk` (a `uint32`) and `shapesExisting`; `none` is the return of
`DuplicateError`. -/
def scanOps (getShapeFromOp : Operation → ShapeOut) (pubkey opSig : String) :
    List OperationInfo → Nat × List (String × OperationInfo) →
      Option (Nat × List (String × OperationInfo))
  | [], st => some st
  | opInfo :: rest, (pubkeyInk, shapesExisting) =>
    if opInfo.PubKey = pubkey then
      if opInfo.OpSig = opSig then none
      else if (getShapeFromOp opInfo.Op).err ≠ none then
        scanOps getShapeFromOp pubkey opSig rest (pubkeyInk, shapesExisting)
      else if opInfo.Op.OpType = OpType.ADD then
        scanOps getShapeFromOp pubkey opSig rest
          ((pubkeyInk + 4294967296 - toUint32 (getShapeFromOp opInfo.Op).cost) % 4294967296,
            shapesExisting)
      else
        scanOps getShapeFromOp pubkey opSig rest
          ((pubkeyInk + toUint32 (getShapeFromOp opInfo.Op).cost) % 4294967296,
            shapesExisting)
    else if opInfo.Op.OpType = OpType.ADD then
      scanOps getShapeFromOp pubkey opSig rest
        (pubkeyInk, mapSet shapesExisting opInfo.OpSig opInfo)
    else
      scanOps getShapeFromOp pubkey opSig rest
        (pubkeyInk, mapDelete shapesExisting opInfo.OpSig)

/-- The outer loop of `checkInkAndConflicts` over the blocks. -/
def scanBlocks (getShapeFromOp : Operation → ShapeOut) (cfg : Settings)
    (pubkey opSig : String) :
    List Block → Nat × List (String × OperationInfo) →
      Option (Nat × List (String × OperationInfo))
  | [], st => some st
  | block :: rest, (pubkeyInk, shapesExisting) =>
    let numOps := block.OpHistory.length
    let pubkeyInk1 :=
      if block.MinerPubKey = pubkey then
        if numOps > 0 then (pubkeyInk + cfg.InkPerOpBlock) % 4294967296
        else (pubkeyInk + cfg.InkPerNoOpBlock) % 4294967296
      else pubkeyInk
    match scanOps getShapeFromOp pubkey opSig block.OpHistory (pubkeyInk1, shapesExisting) with
    | none => none
    | some st => scanBlocks getShapeFromOp cfg pubkey opSig rest st

/-- The loop of `checkInkAndConflicts` that merges the shapes of `shapesExisting` into the
pixel array, in the order in which `range` visits the map. -/
def mergeShapes (getShapeFromOp : Operation → ShapeOut) :
    List (String × OperationInfo) → List (List Nat) → Option (List (List Nat))
  | [], pixelarr => some pixelarr
  | (_, v) :: rest, pixelarr =>
    match MergeSubArray pixelarr (getShapeFromOp v.Op).subarr with
    | none => none
    | some pixelarr1 => mergeShapes getShapeFromOp rest pixelarr1

/-- The method `checkInkAndConflicts`.  `rangeShapes` gives the order in which `range` visits
`shapesExisting`.  The outer `none` is a panic, the inner `none` the error `nil`. -/
def checkInkAndConflicts (getShapeFromOp : Operation → ShapeOut) (cfg : Settings)
    (rangeShapes : List (String × OperationInfo) → List (String × OperationInfo))
    (subarr : PixelSubArray) (inkRequired : Int) (pubkey : String) (blocks : List Block)
    (svgString opSig : String) : Option (Option MinerError) :=
  match scanBlocks getShapeFromOp cfg pubkey opSig blocks (0, []) with
  | none => some (some (MinerError.DuplicateError "opSig"))
  | some (pubkeyInk, shapesExisting) =>
    if inkRequired > (pubkeyInk : Int) then
      some (some (MinerError.InsufficientInkError (toUint32 inkRequired)))
    else
      match NewPixelArray (cfg.CanvasXMax : Int) (cfg.CanvasYMax : Int) with
      | none => none
      | some pixelarr =>
        match mergeShapes getShapeFromOp (rangeShapes shapesExisting) pixelarr with
        | none => none
        | some pixelarr1 =>
          match HasConflict pixelarr1 subarr with
          | none => none
          | some true => some (some (MinerError.ShapeOverlapError svgString))
          | some false => some none

/-- The inner loop of `checkDeletion` over the operations of a block: the new value of
`delAllowed` and whether the loops are left through `goto breakOuterLoop`. -/
def delScanOps (sHash pubkey : String) : List OperationInfo → Bool → Bool × Bool
  | [], delAllowed => (delAllowed, false)
  | opInfo :: rest, delAllowed =>
    if opInfo.PubKey = pubkey then
      if opInfo.OpSig = sHash then delScanOps sHash pubkey rest true
      else if opInfo.AddSig = sHash then (false, true)
      else delScanOps sHash pubkey rest delAllowed
    else delScanOps sHash pubkey rest delAllowed

/-- The outer loop of `checkDeletion` over the blocks: the final value of `delAllowed`. -/
def delScanBlocks (sHash pubkey : String) : List Block → Bool → Bool
  | [], delAllowed => delAllowed
  | block :: rest, delAllowed =>
    match delScanOps sHash pubkey block.OpHistory delAllowed with
    | (d, true) => d
    | (d, false) => delScanBlocks sHash pubkey rest d

/-- The method `checkDeletion`; `none` is the error `nil`. -/
def checkDeletion (sHash pubkey : String) (blocks : List Block) : Option MinerError :=
  if delScanBlocks sHash pubkey blocks false = false then
    some (MinerError.ShapeOwnerError sHash)
  else none

/-- The block `testblock` of `ValidateOps` with the operations accepted so far. -/
def testBlock (kept : List OperationInfo) : Block :=
  { PrevHash := "TESTTESTTESTTESTTESTTESTTESTTESTTESTTEST", OpHistory := kept,
    MinerPubKey := "TESTTESTTESTTESTTESTTESTTESTTESTTEST", Nonce := 0 }

/-- The loop of `ValidateOps`; `kept` is `testblock.OpHistory`.  `none` is a panic. -/
def validateLoop (getShapeFromOp : Operation → ShapeOut) (cfg : Settings)
    (rangeShapes : List (String × OperationInfo) → List (String × OperationInfo))
    (chain : List Block) : List OperationInfo → List OperationInfo →
      Option (List OperationInfo)
  | [], kept => some kept
  | opinfo :: rest, kept =>
    let testchain := chain ++ [testBlock kept]
    let op := opinfo.Op
    let shape := getShapeFromOp op
    if shape.err ≠ none then validateLoop getShapeFromOp cfg rangeShapes chain rest kept
    else
      let err : Option (Option MinerError) :=
        if opinfo.Op.OpType = OpType.ADD then
          checkInkAndConflicts getShapeFromOp cfg rangeShapes shape.subarr shape.cost
            opinfo.PubKey testchain op.SVGString opinfo.OpSig
        else some (checkDeletion opinfo.AddSig opinfo.PubKey testchain)
      match err with
      | none => none
      | some (some _) => validateLoop getShapeFromOp cfg rangeShapes chain rest kept
      | some none => validateLoop getShapeFromOp cfg rangeShapes chain rest (kept ++ [opinfo])

/-- The function `ValidateOps`. -/
def ValidateOps (getShapeFromOp : Operation → ShapeOut) (cfg : Settings)
    (rangeShapes : List (String × OperationInfo) → List (String × OperationInfo))
    (ops : List OperationInfo) (chain : List Block) : Option (List OperationInfo) :=
  validateLoop getShapeFromOp cfg rangeShapes chain ops []

/-- The inner loop of `CalculateInk` over the operations of a block; the state is `inkAmt`. -/
def calcOps (getShapeFromOp : Operation → ShapeOut) (minerKey : String) :
    List OperationInfo → Nat → Nat
  | [], inkAmt => inkAmt
  | opInfo :: rest, inkAmt =>
    if opInfo.PubKey = minerKey then
      if (getShapeFromOp opInfo.Op).err ≠ none then
        calcOps getShapeFromOp minerKey rest inkAmt
      else if opInfo.Op.OpType = OpType.ADD then
        calcOps getShapeFromOp minerKey rest
          ((inkAmt + 4294967296 - toUint32 (getShapeFromOp opInfo.Op).cost) % 4294967296)
      else
        calcOps getShapeFromOp minerKey rest
          ((inkAmt + toUint32 (getShapeFromOp opInfo.Op).cost) % 4294967296)
    else calcOps getShapeFromOp minerKey rest inkAmt

/-- The outer loop of `CalculateInk` over the blocks of the chain. -/
def calcBlocks (getShapeFromOp : Operation → ShapeOut) (cfg : Settings) (minerKey : String) :
    List Block → Nat → Nat
  | [], inkAmt => inkAmt
  | block :: rest, inkAmt =>
    let inkAmt1 :=
      if block.MinerPubKey = minerKey then
        if block.OpHistory.length = 0 then (inkAmt + cfg.InkPerNoOpBlock) % 4294967296
        else (inkAmt + cfg.InkPerOpBlock) % 4294967296
      else inkAmt
    calcBlocks getShapeFromOp cfg minerKey rest
      (calcOps getShapeFromOp minerKey block.OpHistory inkAmt1)

/-- The function `CalculateInk`: the value of `int(inkAmt)`.  The call of `GetLongestPath` on the
genesis hash does not recurse, so the bound 1 on the depth is enough. -/
def CalculateInk (H : Block → String) (getShapeFromOp : Operation → ShapeOut) (cfg : Settings)
    (s : Store) (order : List (String × LongestPathInfo)) (minerKey : String) : Option Nat :=
  match GetLongestPath H cfg s order 1 cfg.GenesisBlockHash with
  | none => none
  | some (blockChain, _) => some (calcBlocks getShapeFromOp cfg minerKey blockChain 0)

/-! ## A small instance for the validator -/

/-- Settings with a canvas of 16 by 2 pixels and rewards 20 and 10. -/
def paintSettings : Settings :=
  { GenesisBlockHash := "g", PoWDifficultyOpBlock := 1, PoWDifficultyNoOpBlock := 1,
    InkPerOpBlock := 20, InkPerNoOpBlock := 10, CanvasXMax := 15, CanvasYMax := 1 }

/-- A stand-in for the rasterizer: `dot0` is the pixel (0,0) and `dot1` the pixel (1,0), each of
cost 1; `big` is the pixel (15,1) with cost `2^32`; every other string is rejected. -/
def toyShape (op : Operation) : ShapeOut :=
  if op.SVGString = "dot0" then
    { err := none, subarr := { bytes := [[1]], xStartByte := 0, yStart := 0 }, cost := 1 }
  else if op.SVGString = "dot1" then
    { err := none, subarr := { bytes := [[2]], xStartByte := 0, yStart := 0 }, cost := 1 }
  else if op.SVGString = "big" then
    { err := none, subarr := { bytes := [[128]], xStartByte := 1, yStart := 1 },
      cost := 4294967296 }
  else
    { err := some (MinerError.InvalidShapeSvgStringError op.SVGString),
      subarr := { bytes := [[0]], xStartByte := 0, yStart := 0 }, cost := 0 }

/-- An ADD operation of the key `key` with signature `sig`. -/
def signedAdd (key sig svg : String) : OperationInfo :=
  { AddSig := "", OpSig := sig, PubKey := key,
    Op := { OpType := OpType.ADD, SVGString := svg, Fill := "transparent", Stroke := "red",
            OpNum := 0 } }

/-- A DELETE operation of the key `key` with signature `sig` for the shape `addSig`. -/
def signedDelete (key sig addSig svg : String) : OperationInfo :=
  { AddSig := addSig, OpSig := sig, PubKey := key,
    Op := { OpType := OpType.DELETE, SVGString := svg, Fill := "transparent", Stroke := "red",
            OpNum := 1 } }

/-- A block mined by `key` with the given operations. -/
def minedBlock (key : String) (ops : List OperationInfo) : Block :=
  { PrevHash := "", OpHistory := ops, MinerPubKey := key, Nonce := 0 }

/-- A chain on which `k1` and `k2` each mined a block without operations, and `k1` then mined
a block in which it adds the shape `s` (`dot0`) and deletes it again. -/
def chainAddDelete : List Block :=
  [minedBlock "k1" [], minedBlock "k2" [],
    minedBlock "k1" [signedAdd "k1" "s" "dot0", signedDelete "k1" "d" "s" "dot0"]]

/-! ## The ink balance as an unbounded integer -/

/-- The operations of a chain, block by block. -/
def opsOf : List Block → List OperationInfo
  | [] => []
  | b :: rest => b.OpHistory ++ opsOf rest

/-- The sum of the rewards of the blocks of the chain mined by `key`: `InkPerNoOpBlock` for a
block with no operations, `InkPerOpBlock` otherwise. -/
def rewardSum (cfg : Settings) (key : String) : List Block → Int
  | [] => 0
  | b :: rest =>
    (if b.MinerPubKey = key then
      (if b.OpHistory = [] then (cfg.InkPerNoOpBlock : Int) else (cfg.InkPerOpBlock : Int))
     else 0) + rewardSum cfg key rest

/-- The sum of the costs of the operations of `key` of the given type whose shape is accepted by
`getShapeFromOp` (an operation whose shape is rejected has no cost). -/
def costSum (getShapeFromOp : Operation → ShapeOut) (key : String) (t : OpType) :
    List OperationInfo → Int
  | [] => 0
  | o :: rest =>
    (if o.PubKey = key ∧ o.Op.OpType = t ∧ (getShapeFromOp o.Op).err = none then
      (getShapeFromOp o.Op).cost
     else 0) + costSum getShapeFromOp key t rest

/-- The ink balance of `key` on a chain as an unbounded integer: rewards, minus the costs of its
ADD operations, plus the costs of its DELETE operations. -/
def inkBalance (getShapeFromOp : Operation → ShapeOut) (cfg : Settings) (key : String)
    (chain : List Block) : Int :=
  rewardSum cfg key chain - costSum getShapeFromOp key OpType.ADD (opsOf chain) +
    costSum getShapeFromOp key OpType.DELETE (opsOf chain)

/-- The change of the ink balance of `key` made by one operation: minus the cost for an ADD of
`key`, plus the cost for a DELETE of `key`, nothing for an operation of another key or one whose
shape is rejected. -/
def opDelta (getShapeFromOp : Operation → ShapeOut) (key : String) (o : OperationInfo) : Int :=
  if o.PubKey = key ∧ (getShapeFromOp o.Op).err = none then
    (if o.Op.OpType = OpType.ADD then - (getShapeFromOp o.Op).cost
     else (getShapeFromOp o.Op).cost)
  else 0

/-- The change of the ink balance of `key` made by a list of operations. -/
def opsDelta (getShapeFromOp : Operation → ShapeOut) (key : String) :
    List OperationInfo → Int
  | [] => 0
  | o :: rest => opDelta getShapeFromOp key o + opsDelta getShapeFromOp key rest

/-- The reward that a block brings to `key`. -/
def blockReward (cfg : Settings) (key : String) (b : Block) : Int :=
  if b.MinerPubKey = key then
    (if b.OpHistory = [] then (cfg.InkPerNoOpBlock : Int) else (cfg.InkPerOpBlock : Int))
  else 0

/-- The changes of the ink balance of `key` along a chain, one entry for the reward of each
block and one for each operation, in the order of the replay. -/
def inkEvents (getShapeFromOp : Operation → ShapeOut) (cfg : Settings) (key : String) :
    List Block → List Int
  | [] => []
  | b :: rest =>
    (blockReward cfg key b :: b.OpHistory.map (opDelta getShapeFromOp key)) ++
      inkEvents getShapeFromOp cfg key rest

/-- The running ink balance of `key`, as an unbounded integer, is never negative along the
chain: every partial sum of the changes is at least 0. -/
def InkNonNeg (getShapeFromOp : Operation → ShapeOut) (cfg : Settings) (key : String)
    (chain : List Block) : Prop :=
  ∀ n : Nat, 0 ≤ ((inkEvents getShapeFromOp cfg key chain).take n).sum

/-! ## Cells of pixel arrays -/

/-- The pixel `(X, Y)` is set in the sub-array. -/
def subCell (sub : PixelSubArray) (X Y : Nat) : Prop :=
  sub.yStart ≤ (Y : Int) ∧ sub.xStartByte ≤ ((X / 8 : Nat) : Int) ∧
    ∃ b, getByte sub.bytes ((Y : Int) - sub.yStart).toNat
        (((X / 8 : Nat) : Int) - sub.xStartByte).toNat = some b ∧
      b.testBit (X % 8) = true

/-- The sub-array has at least one row, all its rows have the length of the first, and its
origin is not negative (as for every sub-array made by `NewPixelSubArray` from points of the
first quadrant). -/
def WellFormedSub (sub : PixelSubArray) : Prop :=
  sub.bytes ≠ [] ∧ (∀ row ∈ sub.bytes, row.length = (sub.bytes.headD []).length) ∧
    0 ≤ sub.xStartByte ∧ 0 ≤ sub.yStart

instance (sub : PixelSubArray) : Decidable (WellFormedSub sub) := by
  unfold WellFormedSub
  infer_instance

/-- The sub-array lies within the pixel array of the canvas. -/
def InCanvasSub (cfg : Settings) (sub : PixelSubArray) : Prop :=
  sub.xStartByte + ((sub.bytes.headD []).length : Int) ≤ maxByte ((cfg.CanvasXMax : Int) + 1) ∧
    sub.yStart + (sub.bytes.length : Int) ≤ (cfg.CanvasYMax : Int) + 1

instance (cfg : Settings) (sub : PixelSubArray) : Decidable (InCanvasSub cfg sub) := by
  unfold InCanvasSub
  infer_instance

/-- The array has `h` rows of `w` bytes. -/
def Dims (a : List (List Nat)) (h w : Nat) : Prop :=
  a.length = h ∧ ∀ row ∈ a, row.length = w

/-- Every bit set in `a` is set in `a1`. -/
def Above (a a1 : List (List Nat)) : Prop :=
  ∀ y x v, getByte a y x = some v →
    ∃ v1, getByte a1 y x = some v1 ∧ ∀ i, v.testBit i = true → v1.testBit i = true

/-! ## The live shapes of a replay -/

/-- The map `shapesExisting` after the inner loops of `checkInkAndConflicts` have replayed a
list of operations for `pubkey`: an ADD of another key is stored under its `OpSig`, any other
operation of another key deletes the entry of its own `OpSig`. -/
def shapesFold (pubkey : String) :
    List OperationInfo → List (String × OperationInfo) → List (String × OperationInfo)
  | [], sh => sh
  | o :: rest, sh =>
    if o.PubKey = pubkey then shapesFold pubkey rest sh
    else if o.Op.OpType = OpType.ADD then shapesFold pubkey rest (mapSet sh o.OpSig o)
    else shapesFold pubkey rest (mapDelete sh o.OpSig)

/-- A chain on which `k1`, `k2` and `k3` each mined a block without operations, and `k1` then
mined a block with the shape `dot0` of `k1` and the shape `dot1` of `k3`, both with the
signature `s`. -/
def chainSharedSig : List Block :=
  [minedBlock "k1" [], minedBlock "k2" [], minedBlock "k3" [],
    minedBlock "k1" [signedAdd "k1" "s" "dot0", signedAdd "k3" "s" "dot1"]]

/-! ## utils/utils.go: the path parser

A string is a sequence of characters, standing for the bytes of its UTF-8 encoding.  The byte
of a space occurs in the encoding only as the space character, so `strings.Split(s, " ")` cuts
at the space characters. -/

/-- The number of bytes of the UTF-8 encoding of a character. -/
def utf8Len (c : Char) : Nat :=
  if c.toNat < 128 then 1 else if c.toNat < 2048 then 2 else if c.toNat < 65536 then 3 else 4

/-- The built-in `len` on a string: the number of bytes of its UTF-8 encoding. -/
def len (s : String) : Nat := (s.data.map utf8Len).sum

/-- The constant `MAX_SVG_LEN`. -/
def MAX_SVG_LEN : Nat := 128

/-- The scan of `strings.Split(s, " ")`; `cur` holds the characters of the token being read. -/
def splitLoop : List Char → List Char → List String
  | [], cur => [String.mk cur]
  | c :: cs, cur =>
    if c = ' ' then String.mk cur :: splitLoop cs [] else splitLoop cs (cur ++ [c])

/-- The call `strings.Split(s, " ")`: the tokens between the spaces; the empty string gives one
empty token, two adjacent spaces give an empty token between them. -/
def Split (s : String) : List String := splitLoop s.data []

/-- The library function `strings.ToUpper` on the letters `a` to `z`.  The library also maps
letters outside ASCII, but none of them to one of `M`, `L`, `V`, `H`, `Z`, the only strings
the result is compared with. -/
def ToUpper (s : String) : String := String.mk (s.data.map Char.toUpper)

/-- The value of a decimal digit. -/
def digitVal (c : Char) : Option Nat :=
  if 48 ≤ c.toNat ∧ c.toNat ≤ 57 then some (c.toNat - 48) else none

/-- The value of a run of decimal digits read after the value `acc`; `none` when a character
is not a digit. -/
def parseDigits : List Char → Nat → Option Nat
  | [], acc => some acc
  | c :: cs, acc =>
    match digitVal c with
    | none => none
    | some d => parseDigits cs (acc * 10 + d)

/-- The library function `strconv.Atoi` on a 64-bit platform: an optional sign followed by at
least one decimal digit, with a value in the range of `int64`; `none` is an error. -/
def Atoi (s : String) : Option Int :=
  match s.data with
  | [] => none
  | c :: cs =>
    if c = '-' then
      if cs = [] then none
      else
        match parseDigits cs 0 with
        | none => none
        | some n => if n ≤ 9223372036854775808 then some (-(n : Int)) else none
    else if c = '+' then
      if cs = [] then none
      else
        match parseDigits cs 0 with
        | none => none
        | some n => if n ≤ 9223372036854775807 then some (n : Int) else none
    else
      match parseDigits (c :: cs) 0 with
      | none => none
      | some n => if n ≤ 9223372036854775807 then some (n : Int) else none

/-- The implementations of the interface `SVGCommand`: `MCommand`, `LCommand`, `HCommand`,
`VCommand` and `ZCommand` with their fields. -/
inductive SVGCommand where
  | MCommand (IsAbsolute : Bool) (X Y : Int)
  | LCommand (IsAbsolute : Bool) (X Y : Int)
  | HCommand (IsAbsolute : Bool) (X : Int)
  | VCommand (IsAbsolute : Bool) (Y : Int)
  | ZCommand
deriving DecidableEq, Repr

/-- The method `GetX`. -/
def SVGCommand.GetX : SVGCommand → Int
  | MCommand _ x _ => x
  | LCommand _ x _ => x
  | HCommand _ x => x
  | VCommand _ _ => -1
  | ZCommand => -1

/-- The method `GetY`. -/
def SVGCommand.GetY : SVGCommand → Int
  | MCommand _ _ y => y
  | LCommand _ _ y => y
  | HCommand _ _ => -1
  | VCommand _ y => y
  | ZCommand => -1

/-- The method `IsRelative`. -/
def SVGCommand.IsRelative : SVGCommand → Bool
  | MCommand _ _ _ => false
  | LCommand a _ _ => !a
  | HCommand a _ => !a
  | VCommand a _ => !a
  | ZCommand => false

/-- The loop of `GetParsedSVG` over the tokens from index `i` on: `first` says whether
`i == 0`, the list holds `tokens[i:]`.  The arguments of a command are parsed only when the
tokens `tokens[i+1]`, `tokens[i+2]` exist (`i+2 < tokenLen`, for `V` and `H`:
`i+1 < tokenLen`); otherwise `param1` and `param2` keep the value 0 and the step `i += 3`
(or `i += 2`) ends the loop.  The variable `err` is `nil` whenever the loop goes on, so the
return `svgPath, err` for an unknown command returns no error. -/
def parseLoop (svgString : String) :
    Bool → List String → List SVGCommand → List SVGCommand × Option MinerError
  | _, [], svgPath => (svgPath, none)
  | first, token :: rest, svgPath =>
    let tokenUpper := ToUpper token
    if first = true ∧ tokenUpper ≠ "M" then
      (svgPath, some (MinerError.InvalidShapeSvgStringError svgString))
    else if tokenUpper = "L" ∨ tokenUpper = "M" then
      match rest with
      | t1 :: t2 :: rest2 =>
        match Atoi t1 with
        | none => (svgPath, some (MinerError.InvalidShapeSvgStringError svgString))
        | some param1 =>
          match Atoi t2 with
          | none => (svgPath, some (MinerError.InvalidShapeSvgStringError svgString))
          | some param2 =>
            if tokenUpper = "L" then
              parseLoop svgString false rest2
                (svgPath ++ [SVGCommand.LCommand (decide (token ≠ "l")) param1 param2])
            else
              parseLoop svgString false rest2
                (svgPath ++ [SVGCommand.MCommand false param1 param2])
      | _ =>
        if tokenUpper = "L" then
          (svgPath ++ [SVGCommand.LCommand (decide (token ≠ "l")) 0 0], none)
        else (svgPath ++ [SVGCommand.MCommand false 0 0], none)
    else if tokenUpper = "V" ∨ tokenUpper = "H" then
      match rest with
      | t1 :: rest1 =>
        match Atoi t1 with
        | none => (svgPath, some (MinerError.InvalidShapeSvgStringError svgString))
        | some param1 =>
          if token = "V" then
            parseLoop svgString false rest1
              (svgPath ++ [SVGCommand.VCommand (decide (token ≠ "v")) param1])
          else
            parseLoop svgString false rest1
              (svgPath ++ [SVGCommand.HCommand (decide (token ≠ "h")) param1])
      | [] =>
        if token = "V" then (svgPath ++ [SVGCommand.VCommand (decide (token ≠ "v")) 0], none)
        else (svgPath ++ [SVGCommand.HCommand (decide (token ≠ "h")) 0], none)
    else if tokenUpper = "Z" then
      parseLoop svgString false rest (svgPath ++ [SVGCommand.ZCommand])
    else (svgPath, none)

/-- The function `GetParsedSVG`: the path read so far and the error (`none` is `nil`). -/
def GetParsedSVG (svgString : String) : List SVGCommand × Option MinerError :=
  if len svgString > MAX_SVG_LEN then
    ([], some (MinerError.ShapeSvgStringTooLongError svgString))
  else parseLoop svgString true (Split svgString) []

/-! ## utils/utils.go and shapelib: points and paths -/

/-- The type `shapelib.Point`. -/
structure Point where
  X : Int
  Y : Int
  Moved : Bool
deriving DecidableEq, Repr

/-- The type `shapelib.Path`. -/
structure Path where
  Points : List Point
  Filled : Bool
  StrokeFilled : Bool
  XMin : Int
  XMax : Int
  YMin : Int
  YMax : Int
deriving DecidableEq, Repr

/-- The value of an `int` expression on a 64-bit platform: the result modulo `2^64` in the range
from `-2^63` to `2^63 - 1`. -/
def wrap64 (n : Int) : Int :=
  (n + 9223372036854775808) % 18446744073709551616 - 9223372036854775808

/-- The loop of `NewPath` over `points[1:]`; the state is `(xMin, xMax, yMin, yMax)`. -/
def boundsLoop : List Point → Int × Int × Int × Int → Int × Int × Int × Int
  | [], st => st
  | p :: rest, (xMin, xMax, yMin, yMax) =>
    let xs : Int × Int :=
      if p.X < xMin then (p.X, xMax) else if p.X > xMax then (xMin, p.X) else (xMin, xMax)
    let ys : Int × Int :=
      if p.Y < yMin then (p.Y, yMax) else if p.Y > yMax then (yMin, p.Y) else (yMin, yMax)
    boundsLoop rest (xs.1, xs.2, ys.1, ys.2)

/-- The function `NewPath` on a slice that is not `nil` (`SVGToPoints` makes its slice with
`make`): `points[0]` panics on the empty slice. -/
def NewPath (points : List Point) (filled strokeFilled : Bool) : Option Path :=
  match points with
  | [] => none
  | p0 :: rest =>
    let b := boundsLoop rest (p0.X, p0.X, p0.Y, p0.Y)
    some { Points := points, Filled := filled, StrokeFilled := strokeFilled,
           XMin := b.1, XMax := b.2.1, YMin := b.2.2.1, YMax := b.2.2.2 }

/-- The element `points[i-1]`; the index `-1` panics. -/
def prevPoint (points : List Point) (i : Nat) : Option Point :=
  if i = 0 then none else points[i - 1]?

/-- The point that the body of the first loop of `SVGToPoints` computes for the command at
index `i`; `none` is a panic. -/
def nextPoint (command : SVGCommand) (points : List Point) (i : Nat) : Option Point :=
  let moved : Bool :=
    match command with
    | SVGCommand.MCommand _ _ _ => true
    | _ => false
  if command.IsRelative = true then
    match command with
    | SVGCommand.LCommand _ _ _ =>
      match prevPoint points i with
      | none => none
      | some p =>
        some { X := wrap64 (p.X + command.GetX), Y := wrap64 (p.Y + command.GetY),
               Moved := moved }
    | SVGCommand.VCommand _ _ =>
      match prevPoint points i with
      | none => none
      | some p => some { X := p.X, Y := wrap64 (p.Y + command.GetY), Moved := moved }
    | SVGCommand.HCommand _ _ =>
      match prevPoint points i with
      | none => none
      | some p => some { X := wrap64 (p.X + command.GetX), Y := p.Y, Moved := moved }
    | _ => some { X := 0, Y := 0, Moved := moved }
  else
    match command with
    | SVGCommand.ZCommand =>
      match points[0]? with
      | none => none
      | some p0 => some { X := p0.X, Y := p0.Y, Moved := moved }
    | SVGCommand.HCommand _ _ =>
      match prevPoint points i with
      | none => none
      | some p => some { X := command.GetX, Y := p.Y, Moved := moved }
    | SVGCommand.VCommand _ _ =>
      match prevPoint points i with
      | none => none
      | some p => some { X := p.X, Y := command.GetY, Moved := moved }
    | _ => some { X := command.GetX, Y := command.GetY, Moved := moved }

/-- The first loop of `SVGToPoints` from index `i` on.  The outer `none` is a panic, the inner
`none` the return of `OutOfBoundsError`. -/
def pointsLoop (canvasX canvasY : Int) :
    List SVGCommand → Nat → List Point → Option (Option (List Point))
  | [], _, points => some (some points)
  | command :: rest, i, points =>
    match nextPoint command points i with
    | none => none
    | some point =>
      if point.X > canvasX ∨ point.Y > canvasY ∨ point.X < 0 ∨ point.Y < 0 then some none
      else pointsLoop canvasX canvasY rest (i + 1) (points ++ [point])

/-- The loop of `SVGToPoints` that sets `moved`: whether a point other than the first has
`Moved`. -/
def anyMoved (points : List Point) : Bool := (points.drop 1).any (fun p => p.Moved)

/-- The loop of `SVGToPoints` over the points of a filled path with a move; the state is
`(startPoint, prevPoint)`, `none` is the return of the error inside the loop. -/
def closeLoop : List Point → Point → Point → Option (Point × Point)
  | [], startPoint, prev => some (startPoint, prev)
  | pt :: rest, startPoint, prev =>
    if pt.Moved = true then
      if startPoint.X ≠ prev.X ∨ startPoint.Y ≠ prev.Y then none
      else closeLoop rest pt pt
    else closeLoop rest startPoint pt

/-- The zero value of `Path`, returned together with an error. -/
def zeroPath : Path :=
  { Points := [], Filled := false, StrokeFilled := false, XMin := 0, XMax := 0, YMin := 0,
    YMax := 0 }

/-- The end of `SVGToPoints`: the path made by `NewPath`, without error. -/
def finishPath (points : List Point) (filled strokeFilled : Bool) :
    Option (Path × Option MinerError) :=
  match NewPath points filled strokeFilled with
  | none => none
  | some p => some (p, none)

/-- The function `SVGToPoints`: the path and the error (`none` is `nil`); the outer `none` is a
panic. -/
def SVGToPoints (svgPath : List SVGCommand) (canvasX canvasY : Int)
    (filled strokeFilled : Bool) : Option (Path × Option MinerError) :=
  match pointsLoop canvasX canvasY svgPath 0 [] with
  | none => none
  | some none => some (zeroPath, some MinerError.OutOfBoundsError)
  | some (some points) =>
    let moved := anyMoved points
    if filled = true then
      if moved = false then
        match points[points.length - 1]?, points[0]? with
        | some lastPoint, some firstPoint =>
          if firstPoint.X ≠ lastPoint.X ∨ firstPoint.Y ≠ lastPoint.Y then
            some (zeroPath, some (MinerError.InvalidShapeSvgStringError ""))
          else finishPath points filled strokeFilled
        | _, _ => none
      else
        match points[0]? with
        | none => none
        | some p0 =>
          match closeLoop points p0 p0 with
          | none => some (zeroPath, some (MinerError.InvalidShapeSvgStringError ""))
          | some (startPoint, prev) =>
            if startPoint.X ≠ prev.X ∨ startPoint.Y ≠ prev.Y then
              some (zeroPath, some (MinerError.InvalidShapeSvgStringError ""))
            else finishPath points filled strokeFilled
    else finishPath points filled strokeFilled

/-! ## The points of a path as the specification describes them -/

/-- The value is in the range of `int` on a 64-bit platform. -/
def IsInt64 (n : Int) : Prop := -9223372036854775808 ≤ n ∧ n ≤ 9223372036854775807

instance (n : Int) : Decidable (IsInt64 n) := by
  unfold IsInt64
  infer_instance

/-- The point lies on the canvas: both coordinates are at least 0 and at most the canvas
maximum. -/
def InCanvas (canvasX canvasY : Int) (p : Point) : Prop :=
  0 ≤ p.X ∧ p.X ≤ canvasX ∧ 0 ≤ p.Y ∧ p.Y ≤ canvasY

instance (canvasX canvasY : Int) (p : Point) : Decidable (InCanvas canvasX canvasY p) := by
  unfold InCanvas
  infer_instance

/-- The point to which a command leads from the previous point `prev` on a path whose first
point is `first`, with unbounded integers: an absolute command names its coordinates, a relative
command adds to the previous point, `H` and `V` keep the other coordinate, `Z` returns to the
first point; only `M` sets `Moved`. -/
def specPoint (c : SVGCommand) (first prev : Point) : Point :=
  match c with
  | SVGCommand.MCommand _ x y => { X := x, Y := y, Moved := true }
  | SVGCommand.LCommand true x y => { X := x, Y := y, Moved := false }
  | SVGCommand.LCommand false dx dy => { X := prev.X + dx, Y := prev.Y + dy, Moved := false }
  | SVGCommand.HCommand true x => { X := x, Y := prev.Y, Moved := false }
  | SVGCommand.HCommand false dx => { X := prev.X + dx, Y := prev.Y, Moved := false }
  | SVGCommand.VCommand true y => { X := prev.X, Y := y, Moved := false }
  | SVGCommand.VCommand false dy => { X := prev.X, Y := prev.Y + dy, Moved := false }
  | SVGCommand.ZCommand => { X := first.X, Y := first.Y, Moved := false }

/-- The points of the commands after the first, each computed from the one before. -/
def specPointsFrom (first prev : Point) : List SVGCommand → List Point
  | [] => []
  | c :: rest => specPoint c first prev :: specPointsFrom first (specPoint c first prev) rest

/-- The points of a command list, one for each command. -/
def specPoints : List SVGCommand → List Point
  | [] => []
  | c :: rest =>
    specPoint c { X := 0, Y := 0, Moved := false } { X := 0, Y := 0, Moved := false } ::
      specPointsFrom
        (specPoint c { X := 0, Y := 0, Moved := false } { X := 0, Y := 0, Moved := false })
        (specPoint c { X := 0, Y := 0, Moved := false } { X := 0, Y := 0, Moved := false })
        rest

/-- The sub-paths of a list of points after the sub-path `cur` that is being read: a point with
`Moved` starts a new sub-path. -/
def groupFrom : List Point → List Point → List (List Point)
  | cur, [] => [cur]
  | cur, p :: rest =>
    if p.Moved = true then cur :: groupFrom [p] rest else groupFrom (cur ++ [p]) rest

/-- The maximal sub-paths delimited by the points with `Moved`. -/
def subPaths : List Point → List (List Point)
  | [] => []
  | p :: rest => groupFrom [p] rest

/-- The sub-path ends at the point where it started. -/
def ClosedSub (sp : List Point) : Prop :=
  match sp.head?, sp.getLast? with
  | some a, some b => a.X = b.X ∧ a.Y = b.Y
  | _, _ => False

instance (sp : List Point) : Decidable (ClosedSub sp) := by
  unfold ClosedSub
  split <;> infer_instance

/-! ## The path grammar of the specification -/

/-- A command of the path grammar with its integer arguments: `M x y`, `L x y`, `l dx dy`,
`H x`, `h dx`, `V y`, `v dy` and `Z`. -/
inductive PathCmd where
  | M (x y : Int)
  | L (x y : Int)
  | l (dx dy : Int)
  | H (x : Int)
  | h (dx : Int)
  | V (y : Int)
  | v (dy : Int)
  | Z
deriving DecidableEq, Repr

/-- The point to which a command of the grammar maps the previous point `(px, py)`, as the
specification lists it: `M x y` gives `(x, y)` with `Moved`, `L x y` gives `(x, y)`, `l dx dy`
gives `(px+dx, py+dy)`, `H x` gives `(x, py)`, `h dx` gives `(px+dx, py)`, `V y` gives
`(px, y)`, `v dy` gives `(px, py+dy)` and `Z` gives the first point of the path. -/
def PathCmd.next (c : PathCmd) (first prev : Point) : Point :=
  match c with
  | PathCmd.M x y => { X := x, Y := y, Moved := true }
  | PathCmd.L x y => { X := x, Y := y, Moved := false }
  | PathCmd.l dx dy => { X := prev.X + dx, Y := prev.Y + dy, Moved := false }
  | PathCmd.H x => { X := x, Y := prev.Y, Moved := false }
  | PathCmd.h dx => { X := prev.X + dx, Y := prev.Y, Moved := false }
  | PathCmd.V y => { X := prev.X, Y := y, Moved := false }
  | PathCmd.v dy => { X := prev.X, Y := prev.Y + dy, Moved := false }
  | PathCmd.Z => { X := first.X, Y := first.Y, Moved := false }

/-- The points of the commands after the first, each mapped from the one before. -/
def pathPointsFrom (first prev : Point) : List PathCmd → List Point
  | [] => []
  | c :: rest => c.next first prev :: pathPointsFrom first (c.next first prev) rest

/-- The points of a path of the grammar, one for each command. -/
def pathPoints : List PathCmd → List Point
  | [] => []
  | c :: rest =>
    c.next { X := 0, Y := 0, Moved := false } { X := 0, Y := 0, Moved := false } ::
      pathPointsFrom
        (c.next { X := 0, Y := 0, Moved := false } { X := 0, Y := 0, Moved := false })
        (c.next { X := 0, Y := 0, Moved := false } { X := 0, Y := 0, Moved := false }) rest

/-- The tokens of one command: its letter followed by tokens that `strconv.Atoi` reads as its
arguments. -/
def PathCmd.Tokens (c : PathCmd) (toks : List String) : Prop :=
  match c with
  | PathCmd.M x y => ∃ tx ty, toks = ["M", tx, ty] ∧ Atoi tx = some x ∧ Atoi ty = some y
  | PathCmd.L x y => ∃ tx ty, toks = ["L", tx, ty] ∧ Atoi tx = some x ∧ Atoi ty = some y
  | PathCmd.l dx dy => ∃ tx ty, toks = ["l", tx, ty] ∧ Atoi tx = some dx ∧ Atoi ty = some dy
  | PathCmd.H x => ∃ tx, toks = ["H", tx] ∧ Atoi tx = some x
  | PathCmd.h dx => ∃ tx, toks = ["h", tx] ∧ Atoi tx = some dx
  | PathCmd.V y => ∃ ty, toks = ["V", ty] ∧ Atoi ty = some y
  | PathCmd.v dy => ∃ ty, toks = ["v", ty] ∧ Atoi ty = some dy
  | PathCmd.Z => toks = ["Z"]

/-- The token list is the sequence of the tokens of the commands. -/
inductive TokensOf : List PathCmd → List String → Prop
  | nil : TokensOf [] []
  | cons {c : PathCmd} {toks : List String} {cs : List PathCmd} {rest : List String} :
      c.Tokens toks → TokensOf cs rest → TokensOf (c :: cs) (toks ++ rest)

/-- The command object that stands for a command of the grammar. -/
def PathCmd.toCommand : PathCmd → SVGCommand
  | PathCmd.M x y => SVGCommand.MCommand false x y
  | PathCmd.L x y => SVGCommand.LCommand true x y
  | PathCmd.l dx dy => SVGCommand.LCommand false dx dy
  | PathCmd.H x => SVGCommand.HCommand true x
  | PathCmd.h dx => SVGCommand.HCommand false dx
  | PathCmd.V y => SVGCommand.VCommand true y
  | PathCmd.v dy => SVGCommand.VCommand false dy
  | PathCmd.Z => SVGCommand.ZCommand

/-- The command object that `GetParsedSVG` makes for a command of the grammar: the one that
stands for it, except that `v dy` becomes an absolute `HCommand` with the argument `dy`. -/
def PathCmd.parsed : PathCmd → SVGCommand
  | PathCmd.v dy => SVGCommand.HCommand true dy
  | c => c.toCommand

/-! ## Fixtures and predicates for the parser -/

/-- A well-formed path string of exactly 128 characters, all of them ASCII. -/
def path128 : String :=
  "M 0 0 L 0 0 L 0 0 L 0 0 L 0 0 L 0 0 L 0 0 L 0 0 L 0 0 L 0 0 L 0 0 L 0 0 L 0 0 L 0 0 L 0 0 L 0 0 L 0 0 L 0 0 L 0 0 L 0 0 L 10 0 Z"

/-- A string of 65 characters of two bytes each (the letter e with an acute accent). -/
def accented65 : String := String.mk (List.replicate 65 (Char.ofNat 233))

/-- The token `letter` is a command letter and `args` are the tokens of its arguments, one of
which `strconv.Atoi` rejects: two tokens for `M`, `m`, `L`, `l`, one token for `H`, `h`, `V`,
`v`. -/
def BadArgs (letter : String) (args : List String) : Prop :=
  ((letter = "M" ∨ letter = "m" ∨ letter = "L" ∨ letter = "l") ∧
      ∃ t1 t2, args = [t1, t2] ∧ (Atoi t1 = none ∨ Atoi t2 = none)) ∨
    ((letter = "H" ∨ letter = "h" ∨ letter = "V" ∨ letter = "v") ∧
      ∃ t1, args = [t1] ∧ Atoi t1 = none)

/-! ## The decision of `ValidateOps` on one operation -/

/-- The operation passes the checks of `ValidateOps` against the chain `testchain`: its shape
rasterizes, and `checkInkAndConflicts` (for an ADD) or `checkDeletion` (for a DELETE) returns
`nil`. -/
def opAccepted (getShapeFromOp : Operation → ShapeOut) (cfg : Settings)
    (rangeShapes : List (String × OperationInfo) → List (String × OperationInfo))
    (testchain : List Block) (o : OperationInfo) : Prop :=
  (getShapeFromOp o.Op).err = none ∧
    if o.Op.OpType = OpType.ADD then
      checkInkAndConflicts getShapeFromOp cfg rangeShapes (getShapeFromOp o.Op).subarr
        (getShapeFromOp o.Op).cost o.PubKey testchain o.Op.SVGString o.OpSig = some none
    else checkDeletion o.AddSig o.PubKey testchain = none

instance (getShapeFromOp : Operation → ShapeOut) (cfg : Settings)
    (rangeShapes : List (String × OperationInfo) → List (String × OperationInfo))
    (testchain : List Block) (o : OperationInfo) :
    Decidable (opAccepted getShapeFromOp cfg rangeShapes testchain o) := by
  unfold opAccepted
  infer_instance

/-! ## utils/utils.go: circles -/

/-- The type `shapelib.Circle`. -/
structure Circle where
  C : Point
  R : Int
  Filled : Bool
  StrokeFilled : Bool
deriving DecidableEq, Repr

/-- The function `NewCircle`. -/
def NewCircle (xc yc radius : Int) (filled strokeFilled : Bool) : Circle :=
  { C := { X := xc, Y := yc, Moved := false }, R := radius, Filled := filled,
    StrokeFilled := strokeFilled }

/-- The zero value of `Circle`, returned together with an error. -/
def zeroCircle : Circle :=
  { C := { X := 0, Y := 0, Moved := false }, R := 0, Filled := false, StrokeFilled := false }

/-- The text after a literal at its start; `none` when the text does not start with it. -/
def afterLiteral : List Char → List Char → Option (List Char)
  | [], s => some s
  | _ :: _, [] => none
  | p :: ps, c :: cs => if p = c then afterLiteral ps cs else none

/-- The longest run of decimal digits at the start of a text (the greedy `\d+`), and the text
after it. -/
def takeDigits : List Char → List Char × List Char
  | [] => ([], [])
  | c :: cs =>
    if 48 ≤ c.toNat ∧ c.toNat ≤ 57 then ((c :: (takeDigits cs).1), (takeDigits cs).2)
    else ([], c :: cs)

/-- A match of the regular expression `circle x:(\d+) y:(\d+) r:(\d+)` at the start of a text:
the three groups. -/
def matchCircleAt (s : List Char) : Option (List Char × List Char × List Char) :=
  match afterLiteral "circle x:".data s with
  | none => none
  | some s1 =>
    if (takeDigits s1).1 = [] then none
    else
      match afterLiteral " y:".data (takeDigits s1).2 with
      | none => none
      | some s2 =>
        if (takeDigits s2).1 = [] then none
        else
          match afterLiteral " r:".data (takeDigits s2).2 with
          | none => none
          | some s3 =>
            if (takeDigits s3).1 = [] then none
            else some ((takeDigits s1).1, (takeDigits s2).1, (takeDigits s3).1)

/-- The call `re.FindStringSubmatch`: the groups of the leftmost match, `none` for `nil`. -/
def findCircle : List Char → Option (List Char × List Char × List Char)
  | [] => none
  | c :: cs =>
    match matchCircleAt (c :: cs) with
    | some m => some m
    | none => findCircle cs

/-- The call `strconv.ParseUint(s, 10, 64)`: `none` is an error (no digit, a character that is
no digit, or a value of `2^64` or more). -/
def ParseUint (s : List Char) : Option Nat :=
  if s = [] then none
  else
    match parseDigits s 0 with
    | none => none
    | some n => if n < 18446744073709551616 then some n else none

/-- The conversion `uint64(n)` of an `int`. -/
def toUint64 (n : Int) : Nat := (n % 18446744073709551616).toNat

/-- The function `GetParsedCirc`.  The values `x`, `y`, `r` are `uint64`: sums and differences
are taken modulo `2^64`, and the differences are compared with 0 as unsigned values. -/
def GetParsedCirc (op : Operation) (canvasX canvasY : Int) : Circle × Option MinerError :=
  if op.Fill = "transparent" ∧ op.Stroke = "transparent" then
    (zeroCircle, some (MinerError.InvalidShapeSvgStringError op.SVGString))
  else
    match findCircle op.SVGString.data with
    | none => (zeroCircle, some (MinerError.InvalidShapeSvgStringError op.SVGString))
    | some (m1, m2, m3) =>
      match ParseUint m1 with
      | none => (zeroCircle, some (MinerError.InvalidShapeSvgStringError op.SVGString))
      | some x =>
        match ParseUint m2 with
        | none => (zeroCircle, some (MinerError.InvalidShapeSvgStringError op.SVGString))
        | some y =>
          match ParseUint m3 with
          | none => (zeroCircle, some (MinerError.InvalidShapeSvgStringError op.SVGString))
          | some r =>
            if (x + r) % 18446744073709551616 > toUint64 canvasX ∨
                (y + r) % 18446744073709551616 > toUint64 canvasY ∨
                (x + 18446744073709551616 - r) % 18446744073709551616 < 0 ∨
                (y + 18446744073709551616 - r) % 18446744073709551616 < 0 then
              (zeroCircle, some MinerError.OutOfBoundsError)
            else
              (NewCircle (wrap64 (x : Int)) (wrap64 (y : Int)) (wrap64 (r : Int))
                (decide (op.Fill ≠ "transparent")) (decide (op.Stroke ≠ "transparent")), none)

/-- An ADD of the circle with centre (1,5) and radius 2, with a red stroke and no fill. -/
def circleOp : Operation :=
  { OpType := OpType.ADD, SVGString := "circle x:1 y:5 r:2", Fill := "transparent",
    Stroke := "red", OpNum := 0 }

/-! ## shapelib/shapes.go: the cost of a path -/

/-- The library function `bits.OnesCount8`: the number of bits set in a byte. -/
def OnesCount8 (b : Nat) : Nat := ((List.range 8).filter (fun i => b.testBit i)).length

/-- The inner loop of `PixelsFilled` over the columns `x` of one row; `none` is a panic. -/
def countRow (row : List Nat) : List Nat → Int → Option Int
  | [], sum => some sum
  | x :: xs, sum =>
    match row[x]? with
    | none => none
    | some b => countRow row xs (sum + (OnesCount8 b : Int))

/-- The outer loop of `PixelsFilled` over the rows in the order in which it visits them; `w` is
`len(a.bytes[0])`. -/
def countRows (w : Nat) : List (List Nat) → Int → Option Int
  | [], sum => some sum
  | row :: rows, sum =>
    match countRow row (List.range w) sum with
    | none => none
    | some sum1 => countRows w rows sum1

/-- The method `PixelSubArray.PixelsFilled`: the rows are visited from the last to the first,
in each row the columns below `len(a.bytes[0])`. -/
def PixelsFilled (a : PixelSubArray) : Option Int :=
  match a.bytes with
  | [] => some 0
  | row0 :: _ => countRows row0.length a.bytes.reverse 0

/-- The methods of `Path` that work with floating-point numbers: the rasterizer `SubArray` and
the measures `TotalLength`, `Area`, `AreaPlusPerim`.  They enter the model as parameters. -/
structure PathMeasures where
  SubArray : Path → PixelSubArray
  TotalLength : Path → Int
  Area : Path → Int
  AreaPlusPerim : Path → Int

/-- The loop of `SubArrayAndCost` that sets `hasMoved`: whether a point, the first included,
has `Moved`. -/
def hasMoved (points : List Point) : Bool := points.any (fun p => p.Moved)

/-- The method `Path.SubArrayAndCost`; `none` is a panic. -/
def SubArrayAndCost (m : PathMeasures) (p : Path) : Option (PixelSubArray × Int) :=
  let subarr := m.SubArray p
  if p.Filled = false then some (subarr, m.TotalLength p)
  else if hasMoved p.Points = true then
    match PixelsFilled subarr with
    | none => none
    | some n => some (subarr, n)
  else if p.StrokeFilled = true then some (subarr, m.AreaPlusPerim p)
  else some (subarr, m.Area p)

/-- A stand-in for the methods of `Path`: the sub-array is always the block of 5 by 5 pixels
with the corner (0,0), the area is 16. -/
def toyMeasures : PathMeasures :=
  { SubArray := fun _ =>
      { bytes := [[31], [31], [31], [31], [31]], xStartByte := 0, yStart := 0 },
    TotalLength := fun _ => 16, Area := fun _ => 16, AreaPlusPerim := fun _ => 32 }

/-! ## shapelib/pixelarray.go: `fillBetween` -/

/-- The conversion `uint8(n)` of an `int`. -/
def toUint8 (n : Int) : Nat := (n % 256).toNat

/-- The statement `a.bytes[yRow][xByte] |= v` on bytes; `none` is an index out of range. -/
def orByte (bytes : List (List Nat)) (yRow xByte : Int) (v : Nat) :
    Option (List (List Nat)) :=
  match getByteInt bytes yRow xByte with
  | none => none
  | some b => some (setByte bytes yRow.toNat xByte.toNat ((b ||| v) % 256))

/-- The statements `a.bytes[yRow][xByte] |= (1 << i)` for the values `i` of a loop, in order;
the shift is taken in a byte. -/
def orBits (yRow xByte : Int) : List Nat → List (List Nat) → Option (List (List Nat))
  | [], bytes => some bytes
  | i :: rest, bytes =>
    match orByte bytes yRow xByte ((1 <<< i) % 256) with
    | none => none
    | some bytes1 => orBits yRow xByte rest bytes1

/-- The statements `a.bytes[yRow][i] |= 0xFF` for the byte columns `i` of a loop, in order. -/
def orFull (yRow : Int) : List Int → List (List Nat) → Option (List (List Nat))
  | [], bytes => some bytes
  | i :: rest, bytes =>
    match orByte bytes yRow i 255 with
    | none => none
    | some bytes1 => orFull yRow rest bytes1

/-- The values of `i` in `for i := xBit; i < 8; i++`. -/
def leftBits (xBit : Nat) : List Nat := (List.range 8).filter (fun i => decide (xBit ≤ i))

/-- The values of `i` in `for i := xBit; i < 255; i--` on a `uint8`: from `xBit` down to 0,
after which `i` wraps to 255 and the loop ends; no value when `xBit` is 255. -/
def rightBits (xBit : Nat) : List Nat :=
  if xBit < 255 then (List.range (xBit + 1)).reverse else []

/-- The values of `i` in `for i := xByteL + 1; i < xByteR; i++`. -/
def betweenBytes (xByteL xByteR : Int) : List Int :=
  (List.range (xByteR - (xByteL + 1)).toNat).map (fun k => xByteL + 1 + (k : Int))

/-- The method `PixelSubArray.fillBetween`; `none` is a panic.  Division and remainder of
`int` truncate towards zero. -/
def fillBetween (a : PixelSubArray) (xl xr y : Int) : Option PixelSubArray :=
  let yRow := y - a.yStart
  let xByteL := xl.tdiv 8 - a.xStartByte
  let xByteR := xr.tdiv 8 - a.xStartByte
  match orBits yRow xByteL (leftBits (toUint8 (xl.tmod 8))) a.bytes with
  | none => none
  | some b1 =>
    match orBits yRow xByteR (rightBits (toUint8 (xr.tmod 8))) b1 with
    | none => none
    | some b2 =>
      match orFull yRow (betweenBytes xByteL xByteR) b2 with
      | none => none
      | some b3 => some { bytes := b3, xStartByte := a.xStartByte, yStart := a.yStart }

/-! ## miner/peer-rpc.go: `getShapeFromOp` -/

/-- The values of the interface `shapelib.Shape`: a `Path` or a `Circle`. -/
inductive Shape where
  | path (p : Path)
  | circle (c : Circle)
deriving DecidableEq, Repr

/-- The method `Miner.getShapeFromOp`: the shape and the error (`none` is `nil`); the outer
`none` is a panic.  Both bounds passed to `SVGToPoints` and `GetParsedCirc` are
`int(CanvasXMax)`. -/
def Miner.getShapeFromOp (cfg : Settings) (op : Operation) :
    Option (Shape × Option MinerError) :=
  let parsed := GetParsedSVG op.SVGString
  if parsed.2 = none then
    match SVGToPoints parsed.1 (cfg.CanvasXMax : Int) (cfg.CanvasXMax : Int)
        (decide (op.Fill ≠ "transparent")) (decide (op.Stroke ≠ "transparent")) with
    | none => none
    | some r => some (Shape.path r.1, r.2)
  else
    let circ := GetParsedCirc op (cfg.CanvasXMax : Int) (cfg.CanvasXMax : Int)
    if circ.2 ≠ none then some (Shape.circle circ.1, parsed.2)
    else some (Shape.circle circ.1, none)

/-- Settings with a canvas that is wider than high: maxima 10 and 5. -/
def wideCanvas : Settings :=
  { GenesisBlockHash := "g", PoWDifficultyOpBlock := 1, PoWDifficultyNoOpBlock := 1,
    InkPerOpBlock := 20, InkPerNoOpBlock := 10, CanvasXMax := 10, CanvasYMax := 5 }

/-- Settings with a canvas that is higher than wide: maxima 5 and 10. -/
def highCanvas : Settings :=
  { GenesisBlockHash := "g", PoWDifficultyOpBlock := 1, PoWDifficultyNoOpBlock := 1,
    InkPerOpBlock := 20, InkPerNoOpBlock := 10, CanvasXMax := 5, CanvasYMax := 10 }

/-- An ADD of a path with a red stroke and no fill. -/
def pathOp (svg : String) : Operation :=
  { OpType := OpType.ADD, SVGString := svg, Fill := "transparent", Stroke := "red",
    OpNum := 0 }

/-! ## shapelib/shapes.go: `Area` and `AreaPlusPerim`

A `float64` is modelled as a rational number and `math.Sqrt` is a parameter.  Sums, differences
and products of integers and halves below `2^53` are exact in `float64`, which is all the
theorems below evaluate. -/

/-- The conversion `int(f)` of a `float64`: truncation towards zero. -/
def floatToInt (f : ℚ) : Int := if 0 ≤ f then ⌊f⌋ else -⌊-f⌋

/-- The loop of `Path.Area` from the edge that starts at the first point of the list. -/
def areaLoop : List Point → ℚ → ℚ
  | p1 :: p2 :: rest, sum =>
    areaLoop (p2 :: rest) (sum + (1 / 2) * ((p1.X : ℚ) * p2.Y - p2.X * p1.Y))
  | _, sum => sum

/-- The method `Path.Area`. -/
def Path.Area (p : Path) : Int := floatToInt (|areaLoop p.Points 0| + 1 / 2)

/-- The loop of `Path.AreaPlusPerim` from the edge that starts at the first point of the list:
each edge adds its length and then its cross product to the same sum. -/
def areaPerimLoop (sqrt : ℚ → ℚ) : List Point → ℚ → ℚ
  | p1 :: p2 :: rest, sum =>
    areaPerimLoop sqrt (p2 :: rest)
      (sum + sqrt (((p2.X : ℚ) - p1.X) ^ 2 + ((p2.Y : ℚ) - p1.Y) ^ 2)
        + (1 / 2) * ((p1.X : ℚ) * p2.Y - p2.X * p1.Y))
  | _, sum => sum

/-- The method `Path.AreaPlusPerim`. -/
def Path.AreaPlusPerim (sqrt : ℚ → ℚ) (p : Path) : Int :=
  floatToInt (|areaPerimLoop sqrt p.Points 0| + 1 / 2)

/-- A filled and stroked path through the given vertices, the first one moved to. -/
def polygon (pts : List (Int × Int)) : Path :=
  { Points := pts.map (fun q => { X := q.1, Y := q.2, Moved := false }),
    Filled := true, StrokeFilled := true, XMin := 0, XMax := 10, YMin := 0, YMax := 10 }

/-- The square of side 10 with the vertices in the order (0,0), (0,10), (10,10), (10,0). -/
def squareA : Path := polygon [(0, 0), (0, 10), (10, 10), (10, 0), (0, 0)]

/-- The same square with the vertices in the reverse order. -/
def squareB : Path := polygon [(0, 0), (10, 0), (10, 10), (0, 10), (0, 0)]

/-- A stand-in for `math.Sqrt` that is right on 100 and on 0. -/
def sqrtStandIn (q : ℚ) : ℚ := if q = 100 then 10 else 0

/-- A stand-in for the rasterizer with one more shape than `toyShape`: `wide` is the pixels
(0,0) to (7,0) with cost 8. -/
def wideShape (op : Operation) : ShapeOut :=
  if op.SVGString = "wide" then
    { err := none, subarr := { bytes := [[255]], xStartByte := 0, yStart := 0 }, cost := 8 }
  else toyShape op

/-- A chain on which `k1` mined a block without operations and then a block in which it adds
the shape `s` (`dot0`). -/
def chainAddOnly : List Block :=
  [minedBlock "k1" [], minedBlock "k1" [signedAdd "k1" "s" "dot0"]]

/-! ## Merging several sub-arrays -/

/-- Every byte of the sub-array is below 256, as every value of the type `byte`. -/
def ByteSub (sub : PixelSubArray) : Prop := ∀ row ∈ sub.bytes, ∀ b ∈ row, b < 256

instance (sub : PixelSubArray) : Decidable (ByteSub sub) := by
  unfold ByteSub
  infer_instance

/-- The calls `MergeSubArray` with the sub-arrays of the list, in order, on the array `a`;
`none` is a panic. -/
def mergeAll : List PixelSubArray → List (List Nat) → Option (List (List Nat))
  | [], a => some a
  | s :: rest, a =>
    match MergeSubArray a s with
    | none => none
    | some a1 => mergeAll rest a1

/-! ## miner/ink-miner.go: the handler `Draw`

The handler waits on `BlockCond` at the start of every pass of its loop.  The model takes the
list of the store states that the handler finds, one for each time the wait returns; when the
list is used up the handler is still waiting (`none`).  All reads of one pass see the same
store state, and `order` gives the order in which `range PathMap` visits the entries of a
store.  The signature check of the request is the argument `verified`, the random signature of
the operation the argument `opSig`.  The assignment to `MinerInstance.InkAmt`, the sends on
the channels and the counter `count` do not reach the response and are left out. -/

/-- Modelled from the spec: the fields of `libminer.DrawResponse`, a type of a package that is
not among the sources, as `Draw` assigns them. -/
structure DrawResponse where
  ShapeHash : String
  BlockHash : String
  InkRemaining : Nat
deriving DecidableEq, Repr

/-- What the handler returns: `nil` with the response, an error of the validator, or the error
`invalid user`. -/
inductive DrawOutcome where
  | ok (response : DrawResponse)
  | failed (err : MinerError)
  | invalidUser
deriving DecidableEq, Repr

/-- The function `ValidateOperation`; the outer `none` is a panic, the inner `none` the error
`nil`. -/
def ValidateOperation (H : Block → String) (getShapeFromOp : Operation → ShapeOut)
    (cfg : Settings)
    (rangeShapes : List (String × OperationInfo) → List (String × OperationInfo))
    (s : Store) (order : List (String × LongestPathInfo)) (op : Operation)
    (pubKey opSig : String) : Option (Option MinerError) :=
  let shape := getShapeFromOp op
  match shape.err with
  | some e => some (some e)
  | none =>
    match GetLongestPath H cfg s order 1 cfg.GenesisBlockHash with
    | none => none
    | some (blocks, _) =>
      checkInkAndConflicts getShapeFromOp cfg rangeShapes shape.subarr shape.cost pubKey blocks
        op.SVGString opSig

/-- The loops of `GetBlockHashOfShapeHash` over the chain: the hash of the first block that
holds an operation with the signature, or the empty string. -/
def findShapeBlock (H : Block → String) (opSig : String) : List Block → String
  | [] => ""
  | block :: rest =>
    if block.OpHistory.any (fun op => decide (op.OpSig = opSig)) then H block
    else findShapeBlock H opSig rest

/-- The function `GetBlockHashOfShapeHash`. -/
def GetBlockHashOfShapeHash (H : Block → String) (cfg : Settings) (s : Store)
    (order : List (String × LongestPathInfo)) (opSig : String) : Option String :=
  match GetLongestPath H cfg s order 1 cfg.GenesisBlockHash with
  | none => none
  | some (blockchain, _) => some (findShapeBlock H opSig blockchain)

/-- The loop of `Draw` that counts `numBlocksFollowing`, on the chain from its last block to
its first. -/
def countFollowing (H : Block → String) (blockHash : String) : List Block → Nat
  | [] => 0
  | b :: rest => if H b = blockHash then 0 else countFollowing H blockHash rest + 1

/-- The loop of `Draw` together with the statements after it.  The argument `blockHash` is the
variable declared before the loop; the statement `blockHash := GetBlockHashOfShapeHash(...)`
in the body declares a new variable, `blockHash1` here. -/
def drawLoop (H : Block → String) (getShapeFromOp : Operation → ShapeOut) (cfg : Settings)
    (rangeShapes : List (String × OperationInfo) → List (String × OperationInfo))
    (order : Store → List (String × LongestPathInfo)) (op : Operation)
    (pubKeyString opSigStr : String) (validateNum : Nat) (blockHash : String) :
    List Store → Option DrawOutcome
  | [] => none
  | s :: rest =>
    match ValidateOperation H getShapeFromOp cfg rangeShapes s (order s) op pubKeyString
        opSigStr with
    | none => none
    | some none =>
      drawLoop H getShapeFromOp cfg rangeShapes order op pubKeyString opSigStr validateNum
        blockHash rest
    | some (some (MinerError.DuplicateError _)) =>
      match GetBlockHashOfShapeHash H cfg s (order s) opSigStr with
      | none => none
      | some blockHash1 =>
        if blockHash1 = "" then
          drawLoop H getShapeFromOp cfg rangeShapes order op pubKeyString opSigStr validateNum
            blockHash rest
        else
          match GetLongestPath H cfg s (order s) 1 cfg.GenesisBlockHash with
          | none => none
          | some (chain, _) =>
            let numBlocksFollowing := countFollowing H blockHash1 chain.reverse
            if numBlocksFollowing ≥ validateNum then
              match CalculateInk H getShapeFromOp cfg s (order s) pubKeyString with
              | none => none
              | some ink =>
                some (DrawOutcome.ok
                  { InkRemaining := ink % 4294967296, ShapeHash := opSigStr,
                    BlockHash := blockHash })
            else
              drawLoop H getShapeFromOp cfg rangeShapes order op pubKeyString opSigStr
                validateNum blockHash rest
    | some (some err) => some (DrawOutcome.failed err)

/-- The handler `LibMinerInterface.Draw` for a request with the given fields; `none` is a
handler that has not returned, or a panic. -/
def Draw (H : Block → String) (getShapeFromOp : Operation → ShapeOut) (cfg : Settings)
    (rangeShapes : List (String × OperationInfo) → List (String × OperationInfo))
    (order : Store → List (String × LongestPathInfo)) (verified : Bool)
    (svgString fill stroke : String) (opNum : Nat) (pubKeyString opSigStr : String)
    (validateNum : Nat) (stores : List Store) : Option DrawOutcome :=
  if verified then
    let op : Operation :=
      { OpType := OpType.ADD, SVGString := svgString, Fill := fill, Stroke := stroke,
        OpNum := opNum }
    let blockHash := ""
    drawLoop H getShapeFromOp cfg rangeShapes order op pubKeyString opSigStr validateNum
      blockHash stores
  else some DrawOutcome.invalidUser

/-- A block on the genesis block, mined by `k1`, with the shape `s` (`dot0`) of `k1`; its hash
under `toyHash` is `gk110`. -/
def blockWithShape : Block :=
  { PrevHash := "g", OpHistory := [signedAdd "k1" "s" "dot0"], MinerPubKey := "k1", Nonce := 0 }

/-! ## miner/ink-miner.go: the cached paths as slices

The definitions of the block store above take the value of a field `Path` for a list.  In the
program it is a slice, a window on a backing array.  `append` writes the new element into the
backing array when the array has room after the end of the slice, and every slice on the same
array sees that write; otherwise it copies the slice into a new, larger array.  This section
models `InsertBlock` with the backing arrays kept in a heap.  The indices, the keys and the
lengths are as above; the blocks that a cached path holds are read from the heap. -/

/-- A value of type `[]blockchain.Block`: the position of its backing array in the heap and its
length.  Every slice of the block store starts at the first element of its array, and its
capacity is the length of the array. -/
structure BlockSlice where
  arr : Nat
  len : Nat
deriving DecidableEq, Repr

/-- The type `LongestPathInfo`, with the field `Path` as a slice. -/
structure SlicePathInfo where
  Len : Int
  Path : BlockSlice
deriving DecidableEq, Repr

/-- The global variables of the block store together with the backing arrays of the slices of
`PathMap`.  A slot of a backing array that was never written holds the zero value `Block{}`. -/
structure SliceStore where
  BlockNodeArray : List BlockNode
  BlockHashMap : List (String × Nat)
  ParentHashMap : List (String × List Nat)
  PathMap : List (String × SlicePathInfo)
  Heap : List (List Block)
deriving DecidableEq, Repr

/-- The blocks that a slice holds. -/
def readSlice (heap : List (List Block)) (s : BlockSlice) : List Block :=
  ((heap[s.arr]?).getD []).take s.len

/-- The store as a reader sees it: every cached path with the blocks its slice holds. -/
def SliceStore.view (s : SliceStore) : Store :=
  { BlockNodeArray := s.BlockNodeArray, BlockHashMap := s.BlockHashMap,
    ParentHashMap := s.ParentHashMap,
    PathMap := s.PathMap.map
      (fun e => (e.1, { Len := e.2.Len, Path := readSlice s.Heap e.2.Path })) }

/-- The store with `BlockNodeArray`, `BlockHashMap` and `ParentHashMap` taken from `t`. -/
def SliceStore.withIndex (s : SliceStore) (t : Store) : SliceStore :=
  { s with BlockNodeArray := t.BlockNodeArray, BlockHashMap := t.BlockHashMap,
           ParentHashMap := t.ParentHashMap }

/-- The composite literal `[]blockchain.Block{b}`: a slice of length 1 on a new array of
capacity 1. -/
def literalSlice (heap : List (List Block)) (b : Block) : List (List Block) × BlockSlice :=
  (heap ++ [[b]], { arr := heap.length, len := 1 })

/-- The capacity that the Go runtime gives the new array when `append` adds one element to a
slice whose array of capacity `cap` is full: 1 for an empty array, the double for the small
capacities that occur here. -/
def growCap (cap : Nat) : Nat := if cap = 0 then 1 else 2 * cap

/-- The built-in `append(s, b)`: when the backing array has room after the end of `s` the
block is written there, in place; otherwise the blocks of `s` and `b` go to a new array. -/
def appendSlice (heap : List (List Block)) (s : BlockSlice) (b : Block) :
    List (List Block) × BlockSlice :=
  let a := (heap[s.arr]?).getD []
  if s.len < a.length then
    (heap.set s.arr (a.set s.len b), { arr := s.arr, len := s.len + 1 })
  else
    (heap ++ [a.take s.len ++ [b] ++
        List.replicate (growCap a.length - (s.len + 1)) dummyGenesisBlock],
      { arr := heap.length, len := s.len + 1 })

/-- The initialisation of the store in `Mine`, with the path of the genesis hash as the slice
`[]blockchain.Block{dummyGenesisBlock}`. -/
def initSliceStore (H : Block → String) (cfg : Settings) : SliceStore :=
  let t := initStore H cfg
  { BlockNodeArray := t.BlockNodeArray, BlockHashMap := t.BlockHashMap,
    ParentHashMap := t.ParentHashMap,
    PathMap := mapSet [] cfg.GenesisBlockHash { Len := 1, Path := { arr := 0, len := 1 } },
    Heap := [[dummyGenesisBlock]] }

/-- The second part of `InsertBlock` on slices: the entry of the new block in `PathMap`.
`newPathInfo` is the variable declared at the start of the function. -/
def insertPathShared (H : Block → String) (s : SliceStore) (newPathInfo : SlicePathInfo)
    (newBlock : Block) : SliceStore :=
  let newBlockHash := H newBlock
  match mapGet s.PathMap newBlock.PrevHash with
  | some existingPath =>
    let r := appendSlice s.Heap existingPath.Path newBlock
    let newPathInfo1 : SlicePathInfo := { Len := existingPath.Len + 1, Path := r.2 }
    { s with Heap := r.1, PathMap := mapSet s.PathMap newBlockHash newPathInfo1 }
  | none => { s with PathMap := mapSet s.PathMap newBlockHash newPathInfo }

/-- The loop of `InsertBlock` over the orphaned children of the new block, on slices. -/
def adoptOrphansShared (H : Block → String) (newPathInfo : SlicePathInfo) :
    List Nat → SliceStore → Option SliceStore
  | [], s => some s
  | existingChildIndex :: rest, s =>
    match s.BlockNodeArray[existingChildIndex]? with
    | none => none
    | some node =>
      let existingChildBlock := node.Block
      let existingChildHash := H existingChildBlock
      let r := appendSlice s.Heap newPathInfo.Path existingChildBlock
      let childPathInfo : SlicePathInfo := { Len := newPathInfo.Len + 1, Path := r.2 }
      adoptOrphansShared H newPathInfo rest
        { s with Heap := r.1, PathMap := mapSet s.PathMap existingChildHash childPathInfo }

/-- The function `InsertBlock` on slices.  The parts that write `BlockNodeArray`,
`BlockHashMap` and `ParentHashMap` are `insertNode` and `linkParent`. -/
def InsertBlockShared (H : Block → String) (cfg : Settings) (s : SliceStore)
    (newBlock : Block) : Option (SliceStore × Bool) :=
  let newBlockHash := H newBlock
  match ReadBlockChainMap s.view newBlockHash with
  | some _ => some (s, false)
  | none =>
    match VerifyBlock H cfg newBlock with
    | none => none
    | some false => some (s, false)
    | some true =>
      let lit := literalSlice s.Heap newBlock
      let newPathInfo : SlicePathInfo := { Len := 1, Path := lit.2 }
      let s1 : SliceStore := { s with Heap := lit.1 }
      let r := insertNode H s1.view newBlock
      let s2 := insertPathShared H (s1.withIndex r.1) newPathInfo newBlock
      let orphans := ReadParentMap s2.view (H newBlock)
      match (if orphans.2 then adoptOrphansShared H newPathInfo orphans.1 s2 else some s2) with
      | none => none
      | some s3 =>
        match linkParent s3.view newBlock r.2 with
        | none => none
        | some t => some (s3.withIndex t, true)

/-- A sequence of calls of `InsertBlock` on slices, one for each block of the list. -/
def insertAllShared (H : Block → String) (cfg : Settings) :
    List Block → SliceStore → Option SliceStore
  | [], s => some s
  | b :: bs, s =>
    match InsertBlockShared H cfg s b with
    | none => none
    | some r => insertAllShared H cfg bs r.1

/-- The store on slices after the blocks of the list are inserted, in order, into the initial
store. -/
def sliceStoreAfter (bs : List Block) : SliceStore :=
  (insertAllShared toyHash toySettings bs (initSliceStore toyHash toySettings)).getD
    (initSliceStore toyHash toySettings)

/-- A child of `blockC`; its hash is `gb10c10d10`. -/
def blockD : Block := toyBlock "gb10c10" "d"

/-- Another child of `blockC`; its hash is `gb10c10e10`. -/
def blockE : Block := toyBlock "gb10c10" "e"

/-- A child of `blockD`; its hash is `gb10c10d10f10`. -/
def blockF : Block := toyBlock "gb10c10d10" "f"

/-! ## shapelib: the sub-array of a circle -/

/-- The function `NewPixelSubArray`: `yEnd - yStart + 1` rows of zero bytes that start at the
byte column `xStart / 8`; `make` panics on a negative size. -/
def NewPixelSubArray (xStart xEnd yStart yEnd : Int) : Option PixelSubArray :=
  let xStartByte := xStart.tdiv 8
  let xSizeByte := maxByte (xEnd + 1) - xStartByte
  let ySize := yEnd - yStart + 1
  if ySize < 0 then none
  else if 0 < ySize ∧ xSizeByte < 0 then none
  else
    some { bytes := List.replicate ySize.toNat (List.replicate xSizeByte.toNat 0),
           xStartByte := xStartByte, yStart := yStart }

/-- A stand-in for the rasterizer on circles.  For an operation that `getShapeFromOp` reads as
a circle it gives the sub-array that the first statement of `Circle.SubArray` allocates,
`NewPixelSubArray` on the bounding box of the circle, and the given cost; the pixels of the
circle and its cost are computed with floating-point numbers and are left out.  Every other
operation is rejected. -/
def circleBoxShape (cfg : Settings) (cost : Int) (op : Operation) : ShapeOut :=
  match Miner.getShapeFromOp cfg op with
  | some (Shape.circle c, none) =>
    match NewPixelSubArray (c.C.X - c.R) (c.C.X + c.R) (c.C.Y - c.R) (c.C.Y + c.R) with
    | some sub => { err := none, subarr := sub, cost := cost }
    | none =>
      { err := some (MinerError.InvalidShapeSvgStringError op.SVGString),
        subarr := { bytes := [[0]], xStartByte := 0, yStart := 0 }, cost := 0 }
  | _ =>
    { err := some (MinerError.InvalidShapeSvgStringError op.SVGString),
      subarr := { bytes := [[0]], xStartByte := 0, yStart := 0 }, cost := 0 }

/-- An ADD by `k1`, with signature `c`, of the circle with centre (5,1) and radius 2, with a
red stroke and no fill: it reaches from y = -1 to y = 3. -/
def lowCircle : OperationInfo :=
  { AddSig := "", OpSig := "c", PubKey := "k1",
    Op := { OpType := OpType.ADD, SVGString := "circle x:5 y:1 r:2", Fill := "transparent",
            Stroke := "red", OpNum := 0 } }

/-- A chain of two blocks without operations, both mined by `k1`. -/
def chainTwoEmpty : List Block := [minedBlock "k1" [], minedBlock "k1" []]

/-- What the store with lists and the store with slices have in common of a cached path: the
field `Len` and the length of the path. -/
def pathShape (e : LongestPathInfo) : Int × Nat := (e.Len, e.Path.length)

/-- The field `Len` and the length of the slice of a cached path. -/
def sliceShape (e : SlicePathInfo) : Int × Nat := (e.Len, e.Path.len)

/-- The store with slices and the store with lists agree on `BlockNodeArray`, `BlockHashMap`
and `ParentHashMap`, and `PathMap` has the same keys in both, with the same `Len` and the same
length of the path under every key. -/
def SameIndex (s : SliceStore) (t : Store) : Prop :=
  s.BlockNodeArray = t.BlockNodeArray ∧ s.BlockHashMap = t.BlockHashMap ∧
    s.ParentHashMap = t.ParentHashMap ∧
    s.PathMap.map (fun e => (e.1, sliceShape e.2)) =
      t.PathMap.map (fun e => (e.1, pathShape e.2))

instance (s : SliceStore) (t : Store) : Decidable (SameIndex s t) := by
  unfold SameIndex
  infer_instance

/-- Every slice of `PathMap` lies within its backing array. -/
def SlicesOK (s : SliceStore) : Prop :=
  ∀ e ∈ s.PathMap, e.2.Path.len ≤ ((s.Heap[e.2.Path.arr]?).getD []).length

instance (s : SliceStore) : Decidable (SlicesOK s) := by
  unfold SlicesOK
  infer_instance

/-! # Theorems -/

/-! ### Theorems about `Verify` -/

theorem countZero_eq_length_iff (l : List Char) :
    countZero l = (l.length : Int) ↔ ∀ c ∈ l, c = '0' := by
  unfold countZero
  rw [Nat.cast_inj, List.count_eq_length]
  constructor
  · intro h c hc; exact (h c hc).symm
  · intro h c hc; exact (h c hc).symm

theorem drop_pred_eq_cons (l : List Char) (k : Nat) (hk : k < l.length) :
    ∃ a, l.get? k = some a ∧ l.drop k = a :: l.drop (k + 1) := by
  refine ⟨l.get ⟨k, hk⟩, List.get?_eq_get hk, ?_⟩
  exact (List.drop_eq_getElem_cons hk)

/-- Behaviour of `Verify` in the range where no slice expression panics. -/
theorem Verify_of_lt (hash : String) (n : Nat) (hn : n < hash.length) :
    Verify hash (n : Int) = some (decide (ExactTrailingZeros hash n)) := by
  have hlen : hash.data.length = hash.length := rfl
  have e1 : ((hash.length : Int) - (n : Int)).toNat = hash.length - n := by omega
  have e2 : ((hash.length : Int) - (n : Int) - 1).toNat = hash.length - n - 1 := by omega
  have hdl : (hash.data.drop (hash.length - n)).length = n := by
    rw [List.length_drop, hlen]; omega
  obtain ⟨a, ha, hcons⟩ := drop_pred_eq_cons hash.data (hash.length - n - 1)
    (by rw [hlen]; omega)
  have hsucc : hash.length - n - 1 + 1 = hash.length - n := by omega
  rw [hsucc] at hcons
  unfold Verify
  simp only [e1, e2]
  rw [if_neg (by omega)]
  by_cases hall : ∀ c ∈ hash.data.drop (hash.length - n), c = '0'
  · have hc : countZero (hash.data.drop (hash.length - n)) = (n : Int) := by
      have := (countZero_eq_length_iff _).2 hall
      rw [hdl] at this; exact this
    rw [if_neg (by rw [hc]; simp), if_neg (by omega)]
    have hcnt : countZero (hash.data.drop (hash.length - n - 1))
        = (n : Int) + (if a = '0' then 1 else 0) := by
      rw [hcons]
      unfold countZero at hc ⊢
      rw [List.count_cons]
      have hc2 : List.count '0' (hash.data.drop (hash.length - n)) = n := by exact_mod_cast hc
      rw [hc2]
      by_cases h : a = '0'
      · simp [h]
      · have h2 : ¬ (a == '0') = true := by simpa using h
        simp [h, h2]
    refine congrArg some (decide_eq_decide.2 ?_)
    rw [hcnt]
    unfold ExactTrailingZeros
    constructor
    · intro h
      refine ⟨hall, ?_⟩
      rw [ha]
      intro h2
      have h3 : a = '0' := Option.some.inj h2
      rw [if_pos h3] at h
      omega
    · intro h
      have h3 : a ≠ '0' := by
        intro h4; apply h.2; rw [ha, h4]
      rw [if_neg h3]; omega
  · have hc : countZero (hash.data.drop (hash.length - n)) ≠ (n : Int) := by
      intro hc
      apply hall
      apply (countZero_eq_length_iff _).1
      rw [hdl]; exact hc
    rw [if_pos hc]
    refine congrArg some ?_
    symm
    rw [decide_eq_false_iff_not]
    intro h; exact hall h.1

theorem length_pos_of_ne_empty (hash : String) (hne : hash ≠ "") : 0 < hash.length := by
  rcases hash with ⟨l⟩
  cases l with
  | nil => exact absurd rfl hne
  | cons a t => simp [String.length]

/-- Claim C1.  For every hash and every difficulty `N` with `0 ≤ N < len(hash)`, `Verify`
does not panic and answers true exactly when the hash has exactly `N` trailing zero digits:
the last `N` characters are all zero digits and the character before them is not. -/
theorem Verify_eq_exactTrailingZeros (hash : String) (N : Int)
    (h0 : 0 ≤ N) (hN : N < (hash.length : Int)) :
    Verify hash N = some (decide (ExactTrailingZeros hash N.toNat)) := by
  obtain ⟨n, rfl⟩ := Int.eq_ofNat_of_zero_le h0
  have hn : n < hash.length := by exact_mod_cast hN
  simpa using Verify_of_lt hash n hn

/-- A concrete instance of claim C1: `ab00` has exactly two trailing zeros. -/
theorem Verify_eq_exactTrailingZeros_witness :
    (0 : Int) ≤ 2 ∧ (2 : Int) < (("ab00" : String).length : Int) ∧
      Verify "ab00" 2 = some (decide (ExactTrailingZeros "ab00" (2 : Int).toNat)) :=
  ⟨by decide, by decide, Verify_eq_exactTrailingZeros "ab00" 2 (by decide) (by decide)⟩

/-- Claim C2, counterexample.  The one-character hash `0` is non-empty and is rejected at
difficulty 0. -/
theorem Verify_zero_rejects : ("0" : String) ≠ "" ∧ Verify "0" 0 = some false := by
  decide

/-- Claim C2, amended.  For every non-empty hash, `Verify hash 0` does not panic and is true
exactly when the last character of the hash is not a zero digit. -/
theorem Verify_zero_iff (hash : String) (hne : hash ≠ "") :
    Verify hash 0 = some (decide (hash.data.getLast? ≠ some '0')) := by
  have hpos : 0 < hash.length := length_pos_of_ne_empty hash hne
  have h := Verify_of_lt hash 0 hpos
  rw [Nat.cast_zero] at h
  rw [h]
  refine congrArg some (decide_eq_decide.2 ?_)
  unfold ExactTrailingZeros
  have hlen : hash.data.length = hash.length := rfl
  have hl : hash.data.getLast? = hash.data.get? (hash.length - 0 - 1) := by
    rw [List.getLast?_eq_getElem?, ← hlen]
    simp
  rw [hl, Nat.sub_zero, ← hlen, List.drop_length]
  simp

/-- A concrete instance of the amended claim C2. -/
theorem Verify_zero_iff_witness :
    ("a1" : String) ≠ "" ∧
      Verify "a1" 0 = some (decide (("a1" : String).data.getLast? ≠ some '0')) :=
  ⟨by decide, Verify_zero_iff "a1" (by decide)⟩

/-! ### Go maps as association lists -/

theorem mapGet_mapSet_self {V : Type} (m : List (String × V)) (k : String) (v : V) :
    mapGet (mapSet m k v) k = some v := by
  induction m with
  | nil => simp [mapSet, mapGet]
  | cons x m ih =>
    obtain ⟨k1, v1⟩ := x
    by_cases h : k1 = k
    · simp [mapSet, mapGet, h]
    · simp [mapSet, mapGet, h, ih]

theorem mapGet_mapSet_of_ne {V : Type} (m : List (String × V)) (k k2 : String) (v : V)
    (h : k2 ≠ k) : mapGet (mapSet m k v) k2 = mapGet m k2 := by
  induction m with
  | nil => simp [mapSet, mapGet, Ne.symm h]
  | cons x m ih =>
    obtain ⟨k1, v1⟩ := x
    by_cases h1 : k1 = k
    · subst h1; simp [mapSet, mapGet, Ne.symm h]
    · by_cases h2 : k1 = k2
      · subst h2; simp [mapSet, mapGet, h1]
      · simp [mapSet, mapGet, h1, h2, ih]

theorem mapGet_mapSet {V : Type} (m : List (String × V)) (k k2 : String) (v : V) :
    mapGet (mapSet m k v) k2 = if k2 = k then some v else mapGet m k2 := by
  by_cases h : k2 = k
  · subst h; simp [mapGet_mapSet_self]
  · simp [h, mapGet_mapSet_of_ne]

theorem mem_mapSet {V : Type} (m : List (String × V)) (k : String) (v : V) (x : String × V)
    (hx : x ∈ mapSet m k v) : x = (k, v) ∨ x ∈ m := by
  induction m with
  | nil => simpa [mapSet] using hx
  | cons y m ih =>
    obtain ⟨k1, v1⟩ := y
    by_cases h : k1 = k
    · simp only [mapSet, h, if_true, List.mem_cons] at hx
      rcases hx with hx | hx
      · exact Or.inl hx
      · exact Or.inr (List.mem_cons_of_mem _ hx)
    · simp only [mapSet, h, if_false, List.mem_cons] at hx
      rcases hx with hx | hx
      · exact Or.inr (by rw [hx]; exact List.mem_cons_self _ _)
      · rcases ih hx with h1 | h1
        · exact Or.inl h1
        · exact Or.inr (List.mem_cons_of_mem _ h1)

theorem keys_mapSet_nodup {V : Type} (m : List (String × V)) (k : String) (v : V)
    (hm : (m.map Prod.fst).Nodup) : ((mapSet m k v).map Prod.fst).Nodup := by
  induction m with
  | nil => simp [mapSet]
  | cons y m ih =>
    obtain ⟨k1, v1⟩ := y
    rw [List.map_cons, List.nodup_cons] at hm
    by_cases h : k1 = k
    · simp only [mapSet, h, if_true, List.map_cons, List.nodup_cons]
      subst h
      exact hm
    · simp only [mapSet, h, if_false, List.map_cons, List.nodup_cons]
      refine ⟨?_, ih hm.2⟩
      intro hk
      rw [List.mem_map] at hk
      obtain ⟨x, hx, hx1⟩ := hk
      rcases mem_mapSet m k v x hx with h1 | h1
      · rw [h1] at hx1; exact h hx1.symm
      · exact hm.1 (List.mem_map.2 ⟨x, h1, hx1⟩)

theorem mem_of_mapGet {V : Type} (m : List (String × V)) (k : String) (v : V)
    (h : mapGet m k = some v) : (k, v) ∈ m := by
  induction m with
  | nil => simp [mapGet] at h
  | cons y m ih =>
    obtain ⟨k1, v1⟩ := y
    by_cases h1 : k1 = k
    · simp only [mapGet, h1, if_true, Option.some.injEq] at h
      rw [h1, h]; exact List.mem_cons_self _ _
    · simp only [mapGet, h1, if_false] at h
      exact List.mem_cons_of_mem _ (ih h)

theorem mapGet_of_mem {V : Type} (m : List (String × V)) (k : String) (v : V)
    (hm : (m.map Prod.fst).Nodup) (h : (k, v) ∈ m) : mapGet m k = some v := by
  induction m with
  | nil => simp at h
  | cons y m ih =>
    obtain ⟨k1, v1⟩ := y
    rw [List.map_cons, List.nodup_cons] at hm
    rcases List.mem_cons.1 h with h1 | h1
    · injection h1 with h2 h3
      simp [mapGet, h2, h3]
    · have hne : k1 ≠ k := by
        intro he
        apply hm.1
        rw [he]
        exact List.mem_map.2 ⟨(k, v), h1, rfl⟩
      simp only [mapGet, hne, if_false]
      exact ih hm.2 h1

/-! ### The effect of one `InsertBlock`: proofs -/

theorem ReadParentMap_fst (s : Store) (k : String) :
    (ReadParentMap s k).1 = (mapGet s.ParentHashMap k).getD [] := by
  unfold ReadParentMap
  cases mapGet s.ParentHashMap k <;> rfl

theorem adoptOrphans_effect (H : Block → String) (np : LongestPathInfo) :
    ∀ (l : List Nat) (s s1 : Store), adoptOrphans H np l s = some s1 →
      s1.BlockNodeArray = s.BlockNodeArray ∧ s1.BlockHashMap = s.BlockHashMap ∧
      s1.ParentHashMap = s.ParentHashMap ∧
      ∃ ws, s1.PathMap = applyWrites s.PathMap ws ∧
        ∀ w ∈ ws, ∃ idx node, idx ∈ l ∧ s.BlockNodeArray[idx]? = some node ∧
          w = (H node.Block, { Len := np.Len + 1, Path := np.Path ++ [node.Block] }) := by
  intro l
  induction l with
  | nil =>
    intro s s1 h
    simp only [adoptOrphans, Option.some.injEq] at h
    subst h
    exact ⟨rfl, rfl, rfl, [], rfl, by simp⟩
  | cons idx rest ih =>
    intro s s1 h
    unfold adoptOrphans at h
    cases hnode : s.BlockNodeArray[idx]? with
    | none => rw [hnode] at h; simp at h
    | some node =>
      rw [hnode] at h
      simp only at h
      obtain ⟨h1, h2, h3, ws, h4, h5⟩ := ih _ _ h
      refine ⟨h1, h2, h3,
        (H node.Block, { Len := np.Len + 1, Path := np.Path ++ [node.Block] }) :: ws, ?_, ?_⟩
      · rw [h4]; rfl
      · intro w hw
        rcases List.mem_cons.1 hw with hw | hw
        · exact ⟨idx, node, List.mem_cons_self _ _, hnode, hw⟩
        · obtain ⟨i, nd, hi, hnd, hw2⟩ := h5 w hw
          exact ⟨i, nd, List.mem_cons_of_mem _ hi, hnd, hw2⟩

theorem InsertBlock_false (H : Block → String) (cfg : Settings) (s s1 : Store) (b : Block)
    (h : InsertBlock H cfg s b = some (s1, false)) : s1 = s := by
  unfold InsertBlock at h
  simp only at h
  split at h
  · simp only [Option.some.injEq, Prod.mk.injEq, and_true] at h; exact h.symm
  · split at h
    · simp at h
    · simp only [Option.some.injEq, Prod.mk.injEq, and_true] at h; exact h.symm
    · split at h
      · simp at h
      · split at h <;> simp at h

theorem InsertBlock_true (H : Block → String) (cfg : Settings) (s s1 : Store) (b : Block)
    (h : InsertBlock H cfg s b = some (s1, true)) : InsertEffect H cfg s s1 b := by
  unfold InsertBlock at h
  simp only at h
  split at h
  · simp at h
  · rename_i hfresh
    split at h
    · simp at h
    · simp at h
    · rename_i hver
      have hfresh1 : mapGet s.BlockHashMap (H b) = none := hfresh
      have hnode : insertNode H s b =
          ({ BlockNodeArray := baseArray H s b,
             BlockHashMap := mapSet s.BlockHashMap (H b) s.BlockNodeArray.length,
             ParentHashMap := s.ParentHashMap, PathMap := s.PathMap },
            s.BlockNodeArray.length) := by
        simp only [insertNode, WriteBlockNodeArray, hfresh, WriteBlockChainMap,
          ReadParentMap_fst, baseArray]
      have hpath : insertPath H (insertNode H s b).1 b =
          { BlockNodeArray := baseArray H s b,
            BlockHashMap := mapSet s.BlockHashMap (H b) s.BlockNodeArray.length,
            ParentHashMap := s.ParentHashMap,
            PathMap := mapSet s.PathMap (H b) (newEntry s b) } := by
        rw [hnode]
        unfold insertPath newEntry
        simp only
        cases mapGet s.PathMap b.PrevHash <;> rfl
      rw [hpath, hnode] at h
      split at h
      · simp at h
      · rename_i s3 hs3
        split at h
        · simp at h
        · rename_i s4 hs4
          simp only [Option.some.injEq, Prod.mk.injEq, and_true] at h
          subst h
          have h3 : s3.BlockNodeArray = baseArray H s b ∧
              s3.BlockHashMap = mapSet s.BlockHashMap (H b) s.BlockNodeArray.length ∧
              s3.ParentHashMap = s.ParentHashMap ∧
              ∃ ws, s3.PathMap = applyWrites (mapSet s.PathMap (H b) (newEntry s b)) ws ∧
                ∀ w ∈ ws, ∃ idx node, idx ∈ (mapGet s.ParentHashMap (H b)).getD [] ∧
                  (baseArray H s b)[idx]? = some node ∧
                  w = (H node.Block, { Len := 2, Path := [b, node.Block] }) := by
            split at hs3
            · obtain ⟨a1, a2, a3, ws, a4, a5⟩ := adoptOrphans_effect H _ _ _ _ hs3
              refine ⟨a1, a2, a3, ws, a4, ?_⟩
              intro w hw
              obtain ⟨idx, node, hi, hn, hw2⟩ := a5 w hw
              rw [ReadParentMap_fst] at hi
              exact ⟨idx, node, hi, hn, hw2⟩
            · simp only [Option.some.injEq] at hs3
              subst hs3
              exact ⟨rfl, rfl, rfl, [], rfl, by simp⟩
          obtain ⟨a1, a2, a3, a4⟩ := h3
          unfold linkParent ReadBlockChainMap at hs4
          split at hs4
          · rename_i p hp
            split at hs4
            · simp at hs4
            · rename_i pn hpn
              simp only [Option.some.injEq] at hs4
              subst hs4
              refine ⟨hfresh1, hver, a2, Or.inl ⟨p, pn, ?_, ?_, ?_, a3⟩, a4⟩
              · exact hp
              · rw [← a1]; exact hpn
              · simp only [a1]
          · rename_i hp
            simp only [Option.some.injEq] at hs4
            subst hs4
            refine ⟨hfresh1, hver, a2, Or.inr ⟨hp, a1, ?_⟩, a4⟩
            simp only [a3]

/-! ### Reachable stores and the array of nodes -/

theorem Reachable_insertAll (H : Block → String) (cfg : Settings) :
    ∀ (bs : List Block) (s s1 : Store), Reachable H cfg s → insertAll H cfg bs s = some s1 →
      Reachable H cfg s1 := by
  intro bs
  induction bs with
  | nil =>
    intro s s1 hs h
    simp only [insertAll, Option.some.injEq] at h
    subst h; exact hs
  | cons b bs ih =>
    intro s s1 hs h
    unfold insertAll at h
    cases hr : InsertBlock H cfg s b with
    | none => rw [hr] at h; simp at h
    | some r =>
      rw [hr] at h
      obtain ⟨s2, ok⟩ := r
      exact ih s2 s1 (Reachable.insert hs hr) h

theorem baseArray_length (H : Block → String) (s : Store) (b : Block) :
    (baseArray H s b).length = s.BlockNodeArray.length + 1 := by
  simp [baseArray]

theorem baseArray_get_lt (H : Block → String) (s : Store) (b : Block) (j : Nat)
    (hj : j < s.BlockNodeArray.length) : (baseArray H s b)[j]? = s.BlockNodeArray[j]? := by
  unfold baseArray
  exact List.getElem?_append_left hj

theorem baseArray_get_length (H : Block → String) (s : Store) (b : Block) :
    (baseArray H s b)[s.BlockNodeArray.length]? =
      some { Block := b, Children := (mapGet s.ParentHashMap (H b)).getD [] } := by
  unfold baseArray
  exact List.getElem?_concat_length _ _

theorem baseArray_get_some (H : Block → String) (s : Store) (b : Block) (j : Nat)
    (nd : BlockNode) (h : (baseArray H s b)[j]? = some nd) :
    (j < s.BlockNodeArray.length ∧ s.BlockNodeArray[j]? = some nd) ∨
      (j = s.BlockNodeArray.length ∧
        nd = { Block := b, Children := (mapGet s.ParentHashMap (H b)).getD [] }) := by
  have hlt : j < (baseArray H s b).length := by
    obtain ⟨h1, _⟩ := List.getElem?_eq_some.1 h
    exact h1
  rw [baseArray_length] at hlt
  by_cases hj : j < s.BlockNodeArray.length
  · left
    rw [baseArray_get_lt H s b j hj] at h
    exact ⟨hj, h⟩
  · right
    have hj2 : j = s.BlockNodeArray.length := by omega
    subst hj2
    rw [baseArray_get_length] at h
    exact ⟨rfl, (Option.some.inj h).symm⟩

/-- The node at a position after a successful insert: the node of the base array, with the
new index appended to its children when it is the parent of the new block. -/
theorem InsertEffect.arr_get {H : Block → String} {cfg : Settings} {s s1 : Store} {b : Block}
    (e : InsertEffect H cfg s s1 b) (j : Nat) :
    s1.BlockNodeArray[j]? = ((baseArray H s b)[j]?).map (fun nd =>
      if mapGet s1.BlockHashMap b.PrevHash = some j then
        { Block := nd.Block, Children := nd.Children ++ [s.BlockNodeArray.length] }
      else nd) := by
  rcases e.link with ⟨p, pn, hp, hpn, harr, _⟩ | ⟨hp, harr, _⟩
  · rw [harr, List.getElem?_set, hp]
    have hlt : p < (baseArray H s b).length := by
      obtain ⟨h1, _⟩ := List.getElem?_eq_some.1 hpn
      exact h1
    by_cases hpj : p = j
    · subst hpj
      simp [hlt, hpn]
    · have : ¬ (some p = some j) := by
        intro h; exact hpj (Option.some.inj h)
      simp only [hpj, if_false, this]
      cases (baseArray H s b)[j]? <;> rfl
  · rw [harr, hp]
    have : ¬ ((none : Option Nat) = some j) := by simp
    simp only [this, if_false]
    cases (baseArray H s b)[j]? <;> rfl

theorem InsertEffect.arr_length {H : Block → String} {cfg : Settings} {s s1 : Store}
    {b : Block} (e : InsertEffect H cfg s s1 b) :
    s1.BlockNodeArray.length = s.BlockNodeArray.length + 1 := by
  rcases e.link with ⟨p, pn, _, _, harr, _⟩ | ⟨_, harr, _⟩
  · rw [harr, List.length_set, baseArray_length]
  · rw [harr, baseArray_length]

/-- The block at a position after a successful insert is the block that was there before, or
the new block at the new last position. -/
theorem InsertEffect.block_get {H : Block → String} {cfg : Settings} {s s1 : Store}
    {b : Block} (e : InsertEffect H cfg s s1 b) (j : Nat) (nd1 : BlockNode)
    (h : s1.BlockNodeArray[j]? = some nd1) :
    (j < s.BlockNodeArray.length ∧ ∃ nd, s.BlockNodeArray[j]? = some nd ∧ nd1.Block = nd.Block) ∨
      (j = s.BlockNodeArray.length ∧ nd1.Block = b) := by
  rw [e.arr_get j] at h
  cases hb : (baseArray H s b)[j]? with
  | none => rw [hb] at h; simp at h
  | some nd =>
    rw [hb] at h
    simp only [Option.map, Option.some.injEq] at h
    have hblk : nd1.Block = nd.Block := by
      rw [← h]; split <;> rfl
    rcases baseArray_get_some H s b j nd hb with ⟨h1, h2⟩ | ⟨h1, h2⟩
    · exact Or.inl ⟨h1, nd, h2, hblk⟩
    · exact Or.inr ⟨h1, by rw [hblk, h2]⟩

theorem initStore_array (H : Block → String) (cfg : Settings) (j : Nat) (hj : 0 < j) :
    (initStore H cfg).BlockNodeArray[j]? = none := by
  unfold initStore WritePathMap WriteBlockNodeArray
  simp only
  split
  · simp only [List.nil_append]
    cases j with
    | zero => omega
    | succ k => rfl
  · rfl

theorem VerifyBlock_class (H : Block → String) (cfg : Settings) (b : Block)
    (h : VerifyBlock H cfg b = some true) :
    (b.OpHistory.length = 0 → Verify (H b) (cfg.PoWDifficultyNoOpBlock : Int) = some true) ∧
      (b.OpHistory.length ≠ 0 → Verify (H b) (cfg.PoWDifficultyOpBlock : Int) = some true) := by
  unfold VerifyBlock at h
  simp only at h
  constructor
  · intro h0; rw [if_pos h0] at h; exact h
  · intro h0; rw [if_neg h0] at h; exact h

theorem Reachable_verified (H : Block → String) (cfg : Settings) (s : Store)
    (hs : Reachable H cfg s) :
    ∀ (j : Nat) (node : BlockNode), 0 < j → s.BlockNodeArray[j]? = some node →
      VerifyBlock H cfg node.Block = some true := by
  induction hs with
  | init =>
    intro j node hj h
    rw [initStore_array H cfg j hj] at h
    simp at h
  | insert hs hstep ih =>
    rename_i s0 s1 b ok
    intro j node hj h
    cases ok with
    | false =>
      have := InsertBlock_false H cfg s0 s1 b hstep
      subst this
      exact ih j node hj h
    | true =>
      have e := InsertBlock_true H cfg s0 s1 b hstep
      rcases e.block_get j node h with ⟨_, nd, h2, h3⟩ | ⟨_, h2⟩
      · rw [h3]; exact ih j nd hj h2
      · rw [h2]; exact e.verified

/-! ### The invariant holds in the initial store -/

theorem initStore_eq (H : Block → String) (cfg : Settings)
    (hdummy : H dummyGenesisBlock ≠ cfg.GenesisBlockHash) :
    initStore H cfg =
      { BlockNodeArray := [{ Block := dummyGenesisBlock, Children := [] }],
        BlockHashMap := [(cfg.GenesisBlockHash, 0)],
        ParentHashMap := [],
        PathMap := [(cfg.GenesisBlockHash, { Len := 1, Path := [dummyGenesisBlock] })] } := by
  have h : mapGet [(cfg.GenesisBlockHash, 0)] (H dummyGenesisBlock) = none := by
    simp [mapGet, Ne.symm hdummy]
  simp [initStore, WritePathMap, WriteBlockNodeArray, ReadBlockChainMap, mapSet, h]

theorem mapGet_singleton {V : Type} (k0 k : String) (v0 v : V)
    (h : mapGet [(k0, v0)] k = some v) : k = k0 ∧ v = v0 := by
  by_cases hk : k0 = k
  · simp only [mapGet, hk, if_true, Option.some.injEq] at h
    exact ⟨hk.symm, h.symm⟩
  · simp [mapGet, hk] at h

theorem StoreInv_init (H : Block → String) (cfg : Settings)
    (hdummy : H dummyGenesisBlock ≠ cfg.GenesisBlockHash) : StoreInv H cfg (initStore H cfg) := by
  rw [initStore_eq H cfg hdummy]
  refine ⟨?_, ?_, ?_, ?_, ?_, ?_, ?_, ?_, ?_, ?_⟩
  · simp [mapGet]
  · simp
  · intro k j h
    obtain ⟨h1, h2⟩ := mapGet_singleton _ _ _ _ h
    subst h1 h2
    exact ⟨by simp, fun _ => rfl, fun h0 => absurd h0 (lt_irrefl 0)⟩
  · intro j node hj h
    cases j with
    | zero => omega
    | succ i => simp at h
  · intro k j node h hn c hc
    obtain ⟨h1, h2⟩ := mapGet_singleton _ _ _ _ h
    subst h1 h2
    simp only [List.getElem?_cons_zero, Option.some.injEq] at hn
    subst hn
    simp at hc
  · intro k l h
    simp [mapGet] at h
  · intro j node hj h
    cases j with
    | zero => omega
    | succ i => simp at h
  · simp
  · exact ⟨{ Len := 1, Path := [dummyGenesisBlock] }, by simp [mapGet]⟩
  · intro k e h
    obtain ⟨h1, h2⟩ := mapGet_singleton _ _ _ _ h
    subst h1 h2
    refine ⟨le_refl 1, by simp, trivial, dummyGenesisBlock, rfl, Or.inr ⟨rfl, rfl⟩⟩

/-! ### Preservation of the invariant by `InsertBlock` -/

theorem InsertEffect.bhm_get {H : Block → String} {cfg : Settings} {s s1 : Store} {b : Block}
    (e : InsertEffect H cfg s s1 b) (k : String) :
    mapGet s1.BlockHashMap k =
      if k = H b then some s.BlockNodeArray.length else mapGet s.BlockHashMap k := by
  rw [e.bhm, mapGet_mapSet]

theorem InsertEffect.bhm_get_old {H : Block → String} {cfg : Settings} {s s1 : Store}
    {b : Block} (e : InsertEffect H cfg s s1 b) (k : String) (j : Nat)
    (h : mapGet s.BlockHashMap k = some j) : mapGet s1.BlockHashMap k = some j := by
  rw [e.bhm_get k]
  have hne : k ≠ H b := by
    intro hk; rw [hk, e.fresh] at h; simp at h
  rw [if_neg hne]; exact h

/-- The node at a position after a successful insert, in terms of the base array. -/
theorem InsertEffect.node_get {H : Block → String} {cfg : Settings} {s s1 : Store}
    {b : Block} (e : InsertEffect H cfg s s1 b) (j : Nat) (nd1 : BlockNode)
    (h : s1.BlockNodeArray[j]? = some nd1) :
    ∃ nd, (baseArray H s b)[j]? = some nd ∧ nd1.Block = nd.Block ∧
      (nd1.Children = nd.Children ∨
        (mapGet s1.BlockHashMap b.PrevHash = some j ∧
          nd1.Children = nd.Children ++ [s.BlockNodeArray.length])) := by
  rw [e.arr_get j] at h
  cases hb : (baseArray H s b)[j]? with
  | none => rw [hb] at h; simp at h
  | some nd =>
    rw [hb] at h
    simp only [Option.map, Option.some.injEq] at h
    refine ⟨nd, rfl, ?_, ?_⟩
    · rw [← h]; split <;> rfl
    · by_cases hp : mapGet s1.BlockHashMap b.PrevHash = some j
      · rw [if_pos hp] at h
        right; exact ⟨hp, by rw [← h]⟩
      · rw [if_neg hp] at h
        left; rw [h]

/-- A node of the old array is still there after a successful insert, with the same block. -/
theorem InsertEffect.old_get {H : Block → String} {cfg : Settings} {s s1 : Store}
    {b : Block} (e : InsertEffect H cfg s s1 b) (j : Nat) (nd : BlockNode)
    (h : s.BlockNodeArray[j]? = some nd) :
    ∃ nd1, s1.BlockNodeArray[j]? = some nd1 ∧ nd1.Block = nd.Block ∧
      (nd1.Children = nd.Children ∨ nd1.Children = nd.Children ++ [s.BlockNodeArray.length]) := by
  have hlt : j < s.BlockNodeArray.length := by
    obtain ⟨h1, _⟩ := List.getElem?_eq_some.1 h
    exact h1
  have hb : (baseArray H s b)[j]? = some nd := by
    rw [baseArray_get_lt H s b j hlt]; exact h
  have h1 := e.arr_get j
  rw [hb] at h1
  simp only [Option.map] at h1
  refine ⟨_, h1, ?_, ?_⟩
  · split <;> rfl
  · split
    · right; rfl
    · left; rfl

/-- The node of the new block after a successful insert. -/
theorem InsertEffect.new_get {H : Block → String} {cfg : Settings} {s s1 : Store}
    {b : Block} (e : InsertEffect H cfg s s1 b) :
    ∃ nd1, s1.BlockNodeArray[s.BlockNodeArray.length]? = some nd1 ∧ nd1.Block = b ∧
      (nd1.Children = (mapGet s.ParentHashMap (H b)).getD [] ∨
        nd1.Children = (mapGet s.ParentHashMap (H b)).getD [] ++ [s.BlockNodeArray.length]) := by
  have h1 := e.arr_get s.BlockNodeArray.length
  rw [baseArray_get_length] at h1
  simp only [Option.map] at h1
  refine ⟨_, h1, ?_, ?_⟩
  · split <;> rfl
  · split
    · right; rfl
    · left; rfl

theorem get_lt_of_some {α : Type} (l : List α) (j : Nat) (a : α) (h : l[j]? = some a) :
    j < l.length := by
  obtain ⟨h1, _⟩ := List.getElem?_eq_some.1 h
  exact h1

theorem mem_getD_nil {α : Type} (o : Option (List α)) (c : α) (h : c ∈ o.getD []) :
    ∃ l, o = some l ∧ c ∈ l := by
  cases o with
  | none => simp at h
  | some l => exact ⟨l, rfl, h⟩

theorem StoreInv.step_bhm_sound {H : Block → String} {cfg : Settings} {s s1 : Store}
    {b : Block} (inv : StoreInv H cfg s) (e : InsertEffect H cfg s s1 b) :
    ∀ k j, mapGet s1.BlockHashMap k = some j →
      j < s1.BlockNodeArray.length ∧ (j = 0 → k = cfg.GenesisBlockHash) ∧
        (0 < j → ∀ node, s1.BlockNodeArray[j]? = some node → H node.Block = k) := by
  intro k j h
  rw [e.bhm_get k] at h
  rw [e.arr_length]
  have hpos := inv.arr_pos
  by_cases hk : k = H b
  · rw [if_pos hk, Option.some.injEq] at h
    subst h
    refine ⟨by omega, fun h0 => by omega, fun _ node hn => ?_⟩
    rcases e.block_get _ node hn with ⟨h1, _⟩ | ⟨_, h2⟩
    · omega
    · rw [h2, hk]
  · rw [if_neg hk] at h
    obtain ⟨a1, a2, a3⟩ := inv.bhm_sound k j h
    refine ⟨by omega, a2, fun h0 node hn => ?_⟩
    rcases e.block_get _ node hn with ⟨_, nd, h2, h3⟩ | ⟨h1, _⟩
    · rw [h3]; exact a3 h0 nd h2
    · omega

theorem StoreInv.step_bhm_complete {H : Block → String} {cfg : Settings} {s s1 : Store}
    {b : Block} (inv : StoreInv H cfg s) (e : InsertEffect H cfg s s1 b) :
    ∀ j node, 0 < j → s1.BlockNodeArray[j]? = some node →
      mapGet s1.BlockHashMap (H node.Block) = some j := by
  intro j node hj hn
  rcases e.block_get _ node hn with ⟨_, nd, h2, h3⟩ | ⟨h1, h2⟩
  · rw [h3]
    exact e.bhm_get_old _ _ (inv.bhm_complete j nd hj h2)
  · rw [h2, e.bhm_get, if_pos rfl, h1]

/-- Two keys of `BlockHashMap` with the same index are equal. -/
theorem bhm_key_unique (H : Block → String) (cfg : Settings) (s : Store)
    (hsound : ∀ k j, mapGet s.BlockHashMap k = some j →
      j < s.BlockNodeArray.length ∧ (j = 0 → k = cfg.GenesisBlockHash) ∧
        (0 < j → ∀ node, s.BlockNodeArray[j]? = some node → H node.Block = k))
    (k k2 : String) (j : Nat) (h1 : mapGet s.BlockHashMap k = some j)
    (h2 : mapGet s.BlockHashMap k2 = some j) : k = k2 := by
  obtain ⟨a1, a2, a3⟩ := hsound k j h1
  obtain ⟨_, b2, b3⟩ := hsound k2 j h2
  by_cases hj : j = 0
  · rw [a2 hj, b2 hj]
  · have hpos : 0 < j := Nat.pos_of_ne_zero hj
    have hnode : s.BlockNodeArray[j]? = some (s.BlockNodeArray[j]) :=
      List.getElem?_eq_getElem a1
    rw [← a3 hpos _ hnode, ← b3 hpos _ hnode]

theorem StoreInv.step_children_ok {H : Block → String} {cfg : Settings} {s s1 : Store}
    {b : Block} (inv : StoreInv H cfg s) (e : InsertEffect H cfg s s1 b) :
    ∀ k j node, mapGet s1.BlockHashMap k = some j → s1.BlockNodeArray[j]? = some node →
      ∀ c ∈ node.Children,
        0 < c ∧ ∃ cn, s1.BlockNodeArray[c]? = some cn ∧ cn.Block.PrevHash = k := by
  intro k j node hk hn c hc
  obtain ⟨nd, hbase, _, hch⟩ := e.node_get j node hn
  have hnew : 0 < s.BlockNodeArray.length ∧
      ∃ cn, s1.BlockNodeArray[s.BlockNodeArray.length]? = some cn ∧ cn.Block = b := by
    obtain ⟨cn, h1, h2, _⟩ := e.new_get
    exact ⟨inv.arr_pos, cn, h1, h2⟩
  have hold : c ∈ nd.Children →
      0 < c ∧ ∃ cn, s1.BlockNodeArray[c]? = some cn ∧ cn.Block.PrevHash = k := by
    intro hc1
    have hk1 := hk
    rw [e.bhm_get k] at hk1
    rcases baseArray_get_some H s b j nd hbase with ⟨h1, h2⟩ | ⟨h1, h2⟩
    · have hne : k ≠ H b := by
        intro hkb
        rw [if_pos hkb, Option.some.injEq] at hk1
        omega
      rw [if_neg hne] at hk1
      obtain ⟨c1, cn, c2, c3⟩ := inv.children_ok k j nd hk1 h2 c hc1
      obtain ⟨cn1, d1, d2, _⟩ := e.old_get c cn c2
      exact ⟨c1, cn1, d1, by rw [d2]; exact c3⟩
    · have hkb : k = H b := by
        by_contra hne
        rw [if_neg hne] at hk1
        have := (inv.bhm_sound k j hk1).1
        omega
      rw [h2] at hc1
      obtain ⟨l, hl, hcl⟩ := mem_getD_nil _ c hc1
      obtain ⟨c1, cn, c2, c3⟩ := inv.orphans_ok (H b) l hl c hcl
      obtain ⟨cn1, d1, d2, _⟩ := e.old_get c cn c2
      exact ⟨c1, cn1, d1, by rw [d2, hkb]; exact c3⟩
  rcases hch with hch | ⟨hp, hch⟩
  · rw [hch] at hc; exact hold hc
  · rw [hch] at hc
    rcases List.mem_append.1 hc with hc1 | hc1
    · exact hold hc1
    · have hcn : c = s.BlockNodeArray.length := by simpa using hc1
      subst hcn
      obtain ⟨h0, cn, h1, h2⟩ := hnew
      refine ⟨h0, cn, h1, ?_⟩
      rw [h2]
      exact bhm_key_unique H cfg s1 (inv.step_bhm_sound e) _ _ j hp hk

theorem StoreInv.step_orphans_ok {H : Block → String} {cfg : Settings} {s s1 : Store}
    {b : Block} (inv : StoreInv H cfg s) (e : InsertEffect H cfg s s1 b) :
    ∀ k l, mapGet s1.ParentHashMap k = some l →
      ∀ c ∈ l, 0 < c ∧ ∃ cn, s1.BlockNodeArray[c]? = some cn ∧ cn.Block.PrevHash = k := by
  intro k l hl c hc
  have hold : ∀ l0, mapGet s.ParentHashMap k = some l0 → c ∈ l0 →
      0 < c ∧ ∃ cn, s1.BlockNodeArray[c]? = some cn ∧ cn.Block.PrevHash = k := by
    intro l0 hl0 hc0
    obtain ⟨c1, cn, c2, c3⟩ := inv.orphans_ok k l0 hl0 c hc0
    obtain ⟨cn1, d1, d2, _⟩ := e.old_get c cn c2
    exact ⟨c1, cn1, d1, by rw [d2]; exact c3⟩
  rcases e.link with ⟨_, _, _, _, _, hphm⟩ | ⟨_, _, hphm⟩
  · rw [hphm] at hl; exact hold l hl hc
  · rw [hphm, mapGet_mapSet] at hl
    by_cases hk : k = b.PrevHash
    · rw [if_pos hk, Option.some.injEq] at hl
      rw [← hl] at hc
      rcases List.mem_append.1 hc with hc1 | hc1
      · obtain ⟨l0, hl0, hc0⟩ := mem_getD_nil _ c hc1
        rw [← hk] at hl0
        exact hold l0 hl0 hc0
      · have hcn : c = s.BlockNodeArray.length := by simpa using hc1
        subst hcn
        obtain ⟨cn, h1, h2, _⟩ := e.new_get
        exact ⟨inv.arr_pos, cn, h1, by rw [h2, hk]⟩
    · rw [if_neg hk] at hl
      exact hold l hl hc

theorem count_append_singleton_ne (l : List Nat) (i n : Nat) (h : i ≠ n) :
    (l ++ [n]).count i = l.count i := by
  rw [List.count_append]
  have : List.count i [n] = 0 := by
    rw [List.count_eq_zero]; simpa using h
  omega

theorem count_append_singleton_self (l : List Nat) (n : Nat) (h : n ∉ l) :
    (l ++ [n]).count n = 1 := by
  rw [List.count_append, List.count_eq_zero.2 h]
  simp

theorem StoreInv.orphan_lt {H : Block → String} {cfg : Settings} {s : Store}
    (inv : StoreInv H cfg s) (k : String) :
    s.BlockNodeArray.length ∉ (mapGet s.ParentHashMap k).getD [] := by
  intro hc
  obtain ⟨l, hl, hcl⟩ := mem_getD_nil _ _ hc
  obtain ⟨_, cn, c2, _⟩ := inv.orphans_ok k l hl _ hcl
  have := get_lt_of_some _ _ _ c2
  omega

theorem StoreInv.step_parent_link {H : Block → String} {cfg : Settings} {s s1 : Store}
    {b : Block} (inv : StoreInv H cfg s) (e : InsertEffect H cfg s s1 b) :
    ∀ i node, 0 < i → s1.BlockNodeArray[i]? = some node →
      (∃ p pn, mapGet s1.BlockHashMap node.Block.PrevHash = some p ∧
          s1.BlockNodeArray[p]? = some pn ∧ pn.Children.count i = 1) ∨
      (mapGet s1.BlockHashMap node.Block.PrevHash = none ∧
          ∃ l, mapGet s1.ParentHashMap node.Block.PrevHash = some l ∧ l.count i = 1) := by
  intro i node hi hn
  rcases e.block_get i node hn with ⟨hlt, nd, h2, h3⟩ | ⟨hin, hblk⟩
  · -- a block that was stored before
    have hne : i ≠ s.BlockNodeArray.length := by omega
    rw [h3]
    rcases inv.parent_link i nd hi h2 with ⟨p0, pn0, a1, a2, a3⟩ | ⟨a1, l, a2, a3⟩
    · left
      obtain ⟨pn1, d1, _, d3⟩ := e.old_get p0 pn0 a2
      refine ⟨p0, pn1, e.bhm_get_old _ _ a1, d1, ?_⟩
      rcases d3 with d3 | d3
      · rw [d3]; exact a3
      · rw [d3, count_append_singleton_ne _ _ _ hne]; exact a3
    · by_cases hk : nd.Block.PrevHash = H b
      · left
        obtain ⟨pn1, d1, _, d3⟩ := e.new_get
        refine ⟨s.BlockNodeArray.length, pn1, ?_, d1, ?_⟩
        · rw [e.bhm_get, if_pos hk]
        · rw [hk] at a2
          rw [a2] at d3
          simp only [Option.getD_some] at d3
          rcases d3 with d3 | d3
          · rw [d3]; exact a3
          · rw [d3, count_append_singleton_ne _ _ _ hne]; exact a3
      · right
        refine ⟨by rw [e.bhm_get, if_neg hk]; exact a1, ?_⟩
        rcases e.link with ⟨_, _, _, _, _, hphm⟩ | ⟨_, _, hphm⟩
        · exact ⟨l, by rw [hphm]; exact a2, a3⟩
        · rw [hphm, mapGet_mapSet]
          by_cases hk2 : nd.Block.PrevHash = b.PrevHash
          · rw [if_pos hk2]
            refine ⟨_, rfl, ?_⟩
            rw [← hk2, a2]
            simp only [Option.getD_some]
            rw [count_append_singleton_ne _ _ _ hne]; exact a3
          · rw [if_neg hk2]
            exact ⟨l, a2, a3⟩
  · -- the new block
    subst hin
    rw [hblk]
    rcases e.link with ⟨p, pn, hp, hpn, harr, _⟩ | ⟨hp, _, hphm⟩
    · left
      have hplt : p < (baseArray H s b).length := get_lt_of_some _ _ _ hpn
      refine ⟨p, { Block := pn.Block, Children := pn.Children ++ [s.BlockNodeArray.length] },
        hp, ?_, ?_⟩
      · rw [harr, List.getElem?_set, if_pos rfl, if_pos hplt]
      · apply count_append_singleton_self
        intro hmem
        rcases baseArray_get_some H s b p pn hpn with ⟨h1, h2⟩ | ⟨h1, h2⟩
        · have hp1 := hp
          rw [e.bhm_get] at hp1
          have hne : b.PrevHash ≠ H b := by
            intro hk
            rw [if_pos hk, Option.some.injEq] at hp1
            omega
          rw [if_neg hne] at hp1
          obtain ⟨_, cn, c2, _⟩ := inv.children_ok _ p pn hp1 h2 _ hmem
          have := get_lt_of_some _ _ _ c2
          omega
        · rw [h2] at hmem
          exact inv.orphan_lt (H b) hmem
    · right
      refine ⟨hp, (mapGet s.ParentHashMap b.PrevHash).getD [] ++ [s.BlockNodeArray.length],
        by rw [hphm, mapGet_mapSet_self], ?_⟩
      exact count_append_singleton_self _ _ (inv.orphan_lt b.PrevHash)

/-! ### The entries of `PathMap` -/

theorem applyWrites_nodup {V : Type} (ws : List (String × V)) :
    ∀ (m : List (String × V)), (m.map Prod.fst).Nodup →
      ((applyWrites m ws).map Prod.fst).Nodup := by
  induction ws with
  | nil => intro m hm; exact hm
  | cons w ws ih =>
    intro m hm
    exact ih _ (keys_mapSet_nodup m w.1 w.2 hm)

theorem applyWrites_forall {V : Type} (P : String → V → Prop) (ws : List (String × V)) :
    ∀ (m : List (String × V)), (∀ k v, mapGet m k = some v → P k v) →
      (∀ w ∈ ws, P w.1 w.2) →
      ∀ k v, mapGet (applyWrites m ws) k = some v → P k v := by
  induction ws with
  | nil => intro m hm _ k v h; exact hm k v h
  | cons w ws ih =>
    intro m hm hws k v h
    refine ih (mapSet m w.1 w.2) ?_ (fun x hx => hws x (List.mem_cons_of_mem _ hx)) k v h
    intro k1 v1 h1
    rw [mapGet_mapSet] at h1
    by_cases hk : k1 = w.1
    · rw [if_pos hk, Option.some.injEq] at h1
      rw [hk, ← h1]
      exact hws w (List.mem_cons_self _ _)
    · rw [if_neg hk] at h1
      exact hm k1 v1 h1

theorem applyWrites_defined {V : Type} (ws : List (String × V)) :
    ∀ (m : List (String × V)) (k : String), (∃ v, mapGet m k = some v) →
      ∃ v, mapGet (applyWrites m ws) k = some v := by
  induction ws with
  | nil => intro m k h; exact h
  | cons w ws ih =>
    intro m k h
    refine ih (mapSet m w.1 w.2) k ?_
    rw [mapGet_mapSet]
    by_cases hk : k = w.1
    · rw [if_pos hk]; exact ⟨_, rfl⟩
    · rw [if_neg hk]; exact h

theorem Linked_append_singleton (H : Block → String) (cfg : Settings) (b : Block) :
    ∀ (p : List Block), Linked H cfg p →
      (∀ last, p.getLast? = some last → Link H cfg last b) → Linked H cfg (p ++ [b]) := by
  intro p
  induction p with
  | nil => intro _ _; trivial
  | cons a t ih =>
    intro hl hlast
    cases t with
    | nil =>
      exact ⟨hlast a rfl, trivial⟩
    | cons a2 t2 =>
      obtain ⟨h1, h2⟩ := hl
      refine ⟨h1, ih h2 ?_⟩
      intro last hla
      apply hlast
      rw [List.getLast?_cons_cons]
      exact hla

theorem StoreInv.newEntry_ok {H : Block → String} {cfg : Settings} {s : Store}
    (inv : StoreInv H cfg s) (b : Block) : PathOK H cfg (H b) (newEntry s b) := by
  unfold newEntry
  cases he : mapGet s.PathMap b.PrevHash with
  | none =>
    exact ⟨le_refl 1, by simp, trivial, b, rfl, Or.inl rfl⟩
  | some e0 =>
    obtain ⟨a1, a2, a3, last, a4, a5⟩ := inv.pm_ok _ _ he
    refine ⟨by simp only; omega, ?_, ?_, b, ?_, Or.inl rfl⟩
    · simp only [List.length_append, List.length_singleton, Nat.cast_add, Nat.cast_one, a2]
    · apply Linked_append_singleton H cfg b _ a3
      intro last2 hl2
      rw [a4, Option.some.injEq] at hl2
      subst hl2
      rcases a5 with a5 | ⟨a5, a6⟩
      · exact Or.inl a5.symm
      · exact Or.inr ⟨a5, a6⟩
    · simp only [List.getLast?_concat]

theorem StoreInv.step_paths {H : Block → String} {cfg : Settings} {s s1 : Store}
    {b : Block} (inv : StoreInv H cfg s) (e : InsertEffect H cfg s s1 b) :
    (s1.PathMap.map Prod.fst).Nodup ∧
      (∃ e0, mapGet s1.PathMap cfg.GenesisBlockHash = some e0) ∧
      (∀ k e0, mapGet s1.PathMap k = some e0 → PathOK H cfg k e0) := by
  obtain ⟨ws, hpm, hws⟩ := e.paths
  rw [hpm]
  refine ⟨applyWrites_nodup ws _ (keys_mapSet_nodup _ _ _ inv.pm_keys), ?_, ?_⟩
  · apply applyWrites_defined
    rw [mapGet_mapSet]
    by_cases hk : cfg.GenesisBlockHash = H b
    · rw [if_pos hk]; exact ⟨_, rfl⟩
    · rw [if_neg hk]; exact inv.pm_gen
  · apply applyWrites_forall (PathOK H cfg)
    · intro k e0 h
      rw [mapGet_mapSet] at h
      by_cases hk : k = H b
      · rw [if_pos hk, Option.some.injEq] at h
        rw [hk, ← h]
        exact inv.newEntry_ok b
      · rw [if_neg hk] at h
        exact inv.pm_ok k e0 h
    · intro w hw
      obtain ⟨idx, node, hidx, hnode, hw2⟩ := hws w hw
      obtain ⟨l, hl, hcl⟩ := mem_getD_nil _ _ hidx
      obtain ⟨_, cn, c2, c3⟩ := inv.orphans_ok (H b) l hl idx hcl
      have hlt := get_lt_of_some _ _ _ c2
      rw [baseArray_get_lt H s b idx hlt, c2, Option.some.injEq] at hnode
      subst hnode
      rw [hw2]
      exact ⟨by simp, by simp, ⟨Or.inl c3, trivial⟩, cn.Block, rfl, Or.inl rfl⟩

theorem StoreInv.step {H : Block → String} {cfg : Settings} {s s1 : Store} {b : Block}
    (inv : StoreInv H cfg s) (e : InsertEffect H cfg s s1 b) : StoreInv H cfg s1 := by
  obtain ⟨p1, p2, p3⟩ := inv.step_paths e
  refine ⟨?_, ?_, inv.step_bhm_sound e, inv.step_bhm_complete e, inv.step_children_ok e,
    inv.step_orphans_ok e, inv.step_parent_link e, p1, p2, p3⟩
  · exact e.bhm_get_old _ _ inv.gen0
  · rw [e.arr_length]; omega

/-- Every reachable store satisfies the invariant, when the hash of the dummy genesis block is
not the genesis hash of the settings (so that `Mine` writes the dummy node at index 0). -/
theorem Reachable.inv {H : Block → String} {cfg : Settings} {s : Store}
    (hdummy : H dummyGenesisBlock ≠ cfg.GenesisBlockHash) (hs : Reachable H cfg s) :
    StoreInv H cfg s := by
  induction hs with
  | init => exact StoreInv_init H cfg hdummy
  | insert hs hstep ih =>
    rename_i s0 s1 b ok
    cases ok with
    | false =>
      have := InsertBlock_false H cfg s0 s1 b hstep
      subst this
      exact ih
    | true => exact ih.step (InsertBlock_true H cfg s0 s1 b hstep)

/-! ### The order of `strings.Compare` -/

theorem char_eq_of_toNat_eq (a b : Char) (h : a.toNat = b.toNat) : a = b := by
  apply Char.ext
  rcases a with ⟨⟨⟨av, ha⟩⟩, ha2⟩
  rcases b with ⟨⟨⟨bv, hb⟩⟩, hb2⟩
  simp only [Char.toNat, UInt32.toNat] at h
  simp at h
  subst h
  rfl

theorem strGt_irrefl (a : List Char) : strGt a a = false := by
  induction a with
  | nil => rfl
  | cons x xs ih => simp [strGt, ih]

theorem strGt_trichotomy (a : List Char) :
    ∀ b : List Char, strGt a b = true ∨ a = b ∨ strGt b a = true := by
  induction a with
  | nil =>
    intro b
    cases b with
    | nil => exact Or.inr (Or.inl rfl)
    | cons y ys => exact Or.inr (Or.inr rfl)
  | cons x xs ih =>
    intro b
    cases b with
    | nil => exact Or.inl rfl
    | cons y ys =>
      simp only [strGt]
      by_cases h1 : y.toNat < x.toNat
      · left; simp [h1]
      · by_cases h2 : x.toNat < y.toNat
        · right; right; simp [h2]
        · have hxy : x = y := char_eq_of_toNat_eq x y (by omega)
          subst hxy
          simp only [h1, if_false]
          rcases ih ys with h | h | h
          · exact Or.inl h
          · exact Or.inr (Or.inl (by rw [h]))
          · exact Or.inr (Or.inr h)

theorem strGt_trans (a : List Char) :
    ∀ b c : List Char, strGt a b = true → strGt b c = true → strGt a c = true := by
  induction a with
  | nil => intro b c h1 _; simp [strGt] at h1
  | cons x xs ih =>
    intro b c h1 h2
    cases b with
    | nil => simp [strGt] at h2
    | cons y ys =>
      cases c with
      | nil => rfl
      | cons z zs =>
        simp only [strGt] at h1 h2 ⊢
        by_cases a1 : y.toNat < x.toNat
        · by_cases a2 : z.toNat < y.toNat
          · have : z.toNat < x.toNat := by omega
            simp [this]
          · by_cases a3 : y.toNat < z.toNat
            · simp [a2, a3] at h2
            · have : z.toNat < x.toNat := by omega
              simp [this]
        · by_cases a4 : x.toNat < y.toNat
          · simp [a1, a4] at h1
          · simp only [a1, a4, if_false] at h1
            by_cases a2 : z.toNat < y.toNat
            · have : z.toNat < x.toNat := by omega
              simp [this]
            · by_cases a3 : y.toNat < z.toNat
              · simp [a2, a3] at h2
              · simp only [a2, a3, if_false] at h2
                have b1 : ¬ z.toNat < x.toNat := by omega
                have b2 : ¬ x.toNat < z.toNat := by omega
                simp only [b1, b2, if_false]
                exact ih ys zs h1 h2

theorem strGt_asymm (a b : List Char) (h : strGt a b = true) : strGt b a = false := by
  cases hba : strGt b a with
  | false => rfl
  | true =>
    have := strGt_trans a b a h hba
    rw [strGt_irrefl] at this
    exact absurd this (by simp)

theorem strGt_false_trans (a b c : List Char) (h1 : strGt a b = false)
    (h2 : strGt b c = false) : strGt a c = false := by
  cases hac : strGt a c with
  | false => rfl
  | true =>
    rcases strGt_trichotomy a b with h | h | h
    · rw [h] at h1; exact absurd h1 (by simp)
    · subst h; rw [hac] at h2; exact absurd h2 (by simp)
    · have := strGt_trans b a c h hac
      rw [this] at h2; exact absurd h2 (by simp)

theorem Compare_pos_iff (a b : String) : Compare a b > 0 ↔ strGt a.data b.data = true := by
  unfold Compare
  by_cases h : strGt a.data b.data = true
  · simp [h]
  · have hf : strGt a.data b.data = false := by
      cases hh : strGt a.data b.data with
      | false => rfl
      | true => exact absurd hh h
    rw [hf]
    by_cases h2 : strGt b.data a.data = true
    · rw [h2]; decide
    · have hf2 : strGt b.data a.data = false := by
        cases hh : strGt b.data a.data with
        | false => rfl
        | true => exact absurd hh h2
      rw [hf2]; decide

theorem string_eq_of_data_eq (a b : String) (h : a.data = b.data) : a = b := by
  cases a; cases b; simp only at h; rw [h]

/-! ### The scan of `PathMap`: proofs -/

theorem scanPathMap_cons (x : String × LongestPathInfo) (rest : List (String × LongestPathInfo))
    (acc : String × LongestPathInfo) :
    scanPathMap (x :: rest) acc = scanPathMap rest (if better x acc then x else acc) := by
  obtain ⟨k, e⟩ := x
  obtain ⟨mk, me⟩ := acc
  unfold better
  simp only [scanPathMap]
  by_cases h1 : e.Len > me.Len
  · simp [h1]
  · by_cases h2 : e.Len = me.Len
    · by_cases h3 : Compare k mk > 0
      · simp [h2, h3]
      · simp [h2, h3]
    · simp [h1, h2]

theorem not_better_self (a : String × LongestPathInfo) : ¬ better a a := by
  unfold better
  intro h
  rcases h with h | ⟨_, h⟩
  · omega
  · rw [Compare_pos_iff, strGt_irrefl] at h
    exact absurd h (by simp)

theorem not_better_trans (a b c : String × LongestPathInfo) (h1 : ¬ better a b)
    (h2 : ¬ better b c) : ¬ better a c := by
  unfold better at *
  simp only [Compare_pos_iff] at *
  intro h
  have l1 : a.2.Len ≤ b.2.Len := by
    by_contra hh; exact h1 (Or.inl (by omega))
  have l2 : b.2.Len ≤ c.2.Len := by
    by_contra hh; exact h2 (Or.inl (by omega))
  rcases h with h | ⟨h3, h4⟩
  · omega
  · have e1 : a.2.Len = b.2.Len := by omega
    have e2 : b.2.Len = c.2.Len := by omega
    have g1 : strGt a.1.data b.1.data = false := by
      cases hh : strGt a.1.data b.1.data with
      | false => rfl
      | true => exact absurd (Or.inr ⟨e1, hh⟩) h1
    have g2 : strGt b.1.data c.1.data = false := by
      cases hh : strGt b.1.data c.1.data with
      | false => rfl
      | true => exact absurd (Or.inr ⟨e2, hh⟩) h2
    rw [strGt_false_trans _ _ _ g1 g2] at h4
    exact absurd h4 (by simp)

theorem not_better_of_better (a b : String × LongestPathInfo) (h : better a b) :
    ¬ better b a := by
  unfold better at *
  simp only [Compare_pos_iff] at *
  intro h2
  rcases h with h | ⟨h3, h4⟩
  · rcases h2 with h2 | ⟨h2, _⟩ <;> omega
  · rcases h2 with h2 | ⟨_, h5⟩
    · omega
    · rw [strGt_asymm _ _ h4] at h5
      exact absurd h5 (by simp)

/-- The result of the scan is the start value or an entry, and nothing visited is better. -/
theorem scanPathMap_spec (l : List (String × LongestPathInfo)) :
    ∀ acc : String × LongestPathInfo,
      (scanPathMap l acc = acc ∨ scanPathMap l acc ∈ l) ∧
        ¬ better acc (scanPathMap l acc) ∧ ∀ x ∈ l, ¬ better x (scanPathMap l acc) := by
  induction l with
  | nil =>
    intro acc
    exact ⟨Or.inl rfl, not_better_self acc, by simp⟩
  | cons x rest ih =>
    intro acc
    rw [scanPathMap_cons]
    obtain ⟨h1, h2, h3⟩ := ih (if better x acc then x else acc)
    by_cases hb : better x acc
    · simp only [hb, if_true] at h1 h2 h3 ⊢
      refine ⟨Or.inr ?_, ?_, ?_⟩
      · rcases h1 with h1 | h1
        · rw [h1]; exact List.mem_cons_self _ _
        · exact List.mem_cons_of_mem _ h1
      · exact not_better_trans _ _ _ (not_better_of_better _ _ hb) h2
      · intro y hy
        rcases List.mem_cons.1 hy with hy | hy
        · rw [hy]; exact h2
        · exact h3 y hy
    · simp only [hb, if_false] at h1 h2 h3 ⊢
      refine ⟨?_, h2, ?_⟩
      · rcases h1 with h1 | h1
        · exact Or.inl h1
        · exact Or.inr (List.mem_cons_of_mem _ h1)
      · intro y hy
        rcases List.mem_cons.1 hy with hy | hy
        · rw [hy]; exact not_better_trans _ _ _ hb h2
        · exact h3 y hy

theorem not_better_both_eq (m : List (String × LongestPathInfo))
    (hm : (m.map Prod.fst).Nodup) (r r0 : String × LongestPathInfo) (hr : r ∈ m)
    (hr0 : r0 ∈ m) (h1 : ¬ better r r0) (h2 : ¬ better r0 r) : r = r0 := by
  unfold better at h1 h2
  simp only [Compare_pos_iff] at h1 h2
  have l1 : r.2.Len ≤ r0.2.Len := by
    by_contra hh; exact h1 (Or.inl (by omega))
  have l2 : r0.2.Len ≤ r.2.Len := by
    by_contra hh; exact h2 (Or.inl (by omega))
  have e1 : r.2.Len = r0.2.Len := by omega
  have hkey : r.1 = r0.1 := by
    rcases strGt_trichotomy r.1.data r0.1.data with h | h | h
    · exact absurd (Or.inr ⟨e1, h⟩) h1
    · exact string_eq_of_data_eq _ _ h
    · exact absurd (Or.inr ⟨e1.symm, h⟩) h2
  obtain ⟨k, e⟩ := r
  obtain ⟨k0, e0⟩ := r0
  simp only at hkey
  subst hkey
  have g1 := mapGet_of_mem m k e hm hr
  have g2 := mapGet_of_mem m k e0 hm hr0
  rw [g1, Option.some.injEq] at g2
  rw [g2]

theorem GetLongestPath_genesis {H : Block → String} {cfg : Settings} {s : Store}
    (inv : StoreInv H cfg s) (order : List (String × LongestPathInfo)) (fuel : Nat) :
    GetLongestPath H cfg s order (fuel + 1) cfg.GenesisBlockHash =
      some ((scanPathMap order ("", { Len := 0, Path := [] })).2.Path,
        (scanPathMap order ("", { Len := 0, Path := [] })).2.Len) := by
  have hpos : 0 < s.BlockNodeArray.length := inv.arr_pos
  have h0 : s.BlockNodeArray[0]? = some (s.BlockNodeArray[0]) :=
    List.getElem?_eq_getElem hpos
  simp only [GetLongestPath, ReadBlockChainMap, inv.gen0, h0, if_true]

/-- The scan of a permutation of `PathMap` ends on an entry of `PathMap` that no entry beats. -/
theorem scan_perm_max {H : Block → String} {cfg : Settings} {s : Store}
    (inv : StoreInv H cfg s) (order : List (String × LongestPathInfo))
    (hperm : order.Perm s.PathMap) :
    scanPathMap order ("", { Len := 0, Path := [] }) ∈ s.PathMap ∧
      ∀ x ∈ s.PathMap, ¬ better x (scanPathMap order ("", { Len := 0, Path := [] })) := by
  obtain ⟨h1, _, h3⟩ := scanPathMap_spec order ("", { Len := 0, Path := [] })
  have hall : ∀ x ∈ s.PathMap,
      ¬ better x (scanPathMap order ("", { Len := 0, Path := [] })) :=
    fun x hx => h3 x ((hperm.mem_iff).2 hx)
  refine ⟨?_, hall⟩
  rcases h1 with h1 | h1
  · exfalso
    obtain ⟨e0, he0⟩ := inv.pm_gen
    have hmem := mem_of_mapGet _ _ _ he0
    have hlen := (inv.pm_ok _ _ he0).1
    apply hall _ hmem
    rw [h1]
    left
    show e0.Len > 0
    omega
  · exact (hperm.mem_iff).1 h1

/-! ### The recursive walk of `GetLongestPath` -/

theorem walkChildren_isSome (H : Block → String) (arr : List BlockNode)
    (recur : String → Option (List Block × Int)) (cs : List Nat) :
    (∀ c ∈ cs, ∀ cn, arr[c]? = some cn → (recur (H cn.Block)).isSome = true) →
      ∀ acc : List Block × Int, (walkChildren H arr recur cs acc).isSome = true := by
  induction cs with
  | nil => intro _ acc; rfl
  | cons c rest ih =>
    intro hch acc
    obtain ⟨ap, am⟩ := acc
    have hrest : ∀ c2 ∈ rest, ∀ cn, arr[c2]? = some cn →
        (recur (H cn.Block)).isSome = true :=
      fun c2 hc2 => hch c2 (List.mem_cons_of_mem _ hc2)
    unfold walkChildren
    cases hcn : arr[c]? with
    | none => rfl
    | some child =>
      simp only
      have hsome := hch c (List.mem_cons_self _ _) child hcn
      cases hr : recur (H child.Block) with
      | none => rw [hr] at hsome; simp at hsome
      | some r =>
        obtain ⟨cp, cl⟩ := r
        simp only
        split
        · exact ih hrest (cp, cl)
        · exact ih hrest (ap, am)

theorem exists_rank_bound (rank : String → Nat) (m : List (String × Nat)) :
    ∃ M, ∀ k j, mapGet m k = some j → rank k ≤ M := by
  induction m with
  | nil => exact ⟨0, fun k j h => by simp [mapGet] at h⟩
  | cons x m ih =>
    obtain ⟨k0, v0⟩ := x
    obtain ⟨M, hM⟩ := ih
    refine ⟨max (rank k0) M, ?_⟩
    intro k j h
    by_cases hk : k0 = k
    · subst hk; exact le_max_left _ _
    · simp only [mapGet, hk, if_false] at h
      exact le_trans (hM k j h) (le_max_right _ _)

/-- With enough fuel `GetLongestPath` returns, when the hash of a block always has a greater
rank than its previous hash. -/
theorem GetLongestPath_returns_aux {H : Block → String} {cfg : Settings} {s : Store}
    (inv : StoreInv H cfg s) (order : List (String × LongestPathInfo))
    (rank : String → Nat) (hrank : ∀ b, rank b.PrevHash < rank (H b)) (M : Nat)
    (hM : ∀ k j, mapGet s.BlockHashMap k = some j → rank k ≤ M) :
    ∀ (fuel : Nat) (h : String), M - rank h + 1 ≤ fuel →
      (GetLongestPath H cfg s order fuel h).isSome = true := by
  intro fuel
  induction fuel with
  | zero => intro h hf; omega
  | succ f ih =>
    intro h hf
    simp only [GetLongestPath, ReadBlockChainMap]
    cases hj : mapGet s.BlockHashMap h with
    | none => rfl
    | some j =>
      simp only
      cases hnd : s.BlockNodeArray[j]? with
      | none => rfl
      | some node =>
        simp only
        by_cases hg : h = cfg.GenesisBlockHash
        · rw [if_pos hg]; rfl
        · rw [if_neg hg]
          by_cases hc : node.Children.length = 0
          · rw [if_pos hc]; rfl
          · rw [if_neg hc]
            have hw : (walkChildren H s.BlockNodeArray (GetLongestPath H cfg s order f)
                node.Children ([], -1)).isSome = true := by
              apply walkChildren_isSome
              intro c hcm cn hcn
              obtain ⟨hcpos, cn2, hcn2, hprev⟩ := inv.children_ok h j node hj hnd c hcm
              rw [hcn, Option.some.injEq] at hcn2
              subst hcn2
              have hstored := inv.bhm_complete c cn hcpos hcn
              have h1 := hrank cn.Block
              rw [hprev] at h1
              have h2 := hM _ _ hstored
              apply ih
              omega
            cases hres : walkChildren H s.BlockNodeArray (GetLongestPath H cfg s order f)
                node.Children ([], -1) with
            | none => rw [hres] at hw; simp at hw
            | some r =>
              cases r with
              | none => rfl
              | some q => rfl

/-! ### The small instance -/

theorem toyHash_dummy : toyHash dummyGenesisBlock ≠ toySettings.GenesisBlockHash := by
  decide

theorem storeAfter_reachable (bs : List Block)
    (h : (insertAll toyHash toySettings bs (initStore toyHash toySettings)).isSome = true) :
    Reachable toyHash toySettings (storeAfter bs) := by
  unfold storeAfter
  cases hr : insertAll toyHash toySettings bs (initStore toyHash toySettings) with
  | none => rw [hr] at h; simp at h
  | some s1 => exact Reachable_insertAll toyHash toySettings bs _ s1 Reachable.init hr

/-! ## The claims about the block store -/

/-- Claim C3.  In every store state reachable from the initial state by calls of `InsertBlock`,
every stored block other than the entry at index 0 satisfies the proof-of-work predicate of its
class: at the difficulty of no-op blocks when its operation list is empty, at the difficulty of
op blocks otherwise. -/
theorem stored_blocks_satisfy_pow (H : Block → String) (cfg : Settings) (s : Store)
    (hs : Reachable H cfg s) (j : Nat) (node : BlockNode) (hj : 0 < j)
    (hnode : s.BlockNodeArray[j]? = some node) :
    (node.Block.OpHistory = [] →
        Verify (H node.Block) (cfg.PoWDifficultyNoOpBlock : Int) = some true) ∧
      (node.Block.OpHistory ≠ [] →
        Verify (H node.Block) (cfg.PoWDifficultyOpBlock : Int) = some true) := by
  have h := VerifyBlock_class H cfg node.Block (Reachable_verified H cfg s hs j node hj hnode)
  constructor
  · intro h0; exact h.1 (by rw [h0]; rfl)
  · intro h0; exact h.2 (by rw [Ne, List.length_eq_zero]; exact h0)

/-- A concrete instance of claim C3: the store after `blockB` is inserted. -/
theorem stored_blocks_satisfy_pow_witness :
    Reachable toyHash toySettings (storeAfter [blockB]) ∧ 0 < 1 ∧
      (storeAfter [blockB]).BlockNodeArray[1]? = some { Block := blockB, Children := [] } ∧
      (blockB.OpHistory = [] →
        Verify (toyHash blockB) (toySettings.PoWDifficultyNoOpBlock : Int) = some true) ∧
      (blockB.OpHistory ≠ [] →
        Verify (toyHash blockB) (toySettings.PoWDifficultyOpBlock : Int) = some true) :=
  ⟨storeAfter_reachable [blockB] (by decide), by decide, by decide,
    stored_blocks_satisfy_pow toyHash toySettings (storeAfter [blockB])
      (storeAfter_reachable [blockB] (by decide)) 1 { Block := blockB, Children := [] }
      (by decide) (by decide)⟩

/-- Claim C5.  In every reachable store state, `GetLongestPath` called on the genesis hash
returns the path and length of the entry of `PathMap` that is maximal for the order "greater
`Len` first, then greater hash key", whatever the order in which the map is iterated. -/
theorem GetLongestPath_genesis_is_max (H : Block → String) (cfg : Settings)
    (hdummy : H dummyGenesisBlock ≠ cfg.GenesisBlockHash) (s : Store)
    (hs : Reachable H cfg s) :
    ∃ k e, (k, e) ∈ s.PathMap ∧
      (∀ x ∈ s.PathMap, x.2.Len < e.Len ∨ (x.2.Len = e.Len ∧ Compare x.1 k ≤ 0)) ∧
      ∀ order : List (String × LongestPathInfo), order.Perm s.PathMap →
        ∀ fuel : Nat, GetLongestPath H cfg s order (fuel + 1) cfg.GenesisBlockHash =
          some (e.Path, e.Len) := by
  have inv := hs.inv hdummy
  obtain ⟨hmem0, hmax0⟩ := scan_perm_max inv s.PathMap (List.Perm.refl _)
  refine ⟨(scanPathMap s.PathMap ("", { Len := 0, Path := [] })).1,
    (scanPathMap s.PathMap ("", { Len := 0, Path := [] })).2, hmem0, ?_, ?_⟩
  · intro x hx
    have hnb := hmax0 x hx
    unfold better at hnb
    by_cases hlt : x.2.Len < (scanPathMap s.PathMap ("", { Len := 0, Path := [] })).2.Len
    · exact Or.inl hlt
    · right
      have hle : ¬ x.2.Len > (scanPathMap s.PathMap ("", { Len := 0, Path := [] })).2.Len :=
        fun hh => hnb (Or.inl hh)
      have heq : x.2.Len = (scanPathMap s.PathMap ("", { Len := 0, Path := [] })).2.Len := by
        omega
      refine ⟨heq, ?_⟩
      by_contra hc
      exact hnb (Or.inr ⟨heq, by omega⟩)
  · intro order hperm fuel
    obtain ⟨hmem, hmax⟩ := scan_perm_max inv order hperm
    have heq := not_better_both_eq s.PathMap inv.pm_keys _ _ hmem hmem0
      (hmax0 _ hmem) (hmax _ hmem0)
    rw [GetLongestPath_genesis inv order fuel, heq]

/-- A concrete instance of claim C5: the store after `blockB` and `blockC` are inserted. -/
theorem GetLongestPath_genesis_is_max_witness :
    toyHash dummyGenesisBlock ≠ toySettings.GenesisBlockHash ∧
      Reachable toyHash toySettings (storeAfter [blockB, blockC]) ∧
      ∃ k e, (k, e) ∈ (storeAfter [blockB, blockC]).PathMap ∧
        (∀ x ∈ (storeAfter [blockB, blockC]).PathMap,
          x.2.Len < e.Len ∨ (x.2.Len = e.Len ∧ Compare x.1 k ≤ 0)) ∧
        ∀ order : List (String × LongestPathInfo),
          order.Perm (storeAfter [blockB, blockC]).PathMap →
          ∀ fuel : Nat, GetLongestPath toyHash toySettings (storeAfter [blockB, blockC]) order
            (fuel + 1) toySettings.GenesisBlockHash = some (e.Path, e.Len) :=
  ⟨toyHash_dummy, storeAfter_reachable [blockB, blockC] (by decide),
    GetLongestPath_genesis_is_max toyHash toySettings toyHash_dummy
      (storeAfter [blockB, blockC]) (storeAfter_reachable [blockB, blockC] (by decide))⟩

/-- Claim C10.  In every reachable store state, for every stored block at an index `i ≥ 1`:
if its previous hash is the hash of a stored block, then `i` occurs exactly once in the
children of that parent; otherwise `i` occurs in the orphan list of its previous hash. -/
theorem parent_children_link (H : Block → String) (cfg : Settings)
    (hdummy : H dummyGenesisBlock ≠ cfg.GenesisBlockHash) (s : Store)
    (hs : Reachable H cfg s) (i : Nat) (node : BlockNode) (hi : 1 ≤ i)
    (hnode : s.BlockNodeArray[i]? = some node) :
    (∃ p pn, ReadBlockChainMap s node.Block.PrevHash = some p ∧
        s.BlockNodeArray[p]? = some pn ∧ pn.Children.count i = 1) ∨
    (ReadBlockChainMap s node.Block.PrevHash = none ∧
        ∃ l, mapGet s.ParentHashMap node.Block.PrevHash = some l ∧ i ∈ l) := by
  have inv := hs.inv hdummy
  rcases inv.parent_link i node hi hnode with h | ⟨h1, l, h2, h3⟩
  · exact Or.inl h
  · refine Or.inr ⟨h1, l, h2, ?_⟩
    apply List.count_pos_iff.1
    omega

/-- A concrete instance of claim C10: `blockC` is inserted before its parent `blockB`, which
adopts it as its only child. -/
theorem parent_children_link_witness :
    toyHash dummyGenesisBlock ≠ toySettings.GenesisBlockHash ∧
      Reachable toyHash toySettings (storeAfter [blockC, blockB]) ∧ 1 ≤ 1 ∧
      (storeAfter [blockC, blockB]).BlockNodeArray[1]? =
        some { Block := blockC, Children := [] } ∧
      ((∃ p pn, ReadBlockChainMap (storeAfter [blockC, blockB]) blockC.PrevHash = some p ∧
          (storeAfter [blockC, blockB]).BlockNodeArray[p]? = some pn ∧
          pn.Children.count 1 = 1) ∨
        (ReadBlockChainMap (storeAfter [blockC, blockB]) blockC.PrevHash = none ∧
          ∃ l, mapGet (storeAfter [blockC, blockB]).ParentHashMap blockC.PrevHash = some l ∧
            1 ∈ l)) :=
  ⟨toyHash_dummy, storeAfter_reachable [blockC, blockB] (by decide), by decide, by decide,
    parent_children_link toyHash toySettings toyHash_dummy (storeAfter [blockC, blockB])
      (storeAfter_reachable [blockC, blockB] (by decide)) 1
      { Block := blockC, Children := [] } (by decide) (by decide)⟩

/-- The chain cached for the genesis hash starts with the dummy genesis block: after `blockB`
is inserted, the chain returned for the genesis hash is the dummy genesis block followed by
`blockB`, and the previous hash of `blockB` (the genesis hash of the settings) is not the hash
of the dummy genesis block. -/
theorem GetLongestPath_genesis_pair_unlinked :
    Reachable toyHash toySettings (storeAfter [blockB]) ∧
      ReadBlockChainMap (storeAfter [blockB]) toySettings.GenesisBlockHash = some 0 ∧
      GetLongestPath toyHash toySettings (storeAfter [blockB]) (storeAfter [blockB]).PathMap 1
        toySettings.GenesisBlockHash = some ([dummyGenesisBlock, blockB], 2) ∧
      blockB.PrevHash ≠ toyHash dummyGenesisBlock :=
  ⟨storeAfter_reachable [blockB] (by decide), by decide, by decide, by decide⟩

/-- Claim C9, the failing input.  The blocks `blockB`, `blockC` (child of `blockB`), `blockD`
and `blockE` (both children of `blockC`) and `blockF` (child of `blockD`) are inserted in this
order.  The path of `blockC` has length 3 on an array of capacity 4, so the paths of `blockD`
and of `blockE` are written to the same array: after `blockD` its cached path ends with
`blockD`, after `blockE` it ends with `blockE`.  The path of `blockF` is copied from it, and
`GetLongestPath` for the genesis hash returns a chain in which `blockF` follows `blockE`,
although the previous hash of `blockF` is the hash of `blockD`. -/
theorem GetLongestPath_chain_unlinked_by_shared_append :
    (insertAllShared toyHash toySettings [blockB, blockC, blockD, blockE, blockF]
        (initSliceStore toyHash toySettings)).isSome = true ∧
      mapGet (sliceStoreAfter [blockB, blockC, blockD]).view.PathMap (toyHash blockD) =
        some { Len := 4, Path := [dummyGenesisBlock, blockB, blockC, blockD] } ∧
      mapGet (sliceStoreAfter [blockB, blockC, blockD, blockE]).view.PathMap (toyHash blockD) =
        some { Len := 4, Path := [dummyGenesisBlock, blockB, blockC, blockE] } ∧
      GetLongestPath toyHash toySettings
          (sliceStoreAfter [blockB, blockC, blockD, blockE, blockF]).view
          (sliceStoreAfter [blockB, blockC, blockD, blockE, blockF]).view.PathMap 1
          toySettings.GenesisBlockHash =
        some ([dummyGenesisBlock, blockB, blockC, blockE, blockF], 5) ∧
      blockF.PrevHash = toyHash blockD ∧ blockF.PrevHash ≠ toyHash blockE ∧
      blockE ≠ dummyGenesisBlock := by
  decide

theorem toyHash_rank (b : Block) : b.PrevHash.length < (toyHash b).length := by
  unfold toyHash
  rw [String.length_append, String.length_append]
  have : ("10" : String).length = 2 := by decide
  omega

/-- Claim C4, the code at the failing input.  The proof-of-work valid blocks `blockB` and
`blockC` (a child of `blockB`) are inserted into the initial store in the two possible orders:
parent first, the longest path from genesis is the chain of three blocks; child first, it is
the chain of two blocks that `InsertBlock` wrote for the adopted orphan. -/
theorem insertion_order_changes_longest_path :
    VerifyBlock toyHash toySettings blockB = some true ∧
      VerifyBlock toyHash toySettings blockC = some true ∧
      (insertAll toyHash toySettings [blockB, blockC] (initStore toyHash toySettings)).isSome ∧
      (insertAll toyHash toySettings [blockC, blockB] (initStore toyHash toySettings)).isSome ∧
      GetLongestPath toyHash toySettings (storeAfter [blockB, blockC])
        (storeAfter [blockB, blockC]).PathMap 1 toySettings.GenesisBlockHash =
          some ([dummyGenesisBlock, blockB, blockC], 3) ∧
      GetLongestPath toyHash toySettings (storeAfter [blockC, blockB])
        (storeAfter [blockC, blockB]).PathMap 1 toySettings.GenesisBlockHash =
          some ([blockB, blockC], 2) := by
  decide

/-- Claim C6, the code at the failing input.  The stored block `blockB` has exactly the two
children `blockC` and `blockA`, both childless, inserted in this order, and the hash of
`blockC` is the greater one; the walk from the hash of `blockB` returns the branch through
`blockA`, the child inserted last. -/
theorem tie_break_takes_last_child :
    Compare (toyHash blockC) (toyHash blockA) > 0 ∧
      (storeAfter [blockB, blockC, blockA]).BlockNodeArray =
        [{ Block := dummyGenesisBlock, Children := [1] }, { Block := blockB, Children := [2, 3] },
          { Block := blockC, Children := [] }, { Block := blockA, Children := [] }] ∧
      GetLongestPath toyHash toySettings (storeAfter [blockB, blockC, blockA])
        (storeAfter [blockB, blockC, blockA]).PathMap 2 (toyHash blockB) =
          some ([blockB, blockA], 2) := by
  decide

/-- Claim C7, the code at the failing input.  `blockC` waits in the orphan map for its parent
`blockB`, whose own parent (genesis) is in the cache.  Inserting `blockB` writes the entry
`(2, [genesis, blockB])` for `blockB` and the entry `(2, [blockB, blockC])` for the orphan,
which is built from the path holding `blockB` alone. -/
theorem orphan_entry_ignores_parent_path :
    mapGet (storeAfter [blockC]).ParentHashMap (toyHash blockB) = some [1] ∧
      mapGet (storeAfter [blockC]).PathMap blockB.PrevHash =
        some { Len := 1, Path := [dummyGenesisBlock] } ∧
      InsertBlock toyHash toySettings (storeAfter [blockC]) blockB =
        some (storeAfter [blockC, blockB], true) ∧
      mapGet (storeAfter [blockC, blockB]).PathMap (toyHash blockB) =
        some { Len := 2, Path := [dummyGenesisBlock, blockB] } ∧
      mapGet (storeAfter [blockC, blockB]).PathMap (toyHash blockC) =
        some { Len := 2, Path := [blockB, blockC] } := by
  decide

/-- Claim C8, the code at the failing input.  `blockC` is proof-of-work valid and its previous
hash is not stored in the initial store; after it is inserted it is stored, and the chain
returned for the genesis hash is `blockC` alone. -/
theorem orphan_is_longest_path :
    VerifyBlock toyHash toySettings blockC = some true ∧
      ReadBlockChainMap (initStore toyHash toySettings) blockC.PrevHash = none ∧
      InsertBlock toyHash toySettings (initStore toyHash toySettings) blockC =
        some (storeAfter [blockC], true) ∧
      ReadBlockChainMap (storeAfter [blockC]) (toyHash blockC) = some 1 ∧
      GetLongestPath toyHash toySettings (storeAfter [blockC]) (storeAfter [blockC]).PathMap 1
        toySettings.GenesisBlockHash = some ([blockC], 1) := by
  decide

/-! ### Inserting a block twice -/

theorem InsertBlock_stored (H : Block → String) (cfg : Settings) (s : Store) (b : Block)
    (j : Nat) (h : mapGet s.BlockHashMap (H b) = some j) :
    InsertBlock H cfg s b = some (s, false) := by
  simp only [InsertBlock, ReadBlockChainMap, h]

/-- Claim C11.  For every store state (reachable or not) and every block, when `InsertBlock`
returns, a second `InsertBlock` of the same block returns the store of the first unchanged:
`BlockNodeArray`, `BlockHashMap`, `ParentHashMap` and `PathMap` are as the single insert left
them. -/
theorem InsertBlock_twice (H : Block → String) (cfg : Settings) (s s1 : Store) (b : Block)
    (ok : Bool) (h : InsertBlock H cfg s b = some (s1, ok)) :
    InsertBlock H cfg s1 b = some (s1, false) := by
  cases ok with
  | false =>
    have hs := InsertBlock_false H cfg s s1 b h
    subst hs
    exact h
  | true =>
    have e := InsertBlock_true H cfg s s1 b h
    apply InsertBlock_stored H cfg s1 b s.BlockNodeArray.length
    rw [e.bhm, mapGet_mapSet_self]

/-- A concrete instance of claim C11: `blockC` is inserted twice after `blockB`. -/
theorem InsertBlock_twice_witness :
    InsertBlock toyHash toySettings (storeAfter [blockB]) blockC =
        some (storeAfter [blockB, blockC], true) ∧
      InsertBlock toyHash toySettings (storeAfter [blockB, blockC]) blockC =
        some (storeAfter [blockB, blockC], false) :=
  ⟨by decide, InsertBlock_twice toyHash toySettings (storeAfter [blockB])
    (storeAfter [blockB, blockC]) blockC true (by decide)⟩

/-! ### The children lists -/

theorem idxFrom_append (k : String) (b : Block) :
    ∀ (l : List Block) (start : Nat),
      idxFrom k start (l ++ [b]) =
        idxFrom k start l ++ (if b.PrevHash = k then [start + l.length] else []) := by
  intro l
  induction l with
  | nil =>
    intro start
    by_cases h : b.PrevHash = k <;> simp [idxFrom, h]
  | cons a t ih =>
    intro start
    have e : start + 1 + t.length = start + (t.length + 1) := by omega
    by_cases h : a.PrevHash = k
    · simp [idxFrom, h, ih, e]
    · simp [idxFrom, h, ih, e]

theorem InsertEffect.blocks_eq {H : Block → String} {cfg : Settings} {s s1 : Store}
    {b : Block} (e : InsertEffect H cfg s s1 b) :
    s1.BlockNodeArray.map (fun nd => nd.Block) =
      s.BlockNodeArray.map (fun nd => nd.Block) ++ [b] := by
  have hbase : (baseArray H s b).map (fun nd => nd.Block) =
      s.BlockNodeArray.map (fun nd => nd.Block) ++ [b] := by
    simp [baseArray]
  rw [← hbase]
  apply List.ext_getElem?
  intro j
  rw [List.getElem?_map, List.getElem?_map, e.arr_get j]
  cases (baseArray H s b)[j]? with
  | none => rfl
  | some nd =>
    simp only [Option.map]
    split <;> rfl

theorem InsertEffect.childIdx_eq {H : Block → String} {cfg : Settings} {s s1 : Store}
    {b : Block} (e : InsertEffect H cfg s s1 b) (hpos : 0 < s.BlockNodeArray.length)
    (k : String) :
    childIdx s1.BlockNodeArray k =
      childIdx s.BlockNodeArray k ++
        (if b.PrevHash = k then [s.BlockNodeArray.length] else []) := by
  unfold childIdx
  rw [e.blocks_eq, List.drop_append_of_le_length (by simp; omega), idxFrom_append]
  have hl : 1 + (List.drop 1 (s.BlockNodeArray.map (fun nd => nd.Block))).length =
      s.BlockNodeArray.length := by
    simp; omega
  rw [hl]

/-- The node at a position after a successful insert: exactly when the position is the index of
the parent of the new block, the new index is appended to the children. -/
theorem InsertEffect.node_get_cases {H : Block → String} {cfg : Settings} {s s1 : Store}
    {b : Block} (e : InsertEffect H cfg s s1 b) (j : Nat) (nd1 : BlockNode)
    (h : s1.BlockNodeArray[j]? = some nd1) :
    ∃ nd, (baseArray H s b)[j]? = some nd ∧
      ((mapGet s1.BlockHashMap b.PrevHash = some j ∧
          nd1.Children = nd.Children ++ [s.BlockNodeArray.length]) ∨
        (mapGet s1.BlockHashMap b.PrevHash ≠ some j ∧ nd1.Children = nd.Children)) := by
  rw [e.arr_get j] at h
  cases hb : (baseArray H s b)[j]? with
  | none => rw [hb] at h; simp at h
  | some nd =>
    rw [hb] at h
    simp only [Option.map, Option.some.injEq] at h
    refine ⟨nd, rfl, ?_⟩
    by_cases hp : mapGet s1.BlockHashMap b.PrevHash = some j
    · rw [if_pos hp] at h
      left; exact ⟨hp, by rw [← h]⟩
    · rw [if_neg hp] at h
      right; exact ⟨hp, by rw [h]⟩

theorem ChildInv_init (H : Block → String) (cfg : Settings)
    (hdummy : H dummyGenesisBlock ≠ cfg.GenesisBlockHash) : ChildInv (initStore H cfg) := by
  rw [initStore_eq H cfg hdummy]
  constructor
  · intro k j node h hn
    obtain ⟨h1, h2⟩ := mapGet_singleton _ _ _ _ h
    subst h1 h2
    simp only [List.getElem?_cons_zero, Option.some.injEq] at hn
    subst hn
    rfl
  · intro k _
    rfl

theorem ChildInv.step_child {H : Block → String} {cfg : Settings} {s s1 : Store} {b : Block}
    (inv : StoreInv H cfg s) (cinv : ChildInv s) (e : InsertEffect H cfg s s1 b) :
    ChildInv s1 := by
  have hpos := inv.arr_pos
  constructor
  · intro k j node hk hn
    rw [e.childIdx_eq hpos k]
    obtain ⟨nd, hbase, hch⟩ := e.node_get_cases j node hn
    have hcond : mapGet s1.BlockHashMap b.PrevHash = some j ↔ b.PrevHash = k := by
      constructor
      · intro hp
        exact bhm_key_unique H cfg s1 (inv.step_bhm_sound e) _ _ j hp hk
      · intro hp; rw [hp]; exact hk
    have hold : nd.Children = childIdx s.BlockNodeArray k := by
      have hk1 := hk
      rw [e.bhm_get k] at hk1
      rcases baseArray_get_some H s b j nd hbase with ⟨h1, h2⟩ | ⟨h1, h2⟩
      · have hne : k ≠ H b := by
          intro hkb
          rw [if_pos hkb, Option.some.injEq] at hk1
          omega
        rw [if_neg hne] at hk1
        exact cinv.children_eq k j nd hk1 h2
      · have hkb : k = H b := by
          by_contra hne
          rw [if_neg hne] at hk1
          have := (inv.bhm_sound k j hk1).1
          omega
        rw [h2, hkb]
        exact cinv.orphans_eq (H b) e.fresh
    rcases hch with ⟨hp, hc⟩ | ⟨hp, hc⟩
    · rw [hc, hold, if_pos (hcond.1 hp)]
    · have hne : ¬ b.PrevHash = k := fun hh => hp (hcond.2 hh)
      rw [hc, hold, if_neg hne, List.append_nil]
  · intro k hk
    rw [e.childIdx_eq hpos k]
    have hk1 := hk
    rw [e.bhm_get k] at hk1
    have hne : k ≠ H b := by
      intro hkb; rw [if_pos hkb] at hk1; simp at hk1
    rw [if_neg hne] at hk1
    have hold := cinv.orphans_eq k hk1
    rcases e.link with ⟨p, _, hp, _, _, hphm⟩ | ⟨_, _, hphm⟩
    · have hbk : ¬ b.PrevHash = k := by
        intro hh; rw [hh, hk] at hp; simp at hp
      rw [hphm, hold, if_neg hbk, List.append_nil]
    · rw [hphm, mapGet_mapSet]
      by_cases hbk : b.PrevHash = k
      · subst hbk
        rw [if_pos rfl, if_pos rfl]
        simp only [Option.getD_some]
        rw [hold]
      · have hkb : ¬ k = b.PrevHash := fun hh => hbk hh.symm
        rw [if_neg hkb, if_neg hbk, List.append_nil, hold]

theorem Reachable.childInv {H : Block → String} {cfg : Settings} {s : Store}
    (hdummy : H dummyGenesisBlock ≠ cfg.GenesisBlockHash) (hs : Reachable H cfg s) :
    ChildInv s := by
  induction hs with
  | init => exact ChildInv_init H cfg hdummy
  | insert hs hstep ih =>
    rename_i s0 s1 b ok
    cases ok with
    | false =>
      have := InsertBlock_false H cfg s0 s1 b hstep
      subst this
      exact ih
    | true => exact ih.step_child (hs.inv hdummy) (InsertBlock_true H cfg s0 s1 b hstep)

theorem collectChildren_idxFrom (arr : List BlockNode) (k : String) :
    ∀ (l : List Block) (start : Nat) (acc : List Block),
      (∀ i, (arr[start + i]?).map (fun nd => nd.Block) = l[i]?) →
      collectChildren arr (idxFrom k start l) acc =
        some (acc ++ l.filter (fun b => decide (b.PrevHash = k))) := by
  intro l
  induction l with
  | nil => intro start acc _; simp [idxFrom, collectChildren]
  | cons a t ih =>
    intro start acc h
    have h0 := h 0
    simp only [Nat.add_zero, List.getElem?_cons_zero] at h0
    have htail : ∀ i, (arr[start + 1 + i]?).map (fun nd => nd.Block) = t[i]? := by
      intro i
      have := h (i + 1)
      rw [List.getElem?_cons_succ] at this
      rw [← this]
      congr 2
      omega
    by_cases hk : a.PrevHash = k
    · simp only [idxFrom, hk, if_true, collectChildren]
      cases hn : arr[start]? with
      | none => rw [hn] at h0; simp at h0
      | some nd =>
        rw [hn] at h0
        simp only [Option.map, Option.some.injEq] at h0
        simp only
        rw [ih (start + 1) _ htail, h0]
        simp [List.filter, hk]
    · simp only [idxFrom, hk, if_false]
      rw [ih (start + 1) acc htail]
      simp [List.filter, hk]

/-- Claim C12.  In every reachable store state and for every stored hash `h`,
`GetBlockChildren` returns exactly the stored blocks (the array without the entry at index 0)
whose previous hash is `h`, each once, in the order in which they were inserted; children
inserted before `h` and adopted from the orphan map are included. -/
theorem GetBlockChildren_eq (H : Block → String) (cfg : Settings)
    (hdummy : H dummyGenesisBlock ≠ cfg.GenesisBlockHash) (s : Store)
    (hs : Reachable H cfg s) (h : String) (p : Nat)
    (hstored : ReadBlockChainMap s h = some p) :
    GetBlockChildren s h =
      some (((s.BlockNodeArray.map (fun nd => nd.Block)).drop 1).filter
        (fun b => decide (b.PrevHash = h))) := by
  have inv := hs.inv hdummy
  have cinv := hs.childInv hdummy
  have hlt := (inv.bhm_sound h p hstored).1
  have hnode : s.BlockNodeArray[p]? = some (s.BlockNodeArray[p]) :=
    List.getElem?_eq_getElem hlt
  simp only [GetBlockChildren, hstored, hnode]
  rw [cinv.children_eq h p _ hstored hnode]
  unfold childIdx
  rw [collectChildren_idxFrom s.BlockNodeArray h _ 1 []]
  · simp
  · intro i
    rw [List.getElem?_drop, List.getElem?_map]

/-- A concrete instance of claim C12: `blockC` is inserted before its parent `blockB`, then
`blockA`; the children of `blockB` are `blockC` and `blockA`, in this order. -/
theorem GetBlockChildren_eq_witness :
    toyHash dummyGenesisBlock ≠ toySettings.GenesisBlockHash ∧
      Reachable toyHash toySettings (storeAfter [blockC, blockB, blockA]) ∧
      ReadBlockChainMap (storeAfter [blockC, blockB, blockA]) (toyHash blockB) = some 2 ∧
      GetBlockChildren (storeAfter [blockC, blockB, blockA]) (toyHash blockB) =
        some ((((storeAfter [blockC, blockB, blockA]).BlockNodeArray.map
          (fun nd => nd.Block)).drop 1).filter
            (fun b => decide (b.PrevHash = toyHash blockB))) ∧
      GetBlockChildren (storeAfter [blockC, blockB, blockA]) (toyHash blockB) =
        some [blockC, blockA] :=
  ⟨toyHash_dummy, storeAfter_reachable [blockC, blockB, blockA] (by decide), by decide,
    GetBlockChildren_eq toyHash toySettings toyHash_dummy (storeAfter [blockC, blockB, blockA])
      (storeAfter_reachable [blockC, blockB, blockA] (by decide)) (toyHash blockB) 2
      (by decide), by decide⟩

/-! ## The claims about the validator -/

/-! ### `checkDeletion` -/

theorem delScanOps_foreign (sHash pubkey : String) :
    ∀ (ops : List OperationInfo),
      (∀ o ∈ ops, o.PubKey = pubkey → o.OpSig ≠ sHash) →
      (delScanOps sHash pubkey ops false).1 = false := by
  intro ops
  induction ops with
  | nil => intro _; rfl
  | cons o rest ih =>
    intro h
    have hrest : ∀ o2 ∈ rest, o2.PubKey = pubkey → o2.OpSig ≠ sHash :=
      fun o2 ho2 => h o2 (List.mem_cons_of_mem _ ho2)
    unfold delScanOps
    by_cases hk : o.PubKey = pubkey
    · have hsig := h o (List.mem_cons_self _ _) hk
      rw [if_pos hk, if_neg hsig]
      by_cases ha : o.AddSig = sHash
      · rw [if_pos ha]
      · rw [if_neg ha]; exact ih hrest
    · rw [if_neg hk]; exact ih hrest

theorem delScanBlocks_foreign (sHash pubkey : String) :
    ∀ (blocks : List Block),
      (∀ b ∈ blocks, ∀ o ∈ b.OpHistory, o.PubKey = pubkey → o.OpSig ≠ sHash) →
      delScanBlocks sHash pubkey blocks false = false := by
  intro blocks
  induction blocks with
  | nil => intro _; rfl
  | cons b rest ih =>
    intro h
    have h1 := delScanOps_foreign sHash pubkey b.OpHistory (h b (List.mem_cons_self _ _))
    unfold delScanBlocks
    cases hr : delScanOps sHash pubkey b.OpHistory false with
    | mk d stop =>
      rw [hr] at h1
      simp only at h1
      subst h1
      cases stop with
      | true => rfl
      | false => exact ih (fun b2 hb2 => h b2 (List.mem_cons_of_mem _ hb2))

/-- Claim C19, the code at the failing input.  On a chain where `k1` added the shape `s` and
deleted it with the DELETE operation `d`, `checkDeletion` called for `k1` with the target `d`
returns `nil`, although the chain holds no ADD operation with signature `d`: the signature
test does not look at the type of the operation. -/
theorem checkDeletion_accepts_delete_target :
    (∀ o ∈ opsOf chainAddDelete,
        ¬ (o.PubKey = "k1" ∧ o.OpSig = "d" ∧ o.Op.OpType = OpType.ADD)) ∧
      (∀ o ∈ opsOf chainAddDelete,
        ¬ (o.PubKey = "k1" ∧ o.AddSig = "d" ∧ o.Op.OpType = OpType.DELETE)) ∧
      checkDeletion "d" "k1" chainAddDelete = none := by
  decide

/-- Claim C20.  For every chain on which no operation of the key `K2` has the signature `t`
(as when the shape `t` was added by another key), `checkDeletion` called for `K2` with the
target `t` returns `ShapeOwnerError(t)`. -/
theorem checkDeletion_not_owner (t K2 : String) (blocks : List Block)
    (hK2 : ∀ b ∈ blocks, ∀ o ∈ b.OpHistory, o.PubKey = K2 → o.OpSig ≠ t) :
    checkDeletion t K2 blocks = some (MinerError.ShapeOwnerError t) := by
  unfold checkDeletion
  rw [if_pos (delScanBlocks_foreign t K2 blocks hK2)]

/-- A concrete instance of claim C20: `k2` asks to delete the shape `s` that `k1` added. -/
theorem checkDeletion_not_owner_witness :
    (∃ b ∈ [minedBlock "k1" [signedAdd "k1" "s" "dot0"]], ∃ o ∈ b.OpHistory,
        o.PubKey = "k1" ∧ o.OpSig = "s" ∧ o.Op.OpType = OpType.ADD) ∧
      (∀ b ∈ [minedBlock "k1" [signedAdd "k1" "s" "dot0"]], ∀ o ∈ b.OpHistory,
        o.PubKey = "k2" → o.OpSig ≠ "s") ∧
      checkDeletion "s" "k2" [minedBlock "k1" [signedAdd "k1" "s" "dot0"]] =
        some (MinerError.ShapeOwnerError "s") :=
  ⟨by decide, by decide,
    checkDeletion_not_owner "s" "k2" [minedBlock "k1" [signedAdd "k1" "s" "dot0"]]
      (by decide)⟩

/-! ### `checkInkAndConflicts`: duplicates and ink -/

theorem scanOps_dup (getShapeFromOp : Operation → ShapeOut) (pubkey opSig : String) :
    ∀ (ops : List OperationInfo) (st : Nat × List (String × OperationInfo)),
      (∃ o ∈ ops, o.PubKey = pubkey ∧ o.OpSig = opSig) →
      scanOps getShapeFromOp pubkey opSig ops st = none := by
  intro ops
  induction ops with
  | nil => intro st h; obtain ⟨o, ho, _⟩ := h; simp at ho
  | cons o rest ih =>
    intro st h
    obtain ⟨ink, shapes⟩ := st
    unfold scanOps
    by_cases hk : o.PubKey = pubkey
    · rw [if_pos hk]
      by_cases hsig : o.OpSig = opSig
      · rw [if_pos hsig]
      · rw [if_neg hsig]
        have hrest : ∃ o2 ∈ rest, o2.PubKey = pubkey ∧ o2.OpSig = opSig := by
          obtain ⟨o2, ho2, h1, h2⟩ := h
          rcases List.mem_cons.1 ho2 with heq | hmem
          · subst heq; exact absurd h2 hsig
          · exact ⟨o2, hmem, h1, h2⟩
        split
        · exact ih _ hrest
        · split
          · exact ih _ hrest
          · exact ih _ hrest
    · rw [if_neg hk]
      have hrest : ∃ o2 ∈ rest, o2.PubKey = pubkey ∧ o2.OpSig = opSig := by
        obtain ⟨o2, ho2, h1, h2⟩ := h
        rcases List.mem_cons.1 ho2 with heq | hmem
        · subst heq; exact absurd h1 hk
        · exact ⟨o2, hmem, h1, h2⟩
      split
      · exact ih _ hrest
      · exact ih _ hrest

theorem scanBlocks_dup (getShapeFromOp : Operation → ShapeOut) (cfg : Settings)
    (pubkey opSig : String) :
    ∀ (blocks : List Block) (st : Nat × List (String × OperationInfo)),
      (∃ b ∈ blocks, ∃ o ∈ b.OpHistory, o.PubKey = pubkey ∧ o.OpSig = opSig) →
      scanBlocks getShapeFromOp cfg pubkey opSig blocks st = none := by
  intro blocks
  induction blocks with
  | nil => intro st h; obtain ⟨b, hb, _⟩ := h; simp at hb
  | cons b rest ih =>
    intro st h
    obtain ⟨ink, shapes⟩ := st
    unfold scanBlocks
    simp only
    cases hr : scanOps getShapeFromOp pubkey opSig b.OpHistory
        (if b.MinerPubKey = pubkey then
          if b.OpHistory.length > 0 then (ink + cfg.InkPerOpBlock) % 4294967296
          else (ink + cfg.InkPerNoOpBlock) % 4294967296
        else ink, shapes) with
    | none => rfl
    | some st2 =>
      simp only
      apply ih
      obtain ⟨b2, hb2, o, ho, h1, h2⟩ := h
      rcases List.mem_cons.1 hb2 with heq | hmem
      · subst heq
        rw [scanOps_dup getShapeFromOp pubkey opSig _ _ ⟨o, ho, h1, h2⟩] at hr
        simp at hr
      · exact ⟨b2, hmem, o, ho, h1, h2⟩

/-- Claim C15.  For every chain, key `K` and signature `s`: when some block of the chain holds
an operation with `PubKey = K` and `OpSig = s`, `checkInkAndConflicts` called for `K` with
`opSig = s` returns `DuplicateError`, whatever the sub-array, the ink required, the ink of `K`
and the shapes on the chain; in particular after a block holding the operation is appended. -/
theorem checkInkAndConflicts_duplicate (getShapeFromOp : Operation → ShapeOut)
    (cfg : Settings)
    (rangeShapes : List (String × OperationInfo) → List (String × OperationInfo))
    (subarr : PixelSubArray) (inkRequired : Int) (K : String) (blocks : List Block)
    (svgString s : String)
    (h : ∃ b ∈ blocks, ∃ o ∈ b.OpHistory, o.PubKey = K ∧ o.OpSig = s) :
    checkInkAndConflicts getShapeFromOp cfg rangeShapes subarr inkRequired K blocks
      svgString s = some (some (MinerError.DuplicateError "opSig")) := by
  unfold checkInkAndConflicts
  rw [scanBlocks_dup getShapeFromOp cfg K s blocks (0, []) h]

/-- A concrete instance of claim C15: the operation `s` of `k1` is on the chain. -/
theorem checkInkAndConflicts_duplicate_witness :
    (∃ b ∈ chainAddDelete, ∃ o ∈ b.OpHistory, o.PubKey = "k1" ∧ o.OpSig = "s") ∧
      checkInkAndConflicts toyShape paintSettings (fun m => m)
        (toyShape (signedAdd "k1" "s" "dot0").Op).subarr 1 "k1" chainAddDelete "dot0" "s" =
          some (some (MinerError.DuplicateError "opSig")) :=
  ⟨by decide, checkInkAndConflicts_duplicate toyShape paintSettings (fun m => m)
    (toyShape (signedAdd "k1" "s" "dot0").Op).subarr 1 "k1" chainAddDelete "dot0" "s"
    (by decide)⟩

theorem scanOps_foreign (getShapeFromOp : Operation → ShapeOut) (pubkey opSig : String) :
    ∀ (ops : List OperationInfo) (ink : Nat) (shapes : List (String × OperationInfo)),
      (∀ o ∈ ops, o.PubKey ≠ pubkey) →
      ∃ shapes1, scanOps getShapeFromOp pubkey opSig ops (ink, shapes) = some (ink, shapes1) := by
  intro ops
  induction ops with
  | nil => intro ink shapes _; exact ⟨shapes, rfl⟩
  | cons o rest ih =>
    intro ink shapes h
    have hk := h o (List.mem_cons_self _ _)
    have hrest : ∀ o2 ∈ rest, o2.PubKey ≠ pubkey :=
      fun o2 ho2 => h o2 (List.mem_cons_of_mem _ ho2)
    unfold scanOps
    rw [if_neg hk]
    split
    · exact ih ink _ hrest
    · exact ih ink _ hrest

theorem scanBlocks_foreign (getShapeFromOp : Operation → ShapeOut) (cfg : Settings)
    (pubkey opSig : String) :
    ∀ (blocks : List Block) (ink : Nat) (shapes : List (String × OperationInfo)),
      (∀ b ∈ blocks, b.MinerPubKey ≠ pubkey ∧ ∀ o ∈ b.OpHistory, o.PubKey ≠ pubkey) →
      ∃ shapes1, scanBlocks getShapeFromOp cfg pubkey opSig blocks (ink, shapes) =
        some (ink, shapes1) := by
  intro blocks
  induction blocks with
  | nil => intro ink shapes _; exact ⟨shapes, rfl⟩
  | cons b rest ih =>
    intro ink shapes h
    obtain ⟨hm, hops⟩ := h b (List.mem_cons_self _ _)
    obtain ⟨sh1, h1⟩ := scanOps_foreign getShapeFromOp pubkey opSig b.OpHistory ink shapes hops
    obtain ⟨sh2, h2⟩ := ih ink sh1 (fun b2 hb2 => h b2 (List.mem_cons_of_mem _ hb2))
    refine ⟨sh2, ?_⟩
    unfold scanBlocks
    simp only [if_neg hm, h1]
    exact h2

/-- Claim C16, counterexample.  On the empty chain the key `k1` mined no block and owns no
operation; for an ADD operation of cost `2^32` the error returned carries `uint32(2^32) = 0`,
not the cost. -/
theorem checkInkAndConflicts_ink_error_wraps :
    (toyShape (signedAdd "k1" "s" "big").Op).cost = 4294967296 ∧
      checkInkAndConflicts toyShape paintSettings (fun m => m)
        (toyShape (signedAdd "k1" "s" "big").Op).subarr
        (toyShape (signedAdd "k1" "s" "big").Op).cost "k1" [] "big" "s" =
          some (some (MinerError.InsufficientInkError 0)) := by
  decide

/-- Claim C16, amended.  For every chain on which the key `K` mined no block and owns no
operation, and every ink cost `c > 0`, `checkInkAndConflicts` called for `K` returns
`InsufficientInkError(uint32(c))`, that is `InsufficientInkError(c)` when `c < 2^32`. -/
theorem checkInkAndConflicts_no_ink (getShapeFromOp : Operation → ShapeOut) (cfg : Settings)
    (rangeShapes : List (String × OperationInfo) → List (String × OperationInfo))
    (subarr : PixelSubArray) (c : Int) (K : String) (blocks : List Block)
    (svgString opSig : String)
    (hK : ∀ b ∈ blocks, b.MinerPubKey ≠ K ∧ ∀ o ∈ b.OpHistory, o.PubKey ≠ K)
    (hc : 0 < c) :
    checkInkAndConflicts getShapeFromOp cfg rangeShapes subarr c K blocks svgString opSig =
        some (some (MinerError.InsufficientInkError (toUint32 c))) ∧
      (c < 4294967296 → toUint32 c = c.toNat) := by
  constructor
  · obtain ⟨sh, hsh⟩ := scanBlocks_foreign getShapeFromOp cfg K opSig blocks 0 [] hK
    unfold checkInkAndConflicts
    rw [hsh]
    simp only
    rw [if_pos (by simpa using hc)]
  · intro hlt
    unfold toUint32
    omega

/-- A concrete instance of the amended claim C16: `k3` mined nothing on the chain and asks for
a shape of cost 1. -/
theorem checkInkAndConflicts_no_ink_witness :
    (∀ b ∈ chainAddDelete, b.MinerPubKey ≠ "k3" ∧ ∀ o ∈ b.OpHistory, o.PubKey ≠ "k3") ∧
      (0 : Int) < 1 ∧
      checkInkAndConflicts toyShape paintSettings (fun m => m)
        (toyShape (signedAdd "k3" "t" "dot1").Op).subarr 1 "k3" chainAddDelete "dot1" "t" =
          some (some (MinerError.InsufficientInkError (toUint32 1))) ∧
      ((1 : Int) < 4294967296 → toUint32 1 = (1 : Int).toNat) :=
  ⟨by decide, by decide,
    (checkInkAndConflicts_no_ink toyShape paintSettings (fun m => m)
      (toyShape (signedAdd "k3" "t" "dot1").Op).subarr 1 "k3" chainAddDelete "dot1" "t"
      (by decide) (by decide)).1,
    (checkInkAndConflicts_no_ink toyShape paintSettings (fun m => m)
      (toyShape (signedAdd "k3" "t" "dot1").Op).subarr 1 "k3" chainAddDelete "dot1" "t"
      (by decide) (by decide)).2⟩

/-- Claim C14, the code at the failing input.  On the chain `k1` added the shape `s` (the
pixel (0,0)) and deleted it with a DELETE whose `AddSig` is `s`; no other shape is on the
chain.  The key `k2` has ink 10 and asks for the same pixel at cost 1: the call returns
`ShapeOverlapError`, because the DELETE removed the key `d` (its own signature) from
`shapesExisting` and the shape `s` is still merged into the pixel array. -/
theorem checkInkAndConflicts_deleted_shape_conflicts :
    opsOf chainAddDelete =
        [signedAdd "k1" "s" "dot0", signedDelete "k1" "d" "s" "dot0"] ∧
      scanBlocks toyShape paintSettings "k2" "t" chainAddDelete (0, []) =
        some (10, [("s", signedAdd "k1" "s" "dot0")]) ∧
      checkInkAndConflicts toyShape paintSettings (fun m => m)
        (toyShape (signedAdd "k2" "t" "dot0").Op).subarr
        (toyShape (signedAdd "k2" "t" "dot0").Op).cost "k2" chainAddDelete "dot0" "t" =
          some (some (MinerError.ShapeOverlapError "dot0")) := by
  decide

/-! ### The ink balance -/

theorem opsDelta_append (getShapeFromOp : Operation → ShapeOut) (key : String) :
    ∀ (l1 l2 : List OperationInfo),
      opsDelta getShapeFromOp key (l1 ++ l2) =
        opsDelta getShapeFromOp key l1 + opsDelta getShapeFromOp key l2 := by
  intro l1
  induction l1 with
  | nil => intro l2; simp [opsDelta]
  | cons o rest ih =>
    intro l2
    change opDelta getShapeFromOp key o + opsDelta getShapeFromOp key (rest ++ l2) = _
    rw [ih]
    simp only [opsDelta]
    ring

theorem costSum_append (getShapeFromOp : Operation → ShapeOut) (key : String) (t : OpType) :
    ∀ (l1 l2 : List OperationInfo),
      costSum getShapeFromOp key t (l1 ++ l2) =
        costSum getShapeFromOp key t l1 + costSum getShapeFromOp key t l2 := by
  intro l1
  induction l1 with
  | nil => intro l2; simp [costSum]
  | cons o rest ih =>
    intro l2
    change _ + costSum getShapeFromOp key t (rest ++ l2) = _
    rw [ih]
    simp only [costSum]
    ring

theorem opsDelta_eq_costSum (getShapeFromOp : Operation → ShapeOut) (key : String) :
    ∀ (ops : List OperationInfo),
      opsDelta getShapeFromOp key ops =
        - costSum getShapeFromOp key OpType.ADD ops +
          costSum getShapeFromOp key OpType.DELETE ops := by
  intro ops
  induction ops with
  | nil => simp [opsDelta, costSum]
  | cons o rest ih =>
    simp only [opsDelta, costSum, ih, opDelta]
    by_cases hk : o.PubKey = key
    · by_cases he : (getShapeFromOp o.Op).err = none
      · cases ht : o.Op.OpType with
        | ADD => simp [hk, he]; ring
        | DELETE => simp [hk, he]; ring
      · simp [hk, he]
    · simp [hk]

/-- The sum of the rewards and of the changes made by the operations along a chain. -/
theorem inkEvents_sum (getShapeFromOp : Operation → ShapeOut) (cfg : Settings) (key : String) :
    ∀ (chain : List Block),
      (inkEvents getShapeFromOp cfg key chain).sum =
        inkBalance getShapeFromOp cfg key chain := by
  intro chain
  unfold inkBalance
  induction chain with
  | nil => simp [inkEvents, rewardSum, opsOf, costSum]
  | cons b rest ih =>
    have hmap : ∀ ops : List OperationInfo,
        (ops.map (opDelta getShapeFromOp key)).sum = opsDelta getShapeFromOp key ops := by
      intro ops
      induction ops with
      | nil => rfl
      | cons o r ih2 => simp only [List.map_cons, List.sum_cons, opsDelta, ih2]
    simp only [inkEvents, List.sum_append, List.sum_cons, ih, hmap, rewardSum, opsOf,
      costSum_append, opsDelta_eq_costSum, blockReward]
    ring

theorem calcOps_mod (getShapeFromOp : Operation → ShapeOut) (key : String) :
    ∀ (ops : List OperationInfo) (ink : Nat) (i : Int),
      (ink : Int) = i % 4294967296 →
      ((calcOps getShapeFromOp key ops ink : Nat) : Int) =
        (i + opsDelta getShapeFromOp key ops) % 4294967296 := by
  intro ops
  induction ops with
  | nil => intro ink i h; simp [calcOps, opsDelta, h]
  | cons o rest ih =>
    intro ink i h
    unfold calcOps
    simp only [opsDelta]
    by_cases hk : o.PubKey = key
    · rw [if_pos hk]
      by_cases he : (getShapeFromOp o.Op).err = none
      · have he2 : ¬ (getShapeFromOp o.Op).err ≠ none := fun hh => hh he
        rw [if_neg he2]
        by_cases ht : o.Op.OpType = OpType.ADD
        · have hd : opDelta getShapeFromOp key o = - (getShapeFromOp o.Op).cost := by
            simp [opDelta, hk, he, ht]
          rw [if_pos ht, hd]
          rw [ih _ (i - (getShapeFromOp o.Op).cost) (by unfold toUint32; omega)]
          congr 1; ring
        · have hd : opDelta getShapeFromOp key o = (getShapeFromOp o.Op).cost := by
            simp [opDelta, hk, he, ht]
          rw [if_neg ht, hd]
          rw [ih _ (i + (getShapeFromOp o.Op).cost) (by unfold toUint32; omega)]
          congr 1; ring
      · have he2 : (getShapeFromOp o.Op).err ≠ none := he
        have hd : opDelta getShapeFromOp key o = 0 := by
          simp [opDelta, he]
        rw [if_pos he2, hd]
        rw [ih ink i h]
        congr 1; ring
    · have hd : opDelta getShapeFromOp key o = 0 := by
        simp [opDelta, hk]
      rw [if_neg hk, hd]
      rw [ih ink i h]
      congr 1; ring

theorem calcBlocks_mod (getShapeFromOp : Operation → ShapeOut) (cfg : Settings) (key : String) :
    ∀ (chain : List Block) (ink : Nat) (i : Int),
      (ink : Int) = i % 4294967296 →
      ((calcBlocks getShapeFromOp cfg key chain ink : Nat) : Int) =
        (i + (inkEvents getShapeFromOp cfg key chain).sum) % 4294967296 := by
  intro chain
  induction chain with
  | nil => intro ink i h; simp [calcBlocks, inkEvents, h]
  | cons b rest ih =>
    intro ink i h
    have hmap : ∀ ops : List OperationInfo,
        (ops.map (opDelta getShapeFromOp key)).sum = opsDelta getShapeFromOp key ops := by
      intro ops
      induction ops with
      | nil => rfl
      | cons o r ih2 => simp only [List.map_cons, List.sum_cons, opsDelta, ih2]
    unfold calcBlocks
    simp only [inkEvents, List.sum_append, List.sum_cons, hmap]
    have hrew : ((if b.MinerPubKey = key then
          if b.OpHistory.length = 0 then (ink + cfg.InkPerNoOpBlock) % 4294967296
          else (ink + cfg.InkPerOpBlock) % 4294967296
        else ink : Nat) : Int) = (i + blockReward cfg key b) % 4294967296 := by
      unfold blockReward
      by_cases hm : b.MinerPubKey = key
      · rw [if_pos hm, if_pos hm]
        by_cases hl : b.OpHistory.length = 0
        · rw [if_pos hl, if_pos (List.length_eq_zero.1 hl)]
          omega
        · rw [if_neg hl, if_neg (fun hh => hl (List.length_eq_zero.2 hh))]
          omega
      · rw [if_neg hm, if_neg hm]
        omega
    rw [ih _ _ (calcOps_mod getShapeFromOp key b.OpHistory _ _ hrew)]
    congr 1; ring

theorem GetLongestPath_genesis_fuel (H : Block → String) (cfg : Settings) (s : Store)
    (order : List (String × LongestPathInfo)) (fuel : Nat) :
    GetLongestPath H cfg s order (fuel + 1) cfg.GenesisBlockHash =
      GetLongestPath H cfg s order 1 cfg.GenesisBlockHash := by
  simp only [GetLongestPath]
  cases ReadBlockChainMap s cfg.GenesisBlockHash with
  | none => rfl
  | some j =>
    simp only
    cases s.BlockNodeArray[j]? with
    | none => rfl
    | some node => simp only [if_true]

/-- Claim C17.  `CalculateInk(K)` returns, and its value is the residue modulo `2^32` of: the
sum of the rewards of the blocks of the current longest chain mined by `K` (`InkPerNoOpBlock`
for a block with no operations, `InkPerOpBlock` otherwise), minus the sum of the costs of the
ADD operations of `K` on that chain, plus the sum of the costs of its DELETE operations (an
operation whose shape is rejected has no cost). -/
theorem CalculateInk_eq_balance (H : Block → String) (getShapeFromOp : Operation → ShapeOut)
    (cfg : Settings) (s : Store) (order : List (String × LongestPathInfo)) (K : String) :
    ∃ chain len n,
      (∀ fuel : Nat,
        GetLongestPath H cfg s order (fuel + 1) cfg.GenesisBlockHash = some (chain, len)) ∧
      CalculateInk H getShapeFromOp cfg s order K = some n ∧ n < 4294967296 ∧
      (n : Int) =
        (rewardSum cfg K chain - costSum getShapeFromOp K OpType.ADD (opsOf chain) +
          costSum getShapeFromOp K OpType.DELETE (opsOf chain)) % 4294967296 := by
  cases hres : GetLongestPath H cfg s order 1 cfg.GenesisBlockHash with
  | none =>
    exfalso
    simp only [GetLongestPath] at hres
    split at hres
    · simp at hres
    · split at hres
      · simp at hres
      · simp at hres
  | some r =>
    obtain ⟨chain, len⟩ := r
    have hmod := calcBlocks_mod getShapeFromOp cfg K chain 0 0 (by simp)
    rw [inkEvents_sum, zero_add] at hmod
    refine ⟨chain, len, calcBlocks getShapeFromOp cfg K chain 0, ?_, ?_, ?_, ?_⟩
    · intro fuel
      rw [GetLongestPath_genesis_fuel, hres]
    · simp only [CalculateInk, hres]
    · omega
    · rw [hmod]; rfl

/-! ### Ink on validated chains -/

theorem map_opDelta_sum (getShapeFromOp : Operation → ShapeOut) (key : String) :
    ∀ ops : List OperationInfo,
      (ops.map (opDelta getShapeFromOp key)).sum = opsDelta getShapeFromOp key ops := by
  intro ops
  induction ops with
  | nil => rfl
  | cons o r ih => simp only [List.map_cons, List.sum_cons, opsDelta, ih]

theorem inkEvents_append (getShapeFromOp : Operation → ShapeOut) (cfg : Settings)
    (key : String) :
    ∀ (c1 c2 : List Block),
      inkEvents getShapeFromOp cfg key (c1 ++ c2) =
        inkEvents getShapeFromOp cfg key c1 ++ inkEvents getShapeFromOp cfg key c2 := by
  intro c1
  induction c1 with
  | nil => intro c2; rfl
  | cons b rest ih =>
    intro c2
    change (blockReward cfg key b :: b.OpHistory.map (opDelta getShapeFromOp key)) ++
      inkEvents getShapeFromOp cfg key (rest ++ c2) = _
    rw [ih]
    simp only [inkEvents, List.append_assoc]

theorem scanOps_ink (getShapeFromOp : Operation → ShapeOut) (pubkey opSig : String) :
    ∀ (ops : List OperationInfo) (ink : Nat) (shapes : List (String × OperationInfo))
      (ink1 : Nat) (shapes1 : List (String × OperationInfo)) (i : Int),
      scanOps getShapeFromOp pubkey opSig ops (ink, shapes) = some (ink1, shapes1) →
      (ink : Int) = i % 4294967296 →
      (ink1 : Int) = (i + opsDelta getShapeFromOp pubkey ops) % 4294967296 := by
  intro ops
  induction ops with
  | nil =>
    intro ink shapes ink1 shapes1 i h hi
    simp only [scanOps, Option.some.injEq, Prod.mk.injEq] at h
    rw [← h.1, hi]
    simp [opsDelta]
  | cons o rest ih =>
    intro ink shapes ink1 shapes1 i h hi
    unfold scanOps at h
    simp only [opsDelta]
    by_cases hk : o.PubKey = pubkey
    · rw [if_pos hk] at h
      by_cases hsig : o.OpSig = opSig
      · rw [if_pos hsig] at h; simp at h
      · rw [if_neg hsig] at h
        by_cases he : (getShapeFromOp o.Op).err = none
        · have he2 : ¬ (getShapeFromOp o.Op).err ≠ none := fun hh => hh he
          rw [if_neg he2] at h
          by_cases ht : o.Op.OpType = OpType.ADD
          · have hd : opDelta getShapeFromOp pubkey o = - (getShapeFromOp o.Op).cost := by
              simp [opDelta, hk, he, ht]
            rw [if_pos ht] at h
            rw [hd, ih _ _ _ _ (i - (getShapeFromOp o.Op).cost) h (by unfold toUint32; omega)]
            congr 1; ring
          · have hd : opDelta getShapeFromOp pubkey o = (getShapeFromOp o.Op).cost := by
              simp [opDelta, hk, he, ht]
            rw [if_neg ht] at h
            rw [hd, ih _ _ _ _ (i + (getShapeFromOp o.Op).cost) h (by unfold toUint32; omega)]
            congr 1; ring
        · have he2 : (getShapeFromOp o.Op).err ≠ none := he
          have hd : opDelta getShapeFromOp pubkey o = 0 := by
            simp [opDelta, he]
          rw [if_pos he2] at h
          rw [hd, ih _ _ _ _ i h hi]
          congr 1; ring
    · have hd : opDelta getShapeFromOp pubkey o = 0 := by
        simp [opDelta, hk]
      rw [if_neg hk] at h
      rw [hd]
      split at h
      · rw [ih _ _ _ _ i h hi]; congr 1; ring
      · rw [ih _ _ _ _ i h hi]; congr 1; ring

theorem scanBlocks_ink (getShapeFromOp : Operation → ShapeOut) (cfg : Settings)
    (pubkey opSig : String) :
    ∀ (blocks : List Block) (ink : Nat) (shapes : List (String × OperationInfo))
      (ink1 : Nat) (shapes1 : List (String × OperationInfo)) (i : Int),
      scanBlocks getShapeFromOp cfg pubkey opSig blocks (ink, shapes) = some (ink1, shapes1) →
      (ink : Int) = i % 4294967296 →
      (ink1 : Int) =
        (i + (inkEvents getShapeFromOp cfg pubkey blocks).sum) % 4294967296 := by
  intro blocks
  induction blocks with
  | nil =>
    intro ink shapes ink1 shapes1 i h hi
    simp only [scanBlocks, Option.some.injEq, Prod.mk.injEq] at h
    rw [← h.1, hi]
    simp [inkEvents]
  | cons b rest ih =>
    intro ink shapes ink1 shapes1 i h hi
    unfold scanBlocks at h
    simp only at h
    have hrew : ((if b.MinerPubKey = pubkey then
          if b.OpHistory.length > 0 then (ink + cfg.InkPerOpBlock) % 4294967296
          else (ink + cfg.InkPerNoOpBlock) % 4294967296
        else ink : Nat) : Int) = (i + blockReward cfg pubkey b) % 4294967296 := by
      unfold blockReward
      by_cases hm : b.MinerPubKey = pubkey
      · rw [if_pos hm, if_pos hm]
        by_cases hl : b.OpHistory = []
        · have hl2 : ¬ b.OpHistory.length > 0 := by rw [hl]; simp
          rw [if_neg hl2, if_pos hl]
          omega
        · have hl2 : b.OpHistory.length > 0 := List.length_pos.2 hl
          rw [if_pos hl2, if_neg hl]
          omega
      · rw [if_neg hm, if_neg hm]
        omega
    cases hr : scanOps getShapeFromOp pubkey opSig b.OpHistory
        (if b.MinerPubKey = pubkey then
          if b.OpHistory.length > 0 then (ink + cfg.InkPerOpBlock) % 4294967296
          else (ink + cfg.InkPerNoOpBlock) % 4294967296
        else ink, shapes) with
    | none => rw [hr] at h; simp at h
    | some st =>
      obtain ⟨ink2, shapes2⟩ := st
      rw [hr] at h
      simp only at h
      have h2 := scanOps_ink getShapeFromOp pubkey opSig _ _ _ _ _ _ hr hrew
      rw [ih _ _ _ _ _ h h2]
      simp only [inkEvents, List.sum_append, List.sum_cons, map_opDelta_sum]
      congr 1; ring

theorem checkInkAndConflicts_nil (getShapeFromOp : Operation → ShapeOut) (cfg : Settings)
    (rangeShapes : List (String × OperationInfo) → List (String × OperationInfo))
    (subarr : PixelSubArray) (inkRequired : Int) (pubkey : String) (blocks : List Block)
    (svgString opSig : String)
    (h : checkInkAndConflicts getShapeFromOp cfg rangeShapes subarr inkRequired pubkey blocks
      svgString opSig = some none) :
    ∃ ink shapes, scanBlocks getShapeFromOp cfg pubkey opSig blocks (0, []) =
        some (ink, shapes) ∧ inkRequired ≤ (ink : Int) := by
  unfold checkInkAndConflicts at h
  cases hr : scanBlocks getShapeFromOp cfg pubkey opSig blocks (0, []) with
  | none => rw [hr] at h; simp at h
  | some st =>
    obtain ⟨ink, shapes⟩ := st
    rw [hr] at h
    simp only at h
    refine ⟨ink, shapes, rfl, ?_⟩
    by_contra hgt
    rw [if_pos (by omega)] at h
    simp at h

theorem validateLoop_prefix (getShapeFromOp : Operation → ShapeOut) (cfg : Settings)
    (rangeShapes : List (String × OperationInfo) → List (String × OperationInfo))
    (chain : List Block) :
    ∀ (ops kept r : List OperationInfo),
      validateLoop getShapeFromOp cfg rangeShapes chain ops kept = some r →
      ∃ sub, r = kept ++ sub ∧ sub.length ≤ ops.length := by
  intro ops
  induction ops with
  | nil =>
    intro kept r h
    simp only [validateLoop, Option.some.injEq] at h
    exact ⟨[], by simp [h], le_refl _⟩
  | cons o rest ih =>
    intro kept r h
    have hdrop : ∀ r2, validateLoop getShapeFromOp cfg rangeShapes chain rest kept = some r2 →
        ∃ sub, r2 = kept ++ sub ∧ sub.length ≤ (o :: rest).length := by
      intro r2 h2
      obtain ⟨sub, h3, h4⟩ := ih kept r2 h2
      exact ⟨sub, h3, by simp only [List.length_cons]; omega⟩
    unfold validateLoop at h
    simp only at h
    split at h
    · exact hdrop r h
    · split at h
      · simp at h
      · exact hdrop r h
      · obtain ⟨sub, h3, h4⟩ := ih (kept ++ [o]) r h
        refine ⟨o :: sub, by rw [h3]; simp, by simp only [List.length_cons]; omega⟩

/-- When every operation is kept, the first one passed its check against the chain extended by
the test block, and the rest is kept after it. -/
theorem validateLoop_all_kept (getShapeFromOp : Operation → ShapeOut) (cfg : Settings)
    (rangeShapes : List (String × OperationInfo) → List (String × OperationInfo))
    (chain : List Block) (o : OperationInfo) (rest kept : List OperationInfo)
    (h : validateLoop getShapeFromOp cfg rangeShapes chain (o :: rest) kept =
      some (kept ++ o :: rest)) :
    (getShapeFromOp o.Op).err = none ∧
      (o.Op.OpType = OpType.ADD →
        checkInkAndConflicts getShapeFromOp cfg rangeShapes (getShapeFromOp o.Op).subarr
          (getShapeFromOp o.Op).cost o.PubKey (chain ++ [testBlock kept]) o.Op.SVGString
          o.OpSig = some none) ∧
      validateLoop getShapeFromOp cfg rangeShapes chain rest (kept ++ [o]) =
        some ((kept ++ [o]) ++ rest) := by
  have hno : ¬ validateLoop getShapeFromOp cfg rangeShapes chain rest kept =
      some (kept ++ o :: rest) := by
    intro h2
    obtain ⟨sub, h3, h4⟩ := validateLoop_prefix getShapeFromOp cfg rangeShapes chain _ _ _ h2
    have := List.append_cancel_left h3
    rw [← this] at h4
    simp only [List.length_cons] at h4
    omega
  unfold validateLoop at h
  simp only at h
  split at h
  · exact absurd h hno
  · rename_i herr
    have herr2 : (getShapeFromOp o.Op).err = none := by
      by_contra hh; exact herr hh
    split at h
    · simp at h
    · exact absurd h hno
    · rename_i hcheck
      refine ⟨herr2, ?_, ?_⟩
      · intro ht
        rw [if_pos ht] at hcheck
        exact hcheck
      · rw [h]; simp

theorem validated_prefix_nonneg (getShapeFromOp : Operation → ShapeOut) (cfg : Settings)
    (rangeShapes : List (String × OperationInfo) → List (String × OperationInfo))
    (chain : List Block) (K : String)
    (hcost : ∀ o : Operation, 0 ≤ (getShapeFromOp o).cost)
    (hK : K ≠ (testBlock []).MinerPubKey) :
    ∀ (ops kept : List OperationInfo),
      validateLoop getShapeFromOp cfg rangeShapes chain ops kept = some (kept ++ ops) →
      0 ≤ (inkEvents getShapeFromOp cfg K chain).sum + opsDelta getShapeFromOp K kept →
      ∀ m : Nat, 0 ≤ (inkEvents getShapeFromOp cfg K chain).sum +
        opsDelta getShapeFromOp K kept + ((ops.map (opDelta getShapeFromOp K)).take m).sum := by
  intro ops
  induction ops with
  | nil => intro kept _ h0 m; simpa using h0
  | cons o rest ih =>
    intro kept h h0 m
    cases m with
    | zero => simpa using h0
    | succ m =>
      obtain ⟨herr, hadd, hrest⟩ :=
        validateLoop_all_kept getShapeFromOp cfg rangeShapes chain o rest kept h
      have hstep : 0 ≤ (inkEvents getShapeFromOp cfg K chain).sum +
          opsDelta getShapeFromOp K (kept ++ [o]) := by
        rw [opsDelta_append]
        simp only [opsDelta, add_zero]
        by_cases hk : o.PubKey = K
        · by_cases ht : o.Op.OpType = OpType.ADD
          · have hd : opDelta getShapeFromOp K o = - (getShapeFromOp o.Op).cost := by
              simp [opDelta, hk, herr, ht]
            obtain ⟨ink, shapes, hscan, hle⟩ :=
              checkInkAndConflicts_nil _ _ _ _ _ _ _ _ _ (hadd ht)
            rw [hk] at hscan
            have hink := scanBlocks_ink getShapeFromOp cfg K o.OpSig _ _ _ _ _ 0 hscan
              (by simp)
            rw [inkEvents_append] at hink
            have htest : (inkEvents getShapeFromOp cfg K [testBlock kept]).sum =
                opsDelta getShapeFromOp K kept := by
              have hm : ¬ (testBlock kept).MinerPubKey = K := fun hh => hK hh.symm
              simp only [inkEvents, blockReward, if_neg hm, List.append_nil, List.sum_cons,
                map_opDelta_sum, zero_add]
              rfl
            rw [List.sum_append, htest, zero_add] at hink
            rw [hd]
            omega
          · have hd : opDelta getShapeFromOp K o = (getShapeFromOp o.Op).cost := by
              simp [opDelta, hk, herr, ht]
            rw [hd]
            have := hcost o.Op
            omega
        · have hd : opDelta getShapeFromOp K o = 0 := by
            simp [opDelta, hk]
          rw [hd]; omega
      have key := ih (kept ++ [o]) hrest hstep m
      rw [opsDelta_append] at key
      simp only [opsDelta, add_zero] at key
      simp only [List.map_cons, List.take_succ_cons, List.sum_cons]
      omega

/-- Claim C18, counterexample.  With the placeholder miner key of the test block as the key of
an ADD operation: on the empty chain every balance is 0, `ValidateOps` keeps the operation
(the test block credits the key with the reward of a block), and on the chain extended by the
block, mined by `k1`, the balance of that key is -1. -/
theorem validated_ink_negative_for_test_key :
    (∀ K, InkNonNeg toyShape paintSettings K []) ∧
      ValidateOps toyShape paintSettings (fun m => m)
        [signedAdd (testBlock []).MinerPubKey "s" "dot0"] [] =
          some [signedAdd (testBlock []).MinerPubKey "s" "dot0"] ∧
      ¬ InkNonNeg toyShape paintSettings (testBlock []).MinerPubKey
        ([] ++ [minedBlock "k1" [signedAdd (testBlock []).MinerPubKey "s" "dot0"]]) := by
  refine ⟨?_, by decide, ?_⟩
  · intro K n
    simp [inkEvents]
  · intro h
    have h2 := h 2
    revert h2
    decide

/-- Claim C18, amended.  For every key other than the placeholder miner key of the test block
of `ValidateOps`: if the running ink balance of the key, as an unbounded integer replayed block
by block and operation by operation, is at least 0 at every point of a chain, and `ValidateOps`
keeps every operation of a block, then the running balance is at least 0 at every point of the
chain extended by the block.  The costs given by the rasterizer are assumed non-negative. -/
theorem validated_ink_nonnegative (getShapeFromOp : Operation → ShapeOut) (cfg : Settings)
    (rangeShapes : List (String × OperationInfo) → List (String × OperationInfo))
    (chain : List Block) (block : Block) (K : String)
    (hcost : ∀ o : Operation, 0 ≤ (getShapeFromOp o).cost)
    (hK : K ≠ (testBlock []).MinerPubKey)
    (hchain : InkNonNeg getShapeFromOp cfg K chain)
    (hvalid : ValidateOps getShapeFromOp cfg rangeShapes block.OpHistory chain =
      some block.OpHistory) :
    InkNonNeg getShapeFromOp cfg K (chain ++ [block]) := by
  intro n
  have hB : 0 ≤ (inkEvents getShapeFromOp cfg K chain).sum := by
    have := hchain (inkEvents getShapeFromOp cfg K chain).length
    rwa [List.take_length] at this
  have hmain := validated_prefix_nonneg getShapeFromOp cfg rangeShapes chain K hcost hK
    block.OpHistory [] (by simpa [ValidateOps] using hvalid) (by simpa [opsDelta] using hB)
  simp only [opsDelta, add_zero] at hmain
  have hrew : 0 ≤ blockReward cfg K block := by
    unfold blockReward
    split
    · split <;> exact Int.ofNat_nonneg _
    · exact le_refl 0
  rw [inkEvents_append, List.take_append_eq_append_take, List.sum_append]
  by_cases hn : n ≤ (inkEvents getShapeFromOp cfg K chain).length
  · have h0 : n - (inkEvents getShapeFromOp cfg K chain).length = 0 := by omega
    rw [h0, List.take_zero, List.sum_nil, add_zero]
    exact hchain n
  · rw [List.take_of_length_le (by omega)]
    simp only [inkEvents, List.append_nil]
    obtain ⟨k, hk⟩ : ∃ k, n - (inkEvents getShapeFromOp cfg K chain).length = k + 1 :=
      ⟨n - (inkEvents getShapeFromOp cfg K chain).length - 1, by omega⟩
    rw [hk, List.take_succ_cons, List.sum_cons]
    have := hmain k
    omega

/-! ### Pixel arrays: merge and conflict -/

theorem maxByte_nonneg (n : Int) (h : 0 ≤ n) : 0 ≤ maxByte n := by
  unfold maxByte
  rw [Int.tdiv_eq_ediv h (by decide), Int.tmod_eq_emod h (by decide)]
  simp only
  split <;> omega

theorem NewPixelArray_dims (X Y : Nat) :
    ∃ a, NewPixelArray (X : Int) (Y : Int) = some a ∧
      Dims a (Y + 1) (maxByte ((X : Int) + 1)).toNat := by
  have hm := maxByte_nonneg ((X : Int) + 1) (by omega)
  unfold NewPixelArray
  simp only
  rw [if_neg (by omega), if_neg (by omega)]
  refine ⟨_, rfl, ?_, ?_⟩
  · rw [List.length_replicate]; omega
  · intro row hrow
    rw [(List.mem_replicate.1 hrow).2, List.length_replicate]

theorem getByte_some_of_dims {a : List (List Nat)} {h w : Nat} (hd : Dims a h w) {y x : Nat}
    (hy : y < h) (hx : x < w) : ∃ v, getByte a y x = some v := by
  obtain ⟨h1, h2⟩ := hd
  have hy2 : y < a.length := by omega
  have hrow : a[y]? = some (a[y]) := List.getElem?_eq_getElem hy2
  have hlen : (a[y]).length = w := h2 _ (List.getElem_mem _)
  have hx2 : x < (a[y]).length := by omega
  exact ⟨(a[y])[x], by simp only [getByte, hrow]; exact List.getElem?_eq_getElem hx2⟩

theorem getByte_row {a : List (List Nat)} {y x v : Nat} (h : getByte a y x = some v) :
    ∃ row, a[y]? = some row ∧ row[x]? = some v := by
  unfold getByte at h
  cases hr : a[y]? with
  | none => rw [hr] at h; simp at h
  | some row => rw [hr] at h; exact ⟨row, rfl, h⟩

theorem setByte_dims {a : List (List Nat)} {h w : Nat} (hd : Dims a h w) (y x v : Nat) :
    Dims (setByte a y x v) h w := by
  obtain ⟨h1, h2⟩ := hd
  unfold setByte
  cases hr : a[y]? with
  | none => exact ⟨h1, h2⟩
  | some row =>
    simp only
    refine ⟨by rw [List.length_set]; exact h1, ?_⟩
    intro r hr2
    rcases List.mem_or_eq_of_mem_set hr2 with h3 | h3
    · exact h2 r h3
    · rw [h3, List.length_set]
      exact h2 row (List.getElem?_mem hr)

theorem getByte_setByte_self {a : List (List Nat)} {y x v : Nat} (v1 : Nat)
    (h : getByte a y x = some v) : getByte (setByte a y x v1) y x = some v1 := by
  obtain ⟨row, hr, hx⟩ := getByte_row h
  have hy : y < a.length := get_lt_of_some _ _ _ hr
  have hx2 : x < row.length := get_lt_of_some _ _ _ hx
  simp only [setByte, hr, getByte, List.getElem?_set, if_true, hy, hx2]

theorem getByte_setByte_other {a : List (List Nat)} {y x : Nat} (v1 : Nat) {y2 x2 : Nat}
    (hne : ¬ (y2 = y ∧ x2 = x)) :
    getByte (setByte a y x v1) y2 x2 = getByte a y2 x2 := by
  unfold setByte
  cases hr : a[y]? with
  | none => rfl
  | some row =>
    have hy : y < a.length := get_lt_of_some _ _ _ hr
    simp only [getByte, List.getElem?_set]
    by_cases hyy : y = y2
    · subst hyy
      simp only [if_true, hy, hr]
      have hxx : ¬ x = x2 := fun hh => hne ⟨rfl, hh.symm⟩
      rw [List.getElem?_set, if_neg hxx]
    · simp only [if_neg hyy]

theorem Above_refl (a : List (List Nat)) : Above a a :=
  fun _ _ v h => ⟨v, h, fun _ hi => hi⟩

theorem Above_trans {a b c : List (List Nat)} (h1 : Above a b) (h2 : Above b c) :
    Above a c := by
  intro y x v h
  obtain ⟨v1, g1, g2⟩ := h1 y x v h
  obtain ⟨v2, g3, g4⟩ := h2 y x v1 g1
  exact ⟨v2, g3, fun i hi => g4 i (g2 i hi)⟩

theorem Above_setByte_lor {a : List (List Nat)} {y x v : Nat} (b : Nat)
    (h : getByte a y x = some v) : Above a (setByte a y x (v ||| b)) := by
  intro y2 x2 v2 h2
  by_cases hc : y2 = y ∧ x2 = x
  · obtain ⟨hy, hx⟩ := hc
    subst hy hx
    rw [h, Option.some.injEq] at h2
    subst h2
    refine ⟨v ||| b, getByte_setByte_self _ h, ?_⟩
    intro i hi
    rw [Nat.testBit_lor, hi]
    rfl
  · rw [getByte_setByte_other _ hc]
    exact ⟨v2, h2, fun _ hi => hi⟩

theorem getByteInt_eq {a : List (List Nat)} {y x : Int} (hy : 0 ≤ y) (hx : 0 ≤ x) :
    getByteInt a y x = getByte a y.toNat x.toNat := by
  unfold getByteInt
  rw [if_neg (by omega)]

theorem mergeScan_spec (sub : PixelSubArray) (h w : Nat) (hx0 : 0 ≤ sub.xStartByte)
    (hy0 : 0 ≤ sub.yStart) :
    ∀ (cells : List (Nat × Nat)) (a : List (List Nat)), Dims a h w →
      (∀ c ∈ cells, sub.yStart + (c.1 : Int) < h ∧ sub.xStartByte + (c.2 : Int) < w ∧
        ∃ b, getByte sub.bytes c.1 c.2 = some b) →
      ∃ a1, mergeScan sub cells a = some a1 ∧ Dims a1 h w ∧ Above a a1 ∧
        ∀ c ∈ cells, ∀ b, getByte sub.bytes c.1 c.2 = some b →
          ∃ v1, getByte a1 (sub.yStart + (c.1 : Int)).toNat
              (sub.xStartByte + (c.2 : Int)).toNat = some v1 ∧
            ∀ i, b.testBit i = true → v1.testBit i = true := by
  intro cells
  induction cells with
  | nil =>
    intro a hd _
    exact ⟨a, rfl, hd, Above_refl a, by simp⟩
  | cons c rest ih =>
    intro a hd hc
    obtain ⟨ys, xs⟩ := c
    obtain ⟨c1, c2, b, hb⟩ := hc (ys, xs) (List.mem_cons_self _ _)
    simp only at c1 c2 hb
    obtain ⟨v, hv⟩ := getByte_some_of_dims hd
      (show (sub.yStart + (ys : Int)).toNat < h by omega)
      (show (sub.xStartByte + (xs : Int)).toNat < w by omega)
    have hvi : getByteInt a (sub.yStart + (ys : Int)) (sub.xStartByte + (xs : Int)) = some v := by
      rw [getByteInt_eq (by omega) (by omega)]; exact hv
    obtain ⟨a1, m1, m2, m3, m4⟩ := ih _ (setByte_dims hd _ _ (v ||| b))
      (fun c2 hc2 => hc c2 (List.mem_cons_of_mem _ hc2))
    refine ⟨a1, ?_, m2, Above_trans (Above_setByte_lor b hv) m3, ?_⟩
    · simp only [mergeScan, hvi, hb]
      exact m1
    · intro c2 hc2 b2 hb2
      rcases List.mem_cons.1 hc2 with heq | hmem
      · subst heq
        simp only at hb2 ⊢
        rw [hb, Option.some.injEq] at hb2
        subst hb2
        obtain ⟨v1, g1, g2⟩ := m3 _ _ _ (getByte_setByte_self (v ||| b) hv)
        refine ⟨v1, g1, fun i hi => g2 i ?_⟩
        rw [Nat.testBit_lor, hi]
        simp
      · exact m4 c2 hmem b2 hb2

theorem mem_loopCells (h w ys xs : Nat) : (ys, xs) ∈ loopCells h w ↔ ys < h ∧ xs < w := by
  simp [loopCells, List.mem_flatMap, List.mem_range]

theorem WellFormedSub.first_row {sub : PixelSubArray} (hwf : WellFormedSub sub) :
    ∃ row0, sub.bytes[0]? = some row0 ∧ sub.bytes.headD [] = row0 := by
  obtain ⟨h1, _⟩ := hwf
  cases hb : sub.bytes with
  | nil => exact absurd hb h1
  | cons r t => exact ⟨r, by simp, by simp⟩

theorem WellFormedSub.get_iff {sub : PixelSubArray} (hwf : WellFormedSub sub) (ys xs : Nat) :
    (∃ b, getByte sub.bytes ys xs = some b) ↔
      ys < sub.bytes.length ∧ xs < (sub.bytes.headD []).length := by
  constructor
  · rintro ⟨b, hb⟩
    obtain ⟨row, hr, hx⟩ := getByte_row hb
    have h1 := get_lt_of_some _ _ _ hr
    have h2 := get_lt_of_some _ _ _ hx
    rw [hwf.2.1 row (List.getElem?_mem hr)] at h2
    exact ⟨h1, h2⟩
  · rintro ⟨h1, h2⟩
    exact getByte_some_of_dims (show Dims sub.bytes sub.bytes.length _ from ⟨rfl, hwf.2.1⟩)
      h1 h2

theorem Dims.top_row {a : List (List Nat)} {h w : Nat} (hd : Dims a h w) (hh : 0 < h) :
    ∃ a0, a[0]? = some a0 ∧ a0.length = w := by
  obtain ⟨h1, h2⟩ := hd
  have h0 : 0 < a.length := by omega
  exact ⟨a[0], List.getElem?_eq_getElem h0, h2 _ (List.getElem_mem _)⟩

theorem MergeSubArray_spec (a : List (List Nat)) (h w : Nat) (hd : Dims a h w) (hh : 0 < h)
    (sub : PixelSubArray) (hwf : WellFormedSub sub) :
    ∃ a1, MergeSubArray a sub = some a1 ∧ Dims a1 h w ∧ Above a a1 ∧
      (sub.xStartByte + ((sub.bytes.headD []).length : Int) ≤ w ∧
          sub.yStart + (sub.bytes.length : Int) ≤ h →
        ∀ ys xs b, getByte sub.bytes ys xs = some b →
          ∃ v1, getByte a1 (sub.yStart + (ys : Int)).toNat
              (sub.xStartByte + (xs : Int)).toNat = some v1 ∧
            ∀ i, b.testBit i = true → v1.testBit i = true) := by
  obtain ⟨row0, hr0, hhead⟩ := hwf.first_row
  obtain ⟨a0, ha0, hlen0⟩ := hd.top_row hh
  have hlen : a.length = h := hd.1
  unfold MergeSubArray
  simp only [hr0, ha0]
  rw [hhead, hlen0, hlen]
  by_cases hxo : sub.xStartByte + (row0.length : Int) > (w : Int)
  · rw [if_pos hxo]
    exact ⟨a, rfl, hd, Above_refl a, fun hin => absurd hin.1 (by omega)⟩
  · rw [if_neg hxo]
    by_cases hyo : sub.yStart + (sub.bytes.length : Int) > (h : Int)
    · rw [if_pos hyo]
      exact ⟨a, rfl, hd, Above_refl a, fun hin => absurd hin.2 (by omega)⟩
    · rw [if_neg hyo]
      obtain ⟨a1, m1, m2, m3, m4⟩ := mergeScan_spec sub h w hwf.2.2.1 hwf.2.2.2
        (loopCells sub.bytes.length row0.length) a hd (by
          intro c hc
          obtain ⟨ys, xs⟩ := c
          rw [mem_loopCells] at hc
          refine ⟨by simp only; omega, by simp only; omega, ?_⟩
          exact (hwf.get_iff ys xs).2 ⟨hc.1, by rw [hhead]; exact hc.2⟩)
      refine ⟨a1, m1, m2, m3, ?_⟩
      intro _ ys xs b hb
      have hin := (hwf.get_iff ys xs).1 ⟨b, hb⟩
      rw [hhead] at hin
      exact m4 (ys, xs) ((mem_loopCells _ _ _ _).2 hin) b hb

theorem conflictScan_true (a : List (List Nat)) (sub : PixelSubArray) :
    ∀ (cells : List (Nat × Nat)),
      (∀ c ∈ cells, (∃ v, getByteInt a (sub.yStart + (c.1 : Int))
          (sub.xStartByte + (c.2 : Int)) = some v) ∧ ∃ b, getByte sub.bytes c.1 c.2 = some b) →
      (∃ c ∈ cells, ∃ v b, getByteInt a (sub.yStart + (c.1 : Int))
          (sub.xStartByte + (c.2 : Int)) = some v ∧ getByte sub.bytes c.1 c.2 = some b ∧
          v &&& b ≠ 0) →
      conflictScan a sub cells = some true := by
  intro cells
  induction cells with
  | nil => intro _ h; obtain ⟨c, hc, _⟩ := h; simp at hc
  | cons c rest ih =>
    intro hread hex
    obtain ⟨ys, xs⟩ := c
    obtain ⟨⟨v, hv⟩, ⟨b, hb⟩⟩ := hread (ys, xs) (List.mem_cons_self _ _)
    simp only at hv hb
    simp only [conflictScan, hv, hb]
    by_cases hz : v &&& b ≠ 0
    · rw [if_pos hz]
    · rw [if_neg hz]
      apply ih (fun c2 hc2 => hread c2 (List.mem_cons_of_mem _ hc2))
      obtain ⟨c2, hc2, v2, b2, g1, g2, g3⟩ := hex
      rcases List.mem_cons.1 hc2 with heq | hmem
      · subst heq
        simp only at g1 g2
        rw [hv, Option.some.injEq] at g1
        rw [hb, Option.some.injEq] at g2
        subst g1 g2
        exact absurd g3 hz
      · exact ⟨c2, hmem, v2, b2, g1, g2, g3⟩

/-- A sub-array that shares a set pixel with the array is in conflict with it. -/
theorem HasConflict_of_shared (a : List (List Nat)) (h w : Nat) (hd : Dims a h w)
    (hh : 0 < h) (sub : PixelSubArray) (hwf : WellFormedSub sub) (X Y : Nat)
    (hcell : subCell sub X Y)
    (ha : ∃ v, getByte a Y (X / 8) = some v ∧ v.testBit (X % 8) = true) :
    HasConflict a sub = some true := by
  obtain ⟨row0, hr0, hhead⟩ := hwf.first_row
  obtain ⟨a0, ha0, hlen0⟩ := hd.top_row hh
  have hlen : a.length = h := hd.1
  obtain ⟨cy, cx, b, hb, hbit⟩ := hcell
  obtain ⟨v, hv, hvbit⟩ := ha
  unfold HasConflict
  simp only [hr0, ha0]
  rw [hlen0, hlen]
  by_cases hxo : sub.xStartByte + (row0.length : Int) > (w : Int)
  · rw [if_pos hxo]
  · rw [if_neg hxo]
    by_cases hyo : sub.yStart + (sub.bytes.length : Int) > (h : Int)
    · rw [if_pos hyo]
    · rw [if_neg hyo]
      have hx0 := hwf.2.2.1
      have hy0 := hwf.2.2.2
      apply conflictScan_true
      · intro c hc
        obtain ⟨ys, xs⟩ := c
        rw [mem_loopCells] at hc
        constructor
        · rw [getByteInt_eq (by omega) (by omega)]
          exact getByte_some_of_dims hd (by simp only; omega) (by simp only; omega)
        · exact (hwf.get_iff ys xs).2 ⟨hc.1, by rw [hhead]; exact hc.2⟩
      · have hin := (hwf.get_iff _ _).1 ⟨b, hb⟩
        rw [hhead] at hin
        refine ⟨(((Y : Int) - sub.yStart).toNat, (((X / 8 : Nat) : Int) - sub.xStartByte).toNat),
          (mem_loopCells _ _ _ _).2 hin, v, b, ?_, hb, ?_⟩
        · rw [getByteInt_eq (by omega) (by omega)]
          have e1 : (sub.yStart + ((((Y : Int) - sub.yStart).toNat : Nat) : Int)).toNat = Y := by
            omega
          have e2 : (sub.xStartByte +
              (((((X / 8 : Nat) : Int) - sub.xStartByte).toNat : Nat) : Int)).toNat = X / 8 := by
            omega
          simp only [e1, e2]
          exact hv
        · intro hz
          have := Nat.testBit_land v b (X % 8)
          rw [hz, Nat.zero_testBit, hvbit, hbit] at this
          simp at this

/-! ### Live shapes and the overlap check -/

theorem shapesFold_append (pubkey : String) :
    ∀ (l1 l2 : List OperationInfo) (sh : List (String × OperationInfo)),
      shapesFold pubkey (l1 ++ l2) sh = shapesFold pubkey l2 (shapesFold pubkey l1 sh) := by
  intro l1
  induction l1 with
  | nil => intro l2 sh; rfl
  | cons o rest ih =>
    intro l2 sh
    change shapesFold pubkey (o :: (rest ++ l2)) sh = _
    by_cases hk : o.PubKey = pubkey
    · simp only [shapesFold, if_pos hk]
      exact ih l2 _
    · by_cases ht : o.Op.OpType = OpType.ADD
      · simp only [shapesFold, if_neg hk, if_pos ht]
        exact ih l2 _
      · simp only [shapesFold, if_neg hk, if_neg ht]
        exact ih l2 _

theorem scanOps_shapes (getShapeFromOp : Operation → ShapeOut) (pubkey opSig : String) :
    ∀ (ops : List OperationInfo) (ink : Nat) (sh : List (String × OperationInfo)),
      (∀ o ∈ ops, o.PubKey = pubkey → o.OpSig ≠ opSig) →
      ∃ ink1, scanOps getShapeFromOp pubkey opSig ops (ink, sh) =
        some (ink1, shapesFold pubkey ops sh) := by
  intro ops
  induction ops with
  | nil => intro ink sh _; exact ⟨ink, rfl⟩
  | cons o rest ih =>
    intro ink sh h
    have hrest : ∀ o2 ∈ rest, o2.PubKey = pubkey → o2.OpSig ≠ opSig :=
      fun o2 ho2 => h o2 (List.mem_cons_of_mem _ ho2)
    unfold scanOps shapesFold
    by_cases hk : o.PubKey = pubkey
    · rw [if_pos hk, if_pos hk, if_neg (h o (List.mem_cons_self _ _) hk)]
      split
      · exact ih _ _ hrest
      · split
        · exact ih _ _ hrest
        · exact ih _ _ hrest
    · rw [if_neg hk, if_neg hk]
      split
      · exact ih _ _ hrest
      · exact ih _ _ hrest

theorem scanBlocks_shapes (getShapeFromOp : Operation → ShapeOut) (cfg : Settings)
    (pubkey opSig : String) :
    ∀ (blocks : List Block) (ink : Nat) (sh : List (String × OperationInfo)),
      (∀ o ∈ opsOf blocks, o.PubKey = pubkey → o.OpSig ≠ opSig) →
      ∃ ink1, scanBlocks getShapeFromOp cfg pubkey opSig blocks (ink, sh) =
        some (ink1, shapesFold pubkey (opsOf blocks) sh) := by
  intro blocks
  induction blocks with
  | nil => intro ink sh _; exact ⟨ink, rfl⟩
  | cons b rest ih =>
    intro ink sh h
    have h1 : ∀ o ∈ b.OpHistory, o.PubKey = pubkey → o.OpSig ≠ opSig :=
      fun o ho => h o (by simp only [opsOf, List.mem_append]; exact Or.inl ho)
    have h2 : ∀ o ∈ opsOf rest, o.PubKey = pubkey → o.OpSig ≠ opSig :=
      fun o ho => h o (by simp only [opsOf, List.mem_append]; exact Or.inr ho)
    unfold scanBlocks
    simp only
    obtain ⟨ink1, e1⟩ := scanOps_shapes getShapeFromOp pubkey opSig b.OpHistory
      (if b.MinerPubKey = pubkey then
        if b.OpHistory.length > 0 then (ink + cfg.InkPerOpBlock) % 4294967296
        else (ink + cfg.InkPerNoOpBlock) % 4294967296
      else ink) sh h1
    rw [e1]
    simp only [opsOf, shapesFold_append]
    exact ih _ _ h2

/-- Claim C13, the failing input.  On `chainSharedSig` the shape `dot0` of `k1` is never deleted
(the chain holds no DELETE at all), but the later ADD of `k3` carries the same signature `s` and
replaces it in `shapesExisting`.  An ADD of `dot0` by `k2`, which is not a duplicate, costs 1
of the 10 units of ink that `k2` owns and covers the very pixel of the shape of `k1`, is
accepted. -/
theorem checkInkAndConflicts_overlap_missed_on_shared_sig :
    (opsOf chainSharedSig = [signedAdd "k1" "s" "dot0", signedAdd "k3" "s" "dot1"]) ∧
      (toyShape (signedAdd "k2" "t" "dot0").Op).subarr =
        (toyShape (signedAdd "k1" "s" "dot0").Op).subarr ∧
      inkBalance toyShape paintSettings "k2" chainSharedSig = 10 ∧
      checkInkAndConflicts toyShape paintSettings (fun m => m)
        (toyShape (signedAdd "k2" "t" "dot0").Op).subarr
        (toyShape (signedAdd "k2" "t" "dot0").Op).cost "k2" chainSharedSig "dot0" "t" =
          some none := by
  decide

theorem toyShape_cost_nonneg (o : Operation) : 0 ≤ (toyShape o).cost := by
  unfold toyShape
  split
  · decide
  · split
    · decide
    · split
      · decide
      · exact le_refl (0 : Int)

theorem InkNonNeg_toy_first : InkNonNeg toyShape paintSettings "k1" [minedBlock "k1" []] := by
  have h : inkEvents toyShape paintSettings "k1" [minedBlock "k1" []] = [10] := by decide
  unfold InkNonNeg
  rw [h]
  intro n
  cases n with
  | zero => simp
  | succ n => simp

/-- A concrete instance of the amended claim C18: after a block without operations mined by
`k1`, a block in which `k1` adds the shape `dot0` is kept whole by `ValidateOps`, and the
running balance of `k1` stays at least 0. -/
theorem validated_ink_nonnegative_witness :
    ValidateOps toyShape paintSettings (fun m => m)
        (minedBlock "k1" [signedAdd "k1" "s" "dot0"]).OpHistory [minedBlock "k1" []] =
          some (minedBlock "k1" [signedAdd "k1" "s" "dot0"]).OpHistory ∧
      InkNonNeg toyShape paintSettings "k1"
        ([minedBlock "k1" []] ++ [minedBlock "k1" [signedAdd "k1" "s" "dot0"]]) :=
  ⟨by decide,
    validated_ink_nonnegative toyShape paintSettings (fun m => m) [minedBlock "k1" []]
      (minedBlock "k1" [signedAdd "k1" "s" "dot0"]) "k1" toyShape_cost_nonneg (by decide)
      InkNonNeg_toy_first (by decide)⟩

/-! ## The claims about the path parser -/

/-! ### The first loop of `SVGToPoints` -/

theorem wrap64_add_cases (p d c : Int) (h0 : 0 ≤ p) (hp : p ≤ c) (hc : c < 9223372036854775808)
    (hd : IsInt64 d) :
    wrap64 (p + d) = p + d ∨ (wrap64 (p + d) < 0 ∧ c < p + d) := by
  unfold IsInt64 at hd
  unfold wrap64
  omega

theorem prevPoint_length (points : List Point) (first prev : Point)
    (hfirst : points[0]? = some first) (hprev : points[points.length - 1]? = some prev) :
    prevPoint points points.length = some prev := by
  have hlen : 0 < points.length := get_lt_of_some _ _ _ hfirst
  unfold prevPoint
  rw [if_neg (by omega)]
  exact hprev

/-- The point computed by the code for one command is on the canvas exactly when the point of
the specification is, and then both are the same point. -/
theorem nextPoint_spec (cX cY : Int) (hcX : cX < 9223372036854775808)
    (hcY : cY < 9223372036854775808) (c : SVGCommand) (points : List Point)
    (first prev : Point) (hfirst : points[0]? = some first)
    (hprev : points[points.length - 1]? = some prev) (hin : InCanvas cX cY prev)
    (hargs : IsInt64 c.GetX ∧ IsInt64 c.GetY) :
    ∃ pt, nextPoint c points points.length = some pt ∧
      (InCanvas cX cY pt ↔ InCanvas cX cY (specPoint c first prev)) ∧
      (InCanvas cX cY pt → pt = specPoint c first prev) := by
  have hpp := prevPoint_length points first prev hfirst hprev
  obtain ⟨hx, hy⟩ := hargs
  obtain ⟨i1, i2, i3, i4⟩ := hin
  cases c with
  | MCommand a x y =>
    exact ⟨_, rfl, Iff.rfl, fun _ => rfl⟩
  | LCommand a x y =>
    cases a with
    | true => exact ⟨_, rfl, Iff.rfl, fun _ => rfl⟩
    | false =>
      simp only [SVGCommand.GetX, SVGCommand.GetY] at hx hy
      refine ⟨{ X := wrap64 (prev.X + x), Y := wrap64 (prev.Y + y), Moved := false }, ?_, ?_, ?_⟩
      · simp [nextPoint, SVGCommand.IsRelative, hpp, SVGCommand.GetX, SVGCommand.GetY]
      · have h1 := wrap64_add_cases prev.X x cX i1 i2 hcX hx
        have h2 := wrap64_add_cases prev.Y y cY i3 i4 hcY hy
        simp only [InCanvas, specPoint]
        omega
      · intro hin2
        have h1 := wrap64_add_cases prev.X x cX i1 i2 hcX hx
        have h2 := wrap64_add_cases prev.Y y cY i3 i4 hcY hy
        simp only [InCanvas] at hin2
        simp only [specPoint, Point.mk.injEq, and_true]
        omega
  | HCommand a x =>
    cases a with
    | true =>
      refine ⟨{ X := x, Y := prev.Y, Moved := false }, ?_, Iff.rfl, fun _ => rfl⟩
      simp [nextPoint, SVGCommand.IsRelative, hpp, SVGCommand.GetX]
    | false =>
      simp only [SVGCommand.GetX] at hx
      refine ⟨{ X := wrap64 (prev.X + x), Y := prev.Y, Moved := false }, ?_, ?_, ?_⟩
      · simp [nextPoint, SVGCommand.IsRelative, hpp, SVGCommand.GetX]
      · have h1 := wrap64_add_cases prev.X x cX i1 i2 hcX hx
        simp only [InCanvas, specPoint]
        omega
      · intro hin2
        have h1 := wrap64_add_cases prev.X x cX i1 i2 hcX hx
        simp only [InCanvas] at hin2
        simp only [specPoint, Point.mk.injEq, and_true, true_and]
        omega
  | VCommand a y =>
    cases a with
    | true =>
      refine ⟨{ X := prev.X, Y := y, Moved := false }, ?_, Iff.rfl, fun _ => rfl⟩
      simp [nextPoint, SVGCommand.IsRelative, hpp, SVGCommand.GetY]
    | false =>
      simp only [SVGCommand.GetY] at hy
      refine ⟨{ X := prev.X, Y := wrap64 (prev.Y + y), Moved := false }, ?_, ?_, ?_⟩
      · simp [nextPoint, SVGCommand.IsRelative, hpp, SVGCommand.GetY]
      · have h2 := wrap64_add_cases prev.Y y cY i3 i4 hcY hy
        simp only [InCanvas, specPoint]
        omega
      · intro hin2
        have h2 := wrap64_add_cases prev.Y y cY i3 i4 hcY hy
        simp only [InCanvas] at hin2
        simp only [specPoint, Point.mk.injEq, and_true, true_and]
        omega
  | ZCommand =>
    refine ⟨{ X := first.X, Y := first.Y, Moved := false }, ?_, Iff.rfl, fun _ => rfl⟩
    simp [nextPoint, SVGCommand.IsRelative, hfirst]

theorem not_inCanvas_iff (cX cY : Int) (p : Point) :
    (p.X > cX ∨ p.Y > cY ∨ p.X < 0 ∨ p.Y < 0) ↔ ¬ InCanvas cX cY p := by
  unfold InCanvas
  omega

/-- The first loop of `SVGToPoints`, entered with at least one point: it never panics, it
returns the points of the specification when all of them are on the canvas, and
`OutOfBoundsError` when one of them is not. -/
theorem pointsLoop_spec (cX cY : Int) (hcX : cX < 9223372036854775808)
    (hcY : cY < 9223372036854775808) :
    ∀ (cmds : List SVGCommand) (points : List Point) (first prev : Point),
      points[0]? = some first → points[points.length - 1]? = some prev →
      InCanvas cX cY prev → (∀ c ∈ cmds, IsInt64 c.GetX ∧ IsInt64 c.GetY) →
      ((∀ q ∈ specPointsFrom first prev cmds, InCanvas cX cY q) →
        pointsLoop cX cY cmds points.length points =
          some (some (points ++ specPointsFrom first prev cmds))) ∧
      ((∃ q ∈ specPointsFrom first prev cmds, ¬ InCanvas cX cY q) →
        pointsLoop cX cY cmds points.length points = some none) := by
  intro cmds
  induction cmds with
  | nil =>
    intro points first prev _ _ _ _
    constructor
    · intro _; simp [pointsLoop, specPointsFrom]
    · intro h; obtain ⟨q, hq, _⟩ := h; simp [specPointsFrom] at hq
  | cons c rest ih =>
    intro points first prev hfirst hprev hin hargs
    obtain ⟨pt, hpt, hiff, heq⟩ := nextPoint_spec cX cY hcX hcY c points first prev hfirst hprev
      hin (hargs c (List.mem_cons_self _ _))
    have hlen : 0 < points.length := get_lt_of_some _ _ _ hfirst
    have hrest : ∀ c2 ∈ rest, IsInt64 c2.GetX ∧ IsInt64 c2.GetY :=
      fun c2 hc2 => hargs c2 (List.mem_cons_of_mem _ hc2)
    have hfirst2 : (points ++ [pt])[0]? = some first := by
      rw [List.getElem?_append_left hlen]; exact hfirst
    have hprev2 : (points ++ [pt])[(points ++ [pt]).length - 1]? = some pt := by
      simp
    have hl2 : (points ++ [pt]).length = points.length + 1 := by simp
    by_cases hq : InCanvas cX cY (specPoint c first prev)
    · have hptin : InCanvas cX cY pt := hiff.2 hq
      have hpteq := heq hptin
      have hstep : pointsLoop cX cY (c :: rest) points.length points =
          pointsLoop cX cY rest (points.length + 1) (points ++ [pt]) := by
        simp only [pointsLoop, hpt]
        rw [if_neg ((not_inCanvas_iff cX cY pt).not.2 (not_not.2 hptin))]
      obtain ⟨ih1, ih2⟩ := ih (points ++ [pt]) first pt hfirst2 hprev2 hptin hrest
      rw [hl2] at ih1 ih2
      rw [hstep]
      constructor
      · intro hall
        rw [ih1 (fun q hq2 => hall q (by
          simp only [specPointsFrom, List.mem_cons]; right; rw [← hpteq]; exact hq2))]
        simp only [specPointsFrom, ← hpteq, List.append_assoc, List.singleton_append]
      · intro hex
        apply ih2
        obtain ⟨q, hq2, hq3⟩ := hex
        simp only [specPointsFrom, List.mem_cons] at hq2
        rcases hq2 with hq2 | hq2
        · subst hq2; exact absurd hq hq3
        · exact ⟨q, by rw [hpteq]; exact hq2, hq3⟩
    · have hptout : ¬ InCanvas cX cY pt := fun h => hq (hiff.1 h)
      have hstep : pointsLoop cX cY (c :: rest) points.length points = some none := by
        simp only [pointsLoop, hpt]
        rw [if_pos ((not_inCanvas_iff cX cY pt).2 hptout)]
      constructor
      · intro hall
        exact absurd (hall _ (by simp [specPointsFrom])) hq
      · intro _; exact hstep

/-- The first loop of `SVGToPoints` on a command list that starts with `M`. -/
theorem pointsLoop_start (cX cY : Int) (hcX : cX < 9223372036854775808)
    (hcY : cY < 9223372036854775808) (a : Bool) (x y : Int) (rest : List SVGCommand)
    (hargs : ∀ c ∈ SVGCommand.MCommand a x y :: rest, IsInt64 c.GetX ∧ IsInt64 c.GetY) :
    ((∀ q ∈ specPoints (SVGCommand.MCommand a x y :: rest), InCanvas cX cY q) →
      pointsLoop cX cY (SVGCommand.MCommand a x y :: rest) 0 [] =
        some (some (specPoints (SVGCommand.MCommand a x y :: rest)))) ∧
    ((∃ q ∈ specPoints (SVGCommand.MCommand a x y :: rest), ¬ InCanvas cX cY q) →
      pointsLoop cX cY (SVGCommand.MCommand a x y :: rest) 0 [] = some none) := by
  have hnp : nextPoint (SVGCommand.MCommand a x y) [] 0 =
      some { X := x, Y := y, Moved := true } := rfl
  have hrest : ∀ c2 ∈ rest, IsInt64 c2.GetX ∧ IsInt64 c2.GetY :=
    fun c2 hc2 => hargs c2 (List.mem_cons_of_mem _ hc2)
  by_cases hq : InCanvas cX cY { X := x, Y := y, Moved := true }
  · obtain ⟨ih1, ih2⟩ := pointsLoop_spec cX cY hcX hcY rest [{ X := x, Y := y, Moved := true }]
      { X := x, Y := y, Moved := true } { X := x, Y := y, Moved := true } rfl rfl hq hrest
    have hstep : pointsLoop cX cY (SVGCommand.MCommand a x y :: rest) 0 [] =
        pointsLoop cX cY rest 1 [{ X := x, Y := y, Moved := true }] := by
      simp only [pointsLoop, hnp]
      rw [if_neg ((not_inCanvas_iff cX cY _).not.2 (not_not.2 hq))]
      rfl
    rw [hstep]
    constructor
    · intro hall
      have := ih1 (fun q hq2 => hall q (by
        simp only [specPoints, specPoint, List.mem_cons]; right; exact hq2))
      simp only [List.length_singleton] at this
      rw [this]
      rfl
    · intro hex
      have h2 : ∃ q ∈ specPointsFrom { X := x, Y := y, Moved := true }
          { X := x, Y := y, Moved := true } rest, ¬ InCanvas cX cY q := by
        obtain ⟨q, hq2, hq3⟩ := hex
        simp only [specPoints, specPoint, List.mem_cons] at hq2
        rcases hq2 with hq2 | hq2
        · subst hq2; exact absurd hq hq3
        · exact ⟨q, hq2, hq3⟩
      have := ih2 h2
      simp only [List.length_singleton] at this
      exact this
  · have hstep : pointsLoop cX cY (SVGCommand.MCommand a x y :: rest) 0 [] = some none := by
      simp only [pointsLoop, hnp]
      rw [if_pos ((not_inCanvas_iff cX cY _).2 hq)]
    constructor
    · intro hall
      exact absurd (hall _ (by simp [specPoints, specPoint])) hq
    · intro _; exact hstep

/-! ### The closure check of `SVGToPoints` -/

theorem head?_append_singleton {α : Type} (l : List α) (a b : α) (h : l.head? = some b) :
    (l ++ [a]).head? = some b := by
  cases l with
  | nil => simp at h
  | cons c t => simpa using h

theorem ClosedSub_iff (sp : List Point) (s p : Point) (hs : sp.head? = some s)
    (hp : sp.getLast? = some p) : ClosedSub sp ↔ s.X = p.X ∧ s.Y = p.Y := by
  unfold ClosedSub
  rw [hs, hp]

/-- The loop over the points of a filled path with a move ends with equal start and end
points exactly when every sub-path, the one being read included, is closed. -/
theorem closeLoop_spec :
    ∀ (rest cur : List Point) (s p : Point), cur.head? = some s → cur.getLast? = some p →
      ((∃ s1 p1, closeLoop rest s p = some (s1, p1) ∧ s1.X = p1.X ∧ s1.Y = p1.Y) ↔
        ∀ g ∈ groupFrom cur rest, ClosedSub g) := by
  intro rest
  induction rest with
  | nil =>
    intro cur s p hs hp
    simp only [closeLoop, groupFrom, List.mem_singleton, forall_eq, Option.some.injEq,
      Prod.mk.injEq]
    rw [ClosedSub_iff cur s p hs hp]
    constructor
    · rintro ⟨s1, p1, ⟨rfl, rfl⟩, h⟩; exact h
    · intro h; exact ⟨s, p, ⟨rfl, rfl⟩, h⟩
  | cons pt rest ih =>
    intro cur s p hs hp
    by_cases hm : pt.Moved = true
    · simp only [closeLoop, groupFrom, if_pos hm, List.mem_cons, forall_eq_or_imp]
      rw [ClosedSub_iff cur s p hs hp]
      by_cases hc : s.X ≠ p.X ∨ s.Y ≠ p.Y
      · rw [if_pos hc]
        constructor
        · rintro ⟨s1, p1, h, _⟩; simp at h
        · rintro ⟨h, _⟩; omega
      · rw [if_neg hc]
        rw [ih [pt] pt pt rfl rfl]
        constructor
        · intro h; exact ⟨by omega, h⟩
        · intro h; exact h.2
    · simp only [closeLoop, groupFrom, if_neg hm]
      exact ih (cur ++ [pt]) s pt (head?_append_singleton cur pt s hs)
        (List.getLast?_concat cur)

theorem groupFrom_no_move :
    ∀ (ps cur : List Point), (∀ q ∈ ps, q.Moved = false) → groupFrom cur ps = [cur ++ ps] := by
  intro ps
  induction ps with
  | nil => intro cur _; simp [groupFrom]
  | cons q rest ih =>
    intro cur h
    have hq := h q (List.mem_cons_self _ _)
    simp only [groupFrom, hq, Bool.false_eq_true, if_false]
    rw [ih (cur ++ [q]) (fun q2 hq2 => h q2 (List.mem_cons_of_mem _ hq2))]
    simp

theorem finishPath_cons (p0 : Point) (ps : List Point) (filled st : Bool) :
    ∃ path, finishPath (p0 :: ps) filled st = some (path, none) ∧ path.Points = p0 :: ps := by
  simp [finishPath, NewPath]

/-- The part of `SVGToPoints` after the first loop, for points that start with a move: with
`filled` the path is made exactly when every sub-path is closed. -/
theorem SVGToPoints_of_points (cmds : List SVGCommand) (cX cY : Int) (filled st : Bool)
    (p0 : Point) (ps : List Point) (hm : p0.Moved = true)
    (hloop : pointsLoop cX cY cmds 0 [] = some (some (p0 :: ps))) :
    SVGToPoints cmds cX cY filled st =
      if filled = true ∧ ¬ (∀ g ∈ subPaths (p0 :: ps), ClosedSub g) then
        some (zeroPath, some (MinerError.InvalidShapeSvgStringError ""))
      else finishPath (p0 :: ps) filled st := by
  unfold SVGToPoints
  rw [hloop]
  simp only
  cases filled with
  | false => simp
  | true =>
    simp only [if_true, true_and]
    by_cases hmv : anyMoved (p0 :: ps) = false
    · rw [if_pos hmv]
      have hall : ∀ q ∈ ps, q.Moved = false := by
        intro q hq
        have := hmv
        simp only [anyMoved, List.drop_succ_cons, List.drop_zero, List.any_eq_false] at this
        simpa using this q hq
      have hsub : subPaths (p0 :: ps) = [p0 :: ps] := by
        simp only [subPaths]
        rw [groupFrom_no_move ps [p0] hall]
        rfl
      have hlast : (p0 :: ps)[(p0 :: ps).length - 1]? =
          some ((p0 :: ps).getLast (by simp)) := by
        rw [← List.getLast?_eq_getElem?]
        rfl
      rw [hlast]
      simp only [List.getElem?_cons_zero]
      rw [hsub]
      simp only [List.mem_singleton, forall_eq]
      have hcs := ClosedSub_iff (p0 :: ps) p0 ((p0 :: ps).getLast (by simp)) rfl rfl
      by_cases hc : p0.X ≠ ((p0 :: ps).getLast (by simp)).X ∨
          p0.Y ≠ ((p0 :: ps).getLast (by simp)).Y
      · rw [if_pos hc, if_pos (fun h => by have := hcs.1 h; omega)]
      · rw [if_neg hc, if_neg (fun h => h (hcs.2 (by omega)))]
    · rw [if_neg hmv]
      simp only [List.getElem?_cons_zero]
      have hspec := closeLoop_spec ps [p0] p0 p0 rfl rfl
      have hcl : closeLoop (p0 :: ps) p0 p0 = closeLoop ps p0 p0 := by
        simp [closeLoop, hm]
      rw [hcl]
      simp only [subPaths]
      cases hr : closeLoop ps p0 p0 with
      | none =>
        rw [hr] at hspec
        simp only [if_true, true_and] at hspec ⊢
        rw [if_pos]
        intro hall
        obtain ⟨s1, p1, h, _⟩ := hspec.2 hall
        simp at h
      | some sp =>
        obtain ⟨s1, p1⟩ := sp
        rw [hr] at hspec
        simp only
        by_cases hc : s1.X ≠ p1.X ∨ s1.Y ≠ p1.Y
        · rw [if_pos hc, if_pos]
          intro hall
          obtain ⟨s2, p2, h, h2⟩ := hspec.2 hall
          simp only [Option.some.injEq, Prod.mk.injEq] at h
          obtain ⟨rfl, rfl⟩ := h
          omega
        · rw [if_neg hc, if_neg]
          intro hno
          exact hno (hspec.1 ⟨s1, p1, rfl, by omega⟩)

theorem specPoints_M (a : Bool) (x y : Int) (rest : List SVGCommand) :
    specPoints (SVGCommand.MCommand a x y :: rest) =
      { X := x, Y := y, Moved := true } ::
        specPointsFrom { X := x, Y := y, Moved := true } { X := x, Y := y, Moved := true }
          rest := rfl

/-- Claim C27.  For every command list that starts with `M` (arguments and canvas bounds being
`int` values), `SVGToPoints` returns, and it returns `OutOfBoundsError` if and only if one of
the points of the specification (computed with unbounded integers) has `x < 0`, `y < 0`,
`x > canvasX` or `y > canvasY`. -/
theorem SVGToPoints_outOfBounds_iff (a : Bool) (x y : Int) (rest : List SVGCommand)
    (cX cY : Int) (filled st : Bool)
    (hargs : ∀ c ∈ SVGCommand.MCommand a x y :: rest, IsInt64 c.GetX ∧ IsInt64 c.GetY)
    (hcX : IsInt64 cX) (hcY : IsInt64 cY) :
    ∃ r, SVGToPoints (SVGCommand.MCommand a x y :: rest) cX cY filled st = some r ∧
      (r.2 = some MinerError.OutOfBoundsError ↔
        ∃ q ∈ specPoints (SVGCommand.MCommand a x y :: rest),
          q.X < 0 ∨ q.Y < 0 ∨ q.X > cX ∨ q.Y > cY) := by
  have hcX2 : cX < 9223372036854775808 := by unfold IsInt64 at hcX; omega
  have hcY2 : cY < 9223372036854775808 := by unfold IsInt64 at hcY; omega
  obtain ⟨h1, h2⟩ := pointsLoop_start cX cY hcX2 hcY2 a x y rest hargs
  by_cases hall : ∀ q ∈ specPoints (SVGCommand.MCommand a x y :: rest), InCanvas cX cY q
  · have hloop := h1 hall
    rw [specPoints_M] at hloop
    have hres := SVGToPoints_of_points (SVGCommand.MCommand a x y :: rest) cX cY filled st
      { X := x, Y := y, Moved := true } _ rfl hloop
    obtain ⟨path, hfin, _⟩ := finishPath_cons { X := x, Y := y, Moved := true }
      (specPointsFrom { X := x, Y := y, Moved := true } { X := x, Y := y, Moved := true } rest)
      filled st
    have hno : ¬ ∃ q ∈ specPoints (SVGCommand.MCommand a x y :: rest),
        q.X < 0 ∨ q.Y < 0 ∨ q.X > cX ∨ q.Y > cY := by
      rintro ⟨q, hq, hq2⟩
      have := hall q hq
      unfold InCanvas at this
      omega
    rw [hfin] at hres
    split at hres
    · exact ⟨_, hres, by simp [hno]⟩
    · exact ⟨_, hres, by simp [hno]⟩
  · have hex : ∃ q ∈ specPoints (SVGCommand.MCommand a x y :: rest), ¬ InCanvas cX cY q := by
      by_contra hcon
      exact hall (fun q hq => by_contra (fun hq2 => hcon ⟨q, hq, hq2⟩))
    have hloop := h2 hex
    refine ⟨(zeroPath, some MinerError.OutOfBoundsError), ?_, ?_⟩
    · unfold SVGToPoints
      rw [hloop]
    · simp only [true_iff]
      obtain ⟨q, hq, hq2⟩ := hex
      refine ⟨q, hq, ?_⟩
      unfold InCanvas at hq2
      omega

/-- A concrete instance of claim C27 on a canvas with maxima 10 and 10: the line from (0,0) to
(10,10) is in bounds, the line to (11,10) is not. -/
theorem SVGToPoints_outOfBounds_iff_witness :
    (∃ r, SVGToPoints [SVGCommand.MCommand false 0 0, SVGCommand.LCommand true 11 10] 10 10
        false true = some r ∧
      (r.2 = some MinerError.OutOfBoundsError ↔
        ∃ q ∈ specPoints [SVGCommand.MCommand false 0 0, SVGCommand.LCommand true 11 10],
          q.X < 0 ∨ q.Y < 0 ∨ q.X > 10 ∨ q.Y > 10)) ∧
      SVGToPoints [SVGCommand.MCommand false 0 0, SVGCommand.LCommand true 11 10] 10 10
        false true = some (zeroPath, some MinerError.OutOfBoundsError) ∧
      (SVGToPoints [SVGCommand.MCommand false 0 0, SVGCommand.LCommand true 10 10] 10 10
        false true).map (fun r => r.2) = some none :=
  ⟨SVGToPoints_outOfBounds_iff false 0 0 [SVGCommand.LCommand true 11 10] 10 10 false true
      (by decide) (by decide) (by decide),
    by decide, by decide⟩

/-- Claim C28.  For every command list that starts with `M` and whose points all lie on the
canvas: with `filled = false` `SVGToPoints` succeeds; with `filled = true` it succeeds when
every maximal sub-path delimited by the `M` commands ends at the point where it started, and
returns `InvalidShapeSvgStringError` otherwise.  On success the path holds the points of the
specification. -/
theorem SVGToPoints_filled_iff_closed (a : Bool) (x y : Int) (rest : List SVGCommand)
    (cX cY : Int) (st : Bool)
    (hargs : ∀ c ∈ SVGCommand.MCommand a x y :: rest, IsInt64 c.GetX ∧ IsInt64 c.GetY)
    (hcX : IsInt64 cX) (hcY : IsInt64 cY)
    (hin : ∀ q ∈ specPoints (SVGCommand.MCommand a x y :: rest), InCanvas cX cY q) :
    (∃ p, SVGToPoints (SVGCommand.MCommand a x y :: rest) cX cY false st = some (p, none) ∧
        p.Points = specPoints (SVGCommand.MCommand a x y :: rest)) ∧
      ((∀ g ∈ subPaths (specPoints (SVGCommand.MCommand a x y :: rest)), ClosedSub g) →
        ∃ p, SVGToPoints (SVGCommand.MCommand a x y :: rest) cX cY true st = some (p, none) ∧
          p.Points = specPoints (SVGCommand.MCommand a x y :: rest)) ∧
      (¬ (∀ g ∈ subPaths (specPoints (SVGCommand.MCommand a x y :: rest)), ClosedSub g) →
        SVGToPoints (SVGCommand.MCommand a x y :: rest) cX cY true st =
          some (zeroPath, some (MinerError.InvalidShapeSvgStringError ""))) := by
  have hcX2 : cX < 9223372036854775808 := by unfold IsInt64 at hcX; omega
  have hcY2 : cY < 9223372036854775808 := by unfold IsInt64 at hcY; omega
  have hloop := (pointsLoop_start cX cY hcX2 hcY2 a x y rest hargs).1 hin
  rw [specPoints_M] at hloop ⊢
  have hres := fun filled => SVGToPoints_of_points (SVGCommand.MCommand a x y :: rest) cX cY
    filled st { X := x, Y := y, Moved := true } _ rfl hloop
  refine ⟨?_, ?_, ?_⟩
  · rw [hres false]
    simp only [Bool.false_eq_true, false_and, if_false]
    exact finishPath_cons _ _ false st
  · intro hall
    rw [hres true, if_neg (by simp only [true_and, not_not]; exact hall)]
    exact finishPath_cons _ _ true st
  · intro hno
    rw [hres true, if_pos ⟨rfl, hno⟩]

/-- A concrete instance of claim C28: the square with corners (0,0) and (4,4), closed by `Z`,
on a canvas with maxima 10 and 10. -/
theorem SVGToPoints_filled_iff_closed_witness :
    (∀ g ∈ subPaths (specPoints [SVGCommand.MCommand false 0 0, SVGCommand.LCommand true 4 0,
        SVGCommand.LCommand true 4 4, SVGCommand.LCommand true 0 4, SVGCommand.ZCommand]),
        ClosedSub g) ∧
      ∃ p, SVGToPoints [SVGCommand.MCommand false 0 0, SVGCommand.LCommand true 4 0,
          SVGCommand.LCommand true 4 4, SVGCommand.LCommand true 0 4, SVGCommand.ZCommand]
          10 10 true false = some (p, none) ∧
        p.Points = specPoints [SVGCommand.MCommand false 0 0, SVGCommand.LCommand true 4 0,
          SVGCommand.LCommand true 4 4, SVGCommand.LCommand true 0 4, SVGCommand.ZCommand] :=
  ⟨by decide,
    (SVGToPoints_filled_iff_closed false 0 0 [SVGCommand.LCommand true 4 0,
      SVGCommand.LCommand true 4 4, SVGCommand.LCommand true 0 4, SVGCommand.ZCommand]
      10 10 false (by decide) (by decide) (by decide) (by decide)).2.1 (by decide)⟩

/-! ### The parser on the tokens of the grammar -/

theorem Atoi_int64 (t : String) (n : Int) (h : Atoi t = some n) : IsInt64 n := by
  unfold Atoi at h
  unfold IsInt64
  split at h
  · simp at h
  · split at h
    · split at h
      · simp at h
      · split at h
        · simp at h
        · split at h
          · simp only [Option.some.injEq] at h; omega
          · simp at h
    · split at h
      · split at h
        · simp at h
        · split at h
          · simp at h
          · split at h
            · simp only [Option.some.injEq] at h; omega
            · simp at h
      · split at h
        · simp at h
        · split at h
          · simp only [Option.some.injEq] at h; omega
          · simp at h

theorem parseLoop_M (s : String) (first : Bool) (tx ty : String) (x y : Int)
    (rest : List String) (path : List SVGCommand) (hx : Atoi tx = some x)
    (hy : Atoi ty = some y) :
    parseLoop s first ("M" :: tx :: ty :: rest) path =
      parseLoop s false rest (path ++ [SVGCommand.MCommand false x y]) := by
  have hu : ToUpper "M" = "M" := by decide
  simp [parseLoop, hu, hx, hy]

theorem parseLoop_L (s : String) (tx ty : String) (x y : Int)
    (rest : List String) (path : List SVGCommand) (hx : Atoi tx = some x)
    (hy : Atoi ty = some y) :
    parseLoop s false ("L" :: tx :: ty :: rest) path =
      parseLoop s false rest (path ++ [SVGCommand.LCommand true x y]) := by
  have hu : ToUpper "L" = "L" := by decide
  simp [parseLoop, hu, hx, hy]

theorem parseLoop_l (s : String) (tx ty : String) (x y : Int)
    (rest : List String) (path : List SVGCommand) (hx : Atoi tx = some x)
    (hy : Atoi ty = some y) :
    parseLoop s false ("l" :: tx :: ty :: rest) path =
      parseLoop s false rest (path ++ [SVGCommand.LCommand false x y]) := by
  have hu : ToUpper "l" = "L" := by decide
  simp [parseLoop, hu, hx, hy]

theorem parseLoop_H (s : String) (tx : String) (x : Int)
    (rest : List String) (path : List SVGCommand) (hx : Atoi tx = some x) :
    parseLoop s false ("H" :: tx :: rest) path =
      parseLoop s false rest (path ++ [SVGCommand.HCommand true x]) := by
  have hu : ToUpper "H" = "H" := by decide
  cases rest <;> simp [parseLoop, hu, hx]

theorem parseLoop_h (s : String) (tx : String) (x : Int)
    (rest : List String) (path : List SVGCommand) (hx : Atoi tx = some x) :
    parseLoop s false ("h" :: tx :: rest) path =
      parseLoop s false rest (path ++ [SVGCommand.HCommand false x]) := by
  have hu : ToUpper "h" = "H" := by decide
  cases rest <;> simp [parseLoop, hu, hx]

theorem parseLoop_V (s : String) (ty : String) (y : Int)
    (rest : List String) (path : List SVGCommand) (hy : Atoi ty = some y) :
    parseLoop s false ("V" :: ty :: rest) path =
      parseLoop s false rest (path ++ [SVGCommand.VCommand true y]) := by
  have hu : ToUpper "V" = "V" := by decide
  cases rest <;> simp [parseLoop, hu, hy]

/-- The token `v` makes an absolute `HCommand`: the test `token == "V"` fails for it. -/
theorem parseLoop_v (s : String) (ty : String) (y : Int)
    (rest : List String) (path : List SVGCommand) (hy : Atoi ty = some y) :
    parseLoop s false ("v" :: ty :: rest) path =
      parseLoop s false rest (path ++ [SVGCommand.HCommand true y]) := by
  have hu : ToUpper "v" = "V" := by decide
  cases rest <;> simp [parseLoop, hu, hy]

theorem parseLoop_Z (s : String) (rest : List String) (path : List SVGCommand) :
    parseLoop s false ("Z" :: rest) path =
      parseLoop s false rest (path ++ [SVGCommand.ZCommand]) := by
  have hu : ToUpper "Z" = "Z" := by decide
  cases rest with
  | nil => simp [parseLoop, hu]
  | cons a r =>
    cases r with
    | nil => simp [parseLoop, hu]
    | cons b r2 => simp [parseLoop, hu]

theorem parseLoop_tokens (s : String) :
    ∀ (cmds : List PathCmd) (toks : List String), TokensOf cmds toks →
      ∀ (first : Bool) (rest : List String) (path : List SVGCommand),
        (first = true → ∃ x y cs, cmds = PathCmd.M x y :: cs) →
        parseLoop s first (toks ++ rest) path =
          parseLoop s false rest (path ++ cmds.map PathCmd.parsed) := by
  intro cmds toks h
  induction h with
  | nil =>
    intro first rest path hfirst
    cases first with
    | false => simp
    | true => obtain ⟨x, y, cs, hc⟩ := hfirst rfl; simp at hc
  | @cons c toks cs rest0 htok _ ih =>
    intro first rest path hfirst
    have ih2 := fun p2 => ih false rest p2 (fun hf => by simp at hf)
    have hfalse : (∀ x y, c ≠ PathCmd.M x y) → first = false := by
      intro hne
      cases first with
      | false => rfl
      | true =>
        obtain ⟨x, y, cs2, hc⟩ := hfirst rfl
        simp only [List.cons.injEq] at hc
        exact absurd hc.1 (hne x y)
    cases c with
    | M x y =>
      obtain ⟨tx, ty, rfl, hx, hy⟩ := htok
      simp only [List.cons_append, List.nil_append, List.map_cons, PathCmd.parsed, PathCmd.toCommand]
      rw [parseLoop_M s first tx ty x y _ path hx hy, ih2]
      simp
    | L x y =>
      obtain ⟨tx, ty, rfl, hx, hy⟩ := htok
      rw [hfalse (fun _ _ h => by simp at h)]
      simp only [List.cons_append, List.nil_append, List.map_cons, PathCmd.parsed, PathCmd.toCommand]
      rw [parseLoop_L s tx ty x y _ path hx hy, ih2]
      simp
    | l x y =>
      obtain ⟨tx, ty, rfl, hx, hy⟩ := htok
      rw [hfalse (fun _ _ h => by simp at h)]
      simp only [List.cons_append, List.nil_append, List.map_cons, PathCmd.parsed, PathCmd.toCommand]
      rw [parseLoop_l s tx ty x y _ path hx hy, ih2]
      simp
    | H x =>
      obtain ⟨tx, rfl, hx⟩ := htok
      rw [hfalse (fun _ _ h => by simp at h)]
      simp only [List.cons_append, List.nil_append, List.map_cons, PathCmd.parsed, PathCmd.toCommand]
      rw [parseLoop_H s tx x _ path hx, ih2]
      simp
    | h x =>
      obtain ⟨tx, rfl, hx⟩ := htok
      rw [hfalse (fun _ _ h => by simp at h)]
      simp only [List.cons_append, List.nil_append, List.map_cons, PathCmd.parsed, PathCmd.toCommand]
      rw [parseLoop_h s tx x _ path hx, ih2]
      simp
    | V y =>
      obtain ⟨ty, rfl, hy⟩ := htok
      rw [hfalse (fun _ _ h => by simp at h)]
      simp only [List.cons_append, List.nil_append, List.map_cons, PathCmd.parsed, PathCmd.toCommand]
      rw [parseLoop_V s ty y _ path hy, ih2]
      simp
    | v y =>
      obtain ⟨ty, rfl, hy⟩ := htok
      rw [hfalse (fun _ _ h => by simp at h)]
      simp only [List.cons_append, List.nil_append, List.map_cons, PathCmd.parsed]
      rw [parseLoop_v s ty y _ path hy, ih2]
      simp
    | Z =>
      have htok2 : toks = ["Z"] := htok
      subst htok2
      rw [hfalse (fun _ _ h => by simp at h)]
      simp only [List.cons_append, List.nil_append, List.map_cons, PathCmd.parsed, PathCmd.toCommand]
      rw [parseLoop_Z s _ path, ih2]
      simp

theorem map_parsed_of_no_v (cmds : List PathCmd) (h : ∀ c ∈ cmds, ∀ dy, c ≠ PathCmd.v dy) :
    cmds.map PathCmd.parsed = cmds.map PathCmd.toCommand := by
  apply List.map_congr_left
  intro c hc
  cases c with
  | v dy => exact absurd rfl (h _ hc dy)
  | _ => rfl

theorem TokensOf_int64 :
    ∀ (cmds : List PathCmd) (toks : List String), TokensOf cmds toks →
      ∀ c ∈ cmds.map PathCmd.toCommand, IsInt64 c.GetX ∧ IsInt64 c.GetY := by
  intro cmds toks h
  induction h with
  | nil => intro c hc; simp at hc
  | @cons c toks cs rest0 htok _ ih =>
    intro c2 hc2
    simp only [List.map_cons, List.mem_cons] at hc2
    rcases hc2 with hc2 | hc2
    · subst hc2
      have hm1 : IsInt64 (-1) := by decide
      cases c with
      | M x y =>
        obtain ⟨tx, ty, _, hx, hy⟩ := htok
        exact ⟨Atoi_int64 tx x hx, Atoi_int64 ty y hy⟩
      | L x y =>
        obtain ⟨tx, ty, _, hx, hy⟩ := htok
        exact ⟨Atoi_int64 tx x hx, Atoi_int64 ty y hy⟩
      | l x y =>
        obtain ⟨tx, ty, _, hx, hy⟩ := htok
        exact ⟨Atoi_int64 tx x hx, Atoi_int64 ty y hy⟩
      | H x =>
        obtain ⟨tx, _, hx⟩ := htok
        exact ⟨Atoi_int64 tx x hx, hm1⟩
      | h x =>
        obtain ⟨tx, _, hx⟩ := htok
        exact ⟨Atoi_int64 tx x hx, hm1⟩
      | V y =>
        obtain ⟨ty, _, hy⟩ := htok
        exact ⟨hm1, Atoi_int64 ty y hy⟩
      | v y =>
        obtain ⟨ty, _, hy⟩ := htok
        exact ⟨hm1, Atoi_int64 ty y hy⟩
      | Z => exact ⟨hm1, hm1⟩
    · exact ih c2 hc2

theorem specPoint_toCommand (c : PathCmd) (first prev : Point) :
    specPoint c.toCommand first prev = c.next first prev := by
  cases c <;> rfl

theorem specPointsFrom_map (first prev : Point) (cs : List PathCmd) :
    specPointsFrom first prev (cs.map PathCmd.toCommand) = pathPointsFrom first prev cs := by
  induction cs generalizing prev with
  | nil => rfl
  | cons c rest ih =>
    simp only [List.map_cons, specPointsFrom, pathPointsFrom, specPoint_toCommand]
    rw [ih]

theorem specPoints_map (cs : List PathCmd) :
    specPoints (cs.map PathCmd.toCommand) = pathPoints cs := by
  cases cs with
  | nil => rfl
  | cons c rest =>
    simp only [List.map_cons, specPoints, pathPoints, specPoint_toCommand, specPointsFrom_map]

theorem GetParsedSVG_len (s : String) (h : (GetParsedSVG s).2 = none) :
    GetParsedSVG s = parseLoop s true (Split s) [] := by
  unfold GetParsedSVG at h ⊢
  by_cases hl : len s > MAX_SVG_LEN
  · rw [if_pos hl] at h; simp at h
  · rw [if_neg hl]

/-- Claim C25.  Let the tokens of a string be the tokens of a path of the grammar that starts
with `M x y` and goes on with commands `M`, `L`, `l`, `H`, `h`, `V` and `Z`.  If `GetParsedSVG`
accepts the string and `SVGToPoints` converts the result without error, then the parser made
one command object for each command and the points of the path are those to which the commands
map the previous point: `M x y` to `(x, y)` with `Moved`, `L x y` to `(x, y)`, `l dx dy` to
`(px+dx, py+dy)`, `H x` to `(x, py)`, `h dx` to `(px+dx, py)`, `V y` to `(px, y)` and `Z` to the
first point. -/
theorem parsed_path_points (s : String) (x y : Int) (rest : List PathCmd) (cX cY : Int)
    (filled st : Bool) (p : Path)
    (htoks : TokensOf (PathCmd.M x y :: rest) (Split s))
    (hnov : ∀ c ∈ rest, ∀ dy, c ≠ PathCmd.v dy)
    (hcX : IsInt64 cX) (hcY : IsInt64 cY)
    (hacc : (GetParsedSVG s).2 = none)
    (hconv : SVGToPoints (GetParsedSVG s).1 cX cY filled st = some (p, none)) :
    (GetParsedSVG s).1 = (PathCmd.M x y :: rest).map PathCmd.toCommand ∧
      p.Points = pathPoints (PathCmd.M x y :: rest) := by
  have hnov2 : ∀ c ∈ PathCmd.M x y :: rest, ∀ dy, c ≠ PathCmd.v dy := by
    intro c hc dy
    rcases List.mem_cons.1 hc with h | h
    · rw [h]; simp
    · exact hnov c h dy
  have hparse := parseLoop_tokens s _ _ htoks true [] [] (fun _ => ⟨x, y, rest, rfl⟩)
  rw [List.append_nil, List.nil_append, map_parsed_of_no_v _ hnov2] at hparse
  have hres : GetParsedSVG s = ((PathCmd.M x y :: rest).map PathCmd.toCommand, none) := by
    rw [GetParsedSVG_len s hacc, hparse]
    rfl
  rw [hres] at hconv ⊢
  refine ⟨rfl, ?_⟩
  simp only at hconv
  have hargs := TokensOf_int64 _ _ htoks
  have hcX2 : cX < 9223372036854775808 := by unfold IsInt64 at hcX; omega
  have hcY2 : cY < 9223372036854775808 := by unfold IsInt64 at hcY; omega
  rw [← specPoints_map]
  simp only [List.map_cons, PathCmd.toCommand] at hargs hconv ⊢
  obtain ⟨h1, h2⟩ := pointsLoop_start cX cY hcX2 hcY2 false x y
    (rest.map PathCmd.toCommand) hargs
  by_cases hall : ∀ q ∈ specPoints (SVGCommand.MCommand false x y ::
      rest.map PathCmd.toCommand), InCanvas cX cY q
  · have hloop := h1 hall
    rw [specPoints_M] at hloop ⊢
    have hsp := SVGToPoints_of_points _ cX cY filled st { X := x, Y := y, Moved := true } _ rfl
      hloop
    rw [hsp] at hconv
    obtain ⟨path, hfin, hpts⟩ := finishPath_cons { X := x, Y := y, Moved := true }
      (specPointsFrom { X := x, Y := y, Moved := true } { X := x, Y := y, Moved := true }
        (rest.map PathCmd.toCommand)) filled st
    split at hconv
    · simp at hconv
    · rw [hfin] at hconv
      simp only [Option.some.injEq, Prod.mk.injEq, and_true] at hconv
      rw [← hconv]
      exact hpts
  · have hex : ∃ q ∈ specPoints (SVGCommand.MCommand false x y ::
        rest.map PathCmd.toCommand), ¬ InCanvas cX cY q := by
      by_contra hcon
      exact hall (fun q hq => by_contra (fun hq2 => hcon ⟨q, hq, hq2⟩))
    have hloop := h2 hex
    unfold SVGToPoints at hconv
    rw [hloop] at hconv
    simp at hconv

/-- A concrete instance of claim C25: a path with one command of each kind on a canvas with
maxima 10 and 10. -/
theorem parsed_path_points_witness :
    Split "M 0 0 L 3 0 l 0 3 H 0 h 1 V 0 Z" =
        ["M", "0", "0", "L", "3", "0", "l", "0", "3", "H", "0", "h", "1", "V", "0", "Z"] ∧
      (SVGToPoints (GetParsedSVG "M 0 0 L 3 0 l 0 3 H 0 h 1 V 0 Z").1 10 10 false true).map
          (fun r => r.1.Points) =
        some (pathPoints [PathCmd.M 0 0, PathCmd.L 3 0, PathCmd.l 0 3, PathCmd.H 0,
          PathCmd.h 1, PathCmd.V 0, PathCmd.Z]) ∧
      pathPoints [PathCmd.M 0 0, PathCmd.L 3 0, PathCmd.l 0 3, PathCmd.H 0, PathCmd.h 1,
          PathCmd.V 0, PathCmd.Z] =
        [{ X := 0, Y := 0, Moved := true }, { X := 3, Y := 0, Moved := false },
          { X := 3, Y := 3, Moved := false }, { X := 0, Y := 3, Moved := false },
          { X := 1, Y := 3, Moved := false }, { X := 1, Y := 0, Moved := false },
          { X := 0, Y := 0, Moved := false }] := by
  have hsplit : Split "M 0 0 L 3 0 l 0 3 H 0 h 1 V 0 Z" =
      ["M", "0", "0", "L", "3", "0", "l", "0", "3", "H", "0", "h", "1", "V", "0", "Z"] := by
    decide
  have h0 : Atoi "0" = some 0 := by decide
  have h1 : Atoi "1" = some 1 := by decide
  have h3 : Atoi "3" = some 3 := by decide
  have htoks : TokensOf [PathCmd.M 0 0, PathCmd.L 3 0, PathCmd.l 0 3, PathCmd.H 0,
      PathCmd.h 1, PathCmd.V 0, PathCmd.Z] (Split "M 0 0 L 3 0 l 0 3 H 0 h 1 V 0 Z") := by
    rw [hsplit]
    exact @TokensOf.cons (PathCmd.M 0 0) ["M", "0", "0"] _ _ ⟨"0", "0", rfl, h0, h0⟩
      (@TokensOf.cons (PathCmd.L 3 0) ["L", "3", "0"] _ _ ⟨"3", "0", rfl, h3, h0⟩
      (@TokensOf.cons (PathCmd.l 0 3) ["l", "0", "3"] _ _ ⟨"0", "3", rfl, h0, h3⟩
      (@TokensOf.cons (PathCmd.H 0) ["H", "0"] _ _ ⟨"0", rfl, h0⟩
      (@TokensOf.cons (PathCmd.h 1) ["h", "1"] _ _ ⟨"1", rfl, h1⟩
      (@TokensOf.cons (PathCmd.V 0) ["V", "0"] _ _ ⟨"0", rfl, h0⟩
      (@TokensOf.cons PathCmd.Z ["Z"] _ _ (rfl : ["Z"] = ["Z"]) TokensOf.nil))))))
  obtain ⟨path, hpath⟩ : ∃ path,
      SVGToPoints (GetParsedSVG "M 0 0 L 3 0 l 0 3 H 0 h 1 V 0 Z").1 10 10 false true =
        some (path, none) := by
    have hd : ((SVGToPoints (GetParsedSVG "M 0 0 L 3 0 l 0 3 H 0 h 1 V 0 Z").1 10 10 false
        true).map (fun r => r.2)) = some none := by decide
    cases hr : SVGToPoints (GetParsedSVG "M 0 0 L 3 0 l 0 3 H 0 h 1 V 0 Z").1 10 10 false
        true with
    | none => rw [hr] at hd; simp at hd
    | some r =>
      rw [hr] at hd
      simp only [Option.map, Option.some.injEq] at hd
      exact ⟨r.1, by rw [← hd]⟩
  have hthm := parsed_path_points "M 0 0 L 3 0 l 0 3 H 0 h 1 V 0 Z" 0 0
    [PathCmd.L 3 0, PathCmd.l 0 3, PathCmd.H 0, PathCmd.h 1, PathCmd.V 0, PathCmd.Z] 10 10
    false true path htoks (fun c hc dy h => by subst h; simp at hc) (by decide) (by decide)
    (by decide) hpath
  refine ⟨hsplit, ?_, by decide⟩
  rw [hpath]
  simp only [Option.map]
  rw [hthm.2]

/-- Claim C26, the failing input.  The string `M 101 100 v 2` is accepted; the parser makes an
absolute `HCommand` with argument 2 from `v 2`, and `SVGToPoints` (canvas maxima 1000) yields
the points (101,100) and (2,100), where the grammar gives (101,100) and (101,102). -/
theorem relative_v_parsed_as_absolute_H :
    GetParsedSVG "M 101 100 v 2" =
        ([SVGCommand.MCommand false 101 100, SVGCommand.HCommand true 2], none) ∧
      (SVGToPoints (GetParsedSVG "M 101 100 v 2").1 1000 1000 false true).map
          (fun r => (r.1.Points, r.2)) =
        some ([{ X := 101, Y := 100, Moved := true }, { X := 2, Y := 100, Moved := false }],
          none) ∧
      pathPoints [PathCmd.M 101 100, PathCmd.v 2] =
        [{ X := 101, Y := 100, Moved := true }, { X := 101, Y := 102, Moved := false }] := by
  decide

/-! ### Errors of `GetParsedSVG` -/

theorem parseLoop_err (s : String) :
    ∀ (n : Nat) (toks : List String), toks.length ≤ n →
      ∀ (first : Bool) (path : List SVGCommand),
        (parseLoop s first toks path).2 = none ∨
          (parseLoop s first toks path).2 = some (MinerError.InvalidShapeSvgStringError s) := by
  intro n
  induction n with
  | zero =>
    intro toks h first path
    cases toks with
    | nil => left; rfl
    | cons a r => simp at h
  | succ n ih =>
    intro toks h first path
    cases toks with
    | nil => left; rfl
    | cons token rest =>
      have hr : rest.length ≤ n := by simpa using h
      unfold parseLoop
      simp only
      split
      · right; rfl
      · split
        · split
          · rename_i t1 t2 rest2
            have hr2 : rest2.length ≤ n := by simp at hr; omega
            split
            · right; rfl
            · split
              · right; rfl
              · split
                · exact ih rest2 hr2 _ _
                · exact ih rest2 hr2 _ _
          · split
            · left; rfl
            · left; rfl
        · split
          · split
            · rename_i t1 rest1
              have hr1 : rest1.length ≤ n := by simp at hr; omega
              split
              · right; rfl
              · split
                · exact ih rest1 hr1 _ _
                · exact ih rest1 hr1 _ _
            · split
              · left; rfl
              · left; rfl
          · split
            · exact ih rest hr _ _
            · left; rfl

theorem utf8Len_pos (c : Char) : 1 ≤ utf8Len c := by
  unfold utf8Len
  split
  · exact le_refl 1
  · split
    · decide
    · split <;> decide

theorem length_le_sum_utf8Len (l : List Char) : l.length ≤ (l.map utf8Len).sum := by
  induction l with
  | nil => simp
  | cons c rest ih =>
    have := utf8Len_pos c
    simp only [List.length_cons, List.map_cons, List.sum_cons]
    omega

theorem sum_utf8Len_ascii (l : List Char) (h : ∀ c ∈ l, c.toNat < 128) :
    (l.map utf8Len).sum = l.length := by
  induction l with
  | nil => simp
  | cons c rest ih =>
    have hc := h c (List.mem_cons_self _ _)
    simp only [List.length_cons, List.map_cons, List.sum_cons, utf8Len, if_pos hc]
    rw [ih (fun c2 hc2 => h c2 (List.mem_cons_of_mem _ hc2))]
    omega

/-- Claim C23, counterexample.  The string `accented65` has 65 characters, no more than 128,
but 130 bytes, and `GetParsedSVG` returns `ShapeSvgStringTooLongError` for it. -/
theorem GetParsedSVG_too_long_counts_bytes :
    accented65.length = 65 ∧ len accented65 = 130 ∧
      GetParsedSVG accented65 =
        ([], some (MinerError.ShapeSvgStringTooLongError accented65)) := by
  decide

set_option maxRecDepth 100000 in
/-- Claim C23, amended.  `GetParsedSVG` returns `ShapeSvgStringTooLongError` for every string
of more than 128 bytes, hence for every string of more than 128 characters, and never for a
string of at most 128 bytes, hence never for a string of at most 128 ASCII characters; the
well-formed path string `path128` of exactly 128 ASCII characters parses without error. -/
theorem GetParsedSVG_too_long_iff (s : String) :
    (len s > 128 → GetParsedSVG s = ([], some (MinerError.ShapeSvgStringTooLongError s))) ∧
      (len s ≤ 128 → ∀ s2, (GetParsedSVG s).2 ≠ some (MinerError.ShapeSvgStringTooLongError s2)) ∧
      (s.length > 128 → len s > 128) ∧
      ((∀ c ∈ s.data, c.toNat < 128) → len s = s.length) ∧
      (path128.length = 128 ∧ (∀ c ∈ path128.data, c.toNat < 128) ∧
        (GetParsedSVG path128).2 = none) := by
  refine ⟨?_, ?_, ?_, ?_, ?_⟩
  · intro h
    unfold GetParsedSVG
    rw [if_pos (show len s > MAX_SVG_LEN from h)]
  · intro h s2
    unfold GetParsedSVG
    rw [if_neg (show ¬ len s > MAX_SVG_LEN from by unfold MAX_SVG_LEN; omega)]
    rcases parseLoop_err s _ (Split s) (le_refl _) true [] with h1 | h1
    · rw [h1]; simp
    · rw [h1]; simp
  · intro h
    have := length_le_sum_utf8Len s.data
    unfold len
    have hl : s.length = s.data.length := rfl
    omega
  · intro h
    unfold len
    exact sum_utf8Len_ascii s.data h
  · decide

/-- A concrete instance of the amended claim C23: the string `M 0 0` has 5 bytes. -/
theorem GetParsedSVG_too_long_iff_witness :
    len "M 0 0" ≤ 128 ∧
      ∀ s2, (GetParsedSVG "M 0 0").2 ≠ some (MinerError.ShapeSvgStringTooLongError s2) :=
  ⟨by decide, (GetParsedSVG_too_long_iff "M 0 0").2.1 (by decide)⟩

theorem toUpper_eq_M (c : Char) (h : c.toUpper = 'M') : c = 'M' ∨ c = 'm' := by
  unfold Char.toUpper at h
  simp only at h
  split at h
  · rename_i hr
    right
    generalize hn : c.toNat = n at *
    obtain ⟨h1, h2⟩ := hr
    have hn2 : n = 109 := by
      interval_cases n <;> first | rfl | (exfalso; revert h; decide)
    apply char_eq_of_toNat_eq
    rw [hn, hn2]; rfl
  · left; exact h

theorem ToUpper_eq_M (t : String) (h : ToUpper t = "M") : t = "M" ∨ t = "m" := by
  unfold ToUpper at h
  have hd : t.data.map Char.toUpper = ['M'] := by
    have := congrArg String.data h
    simpa using this
  cases hdt : t.data with
  | nil => rw [hdt] at hd; simp at hd
  | cons c rest =>
    rw [hdt] at hd
    simp only [List.map_cons, List.cons.injEq, List.map_eq_nil_iff] at hd
    obtain ⟨hc, hrest⟩ := hd
    subst hrest
    rcases toUpper_eq_M c hc with h1 | h1
    · left; subst h1; exact String.ext hdt
    · right; subst h1; exact String.ext hdt

theorem parseLoop_first_not_M (s t : String) (rest : List String) (path : List SVGCommand)
    (h : ToUpper t ≠ "M") :
    parseLoop s true (t :: rest) path =
      (path, some (MinerError.InvalidShapeSvgStringError s)) := by
  unfold parseLoop
  simp [h]

/-- A command with all its argument tokens, one of which is not an integer, ends the parse
with `InvalidShapeSvgStringError`, wherever it stands. -/
theorem parseLoop_bad (s : String) (first : Bool) (letter : String) (args rest : List String)
    (path : List SVGCommand) (hbad : BadArgs letter args) :
    (parseLoop s first (letter :: (args ++ rest)) path).2 =
      some (MinerError.InvalidShapeSvgStringError s) := by
  have hM : ToUpper "M" = "M" := by decide
  have hm : ToUpper "m" = "M" := by decide
  have hL : ToUpper "L" = "L" := by decide
  have hl : ToUpper "l" = "L" := by decide
  have hH : ToUpper "H" = "H" := by decide
  have hh : ToUpper "h" = "H" := by decide
  have hV : ToUpper "V" = "V" := by decide
  have hv : ToUpper "v" = "V" := by decide
  rcases hbad with ⟨hlet, t1, t2, rfl, hat⟩ | ⟨hlet, t1, rfl, hat⟩
  · have key : ∀ up, ToUpper letter = up → (up = "L" ∨ up = "M") →
        (parseLoop s first (letter :: ([t1, t2] ++ rest)) path).2 =
          some (MinerError.InvalidShapeSvgStringError s) := by
      intro up hup hor
      simp only [List.cons_append, List.nil_append]
      unfold parseLoop
      simp only [hup]
      split
      · rfl
      · rcases hat with h1 | h2
        · simp only [h1, hor, if_true]
        · cases h1 : Atoi t1 with
          | none => simp only [hor, if_true]
          | some p1 => simp only [h2, hor, if_true]
    rcases hlet with h | h | h | h
    · subst h; exact key "M" hM (Or.inr rfl)
    · subst h; exact key "M" hm (Or.inr rfl)
    · subst h; exact key "L" hL (Or.inl rfl)
    · subst h; exact key "L" hl (Or.inl rfl)
  · have key : ∀ up, ToUpper letter = up → (up = "V" ∨ up = "H") →
        (parseLoop s first (letter :: ([t1] ++ rest)) path).2 =
          some (MinerError.InvalidShapeSvgStringError s) := by
      intro up hup hor
      have hnot : ¬ (up = "L" ∨ up = "M") := by
        rcases hor with h | h <;> subst h <;> decide
      simp only [List.cons_append, List.nil_append]
      cases rest with
      | nil =>
        unfold parseLoop
        simp only [hup]
        split
        · rfl
        · simp only [hnot, hor, hat, if_true, if_false]
      | cons r1 rest1 =>
        unfold parseLoop
        simp only [hup]
        split
        · rfl
        · simp only [hnot, hor, hat, if_true, if_false]
    rcases hlet with h | h | h | h
    · subst h; exact key "H" hH (Or.inr rfl)
    · subst h; exact key "H" hh (Or.inr rfl)
    · subst h; exact key "V" hV (Or.inl rfl)
    · subst h; exact key "V" hv (Or.inl rfl)

theorem TokensOf_head (c : PathCmd) (cs : List PathCmd) (toks : List String)
    (h : TokensOf (c :: cs) toks) :
    (∃ x y, c = PathCmd.M x y) ∨ ∃ t rest, toks = t :: rest ∧ ToUpper t ≠ "M" := by
  cases h with
  | @cons _ tk _ rest0 htok _ =>
    cases c with
    | M x y => left; exact ⟨x, y, rfl⟩
    | L x y =>
      obtain ⟨tx, ty, rfl, _, _⟩ := htok
      right; exact ⟨"L", _, rfl, by decide⟩
    | l x y =>
      obtain ⟨tx, ty, rfl, _, _⟩ := htok
      right; exact ⟨"l", _, rfl, by decide⟩
    | H x =>
      obtain ⟨tx, rfl, _⟩ := htok
      right; exact ⟨"H", _, rfl, by decide⟩
    | h x =>
      obtain ⟨tx, rfl, _⟩ := htok
      right; exact ⟨"h", _, rfl, by decide⟩
    | V y =>
      obtain ⟨ty, rfl, _⟩ := htok
      right; exact ⟨"V", _, rfl, by decide⟩
    | v y =>
      obtain ⟨ty, rfl, _⟩ := htok
      right; exact ⟨"v", _, rfl, by decide⟩
    | Z =>
      have htok2 : tk = ["Z"] := htok
      subst htok2
      right; exact ⟨"Z", _, rfl, by decide⟩

/-- Claim C24, counterexample.  The string `M x` is accepted and parsed as `M 0 0`, although
`x` is not an integer: with fewer than two tokens after `M` the arguments are not read.  The
string `m 1 2`, whose first token is not `M`, is accepted as well. -/
theorem GetParsedSVG_accepts_truncated_command :
    len "M x" ≤ 128 ∧ Split "M x" = ["M", "x"] ∧ Atoi "x" = none ∧
      GetParsedSVG "M x" = ([SVGCommand.MCommand false 0 0], none) ∧
      GetParsedSVG "m 1 2" = ([SVGCommand.MCommand false 1 2], none) := by
  decide

/-- Claim C24, amended.  For every string of at most 128 bytes, `GetParsedSVG` returns
`InvalidShapeSvgStringError` when the first token is neither `M` nor `m`, and also when, after
any number of complete commands of the grammar, there stands a command with all its argument
tokens (two for `M`, `m`, `L`, `l`, one for `H`, `h`, `V`, `v`) one of which `strconv.Atoi`
rejects. -/
theorem GetParsedSVG_invalid (s : String) (hlen : len s ≤ 128) :
    (∀ t rest, Split s = t :: rest → t ≠ "M" → t ≠ "m" →
        GetParsedSVG s = ([], some (MinerError.InvalidShapeSvgStringError s))) ∧
      (∀ cmds pre letter args rest, Split s = pre ++ letter :: (args ++ rest) →
        TokensOf cmds pre → BadArgs letter args →
        (GetParsedSVG s).2 = some (MinerError.InvalidShapeSvgStringError s)) := by
  have hpl : GetParsedSVG s = parseLoop s true (Split s) [] := by
    unfold GetParsedSVG
    rw [if_neg (show ¬ len s > MAX_SVG_LEN from by unfold MAX_SVG_LEN; omega)]
  constructor
  · intro t rest hsplit h1 h2
    rw [hpl, hsplit]
    exact parseLoop_first_not_M s t rest []
      (fun hu => by rcases ToUpper_eq_M t hu with h | h; exact h1 h; exact h2 h)
  · intro cmds pre letter args rest hsplit htoks hbad
    rw [hpl, hsplit]
    cases cmds with
    | nil =>
      cases htoks
      exact parseLoop_bad s true letter args rest [] hbad
    | cons c cs =>
      rcases TokensOf_head c cs pre htoks with ⟨x, y, hc⟩ | ⟨t, r, hpre, hnot⟩
      · subst hc
        rw [parseLoop_tokens s _ _ htoks true _ [] (fun _ => ⟨x, y, cs, rfl⟩)]
        exact parseLoop_bad s false letter args rest _ hbad
      · subst hpre
        rw [List.cons_append, parseLoop_first_not_M s t _ [] hnot]

/-- A concrete instance of the amended claim C24: in `M 0 0 L x 1` the first argument of the
complete command `L x 1` is not an integer. -/
theorem GetParsedSVG_invalid_witness :
    Split "M 0 0 L x 1" = ["M", "0", "0"] ++ "L" :: (["x", "1"] ++ []) ∧
      (GetParsedSVG "M 0 0 L x 1").2 =
        some (MinerError.InvalidShapeSvgStringError "M 0 0 L x 1") :=
  ⟨by decide,
    (GetParsedSVG_invalid "M 0 0 L x 1" (by decide)).2 [PathCmd.M 0 0] ["M", "0", "0"] "L"
      ["x", "1"] [] (by decide)
      (by
        have h := @TokensOf.cons (PathCmd.M 0 0) ["M", "0", "0"] _ _
          ⟨"0", "0", rfl, by decide, by decide⟩ TokensOf.nil
        simpa using h)
      (Or.inl ⟨Or.inr (Or.inr (Or.inl rfl)), "x", "1", rfl, Or.inl (by decide)⟩)⟩

/-! ## The claims about `ValidateOps` -/

theorem conflictScan_isSome (a : List (List Nat)) (sub : PixelSubArray) :
    ∀ (cells : List (Nat × Nat)),
      (∀ c ∈ cells, (∃ v, getByteInt a (sub.yStart + (c.1 : Int))
          (sub.xStartByte + (c.2 : Int)) = some v) ∧ ∃ b, getByte sub.bytes c.1 c.2 = some b) →
      ∃ r, conflictScan a sub cells = some r := by
  intro cells
  induction cells with
  | nil => intro _; exact ⟨false, rfl⟩
  | cons c rest ih =>
    intro hread
    obtain ⟨ys, xs⟩ := c
    obtain ⟨⟨v, hv⟩, ⟨b, hb⟩⟩ := hread (ys, xs) (List.mem_cons_self _ _)
    simp only at hv hb
    simp only [conflictScan, hv, hb]
    by_cases hz : v &&& b ≠ 0
    · rw [if_pos hz]; exact ⟨true, rfl⟩
    · rw [if_neg hz]
      exact ih (fun c2 hc2 => hread c2 (List.mem_cons_of_mem _ hc2))

/-- The method `HasConflict` returns on a well-formed sub-array. -/
theorem HasConflict_total (a : List (List Nat)) (h w : Nat) (hd : Dims a h w) (hh : 0 < h)
    (sub : PixelSubArray) (hwf : WellFormedSub sub) : ∃ r, HasConflict a sub = some r := by
  obtain ⟨row0, hr0, hhead⟩ := hwf.first_row
  obtain ⟨a0, ha0, hlen0⟩ := hd.top_row hh
  have hlen : a.length = h := hd.1
  unfold HasConflict
  simp only [hr0, ha0]
  rw [hlen0, hlen]
  by_cases hxo : sub.xStartByte + (row0.length : Int) > (w : Int)
  · rw [if_pos hxo]; exact ⟨true, rfl⟩
  · rw [if_neg hxo]
    by_cases hyo : sub.yStart + (sub.bytes.length : Int) > (h : Int)
    · rw [if_pos hyo]; exact ⟨true, rfl⟩
    · rw [if_neg hyo]
      have hx0 := hwf.2.2.1
      have hy0 := hwf.2.2.2
      apply conflictScan_isSome
      intro c hc
      obtain ⟨ys, xs⟩ := c
      rw [mem_loopCells] at hc
      constructor
      · rw [getByteInt_eq (by omega) (by omega)]
        exact getByte_some_of_dims hd (by simp only; omega) (by simp only; omega)
      · exact (hwf.get_iff ys xs).2 ⟨hc.1, by rw [hhead]; exact hc.2⟩

/-! ### A circle that reaches below the canvas -/

/-- Claim C21, the failing input.  On the canvas with maxima 10 and 5, `k1` has mined two
blocks without operations (20 units of ink) and the working set holds its ADD of the circle
with centre (5,1) and radius 2.  For every rasterizer that gives this circle a sub-array of
five rows of one byte at byte column 0 and row -1 (the sub-array of `NewPixelSubArray` on its
bounding box, whatever pixels are set) and a cost of at most 20, `ValidateOps` panics:
`HasConflict` reads row -1 of the pixel array. -/
theorem ValidateOps_panics_on_circle_below_canvas (getShapeFromOp : Operation → ShapeOut)
    (rangeShapes : List (String × OperationInfo) → List (String × OperationInfo))
    (bytes : List (List Nat)) (cost : Int)
    (hshape : getShapeFromOp lowCircle.Op =
      { err := none, subarr := { bytes := bytes, xStartByte := 0, yStart := -1 },
        cost := cost })
    (hrows : bytes.length = 5) (hcols : ∀ row ∈ bytes, row.length = 1) (hcost : cost ≤ 20)
    (hrange : rangeShapes [] = []) :
    ValidateOps getShapeFromOp wideCanvas rangeShapes [lowCircle] chainTwoEmpty = none := by
  obtain ⟨row0, rest, hb⟩ : ∃ row0 rest, bytes = row0 :: rest := by
    cases bytes with
    | nil => simp at hrows
    | cons a r => exact ⟨a, r, rfl⟩
  have hlen0 : row0.length = 1 := hcols row0 (by rw [hb]; exact List.mem_cons_self _ _)
  have hscan : scanBlocks getShapeFromOp wideCanvas "k1" "c"
      (chainTwoEmpty ++ [testBlock []]) (0, []) = some (20, []) := by
    simp [scanBlocks, scanOps, chainTwoEmpty, minedBlock, testBlock, wideCanvas]
  have hnew : NewPixelArray ((wideCanvas.CanvasXMax : Nat) : Int)
      ((wideCanvas.CanvasYMax : Nat) : Int) =
      some [[0, 0], [0, 0], [0, 0], [0, 0], [0, 0], [0, 0]] := by decide
  have hconf : HasConflict [[0, 0], [0, 0], [0, 0], [0, 0], [0, 0], [0, 0]]
      { bytes := bytes, xStartByte := 0, yStart := -1 } = none := by
    have hcells : loopCells 5 1 = [(0, 0), (1, 0), (2, 0), (3, 0), (4, 0)] := by decide
    subst hb
    simp only [HasConflict, List.getElem?_cons_zero, hlen0, hrows, hcells, conflictScan]
    simp [getByteInt]
  have hcheck : checkInkAndConflicts getShapeFromOp wideCanvas rangeShapes
      { bytes := bytes, xStartByte := 0, yStart := -1 } cost "k1"
      (chainTwoEmpty ++ [testBlock []]) "circle x:5 y:1 r:2" "c" = none := by
    unfold checkInkAndConflicts
    rw [hscan]
    simp only
    rw [if_neg (by push_cast; omega), hnew]
    simp only [hrange, mergeShapes, hconf]
  have hop : lowCircle.Op.OpType = OpType.ADD := rfl
  have hkey : lowCircle.PubKey = "k1" := rfl
  have hsig : lowCircle.OpSig = "c" := rfl
  have hsvg : lowCircle.Op.SVGString = "circle x:5 y:1 r:2" := rfl
  simp only [ValidateOps, validateLoop, hshape, hop, hkey, hsig, hsvg, ne_eq,
    not_true_eq_false, if_false, if_true, hcheck]

/-- The failing input of claim C21 with the sub-array of `NewPixelSubArray` and the cost 13:
`getShapeFromOp` accepts the circle, its sub-array starts at row -1, and `ValidateOps`
panics. -/
theorem ValidateOps_panics_on_circle_below_canvas_witness :
    Miner.getShapeFromOp wideCanvas lowCircle.Op =
        some (Shape.circle (NewCircle 5 1 2 false true), none) ∧
      NewPixelSubArray 3 7 (-1) 3 =
        some { bytes := [[0], [0], [0], [0], [0]], xStartByte := 0, yStart := -1 } ∧
      ValidateOps (circleBoxShape wideCanvas 13) wideCanvas (fun m => m) [lowCircle]
        chainTwoEmpty = none :=
  ⟨by decide, by decide,
    ValidateOps_panics_on_circle_below_canvas (circleBoxShape wideCanvas 13) (fun m => m)
      [[0], [0], [0], [0], [0]] 13 (by decide) (by decide) (by decide) (by decide) rfl⟩

/-! ### Committed operations -/

/-- Claim C22, the failing input.  The DELETE `D` of `k1` carries the signature `s` both as its
own `OpSig` and as `AddSig`.  It stands in the only block of the chain, and
`ValidateOps([D], chain)` keeps it: `checkDeletion` takes `D` itself for the shape to
delete. -/
theorem committed_delete_kept :
    ValidateOps toyShape paintSettings (fun m => m) [signedDelete "k1" "s" "s" "dot0"]
        [minedBlock "k1" [signedDelete "k1" "s" "s" "dot0"]] =
      some [signedDelete "k1" "s" "s" "dot0"] := by
  decide

/-! ## The claims about circles and costs -/

/-- Claim C29, the failing input.  The circle of `circleOp` (`circle x:1 y:5 r:2` with a red
stroke) on a canvas with maxima 10 and 10 reaches from x = -1 to x = 3, outside the canvas, and is accepted:
the value `x - r` is unsigned and never below 0. -/
theorem GetParsedCirc_accepts_negative_box :
    GetParsedCirc circleOp 10 10 = (NewCircle 1 5 2 false true, none) := by
  decide

theorem parseLoop_prefix (s : String) :
    ∀ (n : Nat) (toks : List String), toks.length ≤ n →
      ∀ (first : Bool) (path : List SVGCommand),
        ∃ t, (parseLoop s first toks path).1 = path ++ t := by
  intro n
  induction n with
  | zero =>
    intro toks h first path
    cases toks with
    | nil => exact ⟨[], by simp [parseLoop]⟩
    | cons a r => simp at h
  | succ n ih =>
    intro toks h first path
    cases toks with
    | nil => exact ⟨[], by simp [parseLoop]⟩
    | cons token rest =>
      have hr : rest.length ≤ n := by simpa using h
      have hstep : ∀ (l : List String) (c : SVGCommand), l.length ≤ n →
          ∃ t, (parseLoop s false l (path ++ [c])).1 = path ++ t := by
        intro l c hl
        obtain ⟨t, ht⟩ := ih l hl false (path ++ [c])
        exact ⟨c :: t, by rw [ht]; simp⟩
      unfold parseLoop
      simp only
      split
      · exact ⟨[], by simp⟩
      · split
        · split
          · rename_i t1 t2 rest2
            have hr2 : rest2.length ≤ n := by simp at hr; omega
            split
            · exact ⟨[], by simp⟩
            · split
              · exact ⟨[], by simp⟩
              · split
                · exact hstep rest2 _ hr2
                · exact hstep rest2 _ hr2
          · split
            · exact ⟨_, rfl⟩
            · exact ⟨_, rfl⟩
        · split
          · split
            · rename_i t1 rest1
              have hr1 : rest1.length ≤ n := by simp at hr; omega
              split
              · exact ⟨[], by simp⟩
              · split
                · exact hstep rest1 _ hr1
                · exact hstep rest1 _ hr1
            · split
              · exact ⟨_, rfl⟩
              · exact ⟨_, rfl⟩
          · split
            · exact hstep rest _ hr
            · exact ⟨[], by simp⟩

theorem splitLoop_ne_nil : ∀ (cs cur : List Char), ∃ t r, splitLoop cs cur = t :: r := by
  intro cs
  induction cs with
  | nil => intro cur; exact ⟨_, _, rfl⟩
  | cons c rest ih =>
    intro cur
    unfold splitLoop
    split
    · exact ⟨_, _, rfl⟩
    · exact ih _

/-- A path accepted by `GetParsedSVG` starts with an `MCommand`. -/
theorem GetParsedSVG_head (s : String) (h : (GetParsedSVG s).2 = none) :
    ∃ a x y r, (GetParsedSVG s).1 = SVGCommand.MCommand a x y :: r := by
  have hl := GetParsedSVG_len s h
  rw [hl] at h ⊢
  obtain ⟨tok, rest, hsplit⟩ := splitLoop_ne_nil s.data []
  have hs : Split s = tok :: rest := hsplit
  rw [hs] at h ⊢
  have hpre : ∀ (l : List String) (c : SVGCommand),
      ∃ t, (parseLoop s false l ([] ++ [c])).1 = c :: t := by
    intro l c
    obtain ⟨t, ht⟩ := parseLoop_prefix s l.length l (le_refl _) false ([] ++ [c])
    exact ⟨t, by rw [ht]; rfl⟩
  unfold parseLoop at h ⊢
  simp only at h ⊢
  split
  · rename_i hc; rw [if_pos hc] at h; simp at h
  · rename_i hc
    rw [if_neg hc] at h
    have hup : ToUpper tok = "M" := by
      by_contra hne
      exact hc ⟨trivial, hne⟩
    have hnl : ¬ ToUpper tok = "L" := by rw [hup]; decide
    simp only [hup, or_true, if_true] at h ⊢
    split
    · rename_i t1 t2 rest2
      split
      · rename_i h1; simp [h1] at h
      · rename_i p1 h1
        split
        · rename_i h2; simp [h1, h2] at h
        · rename_i p2 h2
          rw [if_neg (by decide)]
          obtain ⟨t, ht⟩ := hpre rest2 (SVGCommand.MCommand false p1 p2)
          exact ⟨false, p1, p2, t, ht⟩
    · rw [if_neg (by decide)]
      exact ⟨false, 0, 0, [], rfl⟩

theorem pointsLoop_prefix (cX cY : Int) :
    ∀ (cmds : List SVGCommand) (i : Nat) (pts r : List Point),
      pointsLoop cX cY cmds i pts = some (some r) → ∃ t, r = pts ++ t := by
  intro cmds
  induction cmds with
  | nil =>
    intro i pts r h
    simp only [pointsLoop, Option.some.injEq] at h
    exact ⟨[], by simp [h]⟩
  | cons c rest ih =>
    intro i pts r h
    unfold pointsLoop at h
    split at h
    · simp at h
    · rename_i pt _
      split at h
      · simp at h
      · obtain ⟨t, ht⟩ := ih _ _ _ h
        exact ⟨pt :: t, by rw [ht]; simp⟩

theorem SVGToPoints_ok (cmds : List SVGCommand) (cX cY : Int) (filled st : Bool) (p : Path)
    (h : SVGToPoints cmds cX cY filled st = some (p, none)) :
    ∃ points, pointsLoop cX cY cmds 0 [] = some (some points) ∧
      NewPath points filled st = some p := by
  have hfin : ∀ points, finishPath points filled st = some (p, none) →
      NewPath points filled st = some p := by
    intro points hf
    unfold finishPath at hf
    split at hf
    · simp at hf
    · rename_i q hq
      simp only [Option.some.injEq, Prod.mk.injEq, and_true] at hf
      rw [hq, hf]
  unfold SVGToPoints at h
  split at h
  · simp at h
  · simp at h
  · rename_i points hloop
    refine ⟨points, hloop, ?_⟩
    simp only at h
    split at h
    · split at h
      · split at h
        · split at h
          · simp at h
          · exact hfin _ h
        · simp at h
      · split at h
        · simp at h
        · split at h
          · simp at h
          · split at h
            · simp at h
            · exact hfin _ h
    · exact hfin _ h

/-- Claim C30.  For every string accepted by `GetParsedSVG` and converted by `SVGToPoints` with
`filled = true`, whatever the stroke and whatever the rasterizer and the measures of the path,
`SubArrayAndCost` returns as cost the number of pixels set in the rasterized sub-array
(`PixelsFilled`), never `Area` or `AreaPlusPerim`: the first point of a parsed path has
`Moved`, and the loop that sets `hasMoved` starts at the first point. -/
theorem parsed_filled_cost_counts_pixels (m : PathMeasures) (s : String) (cX cY : Int)
    (st : Bool) (p : Path) (hacc : (GetParsedSVG s).2 = none)
    (hconv : SVGToPoints (GetParsedSVG s).1 cX cY true st = some (p, none)) :
    SubArrayAndCost m p =
      (PixelsFilled (m.SubArray p)).map (fun n => (m.SubArray p, n)) := by
  obtain ⟨a, x, y, r, hhead⟩ := GetParsedSVG_head s hacc
  obtain ⟨points, hloop, hnew⟩ := SVGToPoints_ok _ cX cY true st p hconv
  rw [hhead] at hloop
  have hpts : ∃ t, points = { X := x, Y := y, Moved := true } :: t := by
    unfold pointsLoop at hloop
    have hnp : nextPoint (SVGCommand.MCommand a x y) [] 0 =
        some { X := x, Y := y, Moved := true } := rfl
    rw [hnp] at hloop
    simp only at hloop
    split at hloop
    · simp at hloop
    · obtain ⟨t, ht⟩ := pointsLoop_prefix cX cY _ _ _ _ hloop
      exact ⟨t, by rw [ht]; rfl⟩
  obtain ⟨t, rfl⟩ := hpts
  simp only [NewPath, Option.some.injEq] at hnew
  subst hnew
  simp only [SubArrayAndCost, hasMoved, List.any_cons, Bool.true_or, if_true]
  cases PixelsFilled (m.SubArray _) with
  | none => simp
  | some n => simp

/-- A concrete instance of claim C30: the filled square with corners (0,0) and (4,4) and a
transparent stroke, with the stand-in measures.  The cost is the 25 pixels of the sub-array,
not the area 16. -/
theorem parsed_filled_cost_counts_pixels_witness :
    ∃ p, SVGToPoints (GetParsedSVG "M 0 0 L 4 0 L 4 4 L 0 4 Z").1 10 10 true false =
        some (p, none) ∧
      SubArrayAndCost toyMeasures p = some (toyMeasures.SubArray p, 25) ∧
      toyMeasures.Area p = 16 := by
  obtain ⟨path, hpath⟩ : ∃ path,
      SVGToPoints (GetParsedSVG "M 0 0 L 4 0 L 4 4 L 0 4 Z").1 10 10 true false =
        some (path, none) := by
    have hd : ((SVGToPoints (GetParsedSVG "M 0 0 L 4 0 L 4 4 L 0 4 Z").1 10 10 true
        false).map (fun r => r.2)) = some none := by decide
    cases hr : SVGToPoints (GetParsedSVG "M 0 0 L 4 0 L 4 4 L 0 4 Z").1 10 10 true false with
    | none => rw [hr] at hd; simp at hd
    | some r =>
      rw [hr] at hd
      simp only [Option.map, Option.some.injEq] at hd
      exact ⟨r.1, by rw [← hd]⟩
  have hthm := parsed_filled_cost_counts_pixels toyMeasures "M 0 0 L 4 0 L 4 4 L 0 4 Z" 10 10
    false path (by decide) hpath
  have hp : PixelsFilled (toyMeasures.SubArray path) = some 25 := by
    show PixelsFilled (PixelSubArray.mk [[31], [31], [31], [31], [31]] 0 0) = some 25
    decide
  refine ⟨path, hpath, ?_, rfl⟩
  rw [hthm, hp]
  rfl

/-! ## The claims of the last part -/

/-- Claim C40, the failing input.  On a sub-array of one byte `fillBetween(2, 5, 0)` sets all
eight pixels of the byte: the loop for the left end sets the bits 2 to 7 and the loop for the
right end the bits 0 to 5 of the same byte.  The pixels 2 to 5 alone are the byte 60. -/
theorem fillBetween_same_byte_fills_byte :
    fillBetween { bytes := [[0]], xStartByte := 0, yStart := 0 } 2 5 0 =
        some { bytes := [[255]], xStartByte := 0, yStart := 0 } ∧
      Nat.testBit 255 0 = true ∧ Nat.testBit 255 7 = true ∧
      (List.range 8).filter (fun i => Nat.testBit 60 i) = [2, 3, 4, 5] := by
  decide

/-- Claim C34, the failing inputs.  On the canvas with maxima 10 and 5 the path `M 0 0 L 0 8`
is accepted, although its point (0,8) has `y > CanvasYMax`; on the canvas with maxima 5 and 10
the path `M 0 0 L 0 10`, whose largest `y` equals `CanvasYMax`, is rejected with
`OutOfBoundsError`. -/
theorem getShapeFromOp_bounds_y_by_width :
    (Miner.getShapeFromOp wideCanvas (pathOp "M 0 0 L 0 8")).map (fun r => r.2) = some none ∧
      (Miner.getShapeFromOp highCanvas (pathOp "M 0 0 L 0 10")).map (fun r => r.2) =
        some (some MinerError.OutOfBoundsError) := by
  decide

/-- Claim C31, the failing input.  With a square root that is right on 100, `AreaPlusPerim`
of the square (0,0), (0,10), (10,10), (10,0), (0,0) is 60 and of the same square in the reverse
order 140, while `Area` is 100 for both: the absolute value is taken of the sum of the
perimeter and the signed area. -/
theorem AreaPlusPerim_depends_on_orientation (sqrt : ℚ → ℚ) (h : sqrt 100 = 10) :
    Path.AreaPlusPerim sqrt squareA = 60 ∧ Path.AreaPlusPerim sqrt squareB = 140 ∧
      Path.Area squareA = 100 ∧ Path.Area squareB = 100 ∧
      squareB.Points = squareA.Points.reverse := by
  refine ⟨?_, ?_, ?_, ?_, by decide⟩
  · simp only [Path.AreaPlusPerim, squareA, polygon, List.map, areaPerimLoop]
    norm_num [h, floatToInt, Int.floor_eq_iff]
  · simp only [Path.AreaPlusPerim, squareB, polygon, List.map, areaPerimLoop]
    norm_num [h, floatToInt, Int.floor_eq_iff]
  · simp only [Path.Area, squareA, polygon, List.map, areaLoop]
    norm_num [floatToInt, Int.floor_eq_iff]
  · simp only [Path.Area, squareB, polygon, List.map, areaLoop]
    norm_num [floatToInt, Int.floor_eq_iff]

/-- Witness of `AreaPlusPerim_depends_on_orientation` with a stand-in square root. -/
theorem AreaPlusPerim_depends_on_orientation_witness :
    sqrtStandIn 100 = 10 ∧ Path.AreaPlusPerim sqrtStandIn squareA = 60 ∧
      Path.AreaPlusPerim sqrtStandIn squareB = 140 :=
  have h : sqrtStandIn 100 = 10 := by simp [sqrtStandIn]
  ⟨h, (AreaPlusPerim_depends_on_orientation sqrtStandIn h).1,
    (AreaPlusPerim_depends_on_orientation sqrtStandIn h).2.1⟩

/-- Claim C36, what the code does.  Let a string of at most 128 bytes split into the tokens
of a path of the grammar that starts with `M x y`, then a token `q` whose upper-case form is
none of `M`, `L`, `H`, `V`, `Z`, then any tokens.  `GetParsedSVG` returns the commands read
before `q` and a nil error. -/
theorem GetParsedSVG_unknown_command_accepted (s : String) (x y : Int) (cs : List PathCmd)
    (toks rest : List String) (q : String)
    (hlen : len s ≤ MAX_SVG_LEN) (hsplit : Split s = toks ++ q :: rest)
    (htoks : TokensOf (PathCmd.M x y :: cs) toks)
    (hq : ToUpper q ≠ "M" ∧ ToUpper q ≠ "L" ∧ ToUpper q ≠ "H" ∧ ToUpper q ≠ "V" ∧
      ToUpper q ≠ "Z") :
    GetParsedSVG s = ((PathCmd.M x y :: cs).map PathCmd.parsed, none) := by
  unfold GetParsedSVG
  rw [if_neg (show ¬ len s > MAX_SVG_LEN from by omega), hsplit,
    parseLoop_tokens s _ toks htoks true (q :: rest) [] (fun _ => ⟨x, y, cs, rfl⟩)]
  obtain ⟨h1, h2, h3, h4, h5⟩ := hq
  unfold parseLoop
  simp [h1, h2, h3, h4, h5]

/-- The failing input of claim C36: `GetParsedSVG` on `M 0 0 Q 1 1` returns the path with the
one command `M 0 0` and a nil error. -/
theorem GetParsedSVG_unknown_command_accepted_witness :
    GetParsedSVG "M 0 0 Q 1 1" = ([SVGCommand.MCommand false 0 0], none) :=
  GetParsedSVG_unknown_command_accepted "M 0 0 Q 1 1" 0 0 [] ["M", "0", "0"] ["1", "1"] "Q"
    (by decide) (by decide)
    (@TokensOf.cons (PathCmd.M 0 0) ["M", "0", "0"] _ _
      ⟨"0", "0", rfl, by decide, by decide⟩ TokensOf.nil)
    (by decide)

/-! ### `ValidateOps` twice -/

/-- A run of the loop of `ValidateOps` that returns can be repeated on the operations it
kept, with the same result. -/
theorem validateLoop_rerun (getShapeFromOp : Operation → ShapeOut) (cfg : Settings)
    (rangeShapes : List (String × OperationInfo) → List (String × OperationInfo))
    (chain : List Block) :
    ∀ (ops kept0 r : List OperationInfo),
      validateLoop getShapeFromOp cfg rangeShapes chain ops kept0 = some r →
      ∃ sub, r = kept0 ++ sub ∧
        validateLoop getShapeFromOp cfg rangeShapes chain sub kept0 = some r := by
  intro ops
  induction ops with
  | nil =>
    intro kept0 r h
    simp only [validateLoop, Option.some.injEq] at h
    exact ⟨[], by simp [h], by simp [validateLoop, h]⟩
  | cons o rest ih =>
    intro kept0 r h
    by_cases herr : (getShapeFromOp o.Op).err = none
    · by_cases hadd : o.Op.OpType = OpType.ADD
      · cases hr : checkInkAndConflicts getShapeFromOp cfg rangeShapes
            (getShapeFromOp o.Op).subarr (getShapeFromOp o.Op).cost o.PubKey
            (chain ++ [testBlock kept0]) o.Op.SVGString o.OpSig with
        | none =>
          simp only [validateLoop, herr, hadd, hr, ne_eq, not_true_eq_false, if_false,
            if_true] at h
          exact absurd h (by simp)
        | some e =>
          cases e with
          | some e1 =>
            simp only [validateLoop, herr, hadd, hr, ne_eq, not_true_eq_false, if_false,
              if_true] at h
            exact ih kept0 r h
          | none =>
            simp only [validateLoop, herr, hadd, hr, ne_eq, not_true_eq_false, if_false,
              if_true] at h
            obtain ⟨sub, h1, h2⟩ := ih (kept0 ++ [o]) r h
            refine ⟨o :: sub, by rw [h1]; simp, ?_⟩
            simp only [validateLoop, herr, hadd, hr, ne_eq, not_true_eq_false, if_false,
              if_true]
            exact h2
      · cases hd : checkDeletion o.AddSig o.PubKey (chain ++ [testBlock kept0]) with
        | some e1 =>
          simp only [validateLoop, herr, hadd, hd, ne_eq, not_true_eq_false, if_false] at h
          exact ih kept0 r h
        | none =>
          simp only [validateLoop, herr, hadd, hd, ne_eq, not_true_eq_false, if_false] at h
          obtain ⟨sub, h1, h2⟩ := ih (kept0 ++ [o]) r h
          refine ⟨o :: sub, by rw [h1]; simp, ?_⟩
          simp only [validateLoop, herr, hadd, hd, ne_eq, not_true_eq_false, if_false]
          exact h2
    · simp only [validateLoop, herr, ne_eq, not_false_eq_true, if_true] at h
      exact ih kept0 r h

/-- Claim C38.  For every rasterizer, operation list and chain, with a panic as a result of
its own: `ValidateOps` applied to the result of `ValidateOps(ops, chain)` and the chain gives
the result of `ValidateOps(ops, chain)`.  A call that panics makes both sides panic; whenever
`ValidateOps(ops, chain)` returns a list `kept`, `ValidateOps(kept, chain)` returns `kept`. -/
theorem ValidateOps_idempotent (getShapeFromOp : Operation → ShapeOut) (cfg : Settings)
    (rangeShapes : List (String × OperationInfo) → List (String × OperationInfo))
    (ops : List OperationInfo) (chain : List Block) :
    (ValidateOps getShapeFromOp cfg rangeShapes ops chain).bind
        (fun kept => ValidateOps getShapeFromOp cfg rangeShapes kept chain) =
        ValidateOps getShapeFromOp cfg rangeShapes ops chain ∧
      ∀ kept, ValidateOps getShapeFromOp cfg rangeShapes ops chain = some kept →
        ValidateOps getShapeFromOp cfg rangeShapes kept chain = some kept := by
  have hsome : ∀ kept, ValidateOps getShapeFromOp cfg rangeShapes ops chain = some kept →
      ValidateOps getShapeFromOp cfg rangeShapes kept chain = some kept := by
    intro kept h
    obtain ⟨sub, h1, h2⟩ := validateLoop_rerun getShapeFromOp cfg rangeShapes chain ops [] kept h
    rw [List.nil_append] at h1
    subst h1
    exact h2
  refine ⟨?_, hsome⟩
  cases h : ValidateOps getShapeFromOp cfg rangeShapes ops chain with
  | none => rfl
  | some kept =>
    show ValidateOps getShapeFromOp cfg rangeShapes kept chain = some kept
    exact hsome kept h

/-- A concrete instance of claim C38: of an operation, its repetition and an operation that
does not rasterize the first is kept, and it is kept again. -/
theorem ValidateOps_idempotent_witness :
    ValidateOps toyShape paintSettings (fun m => m)
        [signedAdd "k1" "s" "dot0", signedAdd "k1" "s" "dot0", signedAdd "k1" "u" "none"]
        [minedBlock "k1" []] = some [signedAdd "k1" "s" "dot0"] ∧
      ValidateOps toyShape paintSettings (fun m => m) [signedAdd "k1" "s" "dot0"]
        [minedBlock "k1" []] = some [signedAdd "k1" "s" "dot0"] :=
  ⟨by decide,
    (ValidateOps_idempotent toyShape paintSettings (fun m => m)
      [signedAdd "k1" "s" "dot0", signedAdd "k1" "s" "dot0", signedAdd "k1" "u" "none"]
      [minedBlock "k1" []]).2 [signedAdd "k1" "s" "dot0"] (by decide)⟩

/-! ### The two ink computations -/

/-- Claim C39.  When no operation of `K` on the chain has the signature `opSig`,
`checkInkAndConflicts` with the cost `c` returns `InsufficientInkError` exactly when `c` is
greater than the `uint32` that the loop of `CalculateInk` computes for `K` over the chain. -/
theorem checkInkAndConflicts_insufficient_iff_calcBlocks
    (getShapeFromOp : Operation → ShapeOut) (cfg : Settings)
    (rangeShapes : List (String × OperationInfo) → List (String × OperationInfo))
    (subarr : PixelSubArray) (c : Int) (K : String) (chain : List Block)
    (svgString opSig : String)
    (hnew : ∀ o ∈ opsOf chain, o.PubKey = K → o.OpSig ≠ opSig) :
    (∃ n, checkInkAndConflicts getShapeFromOp cfg rangeShapes subarr c K chain svgString opSig =
        some (some (MinerError.InsufficientInkError n))) ↔
      c > ((calcBlocks getShapeFromOp cfg K chain 0 : Nat) : Int) := by
  obtain ⟨ink1, hs⟩ := scanBlocks_shapes getShapeFromOp cfg K opSig chain 0 [] hnew
  have e1 := scanBlocks_ink getShapeFromOp cfg K opSig chain 0 [] _ _ 0 hs (by simp)
  have e2 := calcBlocks_mod getShapeFromOp cfg K chain 0 0 (by simp)
  rw [e2, ← e1]
  unfold checkInkAndConflicts
  rw [hs]
  simp only
  by_cases hc : c > (ink1 : Int)
  · rw [if_pos hc]
    exact ⟨fun _ => hc, fun _ => ⟨_, rfl⟩⟩
  · rw [if_neg hc]
    refine ⟨fun h => ?_, fun h => absurd h hc⟩
    obtain ⟨n, hn⟩ := h
    exfalso
    cases h1 : NewPixelArray (cfg.CanvasXMax : Int) (cfg.CanvasYMax : Int) with
    | none => rw [h1] at hn; simp at hn
    | some pixelarr =>
      rw [h1] at hn
      simp only at hn
      cases h2 : mergeShapes getShapeFromOp
          (rangeShapes (shapesFold K (opsOf chain) [])) pixelarr with
      | none => rw [h2] at hn; simp at hn
      | some pixelarr1 =>
        rw [h2] at hn
        simp only at hn
        cases h3 : HasConflict pixelarr1 subarr with
        | none => rw [h3] at hn; simp at hn
        | some r =>
          rw [h3] at hn
          cases r <;> simp at hn

/-- A concrete instance of claim C39: after one block without operations mined by `k1`, whose
reward is 10, the cost 11 is rejected for lack of ink and `CalculateInk` counts 10. -/
theorem checkInkAndConflicts_insufficient_iff_calcBlocks_witness :
    calcBlocks toyShape paintSettings "k1" [minedBlock "k1" []] 0 = 10 ∧
      ((∃ n, checkInkAndConflicts toyShape paintSettings (fun m => m)
          (toyShape (signedAdd "k1" "s" "dot0").Op).subarr 11 "k1" [minedBlock "k1" []]
          "dot0" "s" = some (some (MinerError.InsufficientInkError n))) ↔
        (11 : Int) > ((calcBlocks toyShape paintSettings "k1" [minedBlock "k1" []] 0 : Nat) :
          Int)) :=
  ⟨by decide,
    checkInkAndConflicts_insufficient_iff_calcBlocks toyShape paintSettings (fun m => m)
      (toyShape (signedAdd "k1" "s" "dot0").Op).subarr 11 "k1" [minedBlock "k1" []] "dot0" "s"
      (by decide)⟩

/-! ### The fields of a DELETE -/

/-- Claim C35, the failing input.  On a chain where `k1` added the shape `s` with the string
`dot0` of cost 1, `ValidateOps` keeps a DELETE of `k1` for `s` that carries the string `wide` of
cost 8.  `CalculateInk` counts 29 for `k1` before the DELETE (rewards 10 and 20, debit 1) and
37 once the DELETE is in a block of `k2`: the credit is 8, the debit was 1, and the balance
exceeds the rewards of 30. -/
theorem ValidateOps_keeps_delete_with_other_svg :
    ValidateOps wideShape paintSettings (fun m => m) [signedDelete "k1" "d" "s" "wide"]
        chainAddOnly = some [signedDelete "k1" "d" "s" "wide"] ∧
      (signedDelete "k1" "d" "s" "wide").Op.SVGString ≠
        (signedAdd "k1" "s" "dot0").Op.SVGString ∧
      calcBlocks wideShape paintSettings "k1" chainAddOnly 0 = 29 ∧
      calcBlocks wideShape paintSettings "k1"
        (chainAddOnly ++ [minedBlock "k2" [signedDelete "k1" "d" "s" "wide"]]) 0 = 37 := by
  decide

/-! ### Merges followed by a conflict test -/

theorem NewPixelArray_zero (X Y : Nat) (a : List (List Nat))
    (h : NewPixelArray (X : Int) (Y : Int) = some a) :
    ∀ y x v, getByte a y x = some v → v = 0 := by
  have hm := maxByte_nonneg ((X : Int) + 1) (by omega)
  unfold NewPixelArray at h
  simp only at h
  rw [if_neg (by omega), if_neg (by omega), Option.some.injEq] at h
  intro y x v hv
  obtain ⟨row, hr, hx⟩ := getByte_row hv
  rw [← h] at hr
  have hrow := (List.mem_replicate.1 (List.getElem?_mem hr)).2
  rw [hrow] at hx
  exact (List.mem_replicate.1 (List.getElem?_mem hx)).2

theorem getByte_of_getByteInt {a : List (List Nat)} {y x : Int} {v : Nat}
    (h : getByteInt a y x = some v) : 0 ≤ y ∧ 0 ≤ x ∧ getByte a y.toNat x.toNat = some v := by
  unfold getByteInt at h
  by_cases hneg : y < 0 ∨ x < 0
  · rw [if_pos hneg] at h; simp at h
  · rw [if_neg hneg] at h
    exact ⟨by omega, by omega, h⟩

/-- Every bit of the array after `mergeScan` was in the array before or is a bit of a visited
byte of the sub-array. -/
theorem mergeScan_exact (sub : PixelSubArray) :
    ∀ (cells : List (Nat × Nat)) (a a1 : List (List Nat)), mergeScan sub cells a = some a1 →
      ∀ y x v1, getByte a1 y x = some v1 →
        ∃ v, getByte a y x = some v ∧ ∀ i, v1.testBit i = true →
          v.testBit i = true ∨
            ∃ (ys xs b : Nat), 0 ≤ sub.yStart + (ys : Int) ∧ 0 ≤ sub.xStartByte + (xs : Int) ∧
              (sub.yStart + (ys : Int)).toNat = y ∧ (sub.xStartByte + (xs : Int)).toNat = x ∧
              getByte sub.bytes ys xs = some b ∧ b.testBit i = true := by
  intro cells
  induction cells with
  | nil =>
    intro a a1 h y x v1 hv
    simp only [mergeScan, Option.some.injEq] at h
    subst h
    exact ⟨v1, hv, fun i hi => Or.inl hi⟩
  | cons c rest ih =>
    intro a a1 h y x v1 hv
    obtain ⟨ys, xs⟩ := c
    unfold mergeScan at h
    cases hg : getByteInt a (sub.yStart + (ys : Int)) (sub.xStartByte + (xs : Int)) with
    | none => rw [hg] at h; simp at h
    | some v0 =>
      cases hb : getByte sub.bytes ys xs with
      | none => rw [hg, hb] at h; simp at h
      | some b0 =>
        rw [hg, hb] at h
        simp only at h
        obtain ⟨hy0, hx0, hg2⟩ := getByte_of_getByteInt hg
        obtain ⟨v2, g1, g2⟩ := ih _ _ h y x v1 hv
        by_cases hc : y = (sub.yStart + (ys : Int)).toNat ∧ x = (sub.xStartByte + (xs : Int)).toNat
        · obtain ⟨e1, e2⟩ := hc
          subst e1 e2
          rw [getByte_setByte_self _ hg2, Option.some.injEq] at g1
          subst g1
          refine ⟨v0, hg2, fun i hi => ?_⟩
          rcases g2 i hi with h1 | h1
          · rw [Nat.testBit_lor, Bool.or_eq_true] at h1
            rcases h1 with h2 | h2
            · exact Or.inl h2
            · exact Or.inr ⟨ys, xs, b0, hy0, hx0, rfl, rfl, hb, h2⟩
          · exact Or.inr h1
        · rw [getByte_setByte_other _ hc] at g1
          exact ⟨v2, g1, g2⟩

/-- Every bit of the array after `MergeSubArray` was in the array before or is a bit of the
sub-array. -/
theorem MergeSubArray_exact (a a1 : List (List Nat)) (sub : PixelSubArray)
    (h : MergeSubArray a sub = some a1) :
    ∀ y x v1, getByte a1 y x = some v1 →
      ∃ v, getByte a y x = some v ∧ ∀ i, v1.testBit i = true →
        v.testBit i = true ∨
          ∃ (ys xs b : Nat), 0 ≤ sub.yStart + (ys : Int) ∧ 0 ≤ sub.xStartByte + (xs : Int) ∧
            (sub.yStart + (ys : Int)).toNat = y ∧ (sub.xStartByte + (xs : Int)).toNat = x ∧
            getByte sub.bytes ys xs = some b ∧ b.testBit i = true := by
  unfold MergeSubArray at h
  have hsame : ∀ y x v1, getByte a y x = some v1 →
      ∃ v, getByte a y x = some v ∧ ∀ i, v1.testBit i = true →
        v.testBit i = true ∨
          ∃ (ys xs b : Nat), 0 ≤ sub.yStart + (ys : Int) ∧ 0 ≤ sub.xStartByte + (xs : Int) ∧
            (sub.yStart + (ys : Int)).toNat = y ∧ (sub.xStartByte + (xs : Int)).toNat = x ∧
            getByte sub.bytes ys xs = some b ∧ b.testBit i = true :=
    fun y x v1 hv => ⟨v1, hv, fun i hi => Or.inl hi⟩
  cases h1 : sub.bytes[0]? with
  | none => rw [h1] at h; simp at h
  | some row0 =>
    cases h2 : a[0]? with
    | none => rw [h1, h2] at h; simp at h
    | some a0 =>
      rw [h1, h2] at h
      simp only at h
      split at h
      · rw [Option.some.injEq] at h; subst h; exact hsame
      · split at h
        · rw [Option.some.injEq] at h; subst h; exact hsame
        · exact mergeScan_exact sub _ a a1 h
theorem mergeAll_spec (h w : Nat) (hh : 0 < h) :
    ∀ (subs : List PixelSubArray) (a : List (List Nat)), Dims a h w →
      (∀ s ∈ subs, WellFormedSub s) →
      ∃ a1, mergeAll subs a = some a1 ∧ Dims a1 h w ∧ Above a a1 ∧
        (∀ s ∈ subs,
          (s.xStartByte + ((s.bytes.headD []).length : Int) ≤ w ∧
            s.yStart + (s.bytes.length : Int) ≤ h) →
          ∀ ys xs b, getByte s.bytes ys xs = some b →
            ∃ v1, getByte a1 (s.yStart + (ys : Int)).toNat
                (s.xStartByte + (xs : Int)).toNat = some v1 ∧
              ∀ i, b.testBit i = true → v1.testBit i = true) ∧
        ∀ y x v1, getByte a1 y x = some v1 →
          ∃ v, getByte a y x = some v ∧ ∀ i, v1.testBit i = true →
            v.testBit i = true ∨
              ∃ s ∈ subs, ∃ (ys xs b : Nat), 0 ≤ s.yStart + (ys : Int) ∧
                0 ≤ s.xStartByte + (xs : Int) ∧
                (s.yStart + (ys : Int)).toNat = y ∧ (s.xStartByte + (xs : Int)).toNat = x ∧
                getByte s.bytes ys xs = some b ∧ b.testBit i = true := by
  intro subs
  induction subs with
  | nil =>
    intro a hd _
    exact ⟨a, rfl, hd, Above_refl a, by simp, fun y x v1 hv => ⟨v1, hv, fun i hi => Or.inl hi⟩⟩
  | cons s rest ih =>
    intro a hd hwf
    obtain ⟨a1, m1, m2, m3, m4⟩ :=
      MergeSubArray_spec a h w hd hh s (hwf s (List.mem_cons_self _ _))
    obtain ⟨a2, n1, n2, n3, n4, n5⟩ := ih a1 m2 (fun s2 hs2 => hwf s2 (List.mem_cons_of_mem _ hs2))
    refine ⟨a2, ?_, n2, Above_trans m3 n3, ?_, ?_⟩
    · simp only [mergeAll, m1]
      exact n1
    · intro s2 hs2 hin ys xs b hb
      rcases List.mem_cons.1 hs2 with heq | hmem
      · subst heq
        obtain ⟨v1, g1, g2⟩ := m4 hin ys xs b hb
        obtain ⟨v2, g3, g4⟩ := n3 _ _ _ g1
        exact ⟨v2, g3, fun i hi => g4 i (g2 i hi)⟩
      · exact n4 s2 hmem hin ys xs b hb
    · intro y x v2 hv2
      obtain ⟨v1, g1, g2⟩ := n5 y x v2 hv2
      obtain ⟨v, g3, g4⟩ := MergeSubArray_exact a a1 s m1 y x v1 g1
      refine ⟨v, g3, fun i hi => ?_⟩
      rcases g2 i hi with h1 | ⟨s2, hs2, rest2⟩
      · rcases g4 i h1 with h2 | h2
        · exact Or.inl h2
        · exact Or.inr ⟨s, List.mem_cons_self _ _, h2⟩
      · exact Or.inr ⟨s2, List.mem_cons_of_mem _ hs2, rest2⟩

theorem conflictScan_found (a : List (List Nat)) (sub : PixelSubArray) :
    ∀ (cells : List (Nat × Nat)), conflictScan a sub cells = some true →
      ∃ c ∈ cells, ∃ v b, getByteInt a (sub.yStart + (c.1 : Int))
          (sub.xStartByte + (c.2 : Int)) = some v ∧ getByte sub.bytes c.1 c.2 = some b ∧
        v &&& b ≠ 0 := by
  intro cells
  induction cells with
  | nil => intro h; simp [conflictScan] at h
  | cons c rest ih =>
    intro h
    obtain ⟨ys, xs⟩ := c
    unfold conflictScan at h
    cases hg : getByteInt a (sub.yStart + (ys : Int)) (sub.xStartByte + (xs : Int)) with
    | none => rw [hg] at h; simp at h
    | some v0 =>
      cases hb : getByte sub.bytes ys xs with
      | none => rw [hg, hb] at h; simp at h
      | some b0 =>
        rw [hg, hb] at h
        simp only at h
        by_cases hz : v0 &&& b0 ≠ 0
        · exact ⟨(ys, xs), List.mem_cons_self _ _, v0, b0, hg, hb, hz⟩
        · rw [if_neg hz] at h
          obtain ⟨c2, hc2, rest2⟩ := ih h
          exact ⟨c2, List.mem_cons_of_mem _ hc2, rest2⟩

/-- A conflict reported for a sub-array within the array comes from a byte of the sub-array
that has a bit in common with the byte of the array under it. -/
theorem HasConflict_found (a : List (List Nat)) (h w : Nat) (hd : Dims a h w) (hh : 0 < h)
    (sub : PixelSubArray) (hwf : WellFormedSub sub)
    (hin : sub.xStartByte + ((sub.bytes.headD []).length : Int) ≤ w ∧
      sub.yStart + (sub.bytes.length : Int) ≤ h)
    (hc : HasConflict a sub = some true) :
    ∃ (ys xs v b : Nat), getByte a (sub.yStart + (ys : Int)).toNat
        (sub.xStartByte + (xs : Int)).toNat = some v ∧ getByte sub.bytes ys xs = some b ∧
      v &&& b ≠ 0 := by
  obtain ⟨row0, hr0, hhead⟩ := hwf.first_row
  obtain ⟨a0, ha0, hlen0⟩ := hd.top_row hh
  have hlen : a.length = h := hd.1
  rw [hhead] at hin
  unfold HasConflict at hc
  simp only [hr0, ha0] at hc
  rw [hlen0, hlen, if_neg (by omega), if_neg (by omega)] at hc
  obtain ⟨c, _, v, b, g1, g2, g3⟩ := conflictScan_found a sub _ hc
  exact ⟨c.1, c.2, v, b, (getByte_of_getByteInt g1).2.2, g2, g3⟩

theorem land_ne_zero_bit (v b : Nat) (h : v &&& b ≠ 0) :
    ∃ i, v.testBit i = true ∧ b.testBit i = true := by
  obtain ⟨i, hi⟩ := Nat.ne_zero_implies_bit_true h
  rw [Nat.testBit_land, Bool.and_eq_true] at hi
  exact ⟨i, hi⟩

theorem byte_bit_lt (b i : Nat) (hb : b < 256) (hi : b.testBit i = true) : i < 8 := by
  by_contra hge
  have h8 : 8 ≤ i := by omega
  have hlt : b < 2 ^ i :=
    lt_of_lt_of_le hb (by
      calc 256 = 2 ^ 8 := by norm_num
        _ ≤ 2 ^ i := Nat.pow_le_pow_right (by norm_num) h8)
  rw [Nat.testBit_lt_two_pow hlt] at hi
  exact Bool.noConfusion hi

theorem ByteSub.get_lt {sub : PixelSubArray} (hb : ByteSub sub) {ys xs b : Nat}
    (h : getByte sub.bytes ys xs = some b) : b < 256 := by
  obtain ⟨row, hr, hx⟩ := getByte_row h
  exact hb row (List.getElem?_mem hr) b (List.getElem?_mem hx)
/-- Claim C32.  For sub-arrays `s_1..s_n` and `t` that are well formed and lie within the
canvas, `t` with bytes below 256: `NewPixelArray` returns an array, the calls of
`MergeSubArray` with `s_1..s_n` on it return an array, `HasConflict(t)` on that array returns,
and it returns true exactly when some pixel `(X, Y)` is set in `t` and in one of the `s_i`. -/
theorem HasConflict_after_merges (cfg : Settings) (subs : List PixelSubArray)
    (t : PixelSubArray)
    (hsubs : ∀ s ∈ subs, WellFormedSub s ∧ InCanvasSub cfg s)
    (ht : WellFormedSub t ∧ InCanvasSub cfg t ∧ ByteSub t) :
    ∃ a0 a1 r, NewPixelArray (cfg.CanvasXMax : Int) (cfg.CanvasYMax : Int) = some a0 ∧
      mergeAll subs a0 = some a1 ∧ HasConflict a1 t = some r ∧
      (r = true ↔ ∃ X Y, subCell t X Y ∧ ∃ s ∈ subs, subCell s X Y) := by
  obtain ⟨a0, h0, hd0⟩ := NewPixelArray_dims cfg.CanvasXMax cfg.CanvasYMax
  have hm := maxByte_nonneg ((cfg.CanvasXMax : Int) + 1) (by omega)
  have hzero := NewPixelArray_zero cfg.CanvasXMax cfg.CanvasYMax a0 h0
  obtain ⟨a1, m1, m2, _, m4, m5⟩ := mergeAll_spec (cfg.CanvasYMax + 1)
    (maxByte ((cfg.CanvasXMax : Int) + 1)).toNat (by omega) subs a0 hd0
    (fun s hs => (hsubs s hs).1)
  obtain ⟨r, hr⟩ := HasConflict_total a1 _ _ m2 (by omega) t ht.1
  refine ⟨a0, a1, r, h0, m1, hr, ?_, ?_⟩
  · intro hrt
    subst hrt
    have htin := ht.2.1
    unfold InCanvasSub at htin
    obtain ⟨ys, xs, v, b, g1, g2, g3⟩ := HasConflict_found a1 _ _ m2 (by omega) t ht.1
      ⟨by omega, by omega⟩ hr
    obtain ⟨i, hv, hb⟩ := land_ne_zero_bit v b g3
    have hi8 : i < 8 := byte_bit_lt b i (ht.2.2.get_lt g2) hb
    have htx := ht.1.2.2.1
    have hty := ht.1.2.2.2
    refine ⟨8 * (t.xStartByte + (xs : Int)).toNat + i, (t.yStart + (ys : Int)).toNat, ?_, ?_⟩
    · refine ⟨by omega, by omega, b, ?_, ?_⟩
      · have e1 : ((((t.yStart + (ys : Int)).toNat : Nat) : Int) - t.yStart).toNat = ys := by
          omega
        have e2 : ((((8 * (t.xStartByte + (xs : Int)).toNat + i) / 8 : Nat) : Int) -
            t.xStartByte).toNat = xs := by omega
        rw [e1, e2]
        exact g2
      · have e3 : (8 * (t.xStartByte + (xs : Int)).toNat + i) % 8 = i := by omega
        rw [e3]
        exact hb
    · obtain ⟨v0, k1, k2⟩ := m5 _ _ _ g1
      rcases k2 i hv with h1 | ⟨s, hs, ys2, xs2, b2, p1, p2, p3, p4, p5, p6⟩
      · rw [hzero _ _ _ k1, Nat.zero_testBit] at h1
        exact Bool.noConfusion h1
      · have hsx := (hsubs s hs).1.2.2.1
        have hsy := (hsubs s hs).1.2.2.2
        refine ⟨s, hs, by omega, by omega, b2, ?_, ?_⟩
        · have e1 : ((((t.yStart + (ys : Int)).toNat : Nat) : Int) - s.yStart).toNat = ys2 := by
            omega
          have e2 : ((((8 * (t.xStartByte + (xs : Int)).toNat + i) / 8 : Nat) : Int) -
              s.xStartByte).toNat = xs2 := by omega
          rw [e1, e2]
          exact p5
        · have e3 : (8 * (t.xStartByte + (xs : Int)).toNat + i) % 8 = i := by omega
          rw [e3]
          exact p6
  · intro hex
    obtain ⟨X, Y, hct, s, hs, hcs⟩ := hex
    obtain ⟨cy, cx, b, hb, hbit⟩ := hcs
    have hsin := (hsubs s hs).2
    unfold InCanvasSub at hsin
    obtain ⟨v1, g1, g2⟩ := m4 s hs ⟨by omega, by omega⟩ _ _ b hb
    have e1 : (s.yStart + ((((Y : Int) - s.yStart).toNat : Nat) : Int)).toNat = Y := by omega
    have e2 : (s.xStartByte +
        (((((X / 8 : Nat) : Int) - s.xStartByte).toNat : Nat) : Int)).toNat = X / 8 := by omega
    rw [e1, e2] at g1
    have hc := HasConflict_of_shared a1 _ _ m2 (by omega) t ht.1 X Y hct ⟨v1, g1, g2 _ hbit⟩
    rw [hr, Option.some.injEq] at hc
    exact hc

/-- A concrete instance of claim C32 on the canvas of 16 by 2 pixels: after merging the pixel
(0,0) and the pixel (15,1), a sub-array with the pixels (0,0) and (1,0) is in conflict. -/
theorem HasConflict_after_merges_witness :
    (∃ a0 a1, NewPixelArray 15 1 = some a0 ∧
      mergeAll [PixelSubArray.mk [[1]] 0 0, PixelSubArray.mk [[128]] 1 1] a0 = some a1 ∧
      HasConflict a1 (PixelSubArray.mk [[3]] 0 0) = some true) ∧
    ∃ a0 a1 r, NewPixelArray (paintSettings.CanvasXMax : Int) (paintSettings.CanvasYMax : Int) =
        some a0 ∧
      mergeAll [PixelSubArray.mk [[1]] 0 0, PixelSubArray.mk [[128]] 1 1] a0 = some a1 ∧
      HasConflict a1 (PixelSubArray.mk [[3]] 0 0) = some r ∧
      (r = true ↔ ∃ X Y, subCell (PixelSubArray.mk [[3]] 0 0) X Y ∧
        ∃ s ∈ [PixelSubArray.mk [[1]] 0 0, PixelSubArray.mk [[128]] 1 1], subCell s X Y) :=
  ⟨⟨[[0, 0], [0, 0]], [[1, 0], [0, 128]], by decide, by decide, by decide⟩,
    HasConflict_after_merges paintSettings
      [PixelSubArray.mk [[1]] 0 0, PixelSubArray.mk [[128]] 1 1] (PixelSubArray.mk [[3]] 0 0)
      (by decide) (by decide)⟩

/-! ### The length returned by `GetLongestPath` -/

theorem walkChildren_len (H : Block → String) (arr : List BlockNode)
    (recur : String → Option (List Block × Int)) (cs : List Nat) :
    (∀ c ∈ cs, ∀ cn, arr[c]? = some cn → ∀ p n, recur (H cn.Block) = some (p, n) →
        n = (p.length : Int)) →
      ∀ acc : List Block × Int, (acc.2 = (acc.1.length : Int) ∨ (acc.2 = -1 ∧ cs ≠ [])) →
        ∀ lp ml, walkChildren H arr recur cs acc = some (some (lp, ml)) →
          ml = (lp.length : Int) := by
  induction cs with
  | nil =>
    intro _ acc hacc lp ml h
    simp only [walkChildren, Option.some.injEq] at h
    rw [h] at hacc
    rcases hacc with h1 | h1
    · exact h1
    · exact absurd rfl h1.2
  | cons c rest ih =>
    intro hch acc hacc lp ml h
    obtain ⟨ap, am⟩ := acc
    have hrest : ∀ c2 ∈ rest, ∀ cn, arr[c2]? = some cn → ∀ p n,
        recur (H cn.Block) = some (p, n) → n = (p.length : Int) :=
      fun c2 hc2 => hch c2 (List.mem_cons_of_mem _ hc2)
    unfold walkChildren at h
    cases hcn : arr[c]? with
    | none => rw [hcn] at h; simp at h
    | some child =>
      rw [hcn] at h
      simp only at h
      cases hr : recur (H child.Block) with
      | none => rw [hr] at h; simp at h
      | some r =>
        obtain ⟨cp, cl⟩ := r
        rw [hr] at h
        simp only at h
        have hgood : cl = (cp.length : Int) :=
          hch c (List.mem_cons_self _ _) child hcn cp cl hr
        split at h
        · exact ih hrest (cp, cl) (Or.inl hgood) lp ml h
        · rename_i hcond
          have hge : ¬ am < cl := fun hlt => hcond (Or.inr hlt)
          refine ih hrest (ap, am) (Or.inl ?_) lp ml h
          rcases hacc with h1 | h1
          · exact h1
          · exfalso
            simp only at h1
            omega

/-- The number that `GetLongestPath` returns is the length of the chain it returns. -/
theorem GetLongestPath_len_aux {H : Block → String} {cfg : Settings} {s : Store}
    (inv : StoreInv H cfg s) (order : List (String × LongestPathInfo))
    (hsub : ∀ x ∈ order, x ∈ s.PathMap) :
    ∀ (fuel : Nat) (h : String) (path : List Block) (n : Int),
      GetLongestPath H cfg s order fuel h = some (path, n) → n = (path.length : Int) := by
  intro fuel
  induction fuel with
  | zero => intro h path n hres; simp [GetLongestPath] at hres
  | succ f ih =>
    intro h path n hres
    have hempty : (([] : List Block), (0 : Int)) = (path, n) → n = (path.length : Int) := by
      intro he
      injection he with he1 he2
      subst he1 he2
      rfl
    simp only [GetLongestPath, ReadBlockChainMap] at hres
    cases hj : mapGet s.BlockHashMap h with
    | none =>
      rw [hj] at hres
      exact hempty (Option.some.inj hres)
    | some j =>
      rw [hj] at hres
      simp only at hres
      cases hnd : s.BlockNodeArray[j]? with
      | none =>
        rw [hnd] at hres
        exact hempty (Option.some.inj hres)
      | some node =>
        rw [hnd] at hres
        simp only at hres
        by_cases hg : h = cfg.GenesisBlockHash
        · rw [if_pos hg] at hres
          simp only [Option.some.injEq, Prod.mk.injEq] at hres
          rw [← hres.1, ← hres.2]
          rcases (scanPathMap_spec order ("", { Len := 0, Path := [] })).1 with h1 | h1
          · rw [h1]; rfl
          · have hm := hsub _ h1
            have hget := mapGet_of_mem s.PathMap _ _ inv.pm_keys hm
            exact (inv.pm_ok _ _ hget).2.1
        · rw [if_neg hg] at hres
          by_cases hc : node.Children.length = 0
          · rw [if_pos hc] at hres
            simp only [Option.some.injEq, Prod.mk.injEq] at hres
            rw [← hres.1, ← hres.2]
            rfl
          · rw [if_neg hc] at hres
            split at hres
            · simp at hres
            · exact hempty (Option.some.inj hres)
            · rename_i lp ml hw
              simp only [Option.some.injEq, Prod.mk.injEq] at hres
              have hlen : ml = (lp.length : Int) := by
                refine walkChildren_len H s.BlockNodeArray _ node.Children ?_ ([], -1)
                  (Or.inr ⟨rfl, fun he => hc (by rw [he]; rfl)⟩) lp ml hw
                intro c _ cn _ p n2 hrec
                exact ih (H cn.Block) p n2 hrec
              rw [← hres.1, ← hres.2, hlen, List.length_cons]
              push_cast
              rfl

/-- Claim C37.  In every reachable store state, for every hash `h` and every order of iteration
of `PathMap`: the number `n` that `GetLongestPath(h)` returns is the length of the chain it
returns; the call for the genesis hash returns a chain with `n ≥ 1`, so that `chain[n-1]` is a
block; and the call for `h` returns, for all large enough bounds on the depth of the
recursion, when block hashes admit a rank that grows from the previous hash to the hash of a
block. -/
theorem GetLongestPath_length (H : Block → String) (cfg : Settings)
    (hdummy : H dummyGenesisBlock ≠ cfg.GenesisBlockHash) (s : Store)
    (hs : Reachable H cfg s) (order : List (String × LongestPathInfo))
    (hperm : order.Perm s.PathMap) (h : String) :
    (∀ (fuel : Nat) (path : List Block) (n : Int),
        GetLongestPath H cfg s order fuel h = some (path, n) → n = (path.length : Int)) ∧
      (∀ fuel : Nat, ∃ path n b,
        GetLongestPath H cfg s order (fuel + 1) cfg.GenesisBlockHash = some (path, n) ∧
          n = (path.length : Int) ∧ 1 ≤ n ∧ path[(n - 1).toNat]? = some b) ∧
      (∀ rank : String → Nat, (∀ b : Block, rank b.PrevHash < rank (H b)) →
        ∃ fuel0 : Nat, ∀ fuel : Nat, fuel0 ≤ fuel →
          ∃ path n, GetLongestPath H cfg s order fuel h = some (path, n)) := by
  have inv := hs.inv hdummy
  refine ⟨?_, ?_, ?_⟩
  · intro fuel path n hres
    exact GetLongestPath_len_aux inv order (fun x hx => (hperm.mem_iff).1 hx) fuel h path n
      hres
  · intro fuel
    obtain ⟨hmem, _⟩ := scan_perm_max inv order hperm
    have hget := mapGet_of_mem s.PathMap _ _ inv.pm_keys hmem
    obtain ⟨h1, h2, _⟩ := inv.pm_ok _ _ hget
    have hlt : ((scanPathMap order ("", { Len := 0, Path := [] })).2.Len - 1).toNat <
        (scanPathMap order ("", { Len := 0, Path := [] })).2.Path.length := by omega
    exact ⟨_, _, _, GetLongestPath_genesis inv order fuel, h2, h1,
      List.getElem?_eq_getElem hlt⟩
  · intro rank hrank
    obtain ⟨M, hM⟩ := exists_rank_bound rank s.BlockHashMap
    refine ⟨M - rank h + 1, fun fuel hf => ?_⟩
    have hsome := GetLongestPath_returns_aux inv order rank hrank M hM fuel h hf
    cases hres : GetLongestPath H cfg s order fuel h with
    | none => rw [hres] at hsome; simp at hsome
    | some r => exact ⟨r.1, r.2, rfl⟩

/-- A concrete instance of claim C37: after `blockB` and `blockC` are inserted, the call for
the genesis hash returns the chain of three blocks with the number 3, and the calls for the
hash of `blockB` satisfy the claim. -/
theorem GetLongestPath_length_witness :
    GetLongestPath toyHash toySettings (storeAfter [blockB, blockC])
        (storeAfter [blockB, blockC]).PathMap 1 toySettings.GenesisBlockHash =
        some ([dummyGenesisBlock, blockB, blockC], 3) ∧
      (∀ (fuel : Nat) (path : List Block) (n : Int),
        GetLongestPath toyHash toySettings (storeAfter [blockB, blockC])
          (storeAfter [blockB, blockC]).PathMap fuel (toyHash blockB) = some (path, n) →
        n = (path.length : Int)) ∧
      (∀ fuel : Nat, ∃ path n b,
        GetLongestPath toyHash toySettings (storeAfter [blockB, blockC])
            (storeAfter [blockB, blockC]).PathMap (fuel + 1) toySettings.GenesisBlockHash =
            some (path, n) ∧
          n = (path.length : Int) ∧ 1 ≤ n ∧ path[(n - 1).toNat]? = some b) ∧
      ∃ fuel0 : Nat, ∀ fuel : Nat, fuel0 ≤ fuel →
        ∃ path n, GetLongestPath toyHash toySettings (storeAfter [blockB, blockC])
          (storeAfter [blockB, blockC]).PathMap fuel (toyHash blockB) = some (path, n) :=
  ⟨by decide,
    (GetLongestPath_length toyHash toySettings toyHash_dummy
      (storeAfter [blockB, blockC]) (storeAfter_reachable [blockB, blockC] (by decide))
      (storeAfter [blockB, blockC]).PathMap (List.Perm.refl _) (toyHash blockB)).1,
    (GetLongestPath_length toyHash toySettings toyHash_dummy
      (storeAfter [blockB, blockC]) (storeAfter_reachable [blockB, blockC] (by decide))
      (storeAfter [blockB, blockC]).PathMap (List.Perm.refl _) (toyHash blockB)).2.1,
    (GetLongestPath_length toyHash toySettings toyHash_dummy
      (storeAfter [blockB, blockC]) (storeAfter_reachable [blockB, blockC] (by decide))
      (storeAfter [blockB, blockC]).PathMap (List.Perm.refl _) (toyHash blockB)).2.2
      String.length toyHash_rank⟩

/-! ### The response of `Draw` -/

theorem drawLoop_ok (H : Block → String) (getShapeFromOp : Operation → ShapeOut)
    (cfg : Settings)
    (rangeShapes : List (String × OperationInfo) → List (String × OperationInfo))
    (order : Store → List (String × LongestPathInfo)) (op : Operation)
    (pubKeyString opSigStr : String) (validateNum : Nat) (blockHash : String) :
    ∀ (stores : List Store) (response : DrawResponse),
      drawLoop H getShapeFromOp cfg rangeShapes order op pubKeyString opSigStr validateNum
          blockHash stores = some (DrawOutcome.ok response) →
      response.ShapeHash = opSigStr ∧ response.BlockHash = blockHash := by
  intro stores
  induction stores with
  | nil => intro response h; simp [drawLoop] at h
  | cons s rest ih =>
    intro response h
    unfold drawLoop at h
    split at h
    · simp at h
    · exact ih response h
    · split at h
      · simp at h
      · split at h
        · exact ih response h
        · split at h
          · simp at h
          · split at h
            · simp only at h
              split at h
              · simp at h
              · exact ih response h
            · simp only at h
              split at h
              · simp only [Option.some.injEq, DrawOutcome.ok.injEq] at h
                rw [← h]
                exact ⟨rfl, rfl⟩
              · exact ih response h
    · simp at h

/-- Claim C33, what the code does.  Whenever `Draw` returns successfully, `ShapeHash` of the
response is the signature of the operation and `BlockHash` of the response is the empty
string: the hash found by `GetBlockHashOfShapeHash` is assigned to a variable declared inside
the loop, and the response takes the variable of the same name declared before the loop. -/
theorem Draw_success_block_hash_empty (H : Block → String)
    (getShapeFromOp : Operation → ShapeOut) (cfg : Settings)
    (rangeShapes : List (String × OperationInfo) → List (String × OperationInfo))
    (order : Store → List (String × LongestPathInfo)) (verified : Bool)
    (svgString fill stroke : String) (opNum : Nat) (pubKeyString opSigStr : String)
    (validateNum : Nat) (stores : List Store) (response : DrawResponse)
    (h : Draw H getShapeFromOp cfg rangeShapes order verified svgString fill stroke opNum
      pubKeyString opSigStr validateNum stores = some (DrawOutcome.ok response)) :
    response.ShapeHash = opSigStr ∧ response.BlockHash = "" := by
  unfold Draw at h
  cases verified with
  | false => simp at h
  | true =>
    simp only [if_true] at h
    exact drawLoop_ok H getShapeFromOp cfg rangeShapes order _ pubKeyString opSigStr
      validateNum "" stores response h

/-- The failing input of claim C33: the store holds, on the genesis block, a block with the
shape `s` of `k1`, whose hash `gk110` is what `GetBlockHashOfShapeHash` returns; `Draw` for
that shape with `ValidateNum` 0 returns successfully with an empty `BlockHash`. -/
theorem Draw_success_block_hash_empty_witness :
    GetBlockHashOfShapeHash toyHash toySettings (storeAfter [blockWithShape])
        (storeAfter [blockWithShape]).PathMap "s" = some "gk110" ∧
      Draw toyHash toyShape toySettings (fun m => m) (fun s => s.PathMap) true "dot0"
        "transparent" "red" 0 "k1" "s" 0 [storeAfter [blockWithShape]] =
        some (DrawOutcome.ok { ShapeHash := "s", BlockHash := "", InkRemaining := 4294967295 }) ∧
      (DrawResponse.mk "s" "" 4294967295).ShapeHash = "s" ∧
      (DrawResponse.mk "s" "" 4294967295).BlockHash = "" :=
  ⟨by decide, by decide,
    Draw_success_block_hash_empty toyHash toyShape toySettings (fun m => m)
      (fun s => s.PathMap) true "dot0" "transparent" "red" 0 "k1" "s" 0
      [storeAfter [blockWithShape]] (DrawResponse.mk "s" "" 4294967295) (by decide)⟩

/-! ### The store with slices and the store with lists -/

theorem mapGet_map_snd {V W : Type} (f : V → W) (m : List (String × V)) (k : String) :
    mapGet (m.map (fun e => (e.1, f e.2))) k = (mapGet m k).map f := by
  induction m with
  | nil => rfl
  | cons x m ih =>
    obtain ⟨k1, v1⟩ := x
    by_cases h : k1 = k
    · simp [mapGet, h]
    · simp only [List.map_cons, mapGet, if_neg h]
      exact ih

theorem mapSet_map_snd {V W : Type} (f : V → W) (m : List (String × V)) (k : String) (v : V) :
    (mapSet m k v).map (fun e => (e.1, f e.2)) =
      mapSet (m.map (fun e => (e.1, f e.2))) k (f v) := by
  induction m with
  | nil => rfl
  | cons x m ih =>
    obtain ⟨k1, v1⟩ := x
    by_cases h : k1 = k
    · simp [mapSet, h]
    · simp only [List.map_cons, mapSet, if_neg h]
      rw [ih]

theorem mapGet_shape {s : SliceStore} {t : Store}
    (h : s.PathMap.map (fun e => (e.1, sliceShape e.2)) =
      t.PathMap.map (fun e => (e.1, pathShape e.2))) (k : String) :
    (mapGet s.PathMap k).map sliceShape = (mapGet t.PathMap k).map pathShape := by
  rw [← mapGet_map_snd, ← mapGet_map_snd, h]

theorem mapSet_shape {s : SliceStore} {t : Store}
    (h : s.PathMap.map (fun e => (e.1, sliceShape e.2)) =
      t.PathMap.map (fun e => (e.1, pathShape e.2))) (k : String)
    (v : SlicePathInfo) (w : LongestPathInfo) (hvw : sliceShape v = pathShape w) :
    (mapSet s.PathMap k v).map (fun e => (e.1, sliceShape e.2)) =
      (mapSet t.PathMap k w).map (fun e => (e.1, pathShape e.2)) := by
  rw [mapSet_map_snd, mapSet_map_snd, h, hvw]

theorem appendSlice_len (heap : List (List Block)) (sl : BlockSlice) (b : Block) :
    (appendSlice heap sl b).2.len = sl.len + 1 := by
  unfold appendSlice
  simp only
  split <;> rfl

theorem insertNode_index (H : Block → String) (a t : Store) (b : Block)
    (h1 : a.BlockNodeArray = t.BlockNodeArray) (h2 : a.BlockHashMap = t.BlockHashMap)
    (h3 : a.ParentHashMap = t.ParentHashMap) :
    (insertNode H a b).2 = (insertNode H t b).2 ∧
      (insertNode H a b).1.BlockNodeArray = (insertNode H t b).1.BlockNodeArray ∧
      (insertNode H a b).1.BlockHashMap = (insertNode H t b).1.BlockHashMap ∧
      (insertNode H a b).1.ParentHashMap = (insertNode H t b).1.ParentHashMap ∧
      (insertNode H t b).1.PathMap = t.PathMap := by
  simp only [insertNode, WriteBlockNodeArray, WriteBlockChainMap, ReadParentMap,
    ReadBlockChainMap, h1, h2, h3]
  cases mapGet t.BlockHashMap (H b) <;> cases mapGet t.ParentHashMap (H b) <;>
    simp [h1, h2, h3]

theorem linkParent_index (a t : Store) (b : Block) (i : Nat)
    (h1 : a.BlockNodeArray = t.BlockNodeArray) (h2 : a.BlockHashMap = t.BlockHashMap)
    (h3 : a.ParentHashMap = t.ParentHashMap) :
    (linkParent a b i = none ∧ linkParent t b i = none) ∨
      ∃ a1 t1, linkParent a b i = some a1 ∧ linkParent t b i = some t1 ∧
        a1.BlockNodeArray = t1.BlockNodeArray ∧ a1.BlockHashMap = t1.BlockHashMap ∧
        a1.ParentHashMap = t1.ParentHashMap ∧ t1.PathMap = t.PathMap := by
  simp only [linkParent, ReadBlockChainMap, h1, h2, h3]
  cases mapGet t.BlockHashMap b.PrevHash with
  | none => right; exact ⟨_, _, rfl, rfl, rfl, rfl, rfl, rfl⟩
  | some p =>
    simp only
    cases t.BlockNodeArray[p]? with
    | none => left; exact ⟨rfl, rfl⟩
    | some nd => right; exact ⟨_, _, rfl, rfl, rfl, rfl, rfl, rfl⟩

theorem insertPathShared_index (H : Block → String) (s : SliceStore) (t : Store)
    (np : SlicePathInfo) (b : Block) (h : SameIndex s t)
    (hnp : sliceShape np = (1, 1)) :
    SameIndex (insertPathShared H s np b) (insertPath H t b) := by
  obtain ⟨h1, h2, h3, h4⟩ := h
  have hg := mapGet_shape h4 b.PrevHash
  unfold insertPathShared insertPath
  cases hs : mapGet s.PathMap b.PrevHash with
  | none =>
    cases ht : mapGet t.PathMap b.PrevHash with
    | none =>
      simp only
      exact ⟨h1, h2, h3, mapSet_shape h4 _ _ _ (by rw [hnp]; rfl)⟩
    | some e => rw [hs, ht] at hg; simp at hg
  | some e =>
    cases ht : mapGet t.PathMap b.PrevHash with
    | none => rw [hs, ht] at hg; simp at hg
    | some e1 =>
      rw [hs, ht] at hg
      simp only [Option.map_some', Option.some.injEq, sliceShape, pathShape,
        Prod.mk.injEq] at hg
      simp only
      refine ⟨h1, h2, h3, mapSet_shape h4 _ _ _ ?_⟩
      simp only [sliceShape, pathShape, appendSlice_len, List.length_append,
        List.length_singleton, hg.1, hg.2]

theorem adoptOrphansShared_index (H : Block → String) (np : SlicePathInfo)
    (np1 : LongestPathInfo) (hnp : sliceShape np = pathShape np1) :
    ∀ (l : List Nat) (s : SliceStore) (t : Store), SameIndex s t →
      (adoptOrphansShared H np l s = none ∧ adoptOrphans H np1 l t = none) ∨
        ∃ s1 t1, adoptOrphansShared H np l s = some s1 ∧ adoptOrphans H np1 l t = some t1 ∧
          SameIndex s1 t1 := by
  intro l
  induction l with
  | nil => intro s t h; right; exact ⟨s, t, rfl, rfl, h⟩
  | cons c rest ih =>
    intro s t h
    obtain ⟨h1, h2, h3, h4⟩ := h
    have hb : s.BlockNodeArray[c]? = t.BlockNodeArray[c]? := by rw [h1]
    simp only [adoptOrphansShared, adoptOrphans]
    rw [hb]
    cases t.BlockNodeArray[c]? with
    | none => left; exact ⟨rfl, rfl⟩
    | some node =>
      simp only
      apply ih
      refine ⟨h1, h2, h3, ?_⟩
      simp only [WritePathMap]
      refine mapSet_shape h4 _ _ _ ?_
      simp only [sliceShape, pathShape, Prod.mk.injEq] at hnp
      simp only [sliceShape, pathShape, appendSlice_len, List.length_append,
        List.length_singleton, hnp.1, hnp.2]

/-- One call of `InsertBlock` on the store with slices and on the store with lists: both
panic, or both return, with the same error result and stores that agree again. -/
theorem InsertBlockShared_index (H : Block → String) (cfg : Settings) (s : SliceStore)
    (t : Store) (b : Block) (h : SameIndex s t) :
    (InsertBlockShared H cfg s b = none ∧ InsertBlock H cfg t b = none) ∨
      ∃ s1 t1 ok, InsertBlockShared H cfg s b = some (s1, ok) ∧
        InsertBlock H cfg t b = some (t1, ok) ∧ SameIndex s1 t1 := by
  obtain ⟨h1, h2, h3, h4⟩ := h
  have hread : ReadBlockChainMap s.view (H b) = ReadBlockChainMap t (H b) := by
    simp only [ReadBlockChainMap, SliceStore.view, h2]
  unfold InsertBlockShared InsertBlock
  simp only [hread]
  cases ReadBlockChainMap t (H b) with
  | some j => right; exact ⟨s, t, false, rfl, rfl, h1, h2, h3, h4⟩
  | none =>
    simp only
    cases VerifyBlock H cfg b with
    | none => left; exact ⟨rfl, rfl⟩
    | some v =>
      cases v with
      | false => right; exact ⟨s, t, false, rfl, rfl, h1, h2, h3, h4⟩
      | true =>
        simp only
        set s1 : SliceStore := { s with Heap := (literalSlice s.Heap b).1 } with hs1
        set np : SlicePathInfo := { Len := 1, Path := (literalSlice s.Heap b).2 } with hnp
        obtain ⟨i1, i2, i3, i4, i5⟩ := insertNode_index H s1.view t b h1 h2 h3
        have hS2 : SameIndex (insertPathShared H (s1.withIndex (insertNode H s1.view b).1) np b)
            (insertPath H (insertNode H t b).1 b) :=
          insertPathShared_index H _ _ np b ⟨i2, i3, i4, by rw [i5]; exact h4⟩ rfl
        set s2 := insertPathShared H (s1.withIndex (insertNode H s1.view b).1) np b with hs2
        set t2 := insertPath H (insertNode H t b).1 b with ht2
        have hpar : ReadParentMap s2.view (H b) = ReadParentMap t2 (H b) := by
          simp only [ReadParentMap, SliceStore.view, hS2.2.2.1]
        rw [hpar, i1]
        have hadopt : (adoptOrphansShared H np (ReadParentMap t2 (H b)).1 s2 = none ∧
            adoptOrphans H { Len := 1, Path := [b] } (ReadParentMap t2 (H b)).1 t2 = none) ∨
            ∃ s3 t3, adoptOrphansShared H np (ReadParentMap t2 (H b)).1 s2 = some s3 ∧
              adoptOrphans H { Len := 1, Path := [b] } (ReadParentMap t2 (H b)).1 t2 = some t3 ∧
              SameIndex s3 t3 :=
          adoptOrphansShared_index H np { Len := 1, Path := [b] } rfl _ s2 t2 hS2
        have hstep : ∀ (s3 : SliceStore) (t3 : Store), SameIndex s3 t3 →
            ((match linkParent s3.view b (insertNode H t b).2 with
              | none => none
              | some t4 => some (s3.withIndex t4, true)) = none ∧
              (match linkParent t3 b (insertNode H t b).2 with
              | none => none
              | some s4 => some (s4, true)) = none) ∨
            ∃ s5 t5 ok, (match linkParent s3.view b (insertNode H t b).2 with
              | none => none
              | some t4 => some (s3.withIndex t4, true)) = some (s5, ok) ∧
              (match linkParent t3 b (insertNode H t b).2 with
              | none => none
              | some s4 => some (s4, true)) = some (t5, ok) ∧ SameIndex s5 t5 := by
          intro s3 t3 h3i
          rcases linkParent_index s3.view t3 b (insertNode H t b).2 h3i.1 h3i.2.1 h3i.2.2.1
            with ⟨l1, l2⟩ | ⟨a1, t1, l1, l2, l3, l4, l5, l6⟩
          · left; rw [l1, l2]; exact ⟨rfl, rfl⟩
          · right
            rw [l1, l2]
            refine ⟨_, _, true, rfl, rfl, l3, l4, l5, ?_⟩
            rw [l6]
            exact h3i.2.2.2
        by_cases horph : (ReadParentMap t2 (H b)).2 = true
        · simp only [horph, if_true]
          rcases hadopt with ⟨a1, a2⟩ | ⟨s3, t3, a1, a2, a3⟩
          · left; rw [a1, a2]; exact ⟨rfl, rfl⟩
          · rw [a1, a2]
            exact hstep s3 t3 a3
        · simp only [horph]
          exact hstep s2 t2 hS2

theorem initSliceStore_index (H : Block → String) (cfg : Settings) :
    SameIndex (initSliceStore H cfg) (initStore H cfg) := by
  refine ⟨rfl, rfl, rfl, ?_⟩
  simp only [initSliceStore, initStore, WritePathMap, WriteBlockNodeArray]
  split <;> rfl

/-- A sequence of calls of `InsertBlock` on the store with slices and on the store with lists:
both panic, or both return stores that agree on the indices, the keys and the lengths. -/
theorem insertAllShared_index (H : Block → String) (cfg : Settings) :
    ∀ (bs : List Block) (s : SliceStore) (t : Store), SameIndex s t →
      (insertAllShared H cfg bs s = none ∧ insertAll H cfg bs t = none) ∨
        ∃ s1 t1, insertAllShared H cfg bs s = some s1 ∧ insertAll H cfg bs t = some t1 ∧
          SameIndex s1 t1 := by
  intro bs
  induction bs with
  | nil => intro s t h; right; exact ⟨s, t, rfl, rfl, h⟩
  | cons b bs ih =>
    intro s t h
    simp only [insertAllShared, insertAll]
    rcases InsertBlockShared_index H cfg s t b h with ⟨a1, a2⟩ | ⟨s1, t1, ok, a1, a2, a3⟩
    · left; rw [a1, a2]; exact ⟨rfl, rfl⟩
    · rw [a1, a2]
      exact ih s1 t1 a3

theorem appendSlice_ok (heap : List (List Block)) (sl : BlockSlice) (b : Block) :
    (∀ sl2 : BlockSlice, sl2.len ≤ ((heap[sl2.arr]?).getD []).length →
        sl2.len ≤ (((appendSlice heap sl b).1[sl2.arr]?).getD []).length) ∧
      (sl.len ≤ ((heap[sl.arr]?).getD []).length →
        (appendSlice heap sl b).2.len ≤
          (((appendSlice heap sl b).1[(appendSlice heap sl b).2.arr]?).getD []).length) := by
  unfold appendSlice
  simp only
  by_cases hroom : sl.len < ((heap[sl.arr]?).getD []).length
  · simp only [if_pos hroom]
    have harr : sl.arr < heap.length := by
      by_contra hn
      rw [List.getElem?_eq_none (by omega)] at hroom
      simp at hroom
    constructor
    · intro sl2 h2
      by_cases he : sl.arr = sl2.arr
      · rw [← he, List.getElem?_set_self harr]
        simp only [Option.getD_some, List.length_set]
        rw [← he] at h2
        exact h2
      · rw [List.getElem?_set_ne he]
        exact h2
    · intro _
      rw [List.getElem?_set_self harr]
      simp only [Option.getD_some, List.length_set]
      omega
  · simp only [if_neg hroom]
    constructor
    · intro sl2 h2
      by_cases hin : sl2.arr < heap.length
      · rw [List.getElem?_append_left hin]
        exact h2
      · rw [List.getElem?_eq_none (by omega)] at h2
        simp only [Option.getD_none, List.length_nil] at h2
        omega
    · intro hle
      rw [List.getElem?_append_right (le_refl _)]
      simp only [Nat.sub_self, List.getElem?_cons_zero, Option.getD_some, List.length_append,
        List.length_take, List.length_singleton, List.length_replicate]
      omega

theorem insertPathShared_ok (H : Block → String) (s : SliceStore) (np : SlicePathInfo)
    (b : Block) (h : SlicesOK s)
    (hnp : np.Path.len ≤ ((s.Heap[np.Path.arr]?).getD []).length) :
    SlicesOK (insertPathShared H s np b) ∧
      np.Path.len ≤ (((insertPathShared H s np b).Heap[np.Path.arr]?).getD []).length := by
  unfold insertPathShared
  cases hs : mapGet s.PathMap b.PrevHash with
  | none =>
    simp only
    refine ⟨?_, hnp⟩
    intro e he
    rcases mem_mapSet _ _ _ _ he with h1 | h1
    · rw [h1]; exact hnp
    · exact h e h1
  | some ex =>
    simp only
    obtain ⟨k1, k2⟩ := appendSlice_ok s.Heap ex.Path b
    have hex : ex.Path.len ≤ ((s.Heap[ex.Path.arr]?).getD []).length :=
      h (b.PrevHash, ex) (mem_of_mapGet _ _ _ hs)
    refine ⟨?_, k1 np.Path hnp⟩
    intro e he
    rcases mem_mapSet _ _ _ _ he with h1 | h1
    · rw [h1]; exact k2 hex
    · exact k1 e.2.Path (h e h1)

theorem adoptOrphansShared_ok (H : Block → String) (np : SlicePathInfo) :
    ∀ (l : List Nat) (s s1 : SliceStore), SlicesOK s →
      np.Path.len ≤ ((s.Heap[np.Path.arr]?).getD []).length →
      adoptOrphansShared H np l s = some s1 → SlicesOK s1 := by
  intro l
  induction l with
  | nil =>
    intro s s1 h _ hr
    simp only [adoptOrphansShared, Option.some.injEq] at hr
    rw [← hr]; exact h
  | cons c rest ih =>
    intro s s1 h hnp hr
    simp only [adoptOrphansShared] at hr
    cases hn : s.BlockNodeArray[c]? with
    | none => rw [hn] at hr; simp at hr
    | some node =>
      rw [hn] at hr
      simp only at hr
      obtain ⟨k1, k2⟩ := appendSlice_ok s.Heap np.Path node.Block
      refine ih _ s1 ?_ (k1 np.Path hnp) hr
      intro e he
      rcases mem_mapSet _ _ _ _ he with h1 | h1
      · rw [h1]; exact k2 hnp
      · exact k1 e.2.Path (h e h1)

/-- A call of `InsertBlock` keeps every slice of `PathMap` within its backing array. -/
theorem InsertBlockShared_ok (H : Block → String) (cfg : Settings) (s s1 : SliceStore)
    (b : Block) (ok : Bool) (h : SlicesOK s)
    (hr : InsertBlockShared H cfg s b = some (s1, ok)) : SlicesOK s1 := by
  unfold InsertBlockShared at hr
  cases hread : ReadBlockChainMap s.view (H b) with
  | some j =>
    simp only [hread, Option.some.injEq, Prod.mk.injEq] at hr
    rw [← hr.1]; exact h
  | none =>
    simp only [hread] at hr
    cases hv : VerifyBlock H cfg b with
    | none => rw [hv] at hr; simp at hr
    | some v =>
      rw [hv] at hr
      cases v with
      | false =>
        simp only [Option.some.injEq, Prod.mk.injEq] at hr
        rw [← hr.1]; exact h
      | true =>
        simp only at hr
        have hlit : SlicesOK ({ s with Heap := (literalSlice s.Heap b).1 } : SliceStore) := by
          intro e he
          have h0 := h e he
          simp only [literalSlice]
          by_cases hin : e.2.Path.arr < s.Heap.length
          · rw [List.getElem?_append_left hin]; exact h0
          · rw [List.getElem?_eq_none (by omega)] at h0
            simp only [Option.getD_none, List.length_nil] at h0
            omega
        have hnp : (literalSlice s.Heap b).2.len ≤
            ((((literalSlice s.Heap b).1)[(literalSlice s.Heap b).2.arr]?).getD []).length := by
          simp only [literalSlice]
          rw [List.getElem?_append_right (le_refl _)]
          simp
        obtain ⟨p1, p2⟩ := insertPathShared_ok H
          (SliceStore.withIndex { s with Heap := (literalSlice s.Heap b).1 }
            (insertNode H ({ s with Heap := (literalSlice s.Heap b).1 } : SliceStore).view b).1)
          { Len := 1, Path := (literalSlice s.Heap b).2 } b hlit hnp
        split at hr
        · simp at hr
        · rename_i s3 hs3
          split at hr
          · simp at hr
          · simp only [Option.some.injEq, Prod.mk.injEq] at hr
            rw [← hr.1]
            have h3 : SlicesOK s3 := by
              split at hs3
              · exact adoptOrphansShared_ok H _ _ _ s3 p1 p2 hs3
              · simp only [Option.some.injEq] at hs3
                rw [← hs3]; exact p1
            exact h3

theorem insertAllShared_ok (H : Block → String) (cfg : Settings) :
    ∀ (bs : List Block) (s s1 : SliceStore), SlicesOK s →
      insertAllShared H cfg bs s = some s1 → SlicesOK s1 := by
  intro bs
  induction bs with
  | nil =>
    intro s s1 h hr
    simp only [insertAllShared, Option.some.injEq] at hr
    rw [← hr]; exact h
  | cons b bs ih =>
    intro s s1 h hr
    simp only [insertAllShared] at hr
    cases hb : InsertBlockShared H cfg s b with
    | none => rw [hb] at hr; simp at hr
    | some r =>
      rw [hb] at hr
      exact ih r.1 s1 (InsertBlockShared_ok H cfg s r.1 b r.2 h hb) hr

theorem view_shape (s : SliceStore) (h : SlicesOK s) :
    s.view.PathMap.map (fun e => (e.1, pathShape e.2)) =
      s.PathMap.map (fun e => (e.1, sliceShape e.2)) := by
  simp only [SliceStore.view, List.map_map]
  apply List.map_congr_left
  intro e he
  simp only [Function.comp, pathShape, sliceShape, readSlice, List.length_take, Prod.mk.injEq,
    true_and]
  exact Nat.min_eq_left (h e he)

/-- The store with lists follows the store with slices.  For every list of blocks inserted
into the initial store: the calls on slices panic exactly when the calls on lists do, and
otherwise the store that the program reads (the slices read from the heap) and the store with
lists have the same `BlockNodeArray`, `BlockHashMap` and `ParentHashMap`, and the same keys of
`PathMap` with the same `Len` and the same length of the path.  They may differ in the blocks
that a cached path holds. -/
theorem lists_follow_slices (H : Block → String) (cfg : Settings) (bs : List Block) :
    (insertAllShared H cfg bs (initSliceStore H cfg) = none ∧
        insertAll H cfg bs (initStore H cfg) = none) ∨
      ∃ s t, insertAllShared H cfg bs (initSliceStore H cfg) = some s ∧
        insertAll H cfg bs (initStore H cfg) = some t ∧
        s.view.BlockNodeArray = t.BlockNodeArray ∧ s.view.BlockHashMap = t.BlockHashMap ∧
        s.view.ParentHashMap = t.ParentHashMap ∧
        s.view.PathMap.map (fun e => (e.1, pathShape e.2)) =
          t.PathMap.map (fun e => (e.1, pathShape e.2)) := by
  rcases insertAllShared_index H cfg bs _ _ (initSliceStore_index H cfg) with
    ⟨a1, a2⟩ | ⟨s, t, a1, a2, a3⟩
  · left; exact ⟨a1, a2⟩
  · right
    have hok0 : SlicesOK (initSliceStore H cfg) := by
      intro e he
      simp only [initSliceStore, mapSet, List.mem_singleton] at he
      rw [he]
      simp [initSliceStore]
    have hok := insertAllShared_ok H cfg bs _ s hok0 a1
    refine ⟨s, t, a1, a2, a3.1, a3.2.1, a3.2.2.1, ?_⟩
    rw [view_shape s hok]
    exact a3.2.2.2

end Inkcoin
